import Mathlib

/-!
# Mini compiler: grammar toolkit

A shallow embedding of the grammar part of `src/mini_compiler.cpp`
(rule parsing, left factoring, left-recursion elimination, FIRST/FOLLOW,
the LL(1) table and the predictive parser) and theorems about it.

Conventions of the embedding.

* A `std::string` is a Lean `String` whose characters are the bytes of the C++
  string (character codes below 256); ASCII text is written as itself.
* A `std::set<string>` is the list of its elements in increasing byte order
  (`setInsert` keeps it so); a `std::map<string, V>` is the list of its
  `(key, value)` pairs in increasing key order (`mapSet` keeps it so).
* A `std::vector` is a `List`.
* Loops whose number of iterations is not bounded by the size of a list take
  a fuel argument and return `Outcome.more` (or `none`) when the fuel is used up;
  that value stands for "still running", it is not a result of the program.
* `map::at` on a missing key throws `std::out_of_range`: `Outcome.threw`.
-/

namespace MiniCompiler

/-! ## Strings, sets and maps -/

/-- The symbol `EPS` of the source (`static const string EPS = "eps"`). -/
def EPS : String := "eps"

/-- The end marker `END_MARK` of the source. -/
def END_MARK : String := "$"

/-- Byte-wise lexicographic order, the order of `std::string::operator<`. -/
def byteLt : List Char → List Char → Bool
  | [], [] => false
  | [], _ :: _ => true
  | _ :: _, [] => false
  | a :: as, b :: bs =>
    if a.toNat < b.toNat then true
    else if b.toNat < a.toNat then false
    else byteLt as bs

/-- Order of `std::string` keys. -/
def strLt (a b : String) : Bool := byteLt a.data b.data

/-- Insertion into a `std::set<string>` (`set::insert`). -/
def setInsert (x : String) : List String → List String
  | [] => [x]
  | y :: ys =>
    if x = y then y :: ys
    else if strLt x y then x :: y :: ys
    else y :: setInsert x ys

/-- Membership test `set::count(x) > 0`. -/
def setHas (x : String) (s : List String) : Bool := s.contains x

/-- Lookup `map::find`. -/
def mapFind {V : Type} (k : String) : List (String × V) → Option V
  | [] => none
  | (k', v) :: m => if k = k' then some v else mapFind k m

/-- Assignment `m[k] = v`. -/
def mapSet {V : Type} (k : String) (v : V) : List (String × V) → List (String × V)
  | [] => [(k, v)]
  | (k', v') :: m =>
    if k = k' then (k, v) :: m
    else if strLt k k' then (k, v) :: (k', v') :: m
    else (k', v') :: mapSet k v m

/-- The value of `m[k]` read through `operator[]` (a default value when `k` is missing). -/
def mapGetD {V : Type} (k : String) (m : List (String × V)) (d : V) : V :=
  (mapFind k m).getD d

/-- The map after `m[k]` was evaluated: `operator[]` inserts a default value for a missing key. -/
def mapEnsure {V : Type} (k : String) (m : List (String × V)) (d : V) : List (String × V) :=
  match mapFind k m with
  | some _ => m
  | none => mapSet k d m

/-- Result of a computation that may throw or may need more fuel. -/
inductive Outcome (α : Type) where
  | ok : α → Outcome α
  | threw : Outcome α
  | more : Outcome α
  deriving DecidableEq, Repr

/-! ## Character classes of the "C" locale -/

def isspaceC (c : Char) : Bool :=
  c.toNat = 32 || (9 ≤ c.toNat && c.toNat ≤ 13)

def isdigitC (c : Char) : Bool := 48 ≤ c.toNat && c.toNat ≤ 57

def isalphaC (c : Char) : Bool :=
  (65 ≤ c.toNat && c.toNat ≤ 90) || (97 ≤ c.toNat && c.toNat ≤ 122)

def isalnumC (c : Char) : Bool := isalphaC c || isdigitC c

/-- The characters stripped by `trim`: blank, tab, carriage return, line feed. -/
def isTrimChar (c : Char) : Bool :=
  c.toNat = 32 || c.toNat = 9 || c.toNat = 13 || c.toNat = 10

def trimChars (s : List Char) : List Char :=
  ((s.dropWhile isTrimChar).reverse.dropWhile isTrimChar).reverse

def trim (s : String) : String := ⟨trimChars s.data⟩

/-- Letters, digits, underscore and the apostrophe (`isIdentChar`). -/
def isIdentChar (c : Char) : Bool :=
  isalnumC c || c.toNat = 95 || c.toNat = 39

/-- Index of the first occurrence of `pat` in the text (`string::find`). -/
def findSub (pat : List Char) : List Char → Option Nat
  | [] => if pat = [] then some 0 else none
  | c :: cs =>
    if pat.isPrefixOf (c :: cs) then some 0
    else (findSub pat cs).map (· + 1)

/-! ## Tokenizing a right-hand side -/

/-- The bytes of the Greek letter epsilon in UTF-8, as the source literal has them. -/
def greekEpsilon : String := ⟨[Char.ofNat 206, Char.ofNat 181]⟩

/-- The lambda `flush` of `tokenizeGrammarSegment`: state is `(tokens, cur)`. -/
def flushTok (st : List String × List Char) : List String × List Char :=
  if st.2 = [] then st
  else
    let t : String := ⟨st.2⟩
    let t := if t = greekEpsilon || t = "epsilon" || t = "eps" || t = "@" then EPS else t
    (st.1 ++ [t], [])

/-- The operator characters that are tokens of their own. -/
def isOperatorChar (c : Char) : Bool :=
  c = '(' || c = ')' || c = '+' || c = '*' || c = '-' || c = '/' || c = '|'

/-- One iteration of the character loop of `tokenizeGrammarSegment`. -/
def tokStep (st : List String × List Char) (c : Char) : List String × List Char :=
  if isspaceC c then flushTok st
  else if isOperatorChar c then
    let st1 := flushTok st
    (st1.1 ++ [String.singleton c], st1.2)
  else if isIdentChar c then (st.1, st.2 ++ [c])
  else
    let st1 := flushTok st
    (st1.1 ++ [String.singleton c], st1.2)

def tokenizeGrammarSegment (seg : String) : List String :=
  let tokens := (flushTok (seg.data.foldl tokStep ([], []))).1
  if tokens = [EPS] then [EPS]
  else if tokens = [] then [EPS]
  else tokens

/-! ## Grammars -/

/-- The `struct Grammar` of the source. -/
structure Grammar where
  start : String
  nonterminals : List String
  terminals : List String
  prod : List (String × List (List String))
  deriving DecidableEq, Repr

/-- A default-constructed `Grammar`. -/
def Grammar.empty : Grammar := ⟨"", [], [], []⟩

def Grammar.isNonTerminal (g : Grammar) (s : String) : Bool := setHas s g.nonterminals

def Grammar.isTerminal (g : Grammar) (s : String) : Bool := setHas s g.terminals

/-- The terminals found in one right-hand side, added to `ts`. -/
def addTerminals (nts : List String) (ts : List String) (rhs : List String) : List String :=
  rhs.foldl (fun acc sym => if sym = EPS then acc else if !setHas sym nts then setInsert sym acc else acc) ts

def Grammar.recomputeSymbols (g : Grammar) : Grammar :=
  { g with terminals :=
      g.prod.foldl (fun acc kv => kv.2.foldl (addTerminals g.nonterminals) acc) [] }

/-- The numbered candidates of `makeUniqueNonTerminal`: `k` runs from its
argument up to `999`, `n` is the number of values of `k` left. -/
def uniqueLoop (nts : List String) (base : String) : Nat → Nat → String
  | 0, _ => base ++ "_NEW"
  | n + 1, k =>
    if !setHas (base ++ toString k) nts then base ++ toString k
    else if !setHas (base ++ "'" ++ toString k) nts then base ++ "'" ++ toString k
    else uniqueLoop nts base n (k + 1)

def makeUniqueNonTerminal (g : Grammar) (base : String) : String :=
  if !setHas (base ++ "'") g.nonterminals then base ++ "'"
  else uniqueLoop g.nonterminals base 999 1

/-- The pieces of the right-hand side text between the `|` characters, each trimmed. -/
def splitAlternatives : List Char → List Char → List String
  | cur, [] => [trim ⟨cur⟩]
  | cur, c :: cs =>
    if c = '|' then trim ⟨cur⟩ :: splitAlternatives [] cs
    else splitAlternatives (cur ++ [c]) cs

/-- The bytes of the arrow U+2192 in UTF-8. -/
def unicodeArrow : List Char := [Char.ofNat 226, Char.ofNat 134, Char.ofNat 146]

/-- The statement `g.prod[lhs].push_back(rhs)`. -/
def pushProd (lhs : String) (rhs : List String)
    (prod : List (String × List (List String))) : List (String × List (List String)) :=
  mapSet lhs (mapGetD lhs prod [] ++ [rhs]) prod

def addRuleLine (g : Grammar) (lineRaw : String) : Grammar :=
  let line := trimChars lineRaw.data
  if line = [] then g
  else
    let pos := match findSub "->".data line with
      | some p => some p
      | none => findSub unicodeArrow line
    match pos with
    | none => g
    | some pos =>
      let lhs : String := ⟨trimChars (line.take pos)⟩
      let rhsAll := trimChars (line.drop (pos + 2))
      if lhs = "" then g
      else
        let nts := setInsert lhs g.nonterminals
        let start := if g.start = "" then lhs else g.start
        let parts := splitAlternatives [] rhsAll
        let prod := parts.foldl
          (fun pr p =>
            let tokens := tokenizeGrammarSegment p
            if tokens = [EPS] then pushProd lhs [EPS] pr else pushProd lhs tokens pr)
          g.prod
        { g with start := start, nonterminals := nts, prod := prod }

/-- The function `readGrammarFromUser` of the source, on the list of the lines read. -/
def readGrammarFromUser (lines : List String) : Grammar :=
  (lines.foldl addRuleLine Grammar.empty).recomputeSymbols

/-! ## Left factoring -/

def commonPrefixLen : List String → List String → Nat
  | a :: as, b :: bs => if a = b ∧ a ≠ EPS then commonPrefixLen as bs + 1 else 0
  | _, _ => 0

/-- The inner loop `for j = i + 1 ..` of the search for the best common start:
the state is `(bestLen, bestPrefix)`, `a` is `alts[i]`. -/
def bestInner (a : List String) : List (List String) → Nat × List String → Nat × List String
  | [], st => st
  | b :: bs, st =>
    bestInner a bs (if commonPrefixLen a b > st.1 then (commonPrefixLen a b, a.take (commonPrefixLen a b)) else st)

/-- The outer loop `for i = 0 ..` of the search. -/
def bestOuter : List (List String) → Nat × List String → Nat × List String
  | [], st => st
  | a :: rest, st => bestOuter rest (bestInner a rest st)

/-- The test `ok` of the grouping loop: `rhs` has at least `bestLen` symbols and
agrees with `bestPrefix` on the first `bestLen` of them. -/
def sharesStart (bestLen : Nat) (bestPrefix rhs : List String) : Bool :=
  decide (bestLen ≤ rhs.length) && (rhs.take bestLen == bestPrefix.take bestLen)

/-- The remainder of a group member, `[EPS]` when nothing is left. -/
def remainder (bestLen : Nat) (rhs : List String) : List String :=
  if rhs.drop bestLen = [] then [EPS] else rhs.drop bestLen

/-- The loop of `leftFactorOnce` over the copied list of nonterminals. -/
def leftFactorOnceFrom : List String → Grammar → Bool × Grammar
  | [], g => (false, g)
  | A :: more, g =>
    let alts := mapGetD A g.prod []
    let g0 : Grammar := { g with prod := mapEnsure A g.prod [] }
    if alts.length < 2 then leftFactorOnceFrom more g0
    else
      let best := bestOuter alts (0, [])
      if best.1 = 0 then leftFactorOnceFrom more g0
      else
        let group := alts.filter (sharesStart best.1 best.2)
        let rest := alts.filter (fun rhs => !sharesStart best.1 best.2 rhs)
        if group.length < 2 then leftFactorOnceFrom more g0
        else
          let Aprime := makeUniqueNonTerminal g0 A
          let newA := rest ++ [best.2 ++ [Aprime]]
          let newAprime := group.map (remainder best.1)
          (true, Grammar.recomputeSymbols
            { g0 with
              nonterminals := setInsert Aprime g0.nonterminals
              prod := mapSet Aprime newAprime (mapSet A newA g0.prod) })

def leftFactorOnce (g : Grammar) : Bool × Grammar := leftFactorOnceFrom g.nonterminals g

/-- The loop `while (leftFactorOnce(g)) {}` run for at most `fuel` calls. -/
def leftFactor : Nat → Grammar → Option Grammar
  | 0, _ => none
  | fuel + 1, g =>
    if (leftFactorOnce g).1 then leftFactor fuel (leftFactorOnce g).2
    else some (leftFactorOnce g).2

/-! ## Left-recursion elimination -/

/-- The test `!rhs.empty() && rhs[0] == X`. -/
def beginsWith (X : String) (rhs : List String) : Bool :=
  match rhs with
  | [] => false
  | s :: _ => s == X

/-- One alternative `delta gamma` built by `substituteAjIntoAi`. -/
def expandAlt (gamma delta : List String) : List String :=
  let expanded := (if delta = [EPS] then [] else delta) ++ gamma
  if expanded = [] then [EPS] else expanded

def substituteAjIntoAi (g : Grammar) (Ai Aj : String) : Grammar :=
  let alts := mapGetD Ai g.prod []
  let prod0 := mapEnsure Ai g.prod []
  let deltas := mapGetD Aj prod0 []
  let prod1 := if alts.any (beginsWith Aj) then mapEnsure Aj prod0 [] else prod0
  let newAlts := alts.foldl
    (fun acc rhs =>
      if beginsWith Aj rhs then acc ++ deltas.map (expandAlt rhs.tail)
      else acc ++ [rhs])
    []
  { g with prod := mapSet Ai newAlts prod1 }

/-- The tail stored in `alpha` for an alternative that begins with `A`. -/
def alphaTail (rhs : List String) : List String :=
  if rhs.tail = [] then [EPS] else rhs.tail

def eliminateImmediateLeftRecursion (g : Grammar) (A : String) : Grammar :=
  let alts := mapGetD A g.prod []
  let g0 : Grammar := { g with prod := mapEnsure A g.prod [] }
  let alpha := (alts.filter (beginsWith A)).map alphaTail
  let beta := alts.filter (fun rhs => !beginsWith A rhs)
  if alpha = [] then g0
  else
    let Aprime := makeUniqueNonTerminal g0 A
    let newA := beta.map (fun b => if b = [EPS] then [Aprime] else b ++ [Aprime])
    let newAprime := alpha.map (fun a => if a = [EPS] then [Aprime] else a ++ [Aprime]) ++ [[EPS]]
    { g0 with
      nonterminals := setInsert Aprime g0.nonterminals
      prod := mapSet Aprime newAprime (mapSet A newA g0.prod) }

/-- The index of `x` in `nts` as `std::find` gives it, `none` for `end()`. -/
def findIndex (x : String) : List String → Option Nat
  | [] => none
  | y :: ys => if y = x then some 0 else (findIndex x ys).map (· + 1)

/-- The loop `for (i = 0; i < nts.size(); i++)` of `eliminateLeftRecursion`,
for at most `fuel` iterations; the state is the grammar, the list `nts` and `i`. -/
def elrLoop : Nat → Grammar → List String → Nat → Option Grammar
  | 0, _, _, _ => none
  | fuel + 1, g, nts, i =>
    match nts.get? i with
    | none => some g.recomputeSymbols
    | some Ai =>
      let g1 := (nts.take i).foldl (fun acc Aj => substituteAjIntoAi acc Ai Aj) g
      let g2 := eliminateImmediateLeftRecursion g1 Ai
      if g2.nonterminals.length ≠ nts.length then
        match findIndex Ai g2.nonterminals with
        | some k => elrLoop fuel g2 g2.nonterminals (k + 1)
        | none => elrLoop fuel g2 g2.nonterminals (i + 1)
      else elrLoop fuel g2 nts (i + 1)

def eliminateLeftRecursion (fuel : Nat) (g : Grammar) : Option Grammar :=
  elrLoop fuel g g.nonterminals 0

/-! ## FIRST and FOLLOW -/

/-- A `map<string, set<string>>`. -/
abbrev SetMap := List (String × List String)

/-- The set union `result.insert(a)` for every `a` of `xs` other than `EPS`. -/
def insertNonEps (xs : List String) (result : List String) : List String :=
  xs.foldl (fun acc a => if a = EPS then acc else setInsert a acc) result

/-- The loop of `firstOfSequence` over the symbols of the sequence; `result`
is the set built so far. The flag `allEps` of the source is true exactly when the
loop ends without `break` or breaks on `EPS`, and then `EPS` is inserted. -/
def firstOfSeqLoop (FIRST : SetMap) (g : Grammar) : List String → List String → List String
  | [], result => setInsert EPS result
  | X :: rest, result =>
    if X = EPS then setInsert EPS result
    else if g.isTerminal X || !g.isNonTerminal X then setInsert X result
    else
      match mapFind X FIRST with
      | some fx =>
        if setHas EPS fx then firstOfSeqLoop FIRST g rest (insertNonEps fx result)
        else insertNonEps fx result
      | none => setInsert X result

def firstOfSequence (seq : List String) (FIRST : SetMap) (g : Grammar) : List String :=
  firstOfSeqLoop FIRST g seq []

/-- The guarded insertion
`if (!M[A].count(x)) { M[A].insert(x); changed = true; }`
on the state `(M, changed)`. -/
def addSym (A x : String) (st : SetMap × Bool) : SetMap × Bool :=
  if setHas x (mapGetD A st.1 []) then (mapEnsure A st.1 [], st.2)
  else (mapSet A (setInsert x (mapGetD A st.1 [])) st.1, true)

/-- The guarded insertion of every element of `xs` other than `EPS`. -/
def addNonEps (A : String) (xs : List String) (st : SetMap × Bool) : SetMap × Bool :=
  xs.foldl (fun acc a => if a = EPS then acc else addSym A a acc) st

/-- The loop of `computeFIRST` over the symbols `X` of one right-hand side of `A`. -/
def firstScan (g : Grammar) (A : String) : List String → SetMap × Bool → SetMap × Bool
  | [], st => addSym A EPS st
  | X :: rest, st =>
    if X = EPS then addSym A EPS st
    else if g.isTerminal X || !g.isNonTerminal X then addSym A X st
    else
      let st1 := addNonEps A (mapGetD X st.1 []) (mapEnsure X st.1 [], st.2)
      if setHas EPS (mapGetD X st1.1 []) then firstScan g A rest st1
      else st1

/-- The loop over the nonterminals `A` of one pass of `computeFIRST`. -/
def firstPassFrom (g : Grammar) : List String → SetMap × Bool → Outcome (SetMap × Bool)
  | [], st => .ok st
  | A :: more, st =>
    match mapFind A g.prod with
    | none => .threw
    | some alts => firstPassFrom g more (alts.foldl (fun acc rhs => firstScan g A rhs acc) st)

/-- One pass of the `while (changed)` loop of `computeFIRST`, from `changed = false`. -/
def firstPass (g : Grammar) (FIRST : SetMap) : Outcome (SetMap × Bool) :=
  firstPassFrom g g.nonterminals (FIRST, false)

/-- The map `FIRST` before the `while` loop of `computeFIRST`. -/
def firstInit (g : Grammar) : SetMap :=
  let F1 := g.terminals.foldl (fun F t => mapSet t (setInsert t (mapGetD t F [])) F) []
  let F2 := mapSet EPS (setInsert EPS (mapGetD EPS F1 [])) F1
  g.nonterminals.foldl (fun F A => mapEnsure A F []) F2

/-- The loop `while (changed)` for at most `fuel` passes. -/
def firstLoop (g : Grammar) : Nat → SetMap → Outcome SetMap
  | 0, _ => .more
  | fuel + 1, FIRST =>
    match firstPass g FIRST with
    | .ok (F1, changed) => if changed then firstLoop g fuel F1 else .ok F1
    | .threw => .threw
    | .more => .more

def computeFIRST (fuel : Nat) (g : Grammar) : Outcome SetMap :=
  firstLoop g fuel (firstInit g)

/-- The part of the body of `computeFOLLOW` for position `i` of `rhs`, where
`B = rhs[i]` and `beta` is what follows it. -/
def followAt (g : Grammar) (FIRST : SetMap) (A B : String) (beta : List String)
    (st : SetMap × Bool) : SetMap × Bool :=
  if !g.isNonTerminal B then st
  else
    let firstBeta := firstOfSequence beta FIRST g
    let st1 := addNonEps B firstBeta st
    if beta = [] || setHas EPS firstBeta then
      (mapGetD A st1.1 []).foldl (fun acc x => addSym B x acc) (mapEnsure A st1.1 [], st1.2)
    else st1

/-- The loop `for (i = 0; i < rhs.size(); i++)` of `computeFOLLOW`, over the
suffixes of `rhs`. -/
def followScan (g : Grammar) (FIRST : SetMap) (A : String) : List String → SetMap × Bool → SetMap × Bool
  | [], st => st
  | B :: beta, st => followScan g FIRST A beta (followAt g FIRST A B beta st)

def followPassFrom (g : Grammar) (FIRST : SetMap) : List String → SetMap × Bool → Outcome (SetMap × Bool)
  | [], st => .ok st
  | A :: more, st =>
    match mapFind A g.prod with
    | none => .threw
    | some alts =>
      followPassFrom g FIRST more (alts.foldl (fun acc rhs => followScan g FIRST A rhs acc) st)

def followPass (g : Grammar) (FIRST FOLLOW : SetMap) : Outcome (SetMap × Bool) :=
  followPassFrom g FIRST g.nonterminals (FOLLOW, false)

/-- The map `FOLLOW` before the `while` loop of `computeFOLLOW`. -/
def followInit (g : Grammar) : SetMap :=
  let F1 := g.nonterminals.foldl (fun F A => mapEnsure A F []) []
  mapSet g.start (setInsert END_MARK (mapGetD g.start F1 [])) F1

def followLoop (g : Grammar) (FIRST : SetMap) : Nat → SetMap → Outcome SetMap
  | 0, _ => .more
  | fuel + 1, FOLLOW =>
    match followPass g FIRST FOLLOW with
    | .ok (F1, changed) => if changed then followLoop g FIRST fuel F1 else .ok F1
    | .threw => .threw
    | .more => .more

def computeFOLLOW (fuel : Nat) (g : Grammar) (FIRST : SetMap) : Outcome SetMap :=
  followLoop g FIRST fuel (followInit g)

/-! ## The LL(1) table -/

/-- The `struct ParseTableCell` of the source. -/
structure ParseTableCell where
  filled : Bool
  conflict : Bool
  rhs : List String
  fromA : String
  deriving DecidableEq, Repr

/-- A default-constructed cell `ParseTableCell{}`. -/
def ParseTableCell.blank : ParseTableCell := ⟨false, false, [], ""⟩

/-- A `map<string, map<string, ParseTableCell>>`. -/
abbrev Table := List (String × List (String × ParseTableCell))

/-- What `buildParseTable` does to the cell it has looked up, for the alternative `rhs`
of `A`: the first alternative fills the cell, a later one flags it. -/
def cellUpdate (A : String) (rhs : List String) (cell : ParseTableCell) : ParseTableCell :=
  if !cell.filled then { cell with filled := true, rhs := rhs, fromA := A }
  else { cell with conflict := true }

/-- The update of the cell `table[A][t]` for the alternative `rhs`. -/
def markCell (A : String) (rhs : List String) (table : Table) (t : String) : Table :=
  let row := mapGetD A table []
  mapSet A (mapSet t (cellUpdate A rhs (mapGetD t row ParseTableCell.blank)) row) table

/-- The body of the loop over the alternatives `rhs` of `A` in `buildParseTable`. -/
def tableAlt (g : Grammar) (FIRST FOLLOW : SetMap) (A : String) (rhs : List String)
    (table : Table) : Outcome Table :=
  let firstAlpha := firstOfSequence rhs FIRST g
  let table1 := firstAlpha.foldl (fun tb t => if t = EPS then tb else markCell A rhs tb t) table
  if setHas EPS firstAlpha then
    match mapFind A FOLLOW with
    | none => .threw
    | some fa => .ok (fa.foldl (markCell A rhs) table1)
  else .ok table1

def tableAlts (g : Grammar) (FIRST FOLLOW : SetMap) (A : String) :
    List (List String) → Table → Outcome Table
  | [], table => .ok table
  | rhs :: more, table =>
    match tableAlt g FIRST FOLLOW A rhs table with
    | .ok table1 => tableAlts g FIRST FOLLOW A more table1
    | .threw => .threw
    | .more => .more

def tableRows (g : Grammar) (FIRST FOLLOW : SetMap) : List String → Table → Outcome Table
  | [], table => .ok table
  | A :: more, table =>
    match mapFind A g.prod with
    | none => .threw
    | some alts =>
      match tableAlts g FIRST FOLLOW A alts table with
      | .ok table1 => tableRows g FIRST FOLLOW more table1
      | .threw => .threw
      | .more => .more

/-- The columns `cols`: the terminals and the end marker. -/
def tableCols (g : Grammar) : List String := setInsert END_MARK g.terminals

/-- The table of blank cells that the first loop of `buildParseTable` makes. -/
def blankTable (g : Grammar) : Table :=
  g.nonterminals.foldl
    (fun tb A => (tableCols g).foldl
      (fun tb1 a => mapSet A (mapSet a ParseTableCell.blank (mapGetD A tb1 [])) tb1) tb)
    []

/-- The table and the sorted column list that `buildParseTable` returns. -/
def buildParseTable (g : Grammar) (FIRST FOLLOW : SetMap) : Outcome (Table × List String) :=
  match tableRows g FIRST FOLLOW g.nonterminals (blankTable g) with
  | .ok table => .ok (table, tableCols g)
  | .threw => .threw
  | .more => .more

/-! ## The predictive parser -/

/-- The loop of `tokenizeExpressionInput` over the characters left to read;
every iteration reads at least one character, so a fuel of the length of the
text is enough. -/
def tokenizeExprLoop : Nat → List Char → List String
  | _, [] => [END_MARK]
  | 0, _ :: _ => [END_MARK]
  | fuel + 1, c :: cs =>
    if isspaceC c then tokenizeExprLoop fuel cs
    else if isalphaC c || c.toNat = 95 then
      "id" :: tokenizeExprLoop fuel (cs.dropWhile (fun d => isalnumC d || d.toNat = 95))
    else if isdigitC c then
      "id" :: tokenizeExprLoop fuel (cs.dropWhile (fun d => isdigitC d || d.toNat = 46))
    else String.singleton c :: tokenizeExprLoop fuel cs

def tokenizeExpressionInput (s : String) : List String :=
  tokenizeExprLoop s.data.length s.data

/-- Result of one iteration of the loop of `predictiveParse`. -/
inductive StepResult where
  | accept : StepResult
  | reject : StepResult
  | next : List String → Nat → StepResult
  deriving DecidableEq, Repr

/-- One iteration of the `while (!st.empty())` loop of `predictiveParse` on a
non-empty stack. The stack is a list with its top (`st.back()`) at the head, so
pushing a right-hand side in reverse puts the list `rhs` in front. -/
def parseStep (g : Grammar) (table : Table) (inp : List String) (X : String)
    (st : List String) (ip : Nat) : StepResult :=
  let a := (inp.get? ip).getD END_MARK
  if X = END_MARK ∧ a = END_MARK then .accept
  else if !g.isNonTerminal X || X = END_MARK then
    if X = a then .next st (ip + 1) else .reject
  else
    match mapFind X table with
    | none => .reject
    | some row =>
      match mapFind a row with
      | none => .reject
      | some cell =>
        if !cell.filled || cell.conflict then .reject
        else if cell.rhs = [EPS] then .next st ip
        else .next (cell.rhs ++ st) ip

/-- The loop of `predictiveParse` for at most `fuel` iterations; `none` when
the fuel is used up. -/
def parseLoop (g : Grammar) (table : Table) (inp : List String) :
    Nat → List String → Nat → Option Bool
  | 0, _, _ => none
  | _ + 1, [], _ => some false
  | fuel + 1, X :: st, ip =>
    match parseStep g table inp X st ip with
    | .accept => some true
    | .reject => some false
    | .next st1 ip1 => parseLoop g table inp fuel st1 ip1

def predictiveParse (fuel : Nat) (g : Grammar) (table : Table) (inputStr : String) : Option Bool :=
  parseLoop g table (tokenizeExpressionInput inputStr) fuel [g.start, END_MARK] 0

/-! ## Properties of grammars -/

/-- The list holds the elements of a `std::set<string>`: it is strictly increasing. -/
def SetOK (s : List String) : Prop := s.Pairwise (fun a b => strLt a b = true)

instance (s : List String) : Decidable (SetOK s) := by
  unfold SetOK
  infer_instance


/-- Both alternatives have a first symbol and it is the same one. -/
def sharesFirst (a b : List String) : Bool :=
  match a, b with
  | x :: _, y :: _ => x == y
  | _, _ => false

/-- No nonterminal has two distinct alternatives with the same first symbol. -/
def NoSharedFirst (g : Grammar) : Prop :=
  ∀ A ∈ g.nonterminals,
    (mapGetD A g.prod []).Pairwise (fun a b => a ≠ b → sharesFirst a b = false)

/-- No nonterminal has, at two positions of its list, alternatives with the same
first symbol, unless that symbol is `EPS`. -/
def NoSharedFirstButEps (g : Grammar) : Prop :=
  ∀ A ∈ g.nonterminals,
    (mapGetD A g.prod []).Pairwise (fun a b => sharesFirst a b = true → a.head? = some EPS)

/-- The nonterminal `Y` has an alternative whose first symbol is `Z`. -/
def firstStep (g : Grammar) (Y Z : String) : Prop :=
  Y ∈ g.nonterminals ∧ ∃ rhs ∈ mapGetD Y g.prod [], rhs.head? = some Z

/-- Some alternative of a nonterminal `A` begins with a symbol from which `A` is reached
by following `firstStep` zero or more times: left recursion, direct or indirect. -/
def LeftRecursive (g : Grammar) : Prop :=
  ∃ A ∈ g.nonterminals, ∃ rhs ∈ mapGetD A g.prod [], ∃ X,
    rhs.head? = some X ∧ Relation.ReflTransGen (firstStep g) X A

/-- No alternative of `A` begins with `A` itself. -/
def NoDirectLR (g : Grammar) (A : String) : Prop :=
  ∀ rhs ∈ mapGetD A g.prod [], beginsWith A rhs = false

/-- A state of the loop of `eliminateLeftRecursion` from which it never ends: the
position `i` is the last one, its nonterminal `Ai` has exactly the alternatives `Ai` and
`EPS`, and every name begins with the letter `A`. -/
def Diverging (g : Grammar) (nts : List String) (i : Nat) : Prop :=
  nts = g.nonterminals ∧ SetOK nts ∧ i + 1 = nts.length ∧
    (∃ Ai, nts.get? i = some Ai ∧ mapGetD Ai g.prod [] = [[Ai], [EPS]]) ∧
    ∀ X ∈ nts, X.data.head? = some 'A'

/-- Sum of the common-start lengths of `a` with each member of `l`. -/
def crossSum (a : List String) (l : List (List String)) : Nat :=
  (l.map (commonPrefixLen a)).sum

/-- Sum of the common-start lengths over all pairs of positions of a list of alternatives. -/
def pairSum : List (List String) → Nat
  | [] => 0
  | a :: l => crossSum a l + pairSum l

/-- The quantity that every rewrite of `leftFactorOnce` decreases. -/
def factorMeasure (g : Grammar) : Nat :=
  (g.nonterminals.map (fun A => pairSum (mapGetD A g.prod []))).sum

/-! ## Properties of FIRST and FOLLOW -/

/-- Membership in `firstOfSequence seq FIRST g`, by the scan rule: `x` is contributed by
the scan of `seq` from left to right. -/
def inFirstSeq (FIRST : SetMap) (g : Grammar) : List String → String → Prop
  | [], x => x = EPS
  | X :: rest, x =>
    if X = EPS then x = EPS
    else if (g.isTerminal X || !g.isNonTerminal X) = true then x = X
    else
      match mapFind X FIRST with
      | some fx => (x ∈ fx ∧ x ≠ EPS) ∨ (EPS ∈ fx ∧ inFirstSeq FIRST g rest x)
      | none => x = X

/-- Every nonterminal of `g` is a key of the map. -/
def HasKeys (g : Grammar) (F : SetMap) : Prop :=
  ∀ A ∈ g.nonterminals, (mapFind A F).isSome = true

/-- Every set of `F` is included in the set of `F1` with the same key. -/
def MapLe (F F1 : SetMap) : Prop :=
  ∀ X x, x ∈ mapGetD X F [] → x ∈ mapGetD X F1 []

/-- Every element of the set of a nonterminal is contributed by the scan of one of its
alternatives (or is `EPS` in the set of the key `EPS`, which `computeFIRST` puts there). -/
def FirstSound (g : Grammar) (F : SetMap) : Prop :=
  ∀ A ∈ g.nonterminals, ∀ x ∈ mapGetD A F [],
    (A = EPS ∧ x = EPS) ∨
      ∃ alts, mapFind A g.prod = some alts ∧ ∃ rhs ∈ alts, inFirstSeq F g rhs x

/-- Every symbol of `pre` is a nonterminal whose set contains `EPS`: the scan of
`computeFIRST` goes through `pre`. -/
def NullablePre (g : Grammar) (F : SetMap) (pre : List String) : Prop :=
  ∀ X ∈ pre, X ≠ EPS ∧ (g.isTerminal X || !g.isNonTerminal X) = false ∧ EPS ∈ mapGetD X F []


/-- The invariant of a pass of `computeFIRST`, relative to the map `F0` at some earlier
point of the pass. -/
def PassInv (g : Grammar) (F0 : SetMap) (st : SetMap × Bool) : Prop :=
  HasKeys g st.1 ∧ FirstSound g st.1 ∧ MapLe F0 st.1

/-- The total size of the sets of the keys `nts`: the quantity that every pass of a
fixed-point loop that reports a change increases. -/
def mapSize (nts : List String) (F : SetMap) : Nat :=
  (nts.map (fun A => (mapGetD A F []).length)).sum

/-- Every set of the map is held as a set. -/
def SetsOK (F : SetMap) : Prop := ∀ X, SetOK (mapGetD X F [])

/-- The sets of the keys `nts` stay inside the universe `U`. -/
def Within (nts U : List String) (F : SetMap) : Prop :=
  ∀ A ∈ nts, ∀ x ∈ mapGetD A F [], x ∈ U

/-- The state `st1` comes after `st` in a pass: no set of a key of `nts` shrank, and
if the flag `changed` was raised in between then some set grew. -/
def Progress (nts : List String) (st st1 : SetMap × Bool) : Prop :=
  mapSize nts st.1 ≤ mapSize nts st1.1 ∧
    (st1.2 = true → st.2 = true ∨ mapSize nts st.1 < mapSize nts st1.1)

/-- The symbols of a list of right-hand sides. -/
def symbolsOf (alts : List (List String)) : List String :=
  alts.foldr (fun rhs acc => rhs ++ acc) []

/-- The symbols of all right-hand sides of a production map. -/
def rhsSymbols (prod : List (String × List (List String))) : List String :=
  prod.foldr (fun kv acc => symbolsOf kv.2 ++ acc) []

/-- The elements of all sets of a map of sets. -/
def setElems (F : SetMap) : List String :=
  F.foldr (fun kv acc => kv.2 ++ acc) []

/-- The finite universe of the FIRST sets: `EPS`, the terminals and the symbols of the
right-hand sides. -/
def firstUniverse (g : Grammar) : List String :=
  EPS :: (g.terminals ++ rhsSymbols g.prod)

/-- The finite universe of the FOLLOW sets: the end marker, `EPS`, the symbols of the
right-hand sides and the elements of the FIRST sets. -/
def followUniverse (g : Grammar) (FIRST : SetMap) : List String :=
  END_MARK :: EPS :: (rhsSymbols g.prod ++ setElems FIRST)

/-- The symbol `x` is derived for `FIRST[A]` by finitely many applications of the scan
rule: some alternative `pre ++ suf` of the nonterminal `A` has a start `pre` of nonterminals
for which `EPS` is derived, and the scan stops at `suf` with `x`. -/
inductive Derives (g : Grammar) : String → String → Prop where
  | eps (A : String) (alts : List (List String)) (pre suf : List String) :
      A ∈ g.nonterminals → mapFind A g.prod = some alts → pre ++ suf ∈ alts →
      (∀ Y ∈ pre, Y ≠ EPS ∧ (g.isTerminal Y || !g.isNonTerminal Y) = false) →
      (∀ Y ∈ pre, Derives g Y EPS) →
      (suf = [] ∨ suf.head? = some EPS) → Derives g A EPS
  | term (A : String) (alts : List (List String)) (pre : List String) (X : String)
      (rest : List String) :
      A ∈ g.nonterminals → mapFind A g.prod = some alts → pre ++ X :: rest ∈ alts →
      (∀ Y ∈ pre, Y ≠ EPS ∧ (g.isTerminal Y || !g.isNonTerminal Y) = false) →
      (∀ Y ∈ pre, Derives g Y EPS) →
      X ≠ EPS → (g.isTerminal X || !g.isNonTerminal X) = true → Derives g A X
  | sub (A : String) (alts : List (List String)) (pre : List String) (X : String)
      (rest : List String) (x : String) :
      A ∈ g.nonterminals → mapFind A g.prod = some alts → pre ++ X :: rest ∈ alts →
      (∀ Y ∈ pre, Y ≠ EPS ∧ (g.isTerminal Y || !g.isNonTerminal Y) = false) →
      (∀ Y ∈ pre, Derives g Y EPS) →
      X ≠ EPS → (g.isTerminal X || !g.isNonTerminal X) = false →
      Derives g X x → x ≠ EPS → Derives g A x

/-- Every element of the set of a nonterminal is derived by the scan rule. -/
def Least (g : Grammar) (F : SetMap) : Prop :=
  ∀ A ∈ g.nonterminals, ∀ x ∈ mapGetD A F [], Derives g A x

/-- The finite universe of the symbols of a grammar: `EPS`, the end marker and the symbols
of the right-hand sides. -/
def symbolUniverse (g : Grammar) : List String :=
  EPS :: END_MARK :: rhsSymbols g.prod

/-- The FOLLOW rule at one position: what `FOLLOW[B]` must contain. -/
def FollowRuleAt (g : Grammar) (FIRST : SetMap) (A B : String) (beta : List String)
    (F : SetMap) : Prop :=
  g.isNonTerminal B = true →
    (∀ x ∈ firstOfSequence beta FIRST g, x ≠ EPS → x ∈ mapGetD B F []) ∧
    ((beta = [] ∨ EPS ∈ firstOfSequence beta FIRST g) →
      ∀ x ∈ mapGetD A F [], x ∈ mapGetD B F [])

/-! ## Properties of tables -/

/-- The cell `table[A][t]`, blank when the table has no such cell. -/
def tableCell (table : Table) (A t : String) : ParseTableCell :=
  mapGetD t (mapGetD A table []) ParseTableCell.blank

/-- The alternative `alpha` of `A` is a candidate for the column `t`: `t` is in
`FIRST(alpha)` and is not `EPS`, or `EPS` is in `FIRST(alpha)` and `t` is in `FOLLOW[A]`. -/
def isCandidate (g : Grammar) (FIRST FOLLOW : SetMap) (A t : String) (alpha : List String) : Bool :=
  (setHas t (firstOfSequence alpha FIRST g) && t != EPS)
    || (setHas EPS (firstOfSequence alpha FIRST g) && setHas t (mapGetD A FOLLOW []))

/-- The number of times the alternative `alpha` of `A` reaches the cell of column `t`:
once through `FIRST(alpha)` and once through `FOLLOW[A]`. -/
def candidateHits (g : Grammar) (FIRST FOLLOW : SetMap) (A t : String) (alpha : List String) : Nat :=
  (if setHas t (firstOfSequence alpha FIRST g) && t != EPS then 1 else 0)
    + (if setHas EPS (firstOfSequence alpha FIRST g) && setHas t (mapGetD A FOLLOW []) then 1 else 0)

/-- The column symbols whose cells the alternative `rhs` of `A` updates, in order. -/
def altHits (g : Grammar) (FIRST FOLLOW : SetMap) (A : String) (rhs : List String) : List String :=
  (firstOfSequence rhs FIRST g).filter (fun t => t != EPS)
    ++ (if setHas EPS (firstOfSequence rhs FIRST g) then mapGetD A FOLLOW [] else [])

/-- A cell after the updates for the alternatives `rs`, in order. -/
def runCell (A : String) (cell : ParseTableCell) (rs : List (List String)) : ParseTableCell :=
  rs.foldl (fun c r => cellUpdate A r c) cell

/-- The alternatives that update one cell while a row is built, in order: each
alternative as many times as `cnt` says. -/
def rowHits (cnt : List String → Nat) : List (List String) → List (List String)
  | [] => []
  | rhs :: more => List.replicate (cnt rhs) rhs ++ rowHits cnt more

/-- The list `R` taken `n` times: the alternatives that update one cell when the row
loop meets the nonterminal of the cell `n` times. -/
def repeatHits (R : List (List String)) : Nat → List (List String)
  | 0 => []
  | n + 1 => R ++ repeatHits R n

/-- The table has a cell exactly in the rows `nts` and the columns `cols`. -/
def TableKeys (table : Table) (nts cols : List String) : Prop :=
  ∀ A t, (mapFind t (mapGetD A table [])).isSome = true ↔ (A ∈ nts ∧ t ∈ cols)

/-- Some cell of the table, in a row of a nonterminal and a column of `cols`, is flagged:
the check of `Case07` and of `printParseTable`. -/
def hasConflict (g : Grammar) (table : Table) (cols : List String) : Bool :=
  g.nonterminals.any (fun A => cols.any (fun t => (tableCell table A t).conflict))

/-! ## Properties of the predictive parser -/

/-- The parser, in the configuration of the stack `st` and the position `ip`, returns. -/
def Halts (g : Grammar) (table : Table) (inp : List String) (st : List String) (ip : Nat) :
    Prop :=
  ∃ n b, parseLoop g table inp n st ip = some b

/-- From the configuration `(st, ip)` the parser comes to `(st1, ip1)` after some
iterations of its loop. -/
def Leads (g : Grammar) (table : Table) (inp : List String) (st : List String) (ip : Nat)
    (st1 : List String) (ip1 : Nat) : Prop :=
  ∃ n, ∀ k, parseLoop g table inp (n + k) st ip = parseLoop g table inp k st1 ip1

/-- From the configuration `(st, ip)` the parser returns or matches the token at `ip`. -/
def Advances (g : Grammar) (table : Table) (inp : List String) (st : List String) (ip : Nat) :
    Prop :=
  Halts g table inp st ip ∨ ∃ st1, ip < inp.length ∧ Leads g table inp st ip st1 (ip + 1)

/-- The setting in which the predictive parser is run: the symbols of `g` are recomputed,
`EPS` is not a nonterminal, `FIRST` and `FOLLOW` are the maps that `computeFIRST` and
`computeFOLLOW` return, `table` is the table that `buildParseTable` makes of them, and no
cell of the table is flagged. -/
def ParserSetting (g : Grammar) (FIRST FOLLOW : SetMap) (table : Table) : Prop :=
  g.recomputeSymbols = g ∧ EPS ∉ g.nonterminals ∧
    (∃ n, computeFIRST n g = .ok FIRST) ∧ (∃ m, computeFOLLOW m g FIRST = .ok FOLLOW) ∧
    buildParseTable g FIRST FOLLOW = .ok (table, tableCols g) ∧
    hasConflict g table (tableCols g) = false

/-! ## Properties of the rule parser -/

/-- The identifier-like runs of a text: the groups of identifier characters between the
other characters, in order; `cur` is the run that is being read. -/
def identRuns : List Char → List Char → List (List Char)
  | cur, [] => [cur]
  | cur, c :: cs =>
    if isIdentChar c then identRuns (cur ++ [c]) cs else cur :: identRuns [] cs

/-- The line has no separator: neither `->` nor the arrow U+2192 occurs in it. -/
def NoSeparator (line : String) : Prop :=
  findSub "->".data line.data = none ∧ findSub unicodeArrow line.data = none

/-- The left-hand side of the line is empty after trimming: only blank characters stand
before the first separator of the line (`->`, or the arrow U+2192 when there is no `->`). -/
def EmptyLhs (line : String) : Prop :=
  ∃ ws rest, (∀ c ∈ ws, isTrimChar c = true) ∧
    (line.data = ws ++ "->".data ++ rest ∨
      (findSub "->".data line.data = none ∧ line.data = ws ++ unicodeArrow ++ rest))

/-- No alternative of the production map is the empty sequence. -/
def AltsNonEmpty (prod : List (String × List (List String))) : Prop :=
  ∀ kv ∈ prod, ∀ rhs ∈ kv.2, rhs ≠ []

instance (prod : List (String × List (List String))) : Decidable (AltsNonEmpty prod) := by
  unfold AltsNonEmpty
  infer_instance

/-- The invariant of the terminal set: the terminals are exactly the symbols of the
right-hand sides that are neither nonterminals nor `EPS`. -/
def TerminalsExact (g : Grammar) : Prop :=
  ∀ t, t ∈ g.terminals ↔ (t ∈ rhsSymbols g.prod ∧ t ∉ g.nonterminals ∧ t ≠ EPS)

/-! ## The expression grammar of the round trip -/

def exprLines : Grammar :=
  addRuleLine (addRuleLine (addRuleLine Grammar.empty "E -> E + T | T") "T -> T * F | F") "F -> ( E ) | id"

def exprLL1 : Grammar :=
  { start := "E",
    nonterminals := ["E", "E'", "F", "T", "T'"],
    terminals := ["(", ")", "*", "+", "id"],
    prod := [("E", [["T", "E'"]]),
             ("E'", [["+", "T", "E'"], ["eps"]]),
             ("F", [["(", "E", ")"], ["id"]]),
             ("T", [["(", "E", ")", "T'"], ["id", "T'"]]),
             ("T'", [["*", "F", "T'"], ["eps"]])] }

def exprFIRST : SetMap :=
  [("(", ["("]), (")", [")"]), ("*", ["*"]), ("+", ["+"]), ("E", ["(", "id"]),
   ("E'", ["+", "eps"]), ("F", ["(", "id"]), ("T", ["(", "id"]), ("T'", ["*", "eps"]),
   ("eps", ["eps"]), ("id", ["id"])]

def exprFOLLOW : SetMap :=
  [("E", ["$", ")"]), ("E'", ["$", ")"]), ("F", ["$", ")", "*", "+"]),
   ("T", ["$", ")", "+"]), ("T'", ["$", ")", "+"])]

/-- Row of the expected table: the cells of the six columns in order. -/
def exprRow (A : String) (cells : List (Option (List String))) : String × List (String × ParseTableCell) :=
  (A, List.zipWith
    (fun t c => match c with
      | some rhs => (t, (⟨true, false, rhs, A⟩ : ParseTableCell))
      | none => (t, ParseTableCell.blank))
    ["$", "(", ")", "*", "+", "id"] cells)

def exprTable : Table :=
  [exprRow "E" [none, some ["T", "E'"], none, none, none, some ["T", "E'"]],
   exprRow "E'" [some ["eps"], none, some ["eps"], none, some ["+", "T", "E'"], none],
   exprRow "F" [none, some ["(", "E", ")"], none, none, none, some ["id"]],
   exprRow "T" [none, some ["(", "E", ")", "T'"], none, none, none, some ["id", "T'"]],
   exprRow "T'" [some ["eps"], none, some ["eps"], some ["*", "F", "T'"], some ["eps"], none]]

/-! ## Further example grammars -/

/-- The grammar of the rule lines `A -> C x | a`, `B -> eps`, `C -> B A y`. -/
def cycleGrammar : Grammar :=
  addRuleLine (addRuleLine (addRuleLine Grammar.empty "A -> C x | a") "B -> eps") "C -> B A y"

/-- The grammar of the rule line `A -> A | a`. -/
def selfLoopGrammar : Grammar := addRuleLine Grammar.empty "A -> A | a"


/-- The grammar of the rule line `eps -> a`, whose left-hand side is the symbol `EPS`. -/
def epsLhsGrammar : Grammar :=
  (addRuleLine Grammar.empty "eps -> a").recomputeSymbols

def epsLhsFIRST : SetMap := [("a", ["a"]), ("eps", ["a", "eps"])]


/-- The grammar of the rule lines `S -> A b`, `A -> a | eps`. -/
def epsGrammar : Grammar :=
  (addRuleLine (addRuleLine Grammar.empty "S -> A b") "A -> a | eps").recomputeSymbols

def epsFIRST : SetMap :=
  [("A", ["a", "eps"]), ("S", ["a", "b"]), ("a", ["a"]), ("b", ["b"]), ("eps", ["eps"])]

def epsFOLLOW : SetMap := [("A", ["b"]), ("S", ["$"])]


/-- The grammar of the rule lines `S -> A a`, `A -> B`, `B -> a | eps`. -/
def chainGrammar : Grammar :=
  (addRuleLine (addRuleLine (addRuleLine Grammar.empty "S -> A a") "A -> B")
    "B -> a | eps").recomputeSymbols

def chainFIRST : SetMap :=
  [("A", ["a", "eps"]), ("B", ["a", "eps"]), ("S", ["a"]), ("a", ["a"]), ("eps", ["eps"])]

def chainFOLLOW : SetMap := [("A", ["a"]), ("B", ["a"]), ("S", ["$"])]

def chainTable : Table :=
  [("A", [("$", ParseTableCell.blank), ("a", ⟨true, true, ["B"], "A"⟩)]),
   ("B", [("$", ParseTableCell.blank), ("a", ⟨true, true, ["a"], "B"⟩)]),
   ("S", [("$", ParseTableCell.blank), ("a", ⟨true, false, ["A", "a"], "S"⟩)])]

/-- The rule line `S → a`, written with the arrow U+2192 and without `->`. -/
def arrowLine : String := ⟨['S', ' '] ++ unicodeArrow ++ [' ', 'a']⟩

/-- The candidate names of `makeUniqueNonTerminal` for the base `A`, all of them. -/
def crowdedNames : List String :=
  (List.range 999).foldr
    (fun i acc => ("A" ++ toString (i + 1)) :: ("A" ++ "'" ++ toString (i + 1)) :: acc)
    ["A" ++ "'", "A" ++ "_NEW"]

/-- A grammar whose nonterminals are all the candidate names for the base `A`. -/
def crowdedGrammar : Grammar :=
  { start := "A", nonterminals := crowdedNames.foldl (fun s x => setInsert x s) [],
    terminals := [], prod := [] }

/-- The grammar of the rule line `S -> a | a b`. -/
def prefixGrammar : Grammar :=
  (addRuleLine Grammar.empty "S -> a | a b").recomputeSymbols

def prefixFIRST : SetMap := [("S", ["a"]), ("a", ["a"]), ("b", ["b"]), ("eps", ["eps"])]

def prefixFOLLOW : SetMap := [("S", ["$"])]

def prefixTable : Table :=
  [("S", [("$", ParseTableCell.blank), ("a", ⟨true, true, ["a"], "S"⟩),
          ("b", ParseTableCell.blank)])]

/-- The grammar `S -> a S'`, `S' -> eps | b` that `leftFactor` makes of `prefixGrammar`. -/
def factoredGrammar : Grammar :=
  { start := "S", nonterminals := ["S", "S'"], terminals := ["a", "b"],
    prod := [("S", [["a", "S'"]]), ("S'", [["eps"], ["b"]])] }

def factoredFIRST : SetMap :=
  [("S", ["a"]), ("S'", ["b", "eps"]), ("a", ["a"]), ("b", ["b"]), ("eps", ["eps"])]

def factoredFOLLOW : SetMap := [("S", ["$"]), ("S'", ["$"])]

def factoredTable : Table :=
  [("S", [("$", ParseTableCell.blank), ("a", ⟨true, false, ["a", "S'"], "S"⟩),
          ("b", ParseTableCell.blank)]),
   ("S'", [("$", ⟨true, false, ["eps"], "S'"⟩), ("a", ParseTableCell.blank),
           ("b", ⟨true, false, ["b"], "S'"⟩)])]

/-- The grammar of the rule line `eps -> eps eps`, whose only nonterminal is the symbol
`EPS`. -/
def loopGrammar : Grammar :=
  (addRuleLine Grammar.empty "eps -> eps eps").recomputeSymbols

def loopFIRST : SetMap := [("eps", ["eps"])]

def loopFOLLOW : SetMap := [("eps", ["$"])]

def loopTable : Table := [("eps", [("$", ⟨true, false, ["eps", "eps"], "eps"⟩)])]

/-! ## Configurations of the parser -/

/-- The configurations (stack with its top at the head, read cursor `ip`) at the head of
the loop of `predictiveParse`: the configuration `(st, ip)` and those of at most `fuel`
iterations after it. The list ends at the configuration in which the loop is left. -/
def parseConfigs (g : Grammar) (table : Table) (inp : List String) :
    Nat → List String → Nat → List (List String × Nat)
  | 0, st, ip => [(st, ip)]
  | _ + 1, [], ip => [([], ip)]
  | fuel + 1, X :: st, ip =>
    (X :: st, ip) ::
      match parseStep g table inp X st ip with
      | .next st1 ip1 => parseConfigs g table inp fuel st1 ip1
      | _ => []

/-! ## Derivations -/

/-- The symbols that an alternative stands for in a derivation: `[EPS]` stands for the
empty sequence. -/
def altBody (rhs : List String) : List String := if rhs = [EPS] then [] else rhs

/-- One derivation step of `g`: an occurrence of a nonterminal is replaced by one of its
alternatives. -/
def Rewrites (g : Grammar) (u v : List String) : Prop :=
  ∃ pre A suf rhs, A ∈ g.nonterminals ∧ rhs ∈ mapGetD A g.prod [] ∧
    u = pre ++ A :: suf ∧ v = pre ++ altBody rhs ++ suf

/-- The sequence `v` is derivable from `u` by the productions of `g`. -/
def Generates (g : Grammar) : List String → List String → Prop :=
  Relation.ReflTransGen (Rewrites g)

/-! ## The substitution step in the words of its description -/

/-- The list that the description of `substituteAjIntoAi` gives for `Ai`: every alternative
that begins with `Aj` is replaced by one alternative per alternative `delta` of `Aj`, in
order, namely `delta` (dropped when it is `[EPS]`) followed by the remainder after the
leading `Aj`, an empty result being `[EPS]`; every other alternative stays where it is. -/
def substituteSpec (Aj : String) (deltas : List (List String)) :
    List (List String) → List (List String)
  | [] => []
  | rhs :: more =>
    (if beginsWith Aj rhs then
      deltas.map (fun delta =>
        if (if delta = [EPS] then [] else delta) ++ rhs.tail = [] then [EPS]
        else (if delta = [EPS] then [] else delta) ++ rhs.tail)
    else [rhs]) ++ substituteSpec Aj deltas more

/-! ## The rewrite of one left-factoring step -/

/-- The grammar `res` is `g` after the rewrite of `leftFactorOnce` at the nonterminal `A`:
the search finds a common start of positive length shared by at least two alternatives,
`A` keeps the alternatives outside the group followed by the common start with the new
name, the new name gets the remainders of the group, and nothing else changes. -/
def FactoredAt (g res : Grammar) (A : String) : Prop :=
  (bestOuter (mapGetD A g.prod []) (0, [])).1 ≠ 0 ∧
  2 ≤ ((mapGetD A g.prod []).filter
        (sharesStart (bestOuter (mapGetD A g.prod []) (0, [])).1
          (bestOuter (mapGetD A g.prod []) (0, [])).2)).length ∧
  mapGetD A res.prod []
    = (mapGetD A g.prod []).filter
        (fun rhs => !sharesStart (bestOuter (mapGetD A g.prod []) (0, [])).1
          (bestOuter (mapGetD A g.prod []) (0, [])).2 rhs)
      ++ [(bestOuter (mapGetD A g.prod []) (0, [])).2 ++ [makeUniqueNonTerminal g A]] ∧
  mapGetD (makeUniqueNonTerminal g A) res.prod []
    = ((mapGetD A g.prod []).filter
        (sharesStart (bestOuter (mapGetD A g.prod []) (0, [])).1
          (bestOuter (mapGetD A g.prod []) (0, [])).2)).map
        (remainder (bestOuter (mapGetD A g.prod []) (0, [])).1) ∧
  (∀ X, X ≠ A → X ≠ makeUniqueNonTerminal g A → mapGetD X res.prod [] = mapGetD X g.prod []) ∧
  res.nonterminals = setInsert (makeUniqueNonTerminal g A) g.nonterminals ∧
  res.start = g.start

/-! ## More example grammars -/

/-- The grammar of the rule line `S -> $ id`, which uses the end marker as a symbol. -/
def dollarGrammar : Grammar :=
  (addRuleLine Grammar.empty "S -> $ id").recomputeSymbols

def dollarFIRST : SetMap := [("$", ["$"]), ("S", ["$"]), ("eps", ["eps"]), ("id", ["id"])]

def dollarFOLLOW : SetMap := [("S", ["$"])]

def dollarTable : Table :=
  [("S", [("$", ⟨true, false, ["$", "id"], "S"⟩), ("id", ParseTableCell.blank)])]

/-- The grammar of the rule line `S -> S' a | S' b`, in which `S'` is a terminal. -/
def primedGrammar : Grammar :=
  (addRuleLine Grammar.empty "S -> S' a | S' b").recomputeSymbols

/-- The grammar of the rule line `A -> A x | A'`, in which `A'` is a terminal. -/
def primedRecGrammar : Grammar :=
  (addRuleLine Grammar.empty "A -> A x | A'").recomputeSymbols

/-- The grammar of the rule line `A -> a eps b | a eps c`. -/
def epsInsideGrammar : Grammar :=
  (addRuleLine Grammar.empty "A -> a eps b | a eps c").recomputeSymbols

/-- A grammar whose nonterminal `A` has no production list. -/
def bareGrammar : Grammar :=
  { start := "A", nonterminals := ["A"], terminals := [], prod := [] }

/-- A map for `epsGrammar` that is closed under the scan rule and larger than its FIRST
map: the set of `A` has `b` as well. -/
def epsUpper : SetMap :=
  [("A", ["a", "b", "eps"]), ("S", ["a", "b"]), ("a", ["a"]), ("b", ["b"]), ("eps", ["eps"])]

/-! ## The keys of the production map -/

/-- The key set of the map `prod` is the set `nts`: every element of `nts` is a key and
the key of every entry is an element of `nts`. -/
def KeysExact (nts : List String) (prod : List (String × List (List String))) : Prop :=
  (∀ A ∈ nts, (mapFind A prod).isSome = true) ∧ ∀ kv ∈ prod, kv.1 ∈ nts

instance (nts : List String) (prod : List (String × List (List String))) :
    Decidable (KeysExact nts prod) := by
  unfold KeysExact
  infer_instance

/-- The key set of `g.prod` is the set of nonterminals of `g`. -/
def ProdKeys (g : Grammar) : Prop := KeysExact g.nonterminals g.prod

instance (g : Grammar) : Decidable (ProdKeys g) := by
  unfold ProdKeys
  infer_instance

/-- The grammars after the calls of `substituteAjIntoAi` in the loop
`for (j = 0; j < i; j++)` of `eliminateLeftRecursion`, in order. -/
def substituteTrace (Ai : String) : List String → Grammar → List Grammar
  | [], _ => []
  | Aj :: more, g =>
    substituteAjIntoAi g Ai Aj :: substituteTrace Ai more (substituteAjIntoAi g Ai Aj)

/-- The grammars that `eliminateLeftRecursion` goes through: the grammar at the head of
each iteration of the outer loop (so after each call of
`eliminateImmediateLeftRecursion`), the grammar after each call of `substituteAjIntoAi`,
and the grammar after the final `recomputeSymbols`, in order, for at most `fuel`
iterations of the outer loop. -/
def elrTrace : Nat → Grammar → List String → Nat → List Grammar
  | 0, g, _, _ => [g]
  | fuel + 1, g, nts, i =>
    match nts.get? i with
    | none => [g, g.recomputeSymbols]
    | some Ai =>
      let g1 := (nts.take i).foldl (fun acc Aj => substituteAjIntoAi acc Ai Aj) g
      let g2 := eliminateImmediateLeftRecursion g1 Ai
      g :: (substituteTrace Ai (nts.take i) g ++
        (if g2.nonterminals.length ≠ nts.length then
          match findIndex Ai g2.nonterminals with
          | some k => elrTrace fuel g2 g2.nonterminals (k + 1)
          | none => elrTrace fuel g2 g2.nonterminals (i + 1)
        else elrTrace fuel g2 nts (i + 1)))

/-! ## The caller of the predictive parser -/

/-- A grammar value whose recorded terminal `zz` occurs in no right-hand side: the
production `S -> a` with the terminal set left as it was. -/
def staleGrammar : Grammar :=
  { start := "S", nonterminals := ["S"], terminals := ["zz"], prod := [("S", [["a"]])] }

/-! ## The invariant of the left-recursion elimination loop -/

/-- The name ends with an apostrophe, the mark that `makeUniqueNonTerminal` puts on a
fresh name. -/
def endsWithQuote (s : String) : Bool := s.data.getLast? == some (Char.ofNat 39)

/-- The name without its last character: `A` for the fresh name `A'`. -/
def parentOf (s : String) : String := ⟨s.data.dropLast⟩

/-- Every name `Z'` among `nts` belongs to a nonterminal `Z` before the position `i`, so
the name made for a nonterminal at the position `i` or later is not taken. -/
def FreshAt (nts : List String) (i : Nat) : Prop :=
  ∀ Z, Z ++ "'" ∈ nts → Z ∈ nts.take i

/-- A state of the loop of `eliminateLeftRecursion` in which a nonterminal `W` at the
position `i` or later has the alternative `W`. -/
def Stuck (g : Grammar) (nts : List String) (i : Nat) : Prop :=
  nts = g.nonterminals ∧ SetOK nts ∧ FreshAt nts i ∧
    ∃ W ∈ nts, W ∉ nts.take i ∧ [W] ∈ mapGetD W g.prod []

/-- The nonterminal `y` among `nts` was added by the elimination: it is not one of the
nonterminals `O` of the input. -/
def IsNew (O nts : List String) (y : String) : Prop := y ∈ nts ∧ y ∉ O

/-- The added nonterminals that lead the alternative `rhs` of the added nonterminal `X`
were made for earlier nonterminals than `X` was, except that `X` itself may stand at the
very end. -/
def RunOK (O nts : List String) (X : String) (rhs : List String) : Prop :=
  ∀ pre s post, rhs = pre ++ s :: post → (∀ y ∈ pre, IsNew O nts y) → IsNew O nts s →
    strLt (parentOf s) (parentOf X) = true ∨ (s = X ∧ post = [])

/-- The symbol `s` is not the name `A'` of a nonterminal `A` of the input outside `T`:
it is not a name that the loop has yet to make. -/
def Unmade (O T : List String) (s : String) : Prop := ∀ A ∈ O, A ∉ T → s ≠ A ++ "'"

/-- The invariant of the loop of `eliminateLeftRecursion` at the position `i`, for the
nonterminals `O` of the input: the added nonterminals are the names `P'` of nonterminals
`P` of the input before `i`; the names `A'` of the others occur in no alternative; an
alternative of a nonterminal of the input is not empty, is not `[EPS]`, does not begin
with an added nonterminal and, before `i`, begins with no nonterminal up to its own; the
alternatives of the added nonterminals satisfy `RunOK`. -/
structure ElrInv (O : List String) (g : Grammar) (nts : List String) (i : Nat) : Prop where
  hn : nts = g.nonterminals
  ok : SetOK nts
  sub : ∀ A ∈ O, A ∈ nts
  oq : ∀ A ∈ O, endsWithQuote A = false
  child : ∀ X ∈ nts, X ∉ O → ∃ P ∈ O, P ∈ nts.take i ∧ X = P ++ "'"
  fresh : ∀ B ∈ nts, ∀ rhs ∈ mapGetD B g.prod [], ∀ s ∈ rhs, Unmade O (nts.take i) s
  orig : ∀ A ∈ O, ∀ rhs ∈ mapGetD A g.prod [], ∃ h t, rhs = h :: t ∧ rhs ≠ [EPS] ∧
    (h ∈ nts → h ∈ O) ∧ (A ∈ nts.take i → h ∈ nts → strLt A h = true)
  added : ∀ X ∈ nts, X ∉ O → ∀ rhs ∈ mapGetD X g.prod [], RunOK O nts X rhs

/-- The grammar of the rule lines `A -> B a | c`, `B -> A b | d`: `A` is reached again
from the first symbol `B` of its alternative `B a`. -/
def indirectGrammar : Grammar := readGrammarFromUser ["A -> B a | c", "B -> A b | d"]

/-- The grammar `A -> B a | c`, `B -> c b B' | d B'`, `B' -> a b B' | eps`. -/
def indirectResult : Grammar :=
  ⟨"A", ["A", "B", "B'"], ["a", "b", "c", "d"],
    [("A", [["B", "a"], ["c"]]), ("B", [["c", "b", "B'"], ["d", "B'"]]),
      ("B'", [["a", "b", "B'"], ["eps"]])]⟩

/-- The grammar of the rule lines `A -> A y | B x`, `B -> A' A`, in which the name `A'`
is already a symbol. -/
def takenNameGrammar : Grammar := readGrammarFromUser ["A -> A y | B x", "B -> A' A"]

/-- The grammar of the rule lines `A -> A y | B x`, `A' -> z`, `B -> A1 A`, in which the
name `A'` is a nonterminal and the next candidate `A1` is already a symbol. -/
def quotedNameGrammar : Grammar :=
  readGrammarFromUser ["A -> A y | B x", "A' -> z", "B -> A1 A"]

/-- The grammar value `A -> C x | a`, `C -> B A y` in which the only alternative of `B`
is the empty list of symbols. -/
def emptyAltGrammar : Grammar :=
  ⟨"A", ["A", "B", "C"], ["a", "x", "y"],
    [("A", [["C", "x"], ["a"]]), ("B", [[]]), ("C", [["B", "A", "y"]])]⟩

/-! # Theorems -/

/-! ## The round trip on the expression grammar -/

/-- C1: from the three rule lines of the expression grammar, left-recursion elimination,
left factoring and `recomputeSymbols` give a grammar whose table, built from its FIRST and
FOLLOW sets, makes the predictive parser accept `id+id*id` and `id*(id+id)` and reject
`id+` and `+id`. -/
theorem roundtrip_expression_grammar :
    ∃ g1 g2 FIRST FOLLOW table cols,
      eliminateLeftRecursion 6 exprLines = some g1 ∧
      leftFactor 1 g1 = some g2 ∧
      computeFIRST 3 g2.recomputeSymbols = .ok FIRST ∧
      computeFOLLOW 3 g2.recomputeSymbols FIRST = .ok FOLLOW ∧
      buildParseTable g2.recomputeSymbols FIRST FOLLOW = .ok (table, cols) ∧
      predictiveParse 24 g2.recomputeSymbols table "id+id*id" = some true ∧
      predictiveParse 40 g2.recomputeSymbols table "id*(id+id)" = some true ∧
      predictiveParse 40 g2.recomputeSymbols table "id+" = some false ∧
      predictiveParse 40 g2.recomputeSymbols table "+id" = some false :=
  ⟨exprLL1, exprLL1, exprFIRST, exprFOLLOW, exprTable, ["$", "(", ")", "*", "+", "id"],
    by decide!, by decide!, by decide!, by decide!, by decide!, by decide!, by decide!,
    by decide!, by decide!⟩

/-! ## Sets and maps -/

theorem setHas_iff (x : String) (s : List String) : setHas x s = true ↔ x ∈ s := by
  simp [setHas]

theorem setHas_false_iff (x : String) (s : List String) : setHas x s = false ↔ x ∉ s := by
  simp [setHas]

theorem mem_setInsert (x y : String) (s : List String) :
    y ∈ setInsert x s ↔ y = x ∨ y ∈ s := by
  induction s with
  | nil => simp [setInsert]
  | cons z zs ih =>
    unfold setInsert
    split
    · rename_i h
      subst h
      simp only [List.mem_cons]
      tauto
    · split
      · simp only [List.mem_cons]
      · simp only [List.mem_cons, ih]
        tauto

theorem mem_setInsert_self (x : String) (s : List String) : x ∈ setInsert x s :=
  (mem_setInsert x x s).2 (Or.inl rfl)

theorem mem_setInsert_of_mem {x y : String} {s : List String} (h : y ∈ s) : y ∈ setInsert x s :=
  (mem_setInsert x y s).2 (Or.inr h)

theorem length_setInsert_of_not_mem (x : String) (s : List String) (h : x ∉ s) :
    (setInsert x s).length = s.length + 1 := by
  induction s with
  | nil => rfl
  | cons y ys ih =>
    simp only [List.mem_cons, not_or] at h
    unfold setInsert
    simp only [h.1, if_false]
    split
    · rfl
    · simp [ih h.2]

theorem mapFind_mapSet {V : Type} (k k' : String) (v : V) (m : List (String × V)) :
    mapFind k' (mapSet k v m) = if k' = k then some v else mapFind k' m := by
  induction m with
  | nil => simp [mapSet, mapFind]
  | cons p m ih =>
    obtain ⟨k0, v0⟩ := p
    unfold mapSet
    split
    · rename_i h
      subst h
      simp only [mapFind]
      split <;> rfl
    · split
      · simp only [mapFind]
      · rename_i h1 h2
        simp only [mapFind, ih]
        by_cases h3 : k' = k0
        · subst h3
          have : ¬ k' = k := fun h => h1 h.symm
          simp [this]
        · simp [h3]

theorem mapFind_mapSet_same {V : Type} (k : String) (v : V) (m : List (String × V)) :
    mapFind k (mapSet k v m) = some v := by
  simp [mapFind_mapSet]

theorem mapFind_mapSet_ne {V : Type} {k k' : String} (h : k' ≠ k) (v : V) (m : List (String × V)) :
    mapFind k' (mapSet k v m) = mapFind k' m := by
  simp [mapFind_mapSet, h]

theorem mapGetD_mapSet {V : Type} (k k' : String) (v d : V) (m : List (String × V)) :
    mapGetD k' (mapSet k v m) d = if k' = k then v else mapGetD k' m d := by
  unfold mapGetD
  rw [mapFind_mapSet]
  split <;> simp

theorem mapGetD_mapSet_same {V : Type} (k : String) (v d : V) (m : List (String × V)) :
    mapGetD k (mapSet k v m) d = v := by
  simp [mapGetD_mapSet]

theorem mapGetD_mapSet_ne {V : Type} {k k' : String} (h : k' ≠ k) (v d : V) (m : List (String × V)) :
    mapGetD k' (mapSet k v m) d = mapGetD k' m d := by
  simp [mapGetD_mapSet, h]

theorem mapEnsure_of_some {V : Type} {k : String} {m : List (String × V)} {v : V} (d : V)
    (h : mapFind k m = some v) : mapEnsure k m d = m := by
  simp [mapEnsure, h]

theorem mapEnsure_of_isSome {V : Type} {k : String} {m : List (String × V)} (d : V)
    (h : (mapFind k m).isSome) : mapEnsure k m d = m := by
  obtain ⟨v, hv⟩ := Option.isSome_iff_exists.mp h
  exact mapEnsure_of_some d hv

theorem mapGetD_mapEnsure {V : Type} (k k' : String) (d : V) (m : List (String × V)) :
    mapGetD k' (mapEnsure k m d) d = mapGetD k' m d := by
  unfold mapEnsure
  cases h : mapFind k m with
  | some v => rfl
  | none =>
    simp only [mapGetD_mapSet]
    split
    · rename_i h1
      subst h1
      simp [mapGetD, h]
    · rfl

theorem mapFind_mapEnsure_ne {V : Type} {k k' : String} (h : k' ≠ k) (d : V) (m : List (String × V)) :
    mapFind k' (mapEnsure k m d) = mapFind k' m := by
  unfold mapEnsure
  cases mapFind k m with
  | some v => rfl
  | none => simp [mapFind_mapSet, h]

theorem mapFind_mapEnsure_isSome {V : Type} (k : String) (d : V) (m : List (String × V)) :
    (mapFind k (mapEnsure k m d)).isSome := by
  unfold mapEnsure
  cases h : mapFind k m with
  | some v => simp [h]
  | none => simp [mapFind_mapSet]

theorem mapFind_isSome_mapEnsure {V : Type} {k' : String} (k : String) (d : V) {m : List (String × V)}
    (h : (mapFind k' m).isSome) : (mapFind k' (mapEnsure k m d)).isSome := by
  by_cases hk : k' = k
  · subst hk
    exact mapFind_mapEnsure_isSome _ _ _
  · rw [mapFind_mapEnsure_ne hk]
    exact h

theorem mapFind_isSome_mapSet {V : Type} {k' : String} (k : String) (v : V) {m : List (String × V)}
    (h : (mapFind k' m).isSome) : (mapFind k' (mapSet k v m)).isSome := by
  rw [mapFind_mapSet]
  split
  · rfl
  · exact h

theorem mapGetD_of_some {V : Type} {k : String} {m : List (String × V)} {v : V} (d : V)
    (h : mapFind k m = some v) : mapGetD k m d = v := by
  simp [mapGetD, h]

/-! ## The order of strings -/

theorem byteLt_irrefl (a : List Char) : byteLt a a = false := by
  induction a with
  | nil => rfl
  | cons c cs ih => simp [byteLt, ih]

theorem byteLt_asymm (a b : List Char) (h : byteLt a b = true) : byteLt b a = false := by
  induction a generalizing b with
  | nil => cases b <;> simp_all [byteLt]
  | cons c cs ih =>
    cases b with
    | nil => simp [byteLt] at h
    | cons d ds =>
      simp only [byteLt] at h ⊢
      by_cases h1 : c.toNat < d.toNat
      · have h2 : ¬ d.toNat < c.toNat := by omega
        simp [h1, h2]
      · by_cases h2 : d.toNat < c.toNat
        · simp [h1, h2] at h
        · simp only [h1, h2, if_false] at h ⊢
          exact ih ds h

theorem byteLt_trans (a b c : List Char) (h1 : byteLt a b = true) (h2 : byteLt b c = true) :
    byteLt a c = true := by
  induction a generalizing b c with
  | nil =>
    cases b with
    | nil => simp [byteLt] at h1
    | cons d ds =>
      cases c with
      | nil => simp [byteLt] at h2
      | cons e es => rfl
  | cons x xs ih =>
    cases b with
    | nil => simp [byteLt] at h1
    | cons d ds =>
      cases c with
      | nil => simp [byteLt] at h2
      | cons e es =>
        simp only [byteLt] at h1 h2 ⊢
        by_cases p1 : x.toNat < d.toNat
        · by_cases p2 : d.toNat < e.toNat
          · have : x.toNat < e.toNat := by omega
            simp [this]
          · by_cases p3 : e.toNat < d.toNat
            · simp [p2, p3] at h2
            · have : x.toNat < e.toNat := by omega
              simp [this]
        · by_cases p4 : d.toNat < x.toNat
          · simp [p1, p4] at h1
          · simp only [p1, p4, if_false] at h1
            by_cases p2 : d.toNat < e.toNat
            · have : x.toNat < e.toNat := by omega
              simp [this]
            · by_cases p3 : e.toNat < d.toNat
              · simp [p2, p3] at h2
              · simp only [p2, p3, if_false] at h2
                have q1 : ¬ x.toNat < e.toNat := by omega
                have q2 : ¬ e.toNat < x.toNat := by omega
                simp only [q1, q2, if_false]
                exact ih ds es h1 h2

theorem char_eq_of_toNat_eq (c d : Char) (h : c.toNat = d.toNat) : c = d := by
  apply Char.ext
  apply UInt32.ext
  exact h

theorem byteLt_total (a b : List Char) (hne : a ≠ b) (h : byteLt a b = false) :
    byteLt b a = true := by
  induction a generalizing b with
  | nil =>
    cases b with
    | nil => exact absurd rfl hne
    | cons d ds => simp [byteLt] at h
  | cons c cs ih =>
    cases b with
    | nil => rfl
    | cons d ds =>
      simp only [byteLt] at h ⊢
      by_cases h1 : c.toNat < d.toNat
      · simp [h1] at h
      · by_cases h2 : d.toNat < c.toNat
        · simp [h2]
        · simp only [h1, h2, if_false] at h ⊢
          have hcd : c = d := char_eq_of_toNat_eq c d (by omega)
          subst hcd
          exact ih ds (fun e => hne (by rw [e])) h

theorem byteLt_append (a s : List Char) (hs : s ≠ []) : byteLt a (a ++ s) = true := by
  induction a with
  | nil =>
    cases s with
    | nil => exact absurd rfl hs
    | cons c cs => rfl
  | cons c cs ih => simp [byteLt, ih]

theorem strLt_irrefl (a : String) : strLt a a = false := byteLt_irrefl _

theorem strLt_asymm {a b : String} (h : strLt a b = true) : strLt b a = false :=
  byteLt_asymm _ _ h

theorem strLt_trans {a b c : String} (h1 : strLt a b = true) (h2 : strLt b c = true) :
    strLt a c = true :=
  byteLt_trans _ _ _ h1 h2

theorem strLt_total {a b : String} (hne : a ≠ b) (h : strLt a b = false) : strLt b a = true :=
  byteLt_total _ _ (fun e => hne (String.ext e)) h

theorem strLt_ne {a b : String} (h : strLt a b = true) : a ≠ b := by
  intro e
  subst e
  rw [strLt_irrefl] at h
  exact Bool.false_ne_true h

theorem strLt_append (a s : String) (hs : s ≠ "") : strLt a (a ++ s) = true := by
  unfold strLt
  rw [String.data_append]
  apply byteLt_append
  intro e
  exact hs (String.ext e)

/-! ## Sets kept in order -/

theorem setOK_setInsert (x : String) (s : List String) (h : SetOK s) : SetOK (setInsert x s) := by
  unfold SetOK at h ⊢
  induction s with
  | nil => simp [setInsert]
  | cons y ys ih =>
    rw [List.pairwise_cons] at h
    unfold setInsert
    split
    · exact List.pairwise_cons.mpr h
    · rename_i hxy
      split
      · rename_i hlt
        refine List.pairwise_cons.mpr ⟨?_, List.pairwise_cons.mpr h⟩
        intro z hz
        rcases List.mem_cons.mp hz with rfl | hz
        · exact hlt
        · exact strLt_trans hlt (h.1 z hz)
      · rename_i hlt
        refine List.pairwise_cons.mpr ⟨?_, ih h.2⟩
        intro z hz
        rcases (mem_setInsert x z ys).1 hz with rfl | hz
        · exact strLt_total hxy (by simpa using hlt)
        · exact h.1 z hz

theorem setOK_nodup (s : List String) (h : SetOK s) : s.Nodup := by
  unfold SetOK at h
  exact h.imp (fun hab => strLt_ne hab)

theorem setInsert_of_mem (x : String) (s : List String) (h : SetOK s) (hx : x ∈ s) :
    setInsert x s = s := by
  unfold SetOK at h
  induction s with
  | nil => simp at hx
  | cons y ys ih =>
    rw [List.pairwise_cons] at h
    unfold setInsert
    split
    · rfl
    · rename_i hxy
      have hx' : x ∈ ys := by
        rcases List.mem_cons.mp hx with e | e
        · exact absurd e hxy
        · exact e
      have : strLt x y = false := strLt_asymm (h.1 x hx')
      simp [this, ih h.2 hx']

theorem setInsert_last (x : String) (s : List String) (h : ∀ y ∈ s, strLt y x = true) :
    setInsert x s = s ++ [x] := by
  induction s with
  | nil => rfl
  | cons y ys ih =>
    have hy := h y (List.mem_cons_self _ _)
    have h1 : x ≠ y := fun e => strLt_ne hy e.symm
    have h2 : strLt x y = false := strLt_asymm hy
    unfold setInsert
    simp [h1, h2, ih (fun z hz => h z (List.mem_cons_of_mem _ hz))]

theorem setOK_nil : SetOK [] := List.Pairwise.nil

theorem setOK_insertNonEps (xs result : List String) (h : SetOK result) :
    SetOK (insertNonEps xs result) := by
  unfold insertNonEps
  induction xs generalizing result with
  | nil => exact h
  | cons a xs ih =>
    simp only [List.foldl_cons]
    split
    · exact ih result h
    · exact ih _ (setOK_setInsert a result h)

theorem setOK_firstOfSeqLoop (FIRST : SetMap) (g : Grammar) (seq result : List String)
    (h : SetOK result) : SetOK (firstOfSeqLoop FIRST g seq result) := by
  induction seq generalizing result with
  | nil => exact setOK_setInsert _ _ h
  | cons X rest ih =>
    unfold firstOfSeqLoop
    split
    · exact setOK_setInsert _ _ h
    · split
      · exact setOK_setInsert _ _ h
      · split
        · split
          · exact ih _ (setOK_insertNonEps _ _ h)
          · exact setOK_insertNonEps _ _ h
        · exact setOK_setInsert _ _ h

theorem setOK_firstOfSequence (seq : List String) (FIRST : SetMap) (g : Grammar) :
    SetOK (firstOfSequence seq FIRST g) :=
  setOK_firstOfSeqLoop FIRST g seq [] setOK_nil

/-! ## Left factoring: common starts -/

theorem commonPrefixLen_comm (a b : List String) : commonPrefixLen a b = commonPrefixLen b a := by
  induction a generalizing b with
  | nil => cases b <;> simp [commonPrefixLen]
  | cons x xs ih =>
    cases b with
    | nil => simp [commonPrefixLen]
    | cons y ys =>
      simp only [commonPrefixLen]
      by_cases h : x = y
      · subst h
        simp [ih ys]
      · have h' : ¬ y = x := fun e => h e.symm
        simp [h, h']

theorem commonPrefixLen_le_left (a b : List String) : commonPrefixLen a b ≤ a.length := by
  induction a generalizing b with
  | nil => cases b <;> simp [commonPrefixLen]
  | cons x xs ih =>
    cases b with
    | nil => simp [commonPrefixLen]
    | cons y ys =>
      simp only [commonPrefixLen]
      split
      · have := ih ys
        simp only [List.length_cons]
        omega
      · omega

theorem take_commonPrefixLen (a b : List String) :
    a.take (commonPrefixLen a b) = b.take (commonPrefixLen a b) := by
  induction a generalizing b with
  | nil => cases b <;> simp [commonPrefixLen]
  | cons x xs ih =>
    cases b with
    | nil => simp [commonPrefixLen]
    | cons y ys =>
      simp only [commonPrefixLen]
      split
      · rename_i h
        simp [List.take_succ_cons, h.1, ih ys]
      · simp

theorem eps_not_mem_take_commonPrefixLen (a b : List String) :
    EPS ∉ a.take (commonPrefixLen a b) := by
  induction a generalizing b with
  | nil => cases b <;> simp [commonPrefixLen]
  | cons x xs ih =>
    cases b with
    | nil => simp [commonPrefixLen]
    | cons y ys =>
      simp only [commonPrefixLen]
      split
      · rename_i h
        simp only [List.take_succ_cons, List.mem_cons, not_or]
        exact ⟨fun e => h.2 e.symm, ih ys⟩
      · simp

theorem commonPrefixLen_eps_left (b : List String) : commonPrefixLen [EPS] b = 0 := by
  cases b <;> simp [commonPrefixLen]

theorem commonPrefixLen_eps_right (a : List String) : commonPrefixLen a [EPS] = 0 := by
  rw [commonPrefixLen_comm]
  exact commonPrefixLen_eps_left a

theorem commonPrefixLen_nil_left (b : List String) : commonPrefixLen [] b = 0 := by
  cases b <;> simp [commonPrefixLen]

theorem commonPrefixLen_nil_right (a : List String) : commonPrefixLen a [] = 0 := by
  cases a <;> simp [commonPrefixLen]

/-- With a common start `P` free of `EPS`, the common start of two extensions of `P`
is `P` followed by the common start of the extensions. -/
theorem commonPrefixLen_append (P s t : List String) (hP : EPS ∉ P) :
    commonPrefixLen (P ++ s) (P ++ t) = P.length + commonPrefixLen s t := by
  induction P with
  | nil => simp
  | cons c P ih =>
    simp only [List.mem_cons, not_or] at hP
    have hc : c ≠ EPS := fun e => hP.1 e.symm
    simp only [List.cons_append, commonPrefixLen, List.length_cons]
    simp [hc, ih hP.2]
    omega

/-- An alternative that does not start with `P` has the same common start with every
extension of `P`. -/
theorem commonPrefixLen_of_not_start (P r s t : List String) (hr : ¬ ∃ u, r = P ++ u) :
    commonPrefixLen r (P ++ s) = commonPrefixLen r (P ++ t) := by
  induction P generalizing r with
  | nil => exact absurd ⟨r, by simp⟩ hr
  | cons c P ih =>
    cases r with
    | nil => simp [commonPrefixLen]
    | cons d r =>
      simp only [List.cons_append, commonPrefixLen]
      by_cases h : d = c ∧ d ≠ EPS
      · have hr' : ¬ ∃ u, r = P ++ u := by
          rintro ⟨u, hu⟩
          exact hr ⟨u, by simp [h.1, hu]⟩
        simp [h, ih r hr']
      · simp [h]

theorem sharesStart_iff (L : Nat) (P g : List String) (hP : P.length = L) :
    sharesStart L P g = true ↔ ∃ s, g = P ++ s := by
  unfold sharesStart
  simp only [Bool.and_eq_true, decide_eq_true_eq, beq_iff_eq]
  constructor
  · rintro ⟨_, h2⟩
    refine ⟨g.drop L, ?_⟩
    have : P.take L = P := by rw [← hP]; exact List.take_length P
    rw [this] at h2
    rw [← h2]
    exact (List.take_append_drop L g).symm
  · rintro ⟨s, rfl⟩
    subst hP
    simp

/-! ## Left factoring: the best common start -/

theorem bestInner_spec (a : List String) (bs : List (List String)) (st : Nat × List String) :
    st.1 ≤ (bestInner a bs st).1 ∧
    (∀ b ∈ bs, commonPrefixLen a b ≤ (bestInner a bs st).1) ∧
    (bestInner a bs st = st ∨
      ∃ b ∈ bs, commonPrefixLen a b = (bestInner a bs st).1 ∧
        (bestInner a bs st).2 = a.take (bestInner a bs st).1 ∧ 0 < (bestInner a bs st).1) := by
  induction bs generalizing st with
  | nil => simp [bestInner]
  | cons b bs ih =>
    simp only [bestInner]
    by_cases h : commonPrefixLen a b > st.1
    · simp only [h, if_true]
      obtain ⟨h1, h2, h3⟩ := ih (commonPrefixLen a b, a.take (commonPrefixLen a b))
      refine ⟨by simp only at h1; omega, ?_, ?_⟩
      · intro b' hb'
        rcases List.mem_cons.mp hb' with rfl | hb'
        · exact h1
        · exact h2 b' hb'
      · right
        rcases h3 with h3 | ⟨b', hb', h4⟩
        · rw [h3]
          exact ⟨b, List.mem_cons_self _ _, rfl, rfl, by simp only; omega⟩
        · exact ⟨b', List.mem_cons_of_mem _ hb', h4⟩
    · simp only [h, if_false]
      obtain ⟨h1, h2, h3⟩ := ih st
      refine ⟨h1, ?_, ?_⟩
      · intro b' hb'
        rcases List.mem_cons.mp hb' with rfl | hb'
        · omega
        · exact h2 b' hb'
      · rcases h3 with h3 | ⟨b', hb', h4⟩
        · exact Or.inl h3
        · exact Or.inr ⟨b', List.mem_cons_of_mem _ hb', h4⟩

theorem bestOuter_spec (alts : List (List String)) (st : Nat × List String) :
    st.1 ≤ (bestOuter alts st).1 ∧
    alts.Pairwise (fun x y => commonPrefixLen x y ≤ (bestOuter alts st).1) ∧
    (bestOuter alts st = st ∨
      ∃ x y, [x, y].Sublist alts ∧ commonPrefixLen x y = (bestOuter alts st).1 ∧
        (bestOuter alts st).2 = x.take (bestOuter alts st).1 ∧ 0 < (bestOuter alts st).1) := by
  induction alts generalizing st with
  | nil => simp [bestOuter]
  | cons a rest ih =>
    simp only [bestOuter]
    obtain ⟨i1, i2, i3⟩ := bestInner_spec a rest st
    obtain ⟨o1, o2, o3⟩ := ih (bestInner a rest st)
    refine ⟨le_trans i1 o1, ?_, ?_⟩
    · rw [List.pairwise_cons]
      exact ⟨fun b hb => le_trans (i2 b hb) o1, o2⟩
    · rcases o3 with o3 | ⟨x, y, hs, h⟩
      · rw [o3]
        rcases i3 with i3 | ⟨b, hb, h⟩
        · exact Or.inl i3
        · refine Or.inr ⟨a, b, ?_, h⟩
          exact List.Sublist.cons₂ a (List.singleton_sublist.mpr hb)
      · exact Or.inr ⟨x, y, List.Sublist.cons a hs, h⟩

/-- What the search of `leftFactorOnce` finds: a bound on all pairs and, when it is
positive, a pair of alternatives that realizes it. -/
theorem best_spec (alts : List (List String)) (h : (bestOuter alts (0, [])).1 ≠ 0) :
    alts.Pairwise (fun x y => commonPrefixLen x y ≤ (bestOuter alts (0, [])).1) ∧
    ((bestOuter alts (0, [])).2).length = (bestOuter alts (0, [])).1 ∧
    EPS ∉ (bestOuter alts (0, [])).2 ∧
    ∃ x y, [x, y].Sublist alts ∧
      sharesStart (bestOuter alts (0, [])).1 (bestOuter alts (0, [])).2 x = true ∧
      sharesStart (bestOuter alts (0, [])).1 (bestOuter alts (0, [])).2 y = true := by
  obtain ⟨_, o2, o3⟩ := bestOuter_spec alts (0, [])
  rcases o3 with o3 | ⟨x, y, hs, h1, h2, _⟩
  · rw [o3] at h
    exact absurd rfl h
  · have hlen : ((bestOuter alts (0, [])).2).length = (bestOuter alts (0, [])).1 := by
      rw [h2, List.length_take]
      have := commonPrefixLen_le_left x y
      omega
    refine ⟨o2, hlen, ?_, x, y, hs, ?_, ?_⟩
    · rw [h2, ← h1]
      exact eps_not_mem_take_commonPrefixLen x y
    · rw [sharesStart_iff _ _ _ hlen]
      exact ⟨x.drop (bestOuter alts (0, [])).1, by rw [h2]; exact (List.take_append_drop _ x).symm⟩
    · rw [sharesStart_iff _ _ _ hlen]
      refine ⟨y.drop (bestOuter alts (0, [])).1, ?_⟩
      rw [h2, ← h1, take_commonPrefixLen x y]
      exact (List.take_append_drop _ y).symm

/-! ## Left factoring: the measure -/

theorem crossSum_nil (a : List String) : crossSum a [] = 0 := rfl

theorem crossSum_cons (a b : List String) (l : List (List String)) :
    crossSum a (b :: l) = commonPrefixLen a b + crossSum a l := by
  simp [crossSum]

theorem crossSum_filter (a : List String) (p : List String → Bool) (l : List (List String)) :
    crossSum a l = crossSum a (l.filter p) + crossSum a (l.filter (fun r => !p r)) := by
  induction l with
  | nil => simp [crossSum]
  | cons b l ih =>
    by_cases h : p b = true
    · simp only [List.filter_cons, h, if_true, Bool.not_true, crossSum_cons]
      simp only [Bool.false_eq_true, if_false]
      omega
    · have h' : p b = false := by simpa using h
      simp only [List.filter_cons, h', Bool.not_false, if_true, crossSum_cons]
      simp only [Bool.false_eq_true, if_false]
      omega

theorem pairSum_cons (a : List String) (l : List (List String)) :
    pairSum (a :: l) = crossSum a l + pairSum l := rfl

theorem pairSum_append_singleton (l : List (List String)) (x : List String) :
    pairSum (l ++ [x]) = pairSum l + crossSum x l := by
  induction l with
  | nil => simp [pairSum, crossSum]
  | cons a l ih =>
    have h1 : crossSum a (l ++ [x]) = crossSum a l + commonPrefixLen x a := by
      simp [crossSum, commonPrefixLen_comm a x]
    rw [List.cons_append, pairSum_cons, pairSum_cons, ih, crossSum_cons, h1]
    omega

theorem pairSum_eq_zero (l : List (List String))
    (h : l.Pairwise (fun a b => commonPrefixLen a b = 0)) : pairSum l = 0 := by
  induction l with
  | nil => rfl
  | cons a l ih =>
    rw [List.pairwise_cons] at h
    have h1 : crossSum a l = 0 := by
      unfold crossSum
      apply List.sum_eq_zero
      intro n hn
      obtain ⟨b, hb, rfl⟩ := List.mem_map.mp hn
      exact h.1 b hb
    simp [pairSum, h1, ih h.2]

/-- The pairs of a list of alternatives weigh at least as much as the pairs of the
alternatives outside the group, plus their pairs with one extension `x` of the common
start when the group is not empty, plus one when the group has two members. -/
theorem pairSum_partition (L : Nat) (P x : List String) (hL : 0 < L) (hlen : P.length = L)
    (hP : EPS ∉ P) (hx : ∃ s, x = P ++ s) (alts : List (List String)) :
    pairSum (alts.filter (fun r => !sharesStart L P r))
      + (if alts.filter (sharesStart L P) = [] then 0
          else crossSum x (alts.filter (fun r => !sharesStart L P r)))
      + (if 2 ≤ (alts.filter (sharesStart L P)).length then 1 else 0)
      ≤ pairSum alts := by
  obtain ⟨sx, rfl⟩ := hx
  induction alts with
  | nil => simp [pairSum]
  | cons a l ih =>
    have hsplit := crossSum_filter a (sharesStart L P) l
    by_cases ha : sharesStart L P a = true
    · obtain ⟨sa, rfl⟩ := (sharesStart_iff L P a hlen).1 ha
      simp only [List.filter_cons, ha, if_true, Bool.not_true, Bool.false_eq_true, if_false,
        pairSum, List.length_cons]
      -- pairs of `a` with the rest of the list
      have hR : crossSum (P ++ sa) (l.filter (fun r => !sharesStart L P r))
          = crossSum (P ++ sx) (l.filter (fun r => !sharesStart L P r)) := by
        unfold crossSum
        congr 1
        apply List.map_congr_left
        intro r hr
        have hr' : ¬ ∃ u, r = P ++ u := by
          rw [← sharesStart_iff L P r hlen]
          simpa using (List.mem_filter.mp hr).2
        rw [commonPrefixLen_comm _ r, commonPrefixLen_comm _ r]
        exact commonPrefixLen_of_not_start P r sa sx hr'
      have hG : (l.filter (sharesStart L P)).length
          ≤ crossSum (P ++ sa) (l.filter (sharesStart L P)) := by
        have hall : ∀ g ∈ l.filter (sharesStart L P), 1 ≤ commonPrefixLen (P ++ sa) g := by
          intro g hg
          obtain ⟨sg, rfl⟩ := (sharesStart_iff L P g hlen).1 (List.mem_filter.mp hg).2
          rw [commonPrefixLen_append P sa sg hP]
          omega
        generalize l.filter (sharesStart L P) = G at hall
        induction G with
        | nil => simp
        | cons g G ihG =>
          rw [crossSum_cons, List.length_cons]
          have := hall g (List.mem_cons_self _ _)
          have := ihG (fun g' hg' => hall g' (List.mem_cons_of_mem _ hg'))
          omega
      simp only [reduceCtorEq, if_false]
      by_cases hG0 : l.filter (sharesStart L P) = []
      · simp only [hG0, if_true, List.length_nil, crossSum_nil] at ih hG hsplit ⊢
        norm_num at ih ⊢
        omega
      · simp only [hG0, if_false] at ih
        have hpos : 0 < (l.filter (sharesStart L P)).length := List.length_pos.mpr hG0
        split at ih <;> split <;> omega
    · have ha' : sharesStart L P a = false := by simpa using ha
      simp only [List.filter_cons, ha', Bool.not_false, if_true, Bool.false_eq_true, if_false,
        pairSum, crossSum_cons]
      have hG : (if l.filter (sharesStart L P) = [] then 0 else commonPrefixLen (P ++ sx) a)
          ≤ crossSum a (l.filter (sharesStart L P)) := by
        cases hGl : l.filter (sharesStart L P) with
        | nil => simp
        | cons g G =>
          have hg : g ∈ l.filter (sharesStart L P) := by rw [hGl]; exact List.mem_cons_self _ _
          obtain ⟨sg, rfl⟩ := (sharesStart_iff L P g hlen).1 (List.mem_filter.mp hg).2
          have hr' : ¬ ∃ u, a = P ++ u := by
            rw [← sharesStart_iff L P a hlen]
            simpa using ha'
          simp only [reduceCtorEq, if_false, crossSum_cons]
          rw [commonPrefixLen_comm _ a, commonPrefixLen_of_not_start P a sx sg hr']
          omega
      by_cases hG0 : l.filter (sharesStart L P) = []
      · simp only [hG0, if_true, List.length_nil, crossSum_nil] at ih hG hsplit ⊢
        omega
      · simp only [hG0, if_false] at ih hG ⊢
        omega

/-- A rewrite of one nonterminal makes the pairs of its alternatives weigh less. -/
theorem pairSum_rewrite_lt (alts : List (List String)) (Aprime : String)
    (h : (bestOuter alts (0, [])).1 ≠ 0) :
    pairSum (alts.filter (fun rhs => !sharesStart (bestOuter alts (0, [])).1 (bestOuter alts (0, [])).2 rhs)
        ++ [(bestOuter alts (0, [])).2 ++ [Aprime]])
      < pairSum alts := by
  obtain ⟨_, hlen, hP, x, y, hs, hx, hy⟩ := best_spec alts h
  have h2 : 2 ≤ (alts.filter (sharesStart (bestOuter alts (0, [])).1 (bestOuter alts (0, [])).2)).length := by
    have hsub : [x, y].Sublist (alts.filter (sharesStart (bestOuter alts (0, [])).1 (bestOuter alts (0, [])).2)) := by
      have := hs.filter (sharesStart (bestOuter alts (0, [])).1 (bestOuter alts (0, [])).2)
      simpa [List.filter_cons, hx, hy] using this
    simpa using hsub.length_le
  have hne : alts.filter (sharesStart (bestOuter alts (0, [])).1 (bestOuter alts (0, [])).2) ≠ [] := by
    intro e
    rw [e] at h2
    simp at h2
  have := pairSum_partition (bestOuter alts (0, [])).1 (bestOuter alts (0, [])).2
    ((bestOuter alts (0, [])).2 ++ [Aprime]) (Nat.pos_of_ne_zero h) hlen hP ⟨[Aprime], rfl⟩ alts
  rw [pairSum_append_singleton]
  simp only [hne, if_false, h2, if_true] at this
  omega

/-- The remainders of the group share no start. -/
theorem pairSum_remainders (alts : List (List String)) (h : (bestOuter alts (0, [])).1 ≠ 0) :
    pairSum ((alts.filter (sharesStart (bestOuter alts (0, [])).1 (bestOuter alts (0, [])).2)).map
      (remainder (bestOuter alts (0, [])).1)) = 0 := by
  obtain ⟨hpw, hlen, hP, -⟩ := best_spec alts h
  apply pairSum_eq_zero
  rw [List.pairwise_map]
  have hf := hpw.filter (sharesStart (bestOuter alts (0, [])).1 (bestOuter alts (0, [])).2)
  refine List.Pairwise.imp_of_mem ?_ hf
  intro a b ha hb hab
  obtain ⟨sa, rfl⟩ := (sharesStart_iff _ _ a hlen).1 (List.mem_filter.mp ha).2
  obtain ⟨sb, rfl⟩ := (sharesStart_iff _ _ b hlen).1 (List.mem_filter.mp hb).2
  rw [commonPrefixLen_append _ sa sb hP, hlen] at hab
  have h0 : commonPrefixLen sa sb = 0 := by omega
  unfold remainder
  rw [← hlen]
  simp only [List.drop_left]
  by_cases h1 : sa = []
  · simp [h1, commonPrefixLen_eps_left]
  · by_cases h2 : sb = []
    · simp [h2, commonPrefixLen_eps_right]
    · simp [h1, h2, h0]

theorem sum_map_setInsert (f : String → Nat) (x : String) (s : List String) (hx : f x = 0) :
    ((setInsert x s).map f).sum = (s.map f).sum := by
  induction s with
  | nil => simp [setInsert, hx]
  | cons y ys ih =>
    unfold setInsert
    split
    · rfl
    · split
      · simp [hx]
      · simp [ih]

theorem sum_map_lt (f f' : String → Nat) (s : List String) (A : String) (hA : A ∈ s)
    (hle : ∀ X ∈ s, f' X ≤ f X) (hlt : f' A < f A) : (s.map f').sum < (s.map f).sum := by
  induction s with
  | nil => simp at hA
  | cons y ys ih =>
    simp only [List.map_cons, List.sum_cons]
    have hle' : (ys.map f').sum ≤ (ys.map f).sum := by
      apply List.sum_le_sum
      intro X hX
      exact hle X (List.mem_cons_of_mem _ hX)
    rcases List.mem_cons.mp hA with rfl | hA'
    · omega
    · have := ih hA' (fun X hX => hle X (List.mem_cons_of_mem _ hX))
      have := hle y (List.mem_cons_self _ _)
      omega

/-! ## Fresh names -/

theorem string_append_ne_self (base s : String) (hs : s ≠ "") : base ++ s ≠ base := by
  intro h
  have := congrArg String.length h
  rw [String.length_append] at this
  have hlen : s.length ≠ 0 := by
    intro h0
    apply hs
    apply String.ext
    exact List.length_eq_zero.mp h0
  omega

theorem uniqueLoop_spec (nts : List String) (base : String) (n k : Nat) :
    uniqueLoop nts base n k ∉ nts ∨ uniqueLoop nts base n k = base ++ "_NEW" := by
  induction n generalizing k with
  | zero => exact Or.inr rfl
  | succ n ih =>
    unfold uniqueLoop
    split
    · rename_i h
      left
      simpa [setHas] using h
    · split
      · rename_i h
        left
        simpa [setHas] using h
      · exact ih (k + 1)

theorem makeUniqueNonTerminal_ne (g : Grammar) (A : String) (hA : A ∈ g.nonterminals) :
    makeUniqueNonTerminal g A ≠ A := by
  unfold makeUniqueNonTerminal
  split
  · exact string_append_ne_self A "'" (by decide)
  · rcases uniqueLoop_spec g.nonterminals A 999 1 with h | h
    · intro e
      rw [e] at h
      exact h hA
    · rw [h]
      exact string_append_ne_self A "_NEW" (by decide)

/-! ## Left factoring: termination and the final grammar -/

theorem factorMeasure_ensure (g : Grammar) (A : String) :
    factorMeasure { g with prod := mapEnsure A g.prod [] } = factorMeasure g := by
  unfold factorMeasure
  simp only [mapGetD_mapEnsure]

/-- A call of `leftFactorOnce` that rewrites decreases the measure. -/
theorem leftFactorOnceFrom_measure (more : List String) (g : Grammar)
    (hsub : ∀ A ∈ more, A ∈ g.nonterminals) (h : (leftFactorOnceFrom more g).1 = true) :
    factorMeasure (leftFactorOnceFrom more g).2 < factorMeasure g := by
  induction more generalizing g with
  | nil => simp [leftFactorOnceFrom] at h
  | cons A more ih =>
    have hstep : ∀ h' : (leftFactorOnceFrom more { g with prod := mapEnsure A g.prod [] }).1 = true,
        factorMeasure (leftFactorOnceFrom more { g with prod := mapEnsure A g.prod [] }).2
          < factorMeasure g := by
      intro h'
      have := ih { g with prod := mapEnsure A g.prod [] }
        (fun X hX => hsub X (List.mem_cons_of_mem _ hX)) h'
      rwa [factorMeasure_ensure] at this
    unfold leftFactorOnceFrom at h ⊢
    simp only at h ⊢
    split
    · rename_i h1
      simp only [h1, if_true] at h
      exact hstep h
    · rename_i h1
      simp only [h1, if_false] at h
      split
      · rename_i h2
        simp only [h2, if_true] at h
        exact hstep h
      · rename_i h2
        simp only [h2, if_false] at h
        split
        · rename_i h3
          simp only [h3, if_true] at h
          exact hstep h
        · -- the rewrite
          have hA : A ∈ g.nonterminals := hsub A (List.mem_cons_self _ _)
          have hne := makeUniqueNonTerminal_ne { g with prod := mapEnsure A g.prod [] } A hA
          generalize makeUniqueNonTerminal { g with prod := mapEnsure A g.prod [] } A = Aprime
            at hne ⊢
          unfold factorMeasure Grammar.recomputeSymbols
          simp only
          rw [sum_map_setInsert]
          · apply sum_map_lt _ _ _ A hA
            · intro X _
              rw [mapGetD_mapSet]
              split
              · rename_i hX
                rw [pairSum_remainders _ h2]
                exact Nat.zero_le _
              · rw [mapGetD_mapSet]
                split
                · rename_i hX
                  subst hX
                  exact le_of_lt (pairSum_rewrite_lt _ Aprime h2)
                · rw [mapGetD_mapEnsure]
            · rw [mapGetD_mapSet_ne (fun e => hne e.symm), mapGetD_mapSet_same]
              exact pairSum_rewrite_lt _ Aprime h2
          · rw [mapGetD_mapSet_same]
            exact pairSum_remainders _ h2

theorem leftFactorOnce_measure (g : Grammar) (h : (leftFactorOnce g).1 = true) :
    factorMeasure (leftFactorOnce g).2 < factorMeasure g :=
  leftFactorOnceFrom_measure g.nonterminals g (fun _ hA => hA) h

theorem leftFactor_of_measure (n : Nat) (g : Grammar) (h : factorMeasure g < n) :
    ∃ g', leftFactor n g = some g' := by
  induction n generalizing g with
  | zero => omega
  | succ n ih =>
    unfold leftFactor
    by_cases h1 : (leftFactorOnce g).1 = true
    · simp only [h1, if_true]
      apply ih
      have := leftFactorOnce_measure g h1
      omega
    · simp only [h1]
      exact ⟨_, rfl⟩

/-- C10: `leftFactor` terminates on every grammar: some number of calls of
`leftFactorOnce` (at most one more than the sum, over the nonterminals, of the
common-start lengths of the pairs of their alternatives) ends with a call that returns
false, and `leftFactor` returns the grammar it leaves. -/
theorem leftFactor_terminates (g : Grammar) :
    ∃ n g', leftFactor n g = some g' ∧ n ≤ factorMeasure g + 1 := by
  obtain ⟨g', h⟩ := leftFactor_of_measure (factorMeasure g + 1) g (Nat.lt_succ_self _)
  exact ⟨_, g', h, le_refl _⟩

theorem leftFactor_some (n : Nat) (g g' : Grammar) (h : leftFactor n g = some g') :
    ∃ g0, leftFactorOnce g0 = (false, g') := by
  induction n generalizing g with
  | zero => simp [leftFactor] at h
  | succ n ih =>
    unfold leftFactor at h
    by_cases h1 : (leftFactorOnce g).1 = true
    · simp only [h1, if_true] at h
      exact ih _ h
    · simp only [h1] at h
      refine ⟨g, ?_⟩
      have h2 : (leftFactorOnce g).1 = false := by simpa using h1
      have h3 : (leftFactorOnce g).2 = g' := by simpa using h
      rw [← h2, ← h3]

theorem sharesFirst_of_commonPrefixLen_zero (a b : List String) (h : commonPrefixLen a b = 0)
    (hs : sharesFirst a b = true) : a.head? = some EPS := by
  cases a with
  | nil => simp [sharesFirst] at hs
  | cons x xs =>
    cases b with
    | nil => simp [sharesFirst] at hs
    | cons y ys =>
      simp only [sharesFirst, beq_iff_eq] at hs
      subst hs
      simp only [commonPrefixLen] at h
      by_cases hx : x = EPS
      · simp [hx]
      · simp [hx] at h

theorem pairwise_of_length_lt_two {α : Type} (R : α → α → Prop) (l : List α) (h : l.length < 2) :
    l.Pairwise R := by
  match l, h with
  | [], _ => exact List.Pairwise.nil
  | [a], _ => exact List.pairwise_singleton R a
  | _ :: _ :: _, h => simp only [List.length_cons] at h; omega

/-- A call of `leftFactorOnce` that returns false leaves the nonterminals and the
alternatives as they were, and no nonterminal it visited has a common start. -/
theorem leftFactorOnceFrom_false (more : List String) (g g' : Grammar)
    (h : leftFactorOnceFrom more g = (false, g')) :
    g'.nonterminals = g.nonterminals ∧
    (∀ X, mapGetD X g'.prod [] = mapGetD X g.prod []) ∧
    ∀ A ∈ more, (mapGetD A g.prod []).Pairwise
      (fun a b => sharesFirst a b = true → a.head? = some EPS) := by
  induction more generalizing g with
  | nil =>
    simp only [leftFactorOnceFrom, Prod.mk.injEq, true_and] at h
    subst h
    simp
  | cons A more ih =>
    have hstep : leftFactorOnceFrom more { g with prod := mapEnsure A g.prod [] } = (false, g') →
        (mapGetD A g.prod []).Pairwise (fun a b => sharesFirst a b = true → a.head? = some EPS) →
        g'.nonterminals = g.nonterminals ∧
        (∀ X, mapGetD X g'.prod [] = mapGetD X g.prod []) ∧
        ∀ B ∈ A :: more, (mapGetD B g.prod []).Pairwise
          (fun a b => sharesFirst a b = true → a.head? = some EPS) := by
      intro h' hA
      obtain ⟨i1, i2, i3⟩ := ih _ h'
      refine ⟨i1, ?_, ?_⟩
      · intro X
        rw [i2 X]
        exact mapGetD_mapEnsure _ _ _ _
      · intro B hB
        rcases List.mem_cons.mp hB with rfl | hB
        · exact hA
        · have := i3 B hB
          simpa only [mapGetD_mapEnsure] using this
    unfold leftFactorOnceFrom at h
    simp only at h
    split at h
    · rename_i h1
      exact hstep h (pairwise_of_length_lt_two _ _ h1)
    · split at h
      · rename_i h2
        apply hstep h
        obtain ⟨_, hpw, _⟩ := bestOuter_spec (mapGetD A g.prod []) (0, [])
        rw [h2] at hpw
        refine hpw.imp ?_
        intro a b hab hs
        exact sharesFirst_of_commonPrefixLen_zero a b (Nat.le_zero.mp hab) hs
      · split at h
        · rename_i h2 h3
          exfalso
          obtain ⟨_, _, _, x, y, hs, hx, hy⟩ := best_spec _ h2
          have hsub := hs.filter (sharesStart (bestOuter (mapGetD A g.prod []) (0, [])).1
            (bestOuter (mapGetD A g.prod []) (0, [])).2)
          simp only [List.filter_cons, hx, hy, if_true, List.filter_nil] at hsub
          have := hsub.length_le
          simp only [List.length_cons, List.length_nil] at this
          omega
        · simp at h

/-- C3 (amended): `leftFactor` returns on every grammar, and after it returns no nonterminal
has, at two positions of its list of alternatives, alternatives with the same first
symbol, unless that symbol is `EPS`. -/
theorem leftFactor_no_shared_first (g : Grammar) :
    (∃ n g', leftFactor n g = some g') ∧
      ∀ n g', leftFactor n g = some g' → NoSharedFirstButEps g' := by
  refine ⟨⟨_, leftFactor_of_measure (factorMeasure g + 1) g (Nat.lt_succ_self _)⟩, ?_⟩
  intro n g' h
  obtain ⟨g0, h0⟩ := leftFactor_some n g g' h
  obtain ⟨h1, h2, h3⟩ := leftFactorOnceFrom_false g0.nonterminals g0 g' h0
  intro A hA
  rw [h1] at hA
  rw [h2 A]
  exact h3 A hA

/-- Witness for C3 (amended): the grammar of the rule `S -> a b | a c | d`. -/
theorem leftFactor_no_shared_first_witness :
    leftFactor 2 (addRuleLine Grammar.empty "S -> a b | a c | d")
        = some ⟨"S", ["S", "S'"], ["a", "b", "c", "d"],
            [("S", [["d"], ["a", "S'"]]), ("S'", [["b"], ["c"]])]⟩ ∧
      NoSharedFirstButEps ⟨"S", ["S", "S'"], ["a", "b", "c", "d"],
            [("S", [["d"], ["a", "S'"]]), ("S'", [["b"], ["c"]])]⟩ :=
  ⟨by decide!, (leftFactor_no_shared_first (addRuleLine Grammar.empty "S -> a b | a c | d")).2 2
    ⟨"S", ["S", "S'"], ["a", "b", "c", "d"],
      [("S", [["d"], ["a", "S'"]]), ("S'", [["b"], ["c"]])]⟩ (by decide!)⟩

/-- C3 as stated fails: for the rule `S -> eps x | eps y` the function `leftFactor`
returns the grammar unchanged, and `S` keeps two distinct alternatives that both
begin with `eps`. -/
theorem leftFactor_shared_first_counterexample :
    leftFactor 1 (addRuleLine Grammar.empty "S -> eps x | eps y")
        = some ⟨"S", ["S"], [], [("S", [["eps", "x"], ["eps", "y"]])]⟩ ∧
      ¬ NoSharedFirst ⟨"S", ["S"], [], [("S", [["eps", "x"], ["eps", "y"]])]⟩ := by
  refine ⟨by decide!, ?_⟩
  intro h
  have := h "S" (by decide)
  revert this
  decide

/-! ## The table: cells -/

theorem tableCell_markCell (A : String) (rhs : List String) (T : Table) (t A' t' : String) :
    tableCell (markCell A rhs T t) A' t'
      = if A' = A ∧ t' = t then cellUpdate A rhs (tableCell T A t) else tableCell T A' t' := by
  unfold tableCell markCell
  simp only [mapGetD_mapSet]
  by_cases hA : A' = A
  · subst hA
    by_cases ht : t' = t
    · simp [ht, mapGetD_mapSet]
    · simp [ht, mapGetD_mapSet]
  · simp [hA]

theorem runCell_nil (A : String) (c : ParseTableCell) : runCell A c [] = c := rfl

theorem runCell_cons (A : String) (c : ParseTableCell) (r : List String) (rs : List (List String)) :
    runCell A c (r :: rs) = runCell A (cellUpdate A r c) rs := rfl

theorem runCell_append (A : String) (c : ParseTableCell) (rs rs' : List (List String)) :
    runCell A c (rs ++ rs') = runCell A (runCell A c rs) rs' := by
  simp [runCell, List.foldl_append]

theorem runCell_filled (A : String) (c : ParseTableCell) (rs : List (List String))
    (h : c.filled = true) :
    runCell A c rs = { c with conflict := c.conflict || !rs.isEmpty } := by
  induction rs generalizing c with
  | nil => simp [runCell]
  | cons r rs ih =>
    rw [runCell_cons]
    have h1 : cellUpdate A r c = { c with conflict := true } := by simp [cellUpdate, h]
    rw [h1, ih _ (by simpa using h)]
    simp

/-- A blank cell after the updates for `r :: rs`: filled with `r`, flagged when `rs`
is not empty. -/
theorem runCell_blank_cons (A : String) (r : List String) (rs : List (List String)) :
    runCell A ParseTableCell.blank (r :: rs) = ⟨true, !rs.isEmpty, r, A⟩ := by
  rw [runCell_cons]
  have h1 : cellUpdate A r ParseTableCell.blank = ⟨true, false, r, A⟩ := by
    simp [cellUpdate, ParseTableCell.blank]
  rw [h1, runCell_filled A _ rs rfl]
  simp

theorem runCell_blank_filled (A : String) (rs : List (List String)) :
    (runCell A ParseTableCell.blank rs).filled = !rs.isEmpty := by
  cases rs with
  | nil => rfl
  | cons r rs => rw [runCell_blank_cons]; rfl

theorem runCell_blank_rhs (A : String) (r : List String) (rs : List (List String)) :
    (runCell A ParseTableCell.blank (r :: rs)).rhs = r := by
  rw [runCell_blank_cons]

theorem runCell_blank_conflict (A : String) (rs : List (List String)) :
    (runCell A ParseTableCell.blank rs).conflict = decide (2 ≤ rs.length) := by
  cases rs with
  | nil => rfl
  | cons r rs =>
    rw [runCell_blank_cons]
    cases rs <;> simp

/-- The cells after the loop over a list `ts` of column symbols for one alternative. -/
theorem tableCell_foldl_markCell (A : String) (rhs : List String) (ts : List String) (T : Table)
    (A' t' : String) :
    tableCell (ts.foldl (markCell A rhs) T) A' t'
      = if A' = A then runCell A (tableCell T A t') (List.replicate (ts.count t') rhs)
        else tableCell T A' t' := by
  induction ts generalizing T with
  | nil =>
    by_cases hA : A' = A
    · subst hA; simp [runCell]
    · simp [hA]
  | cons t ts ih =>
    rw [List.foldl_cons, ih, List.count_cons]
    by_cases hA : A' = A
    · subst hA
      simp only [if_true, tableCell_markCell, true_and]
      by_cases ht : t = t'
      · subst ht
        simp only [beq_self_eq_true, if_true]
        rw [List.replicate_succ, runCell_cons]
      · have ht' : ¬ t' = t := fun e => ht e.symm
        simp [ht, ht']
    · simp [hA, tableCell_markCell]

theorem foldl_skip_eps (A : String) (rhs : List String) (fs : List String) (T : Table) :
    fs.foldl (fun tb t => if t = EPS then tb else markCell A rhs tb t) T
      = (fs.filter (fun t => t != EPS)).foldl (markCell A rhs) T := by
  induction fs generalizing T with
  | nil => rfl
  | cons t ts ih =>
    by_cases ht : t = EPS
    · simp [ht, ih]
    · simp [ht, ih]

/-- The cells after the body of the loop over the alternatives, for one alternative. -/
theorem tableAlt_cells (g : Grammar) (FIRST FOLLOW : SetMap) (A : String) (rhs : List String)
    (T T' : Table) (h : tableAlt g FIRST FOLLOW A rhs T = .ok T') (A' t' : String) :
    tableCell T' A' t'
      = if A' = A then
          runCell A (tableCell T A t')
            (List.replicate ((altHits g FIRST FOLLOW A rhs).count t') rhs)
        else tableCell T A' t' := by
  unfold tableAlt at h
  simp only [foldl_skip_eps] at h
  unfold altHits
  split at h
  · rename_i heps
    split at h
    · simp at h
    · rename_i fa hfa
      simp only [Outcome.ok.injEq] at h
      subst h
      rw [tableCell_foldl_markCell]
      by_cases hA : A' = A
      · subst hA
        simp only [if_true, heps, tableCell_foldl_markCell, List.count_append,
          List.replicate_add, runCell_append, mapGetD_of_some [] hfa]
      · simp [hA, tableCell_foldl_markCell]
  · rename_i heps
    simp only [Outcome.ok.injEq] at h
    subst h
    rw [tableCell_foldl_markCell]
    simp [heps]

/-- The cells after the loop over the alternatives of `A`. -/
theorem tableAlts_cells (g : Grammar) (FIRST FOLLOW : SetMap) (A : String)
    (alts : List (List String)) (T T' : Table)
    (h : tableAlts g FIRST FOLLOW A alts T = .ok T') (A' t' : String) :
    tableCell T' A' t'
      = if A' = A then
          runCell A (tableCell T A t')
            (rowHits (fun rhs => (altHits g FIRST FOLLOW A rhs).count t') alts)
        else tableCell T A' t' := by
  induction alts generalizing T with
  | nil =>
    simp only [tableAlts, Outcome.ok.injEq] at h
    subst h
    by_cases hA : A' = A
    · subst hA; simp [rowHits, runCell]
    · simp [hA]
  | cons rhs more ih =>
    unfold tableAlts at h
    split at h
    · rename_i T1 h1
      rw [ih T1 h]
      by_cases hA : A' = A
      · subst hA
        simp only [if_true, rowHits, runCell_append]
        rw [tableAlt_cells g FIRST FOLLOW A' rhs T T1 h1]
        simp
      · simp only [hA, if_false]
        rw [tableAlt_cells g FIRST FOLLOW A rhs T T1 h1]
        simp [hA]
    · simp at h
    · simp at h

theorem tableCell_blankTable (g : Grammar) (A t : String) :
    tableCell (blankTable g) A t = ParseTableCell.blank := by
  unfold blankTable
  have inner : ∀ (A0 : String) (cs : List String) (tb : Table),
      (∀ A t, tableCell tb A t = ParseTableCell.blank) →
      ∀ A t, tableCell (cs.foldl
        (fun tb1 a => mapSet A0 (mapSet a ParseTableCell.blank (mapGetD A0 tb1 [])) tb1) tb) A t
        = ParseTableCell.blank := by
    intro A0 cs
    induction cs with
    | nil => intro tb h; exact h
    | cons a cs ih =>
      intro tb h
      rw [List.foldl_cons]
      apply ih
      intro A t
      have hA0 := h A0 t
      have hA := h A t
      unfold tableCell at hA0 hA ⊢
      by_cases e1 : A = A0
      · subst e1
        by_cases e2 : t = a
        · simp [mapGetD_mapSet, e2]
        · simp [mapGetD_mapSet, e2, hA]
      · simp [mapGetD_mapSet, e1, hA]
  have outer : ∀ (nts : List String) (tb : Table),
      (∀ A t, tableCell tb A t = ParseTableCell.blank) →
      ∀ A t, tableCell (nts.foldl
        (fun tb A0 => (tableCols g).foldl
          (fun tb1 a => mapSet A0 (mapSet a ParseTableCell.blank (mapGetD A0 tb1 [])) tb1) tb) tb) A t
        = ParseTableCell.blank := by
    intro nts
    induction nts with
    | nil => intro tb h; exact h
    | cons A0 nts ih =>
      intro tb h
      rw [List.foldl_cons]
      exact ih _ (inner A0 _ tb h)
  exact outer g.nonterminals [] (fun A t => by simp [tableCell, mapGetD, mapFind]) A t

/-! ## The table: rows -/

theorem tableAlts_other (g : Grammar) (FIRST FOLLOW : SetMap) (A : String)
    (alts : List (List String)) (T T' : Table)
    (h : tableAlts g FIRST FOLLOW A alts T = .ok T') (A' t' : String) (hA : A' ≠ A) :
    tableCell T' A' t' = tableCell T A' t' := by
  rw [tableAlts_cells g FIRST FOLLOW A alts T T' h]
  simp [hA]

/-- The cells after the loop over the nonterminals. -/
theorem tableRows_cells (g : Grammar) (FIRST FOLLOW : SetMap) (nts : List String) (T T' : Table)
    (h : tableRows g FIRST FOLLOW nts T = .ok T') (A t : String) (alts : List (List String))
    (hal : mapFind A g.prod = some alts) :
    tableCell T' A t
      = runCell A (tableCell T A t)
          (repeatHits (rowHits (fun rhs => (altHits g FIRST FOLLOW A rhs).count t) alts)
            (nts.count A)) := by
  induction nts generalizing T with
  | nil =>
    simp only [tableRows, Outcome.ok.injEq] at h
    subst h
    simp [repeatHits, runCell]
  | cons A0 more ih =>
    unfold tableRows at h
    split at h
    · simp at h
    · rename_i alts0 h0
      split at h
      · rename_i T1 h1
        rw [ih T1 h, List.count_cons]
        by_cases hA : A0 = A
        · subst hA
          rw [hal] at h0
          simp only [Option.some.injEq] at h0
          subst h0
          simp only [beq_self_eq_true, if_true, repeatHits, runCell_append]
          rw [tableAlts_cells g FIRST FOLLOW A0 alts T T1 h1]
          simp
        · have hA' : A ≠ A0 := fun e => hA e.symm
          rw [tableAlts_other g FIRST FOLLOW A0 alts0 T T1 h1 A t hA']
          simp [hA]
      · simp at h
      · simp at h

theorem tableRows_prod (g : Grammar) (FIRST FOLLOW : SetMap) (nts : List String) (T T' : Table)
    (h : tableRows g FIRST FOLLOW nts T = .ok T') (A : String) (hA : A ∈ nts) :
    ∃ alts, mapFind A g.prod = some alts := by
  induction nts generalizing T with
  | nil => simp at hA
  | cons A0 more ih =>
    unfold tableRows at h
    split at h
    · simp at h
    · rename_i alts0 h0
      split at h
      · rename_i T1 h1
        rcases List.mem_cons.mp hA with rfl | hA
        · exact ⟨alts0, h0⟩
        · exact ih T1 h hA
      · simp at h
      · simp at h

/-! ## The alternatives that reach a cell -/

theorem rowHits_eq_nil (cnt : List String → Nat) (alts : List (List String)) :
    rowHits cnt alts = [] ↔ ∀ rhs ∈ alts, cnt rhs = 0 := by
  induction alts with
  | nil => simp [rowHits]
  | cons rhs more ih =>
    simp only [rowHits, List.append_eq_nil, ih, List.mem_cons, forall_eq_or_imp]
    constructor
    · rintro ⟨h1, h2⟩
      exact ⟨by simpa [List.replicate_eq_nil_iff] using h1, h2⟩
    · rintro ⟨h1, h2⟩
      exact ⟨by simp [h1], h2⟩

theorem rowHits_head (cnt : List String → Nat) (alts : List (List String)) :
    (rowHits cnt alts).head? = alts.find? (fun rhs => decide (0 < cnt rhs)) := by
  induction alts with
  | nil => simp [rowHits]
  | cons rhs more ih =>
    simp only [rowHits, List.find?_cons]
    cases hc : cnt rhs with
    | zero => simp [ih]
    | succ n => simp [List.replicate_succ]

theorem rowHits_length (cnt : List String → Nat) (alts : List (List String)) :
    (rowHits cnt alts).length = (alts.map cnt).sum := by
  induction alts with
  | nil => simp [rowHits]
  | cons rhs more ih => simp [rowHits, ih]

theorem repeatHits_one (R : List (List String)) : repeatHits R 1 = R := by
  simp [repeatHits]

theorem repeatHits_eq_nil (R : List (List String)) (n : Nat) (hn : 0 < n) :
    repeatHits R n = [] ↔ R = [] := by
  cases n with
  | zero => omega
  | succ n =>
    simp only [repeatHits, List.append_eq_nil]
    constructor
    · exact fun h => h.1
    · intro h
      subst h
      refine ⟨rfl, ?_⟩
      clear hn
      induction n with
      | zero => rfl
      | succ n ih => simp [repeatHits, ih]

theorem repeatHits_head (R : List (List String)) (n : Nat) (hn : 0 < n) :
    (repeatHits R n).head? = R.head? := by
  cases n with
  | zero => omega
  | succ n =>
    cases R with
    | nil =>
      rw [(repeatHits_eq_nil [] (n + 1) hn).2 rfl]
    | cons r R => simp [repeatHits]

theorem mem_altHits (g : Grammar) (FIRST FOLLOW : SetMap) (A t : String) (rhs : List String) :
    t ∈ altHits g FIRST FOLLOW A rhs ↔ isCandidate g FIRST FOLLOW A t rhs = true := by
  unfold altHits isCandidate
  by_cases heps : setHas EPS (firstOfSequence rhs FIRST g) = true
  · simp [heps, setHas]
  · simp [heps, setHas]

theorem count_altHits_pos (g : Grammar) (FIRST FOLLOW : SetMap) (A t : String) (rhs : List String) :
    decide (0 < (altHits g FIRST FOLLOW A rhs).count t) = isCandidate g FIRST FOLLOW A t rhs := by
  rw [Bool.eq_iff_iff]
  simp only [decide_eq_true_eq, List.count_pos_iff]
  exact mem_altHits g FIRST FOLLOW A t rhs

theorem count_of_nodup (t : String) (l : List String) (h : l.Nodup) :
    l.count t = if setHas t l then 1 else 0 := by
  rw [List.count_eq_of_nodup h]
  simp [setHas]

theorem count_altHits (g : Grammar) (FIRST FOLLOW : SetMap) (A t : String) (rhs : List String)
    (hfol : SetOK (mapGetD A FOLLOW [])) :
    (altHits g FIRST FOLLOW A rhs).count t = candidateHits g FIRST FOLLOW A t rhs := by
  unfold altHits candidateHits
  have hnd := setOK_nodup _ (setOK_firstOfSequence rhs FIRST g)
  rw [List.count_append]
  congr 1
  · by_cases ht : t = EPS
    · subst ht
      have : EPS ∉ (firstOfSequence rhs FIRST g).filter (fun t => t != EPS) := by
        simp [List.mem_filter]
      rw [List.count_eq_zero.mpr this]
      simp
    · rw [List.count_filter (by simpa using ht), count_of_nodup t _ hnd]
      simp [ht]
  · by_cases heps : setHas EPS (firstOfSequence rhs FIRST g) = true
    · simp only [heps, if_true, Bool.true_and]
      exact count_of_nodup t _ (setOK_nodup _ hfol)
    · simp [heps]

/-! ## The table: filled cells and flagged cells -/

theorem buildParseTable_rows (g : Grammar) (FIRST FOLLOW : SetMap) (table : Table)
    (cols : List String) (h : buildParseTable g FIRST FOLLOW = .ok (table, cols)) :
    tableRows g FIRST FOLLOW g.nonterminals (blankTable g) = .ok table := by
  unfold buildParseTable at h
  split at h
  · rename_i T hT
    simp only [Outcome.ok.injEq, Prod.mk.injEq] at h
    rw [hT, h.1]
  · simp at h
  · simp at h

/-- C6: in the table that `buildParseTable` returns, the cell of a nonterminal `A` and a
symbol `t` is filled exactly when some alternative of `A` is a candidate for `t`, and a
filled cell records the first candidate in the order of the alternatives of `A`. -/
theorem buildParseTable_filled (g : Grammar) (FIRST FOLLOW : SetMap) (table : Table)
    (cols : List String) (h : buildParseTable g FIRST FOLLOW = .ok (table, cols))
    (A : String) (hA : A ∈ g.nonterminals) (t : String) :
    ∃ alts, mapFind A g.prod = some alts ∧
      ((tableCell table A t).filled = true ↔
        ∃ alpha ∈ alts, isCandidate g FIRST FOLLOW A t alpha = true) ∧
      ((tableCell table A t).filled = true →
        alts.find? (isCandidate g FIRST FOLLOW A t) = some (tableCell table A t).rhs) := by
  have hrows := buildParseTable_rows g FIRST FOLLOW table cols h
  obtain ⟨alts, hal⟩ := tableRows_prod g FIRST FOLLOW _ _ _ hrows A hA
  refine ⟨alts, hal, ?_⟩
  have hcell := tableRows_cells g FIRST FOLLOW _ _ _ hrows A t alts hal
  rw [tableCell_blankTable] at hcell
  have hpos : 0 < g.nonterminals.count A := List.count_pos_iff.mpr hA
  have hfind : (fun rhs => decide (0 < (altHits g FIRST FOLLOW A rhs).count t))
      = isCandidate g FIRST FOLLOW A t := by
    funext rhs
    exact count_altHits_pos g FIRST FOLLOW A t rhs
  have hhead := rowHits_head (fun rhs => (altHits g FIRST FOLLOW A rhs).count t) alts
  rw [hfind] at hhead
  have hhead2 := repeatHits_head
    (rowHits (fun rhs => (altHits g FIRST FOLLOW A rhs).count t) alts) _ hpos
  rw [hhead] at hhead2
  rw [hcell]
  generalize repeatHits (rowHits (fun rhs => (altHits g FIRST FOLLOW A rhs).count t) alts)
    (g.nonterminals.count A) = R at hhead2
  cases R with
  | nil =>
    simp only [List.head?_nil] at hhead2
    have hnone := List.find?_eq_none.mp hhead2.symm
    simp only [runCell_nil, ParseTableCell.blank, Bool.false_eq_true, false_iff, not_exists,
      not_and, false_implies, and_true]
    intro alpha halpha
    exact hnone alpha halpha
  | cons r R =>
    simp only [List.head?_cons] at hhead2
    rw [runCell_blank_cons]
    simp only [true_iff, true_implies]
    refine ⟨?_, hhead2.symm⟩
    have := List.find?_some hhead2.symm
    exact ⟨r, List.mem_of_find?_eq_some hhead2.symm, this⟩

/-- Witness for C6: the cell of `E'` and `+` in the table of the expression grammar. -/
theorem buildParseTable_filled_witness :
    ∃ alts, mapFind "E'" exprLL1.prod = some alts ∧
      ((tableCell exprTable "E'" "+").filled = true ↔
        ∃ alpha ∈ alts, isCandidate exprLL1 exprFIRST exprFOLLOW "E'" "+" alpha = true) ∧
      ((tableCell exprTable "E'" "+").filled = true →
        alts.find? (isCandidate exprLL1 exprFIRST exprFOLLOW "E'" "+")
          = some (tableCell exprTable "E'" "+").rhs) :=
  buildParseTable_filled exprLL1 exprFIRST exprFOLLOW exprTable ["$", "(", ")", "*", "+", "id"]
    (by decide!) "E'" (by decide) "+"

theorem setOK_mapGetD (FOLLOW : SetMap) (hfol : ∀ p ∈ FOLLOW, SetOK p.2) (A : String) :
    SetOK (mapGetD A FOLLOW []) := by
  induction FOLLOW with
  | nil => exact setOK_nil
  | cons p m ih =>
    obtain ⟨k, v⟩ := p
    unfold mapGetD mapFind
    split
    · exact hfol (k, v) (List.mem_cons_self _ _)
    · exact ih (fun q hq => hfol q (List.mem_cons_of_mem _ hq))

/-- C7 (amended): in the table that `buildParseTable` returns for a grammar and FOLLOW sets
held as sets, the cell of a nonterminal `A` and a symbol `t` is flagged exactly when the
alternatives of `A` reach it at least twice, where an alternative reaches it once when
`t` is in its FIRST set and is not `EPS`, and once more when `EPS` is in its FIRST set and
`t` is in `FOLLOW[A]`. -/
theorem buildParseTable_conflict (g : Grammar) (FIRST FOLLOW : SetMap) (table : Table)
    (cols : List String) (h : buildParseTable g FIRST FOLLOW = .ok (table, cols))
    (hnts : SetOK g.nonterminals) (hfol : ∀ p ∈ FOLLOW, SetOK p.2)
    (A : String) (hA : A ∈ g.nonterminals) (t : String) :
    ∃ alts, mapFind A g.prod = some alts ∧
      ((tableCell table A t).conflict = true ↔
        2 ≤ (alts.map (candidateHits g FIRST FOLLOW A t)).sum) := by
  have hrows := buildParseTable_rows g FIRST FOLLOW table cols h
  obtain ⟨alts, hal⟩ := tableRows_prod g FIRST FOLLOW _ _ _ hrows A hA
  refine ⟨alts, hal, ?_⟩
  have hcell := tableRows_cells g FIRST FOLLOW _ _ _ hrows A t alts hal
  rw [tableCell_blankTable, List.count_eq_one_of_mem (setOK_nodup _ hnts) hA,
    repeatHits_one] at hcell
  have hcnt : (fun rhs => (altHits g FIRST FOLLOW A rhs).count t)
      = candidateHits g FIRST FOLLOW A t := by
    funext rhs
    exact count_altHits g FIRST FOLLOW A t rhs (setOK_mapGetD FOLLOW hfol A)
  rw [hcell, runCell_blank_conflict, rowHits_length, hcnt]
  simp

/-- Witness for C7 (amended): the cell of `A` and `a` in the table of the grammar
`S -> A a`, `A -> B`, `B -> a | eps`. -/
theorem buildParseTable_conflict_witness :
    ∃ alts, mapFind "A" chainGrammar.prod = some alts ∧
      ((tableCell chainTable "A" "a").conflict = true ↔
        2 ≤ (alts.map (candidateHits chainGrammar chainFIRST chainFOLLOW "A" "a")).sum) :=
  buildParseTable_conflict chainGrammar chainFIRST chainFOLLOW chainTable ["$", "a"]
    (by decide!) (by decide!) (by decide!) "A" (by decide!) "a"

/-- C7 as stated fails: for the grammar `S -> A a`, `A -> B`, `B -> a | eps` the
nonterminal `A` has the single alternative `B`, and the cell of `A` and `a` is flagged. -/
theorem conflict_single_candidate_counterexample :
    computeFIRST 3 chainGrammar = .ok chainFIRST ∧
    computeFOLLOW 3 chainGrammar chainFIRST = .ok chainFOLLOW ∧
    buildParseTable chainGrammar chainFIRST chainFOLLOW = .ok (chainTable, ["$", "a"]) ∧
    mapFind "A" chainGrammar.prod = some [["B"]] ∧
    (tableCell chainTable "A" "a").rhs = ["B"] ∧
    (tableCell chainTable "A" "a").conflict = true := by
  refine ⟨by decide!, by decide!, by decide!, by decide!, by decide!, by decide!⟩

/-! ## The parser and flagged cells -/

theorem addSym_flag (A x : String) (st : SetMap × Bool) (h : st.2 = true) :
    (addSym A x st).2 = true := by
  unfold addSym
  split
  · exact h
  · rfl

theorem addSym_quiet (A x : String) (st : SetMap × Bool) (h : (addSym A x st).2 = false) :
    st.2 = false ∧ x ∈ mapGetD A st.1 [] ∧ (addSym A x st).1 = mapEnsure A st.1 [] := by
  by_cases hx : setHas x (mapGetD A st.1 []) = true
  · simp only [addSym, hx, if_true] at h ⊢
    exact ⟨h, (setHas_iff _ _).1 hx, trivial⟩
  · simp [addSym, hx] at h

theorem mem_addSym (A x : String) (st : SetMap × Bool) (X y : String) :
    y ∈ mapGetD X (addSym A x st).1 [] ↔ y ∈ mapGetD X st.1 [] ∨ (X = A ∧ y = x) := by
  unfold addSym
  split
  · rename_i hx
    simp only [mapGetD_mapEnsure]
    constructor
    · exact Or.inl
    · rintro (h | ⟨rfl, rfl⟩)
      · exact h
      · exact (setHas_iff _ _).1 hx
  · simp only [mapGetD_mapSet]
    by_cases hX : X = A
    · subst hX
      simp only [if_true, mem_setInsert, true_and]
      tauto
    · simp [hX]

theorem addSym_getD_of_quiet (A x : String) (st : SetMap × Bool)
    (h : (addSym A x st).2 = false) (X : String) :
    mapGetD X (addSym A x st).1 [] = mapGetD X st.1 [] := by
  rw [(addSym_quiet A x st h).2.2, mapGetD_mapEnsure]

/-- The list of guarded insertions into `M[B]` of the elements of `xs`. -/
theorem addAll_flag (B : String) (xs : List String) (st : SetMap × Bool) (h : st.2 = true) :
    (xs.foldl (fun acc x => addSym B x acc) st).2 = true := by
  induction xs generalizing st with
  | nil => exact h
  | cons x xs ih => exact ih _ (addSym_flag B x st h)

theorem addAll_quiet (B : String) (xs : List String) (st : SetMap × Bool)
    (h : (xs.foldl (fun acc x => addSym B x acc) st).2 = false) :
    st.2 = false ∧ (∀ x ∈ xs, x ∈ mapGetD B st.1 []) ∧
      ∀ X, mapGetD X (xs.foldl (fun acc x => addSym B x acc) st).1 [] = mapGetD X st.1 [] := by
  induction xs generalizing st with
  | nil => exact ⟨h, by simp, fun _ => rfl⟩
  | cons x xs ih =>
    rw [List.foldl_cons] at h ⊢
    obtain ⟨h1, h2, h3⟩ := ih _ h
    obtain ⟨q1, q2, _⟩ := addSym_quiet B x st h1
    refine ⟨q1, ?_, ?_⟩
    · intro y hy
      rcases List.mem_cons.mp hy with rfl | hy
      · exact q2
      · have := h2 y hy
        rwa [addSym_getD_of_quiet B x st h1] at this
    · intro X
      rw [h3 X, addSym_getD_of_quiet B x st h1]

theorem addNonEps_flag (B : String) (xs : List String) (st : SetMap × Bool) (h : st.2 = true) :
    (addNonEps B xs st).2 = true := by
  unfold addNonEps
  induction xs generalizing st with
  | nil => exact h
  | cons x xs ih =>
    rw [List.foldl_cons]
    split
    · exact ih _ h
    · exact ih _ (addSym_flag B x st h)

theorem addNonEps_quiet (B : String) (xs : List String) (st : SetMap × Bool)
    (h : (addNonEps B xs st).2 = false) :
    st.2 = false ∧ (∀ x ∈ xs, x ≠ EPS → x ∈ mapGetD B st.1 []) ∧
      ∀ X, mapGetD X (addNonEps B xs st).1 [] = mapGetD X st.1 [] := by
  unfold addNonEps at h ⊢
  induction xs generalizing st with
  | nil => exact ⟨h, by simp, fun _ => rfl⟩
  | cons x xs ih =>
    rw [List.foldl_cons] at h ⊢
    by_cases hx : x = EPS
    · simp only [hx, if_true] at h ⊢
      obtain ⟨h1, h2, h3⟩ := ih _ h
      refine ⟨h1, ?_, h3⟩
      intro y hy hne
      rcases List.mem_cons.mp hy with rfl | hy
      · exact absurd rfl hne
      · exact h2 y hy hne
    · simp only [hx, if_false] at h ⊢
      obtain ⟨h1, h2, h3⟩ := ih _ h
      obtain ⟨q1, q2, _⟩ := addSym_quiet B x st h1
      refine ⟨q1, ?_, ?_⟩
      · intro y hy hne
        rcases List.mem_cons.mp hy with rfl | hy
        · exact q2
        · have := h2 y hy hne
          rwa [addSym_getD_of_quiet B x st h1] at this
      · intro X
        rw [h3 X, addSym_getD_of_quiet B x st h1]

/-! ## FOLLOW: a pass that changes nothing -/

theorem followAt_flag (g : Grammar) (FIRST : SetMap) (A B : String) (beta : List String)
    (st : SetMap × Bool) (h : st.2 = true) : (followAt g FIRST A B beta st).2 = true := by
  unfold followAt
  split
  · exact h
  · simp only
    split
    · apply addAll_flag
      exact addNonEps_flag _ _ _ h
    · exact addNonEps_flag _ _ _ h

theorem FollowRuleAt_congr (g : Grammar) (FIRST : SetMap) (A B : String) (beta : List String)
    (F F' : SetMap) (h : ∀ X, mapGetD X F' [] = mapGetD X F []) :
    FollowRuleAt g FIRST A B beta F → FollowRuleAt g FIRST A B beta F' := by
  unfold FollowRuleAt
  simp only [h]
  exact id

theorem followAt_quiet (g : Grammar) (FIRST : SetMap) (A B : String) (beta : List String)
    (st : SetMap × Bool) (h : (followAt g FIRST A B beta st).2 = false) :
    st.2 = false ∧ (∀ X, mapGetD X (followAt g FIRST A B beta st).1 [] = mapGetD X st.1 []) ∧
      FollowRuleAt g FIRST A B beta st.1 := by
  unfold followAt at h ⊢
  unfold FollowRuleAt
  by_cases hB : g.isNonTerminal B = true
  · simp only [hB, Bool.not_true, Bool.false_eq_true, if_false] at h ⊢
    by_cases hc : (beta = [] || setHas EPS (firstOfSequence beta FIRST g)) = true
    · simp only [hc, if_true] at h ⊢
      obtain ⟨a1, a2, a3⟩ := addAll_quiet _ _ _ h
      simp only at a1 a2 a3
      obtain ⟨n1, n2, n3⟩ := addNonEps_quiet _ _ _ a1
      refine ⟨n1, ?_, ?_⟩
      · intro X
        rw [a3 X, mapGetD_mapEnsure, n3 X]
      · intro _
        refine ⟨n2, ?_⟩
        intro _ x hx
        have := a2 x (by rw [n3 A]; exact hx)
        rwa [mapGetD_mapEnsure, n3 B] at this
    · simp only [hc, if_false] at h ⊢
      obtain ⟨n1, n2, n3⟩ := addNonEps_quiet _ _ _ h
      refine ⟨n1, n3, ?_⟩
      intro _
      refine ⟨n2, ?_⟩
      intro hcond
      exfalso
      apply hc
      rcases hcond with e | e
      · simp [e]
      · simp [setHas, e]
  · have hB' : g.isNonTerminal B = false := by simpa using hB
    simp only [hB', Bool.not_false, if_true] at h ⊢
    refine ⟨h, ?_, ?_⟩
    · simp
    · simp

/-! ## FOLLOW: the loops of a pass -/

theorem followScan_flag (g : Grammar) (FIRST : SetMap) (A : String) (rhs : List String)
    (st : SetMap × Bool) (h : st.2 = true) : (followScan g FIRST A rhs st).2 = true := by
  induction rhs generalizing st with
  | nil => exact h
  | cons B beta ih => exact ih _ (followAt_flag g FIRST A B beta st h)

theorem followScan_quiet (g : Grammar) (FIRST : SetMap) (A : String) (rhs : List String)
    (st : SetMap × Bool) (h : (followScan g FIRST A rhs st).2 = false) :
    st.2 = false ∧ (∀ X, mapGetD X (followScan g FIRST A rhs st).1 [] = mapGetD X st.1 []) ∧
      ∀ pre B beta, rhs = pre ++ B :: beta → FollowRuleAt g FIRST A B beta st.1 := by
  induction rhs generalizing st with
  | nil =>
    refine ⟨h, fun _ => rfl, ?_⟩
    intro pre B beta e
    simp at e
  | cons B0 beta0 ih =>
    simp only [followScan] at h ⊢
    obtain ⟨i1, i2, i3⟩ := ih _ h
    obtain ⟨q1, q2, q3⟩ := followAt_quiet g FIRST A B0 beta0 st i1
    refine ⟨q1, fun X => by rw [i2 X, q2 X], ?_⟩
    intro pre B beta e
    cases pre with
    | nil =>
      simp only [List.nil_append, List.cons.injEq] at e
      obtain ⟨rfl, rfl⟩ := e
      exact q3
    | cons p pre =>
      simp only [List.cons_append, List.cons.injEq] at e
      have := i3 pre B beta e.2
      exact FollowRuleAt_congr g FIRST A B beta _ _ (fun X => (q2 X).symm) this

theorem followAlts_flag (g : Grammar) (FIRST : SetMap) (A : String) (alts : List (List String))
    (st : SetMap × Bool) (h : st.2 = true) :
    (alts.foldl (fun acc rhs => followScan g FIRST A rhs acc) st).2 = true := by
  induction alts generalizing st with
  | nil => exact h
  | cons rhs alts ih => exact ih _ (followScan_flag g FIRST A rhs st h)

theorem followAlts_quiet (g : Grammar) (FIRST : SetMap) (A : String) (alts : List (List String))
    (st : SetMap × Bool)
    (h : (alts.foldl (fun acc rhs => followScan g FIRST A rhs acc) st).2 = false) :
    st.2 = false ∧
      (∀ X, mapGetD X (alts.foldl (fun acc rhs => followScan g FIRST A rhs acc) st).1 []
        = mapGetD X st.1 []) ∧
      ∀ rhs ∈ alts, ∀ pre B beta, rhs = pre ++ B :: beta → FollowRuleAt g FIRST A B beta st.1 := by
  induction alts generalizing st with
  | nil => exact ⟨h, fun _ => rfl, by simp⟩
  | cons rhs0 alts ih =>
    rw [List.foldl_cons] at h ⊢
    obtain ⟨i1, i2, i3⟩ := ih _ h
    obtain ⟨q1, q2, q3⟩ := followScan_quiet g FIRST A rhs0 st i1
    refine ⟨q1, fun X => by rw [i2 X, q2 X], ?_⟩
    intro rhs hrhs pre B beta e
    rcases List.mem_cons.mp hrhs with rfl | hrhs
    · exact q3 pre B beta e
    · exact FollowRuleAt_congr g FIRST A B beta _ _ (fun X => (q2 X).symm)
        (i3 rhs hrhs pre B beta e)

theorem followPassFrom_quiet (g : Grammar) (FIRST : SetMap) (nts : List String)
    (st : SetMap × Bool) (F : SetMap)
    (h : followPassFrom g FIRST nts st = .ok (F, false)) :
    st.2 = false ∧ (∀ X, mapGetD X F [] = mapGetD X st.1 []) ∧
      ∀ A ∈ nts, ∀ alts, mapFind A g.prod = some alts → ∀ rhs ∈ alts,
        ∀ pre B beta, rhs = pre ++ B :: beta → FollowRuleAt g FIRST A B beta st.1 := by
  induction nts generalizing st with
  | nil =>
    simp only [followPassFrom, Outcome.ok.injEq] at h
    subst h
    exact ⟨rfl, fun _ => rfl, by simp⟩
  | cons A0 more ih =>
    unfold followPassFrom at h
    split at h
    · simp at h
    · rename_i alts0 h0
      obtain ⟨i1, i2, i3⟩ := ih _ h
      obtain ⟨q1, q2, q3⟩ := followAlts_quiet g FIRST A0 alts0 st i1
      refine ⟨q1, fun X => by rw [i2 X, q2 X], ?_⟩
      intro A hA alts hal rhs hrhs pre B beta e
      rcases List.mem_cons.mp hA with rfl | hA
      · rw [h0] at hal
        simp only [Option.some.injEq] at hal
        subst hal
        exact q3 rhs hrhs pre B beta e
      · exact FollowRuleAt_congr g FIRST A B beta _ _ (fun X => (q2 X).symm)
          (i3 A hA alts hal rhs hrhs pre B beta e)

theorem followLoop_last (g : Grammar) (FIRST : SetMap) (fuel : Nat) (F0 F : SetMap)
    (h : followLoop g FIRST fuel F0 = .ok F) :
    ∃ F1, followPass g FIRST F1 = .ok (F, false) := by
  induction fuel generalizing F0 with
  | zero => simp [followLoop] at h
  | succ n ih =>
    unfold followLoop at h
    split at h
    · rename_i F1 changed hp
      by_cases hc : changed = true
      · simp only [hc, if_true] at h
        exact ih _ h
      · have hc' : changed = false := by simpa using hc
        subst hc'
        simp only [Bool.false_eq_true, if_false, Outcome.ok.injEq] at h
        subst h
        exact ⟨F0, hp⟩
    · simp at h
    · simp at h

/-- The map that `computeFOLLOW` returns is closed under the FOLLOW rule. -/
theorem computeFOLLOW_rule (fuel : Nat) (g : Grammar) (FIRST FOLLOW : SetMap)
    (h : computeFOLLOW fuel g FIRST = .ok FOLLOW)
    (A : String) (hA : A ∈ g.nonterminals) (alts : List (List String))
    (hal : mapFind A g.prod = some alts) (rhs : List String) (hrhs : rhs ∈ alts)
    (pre : List String) (B : String) (beta : List String) (e : rhs = pre ++ B :: beta) :
    FollowRuleAt g FIRST A B beta FOLLOW := by
  obtain ⟨F1, hp⟩ := followLoop_last g FIRST fuel _ FOLLOW h
  obtain ⟨_, q2, q3⟩ := followPassFrom_quiet g FIRST g.nonterminals (F1, false) FOLLOW hp
  exact FollowRuleAt_congr g FIRST A B beta _ _ q2 (q3 A hA alts hal rhs hrhs pre B beta e)

/-! ## FIRST of a sequence -/

theorem mem_insertNonEps (xs result : List String) (x : String) :
    x ∈ insertNonEps xs result ↔ x ∈ result ∨ (x ∈ xs ∧ x ≠ EPS) := by
  unfold insertNonEps
  induction xs generalizing result with
  | nil => simp
  | cons a xs ih =>
    rw [List.foldl_cons]
    by_cases ha : a = EPS
    · simp only [ha, if_true, ih, List.mem_cons]
      constructor
      · rintro (h | ⟨h1, h2⟩)
        · exact Or.inl h
        · exact Or.inr ⟨Or.inr h1, h2⟩
      · rintro (h | ⟨h1 | h1, h2⟩)
        · exact Or.inl h
        · exact absurd h1 h2
        · exact Or.inr ⟨h1, h2⟩
    · simp only [ha, if_false, ih, mem_setInsert, List.mem_cons]
      constructor
      · rintro ((h | h) | ⟨h1, h2⟩)
        · subst h
          exact Or.inr ⟨Or.inl rfl, ha⟩
        · exact Or.inl h
        · exact Or.inr ⟨Or.inr h1, h2⟩
      · rintro (h | ⟨h1 | h1, h2⟩)
        · exact Or.inl (Or.inr h)
        · exact Or.inl (Or.inl h1)
        · exact Or.inr ⟨h1, h2⟩

theorem mem_firstOfSeqLoop (FIRST : SetMap) (g : Grammar) (seq result : List String) (x : String) :
    x ∈ firstOfSeqLoop FIRST g seq result ↔ x ∈ result ∨ inFirstSeq FIRST g seq x := by
  induction seq generalizing result with
  | nil =>
    simp only [firstOfSeqLoop, inFirstSeq, mem_setInsert]
    tauto
  | cons X rest ih =>
    unfold firstOfSeqLoop inFirstSeq
    by_cases h1 : X = EPS
    · simp only [h1, if_true, mem_setInsert]
      tauto
    · simp only [h1, if_false]
      by_cases h2 : (g.isTerminal X || !g.isNonTerminal X) = true
      · simp only [h2, if_true, mem_setInsert]
        tauto
      · have h2' := Bool.eq_false_iff.mpr h2
        simp only [h2', Bool.false_eq_true, if_false]
        cases hX : mapFind X FIRST with
        | none =>
          simp only [mem_setInsert]
          tauto
        | some fx =>
          simp only
          by_cases h3 : setHas EPS fx = true
          · have h3' : EPS ∈ fx := (setHas_iff _ _).1 h3
            simp only [h3, if_true, ih, mem_insertNonEps]
            tauto
          · have h3' : EPS ∉ fx := fun e => h3 ((setHas_iff _ _).2 e)
            have h3'' := Bool.eq_false_iff.mpr h3
            simp only [h3'', Bool.false_eq_true, if_false, mem_insertNonEps]
            tauto

theorem mem_firstOfSequence (FIRST : SetMap) (g : Grammar) (seq : List String) (x : String) :
    x ∈ firstOfSequence seq FIRST g ↔ inFirstSeq FIRST g seq x := by
  unfold firstOfSequence
  rw [mem_firstOfSeqLoop]
  simp

/-! ## Keys -/

theorem hasKeys_mapFind (g : Grammar) (F : SetMap) (hk : HasKeys g F) (X : String)
    (hX : X ∈ g.nonterminals) : mapFind X F = some (mapGetD X F []) := by
  have := hk X hX
  obtain ⟨v, hv⟩ := Option.isSome_iff_exists.mp this
  simp [mapGetD, hv]

theorem hasKeys_ensure (g : Grammar) (F : SetMap) (hk : HasKeys g F) (X : String)
    (hX : X ∈ g.nonterminals) : mapEnsure X F [] = F :=
  mapEnsure_of_isSome [] (hk X hX)

theorem hasKeys_addSym (g : Grammar) (A x : String) (st : SetMap × Bool) (hk : HasKeys g st.1) :
    HasKeys g (addSym A x st).1 := by
  intro B hB
  unfold addSym
  split
  · exact mapFind_isSome_mapEnsure _ _ (hk B hB)
  · exact mapFind_isSome_mapSet _ _ (hk B hB)

theorem nonterminal_of_not_terminalish (g : Grammar) (X : String)
    (h : ¬ (g.isTerminal X || !g.isNonTerminal X) = true) : X ∈ g.nonterminals := by
  simp only [Bool.or_eq_true, Bool.not_eq_true', not_or, Bool.not_eq_false] at h
  exact (setHas_iff _ _).1 h.2

/-! ## FIRST: a pass that changes nothing -/

theorem addSym_quiet_eq (g : Grammar) (A x : String) (st : SetMap × Bool)
    (hk : HasKeys g st.1) (hA : A ∈ g.nonterminals) (h : (addSym A x st).2 = false) :
    st.2 = false ∧ x ∈ mapGetD A st.1 [] ∧ addSym A x st = st := by
  obtain ⟨q1, q2, q3⟩ := addSym_quiet A x st h
  refine ⟨q1, q2, ?_⟩
  rw [hasKeys_ensure g _ hk A hA] at q3
  exact Prod.ext q3 (by rw [h, q1])

theorem addNonEps_quiet_eq (g : Grammar) (A : String) (xs : List String) (st : SetMap × Bool)
    (hk : HasKeys g st.1) (hA : A ∈ g.nonterminals) (h : (addNonEps A xs st).2 = false) :
    st.2 = false ∧ (∀ x ∈ xs, x ≠ EPS → x ∈ mapGetD A st.1 []) ∧ addNonEps A xs st = st := by
  unfold addNonEps at h ⊢
  induction xs with
  | nil => exact ⟨h, by simp, rfl⟩
  | cons x xs ih =>
    rw [List.foldl_cons] at h ⊢
    by_cases hx : x = EPS
    · simp only [hx, if_true] at h ⊢
      obtain ⟨h1, h2, h3⟩ := ih h
      refine ⟨h1, ?_, h3⟩
      intro y hy hne
      rcases List.mem_cons.mp hy with rfl | hy
      · exact absurd rfl hne
      · exact h2 y hy hne
    · simp only [hx, if_false] at h ⊢
      have hflag : (addSym A x st).2 = false := by
        by_contra hc
        have hc' : (addSym A x st).2 = true := by simpa using hc
        have := addNonEps_flag A xs _ hc'
        unfold addNonEps at this
        rw [this] at h
        exact Bool.noConfusion h
      obtain ⟨q1, q2, q3⟩ := addSym_quiet_eq g A x st hk hA hflag
      rw [q3] at h ⊢
      obtain ⟨h1, h2, h3⟩ := ih h
      refine ⟨h1, ?_, h3⟩
      intro y hy hne
      rcases List.mem_cons.mp hy with rfl | hy
      · exact q2
      · exact h2 y hy hne

theorem firstScan_flag (g : Grammar) (A : String) (rhs : List String) (st : SetMap × Bool)
    (h : st.2 = true) : (firstScan g A rhs st).2 = true := by
  induction rhs generalizing st with
  | nil => exact addSym_flag _ _ _ h
  | cons X rest ih =>
    unfold firstScan
    split
    · exact addSym_flag _ _ _ h
    · split
      · exact addSym_flag _ _ _ h
      · simp only
        have h1 : (addNonEps A (mapGetD X st.1 []) (mapEnsure X st.1 [], st.2)).2 = true :=
          addNonEps_flag _ _ _ h
        split
        · exact ih _ h1
        · exact h1

theorem firstScan_quiet (g : Grammar) (A : String) (hA : A ∈ g.nonterminals) (rhs : List String)
    (st : SetMap × Bool) (hk : HasKeys g st.1) (h : (firstScan g A rhs st).2 = false) :
    st.2 = false ∧ firstScan g A rhs st = st ∧
      ∀ x, inFirstSeq st.1 g rhs x → x ∈ mapGetD A st.1 [] := by
  induction rhs with
  | nil =>
    simp only [firstScan] at h ⊢
    obtain ⟨q1, q2, q3⟩ := addSym_quiet_eq g A EPS st hk hA h
    refine ⟨q1, q3, ?_⟩
    intro x hx
    simp only [inFirstSeq] at hx
    rw [hx]
    exact q2
  | cons X rest ih =>
    unfold firstScan at h ⊢
    unfold inFirstSeq
    by_cases h1 : X = EPS
    · simp only [h1, if_true] at h ⊢
      obtain ⟨q1, q2, q3⟩ := addSym_quiet_eq g A EPS st hk hA h
      refine ⟨q1, q3, ?_⟩
      intro x hx
      rw [hx]
      exact q2
    · simp only [h1, if_false] at h ⊢
      by_cases h2 : (g.isTerminal X || !g.isNonTerminal X) = true
      · simp only [h2, if_true] at h ⊢
        obtain ⟨q1, q2, q3⟩ := addSym_quiet_eq g A X st hk hA h
        refine ⟨q1, q3, ?_⟩
        intro x hx
        rw [hx]
        exact q2
      · have h2' := Bool.eq_false_iff.mpr h2
        simp only [h2', Bool.false_eq_true, if_false] at h ⊢
        have hX := nonterminal_of_not_terminalish g X h2
        rw [hasKeys_ensure g _ hk X hX] at h ⊢
        have hflag : (addNonEps A (mapGetD X st.1 []) (st.1, st.2)).2 = false := by
          by_contra hc
          have hc' : (addNonEps A (mapGetD X st.1 []) (st.1, st.2)).2 = true := by simpa using hc
          split at h
          · rw [firstScan_flag g A rest _ hc'] at h
            exact Bool.noConfusion h
          · rw [hc'] at h
            exact Bool.noConfusion h
        obtain ⟨n1, n2, n3⟩ := addNonEps_quiet_eq g A (mapGetD X st.1 []) (st.1, st.2) hk hA hflag
        rw [n3] at h ⊢
        simp only at h ⊢
        rw [hasKeys_mapFind g st.1 hk X hX]
        simp only
        by_cases h3 : setHas EPS (mapGetD X st.1 []) = true
        · simp only [h3, if_true] at h ⊢
          obtain ⟨i1, i2, i3⟩ := ih h
          refine ⟨i1, i2, ?_⟩
          rintro x (⟨hx1, hx2⟩ | ⟨_, hx⟩)
          · exact n2 x hx1 hx2
          · exact i3 x hx
        · have h3'' := Bool.eq_false_iff.mpr h3
          simp only [h3'', Bool.false_eq_true, if_false] at h ⊢
          refine ⟨n1, trivial, ?_⟩
          rintro x (⟨hx1, hx2⟩ | ⟨hx, _⟩)
          · exact n2 x hx1 hx2
          · exact absurd ((setHas_iff _ _).2 hx) h3

theorem firstAlts_flag (g : Grammar) (A : String) (alts : List (List String))
    (st : SetMap × Bool) (h : st.2 = true) :
    (alts.foldl (fun acc rhs => firstScan g A rhs acc) st).2 = true := by
  induction alts generalizing st with
  | nil => exact h
  | cons rhs alts ih => exact ih _ (firstScan_flag g A rhs st h)

theorem firstAlts_quiet (g : Grammar) (A : String) (hA : A ∈ g.nonterminals)
    (alts : List (List String)) (st : SetMap × Bool) (hk : HasKeys g st.1)
    (h : (alts.foldl (fun acc rhs => firstScan g A rhs acc) st).2 = false) :
    st.2 = false ∧ alts.foldl (fun acc rhs => firstScan g A rhs acc) st = st ∧
      ∀ rhs ∈ alts, ∀ x, inFirstSeq st.1 g rhs x → x ∈ mapGetD A st.1 [] := by
  induction alts with
  | nil => exact ⟨h, rfl, by simp⟩
  | cons rhs0 alts ih =>
    rw [List.foldl_cons] at h ⊢
    have hflag : (firstScan g A rhs0 st).2 = false := by
      by_contra hc
      have hc' : (firstScan g A rhs0 st).2 = true := by simpa using hc
      rw [firstAlts_flag g A alts _ hc'] at h
      exact Bool.noConfusion h
    obtain ⟨q1, q2, q3⟩ := firstScan_quiet g A hA rhs0 st hk hflag
    rw [q2] at h ⊢
    obtain ⟨i1, i2, i3⟩ := ih h
    refine ⟨i1, i2, ?_⟩
    intro rhs hrhs x hx
    rcases List.mem_cons.mp hrhs with rfl | hrhs
    · exact q3 x hx
    · exact i3 rhs hrhs x hx

theorem firstPassFrom_quiet (g : Grammar) (nts : List String) (hsub : ∀ A ∈ nts, A ∈ g.nonterminals)
    (st : SetMap × Bool) (hk : HasKeys g st.1) (F : SetMap)
    (h : firstPassFrom g nts st = .ok (F, false)) :
    st = (F, false) ∧
      ∀ A ∈ nts, ∀ alts, mapFind A g.prod = some alts → ∀ rhs ∈ alts,
        ∀ x, inFirstSeq F g rhs x → x ∈ mapGetD A F [] := by
  induction nts generalizing st with
  | nil =>
    simp only [firstPassFrom, Outcome.ok.injEq] at h
    exact ⟨h, by simp⟩
  | cons A0 more ih =>
    unfold firstPassFrom at h
    split at h
    · simp at h
    · rename_i alts0 h0
      have hA0 := hsub A0 (List.mem_cons_self _ _)
      have hsub' : ∀ A ∈ more, A ∈ g.nonterminals :=
        fun A hA => hsub A (List.mem_cons_of_mem _ hA)
      by_cases hflag : (alts0.foldl (fun acc rhs => firstScan g A0 rhs acc) st).2 = false
      · obtain ⟨q1, q2, q3⟩ := firstAlts_quiet g A0 hA0 alts0 st hk hflag
        rw [q2] at h
        obtain ⟨i1, i2⟩ := ih hsub' st hk h
        refine ⟨i1, ?_⟩
        intro A hA alts hal rhs hrhs x hx
        rcases List.mem_cons.mp hA with rfl | hA
        · rw [h0] at hal
          simp only [Option.some.injEq] at hal
          subst hal
          have := q3 rhs hrhs x
          rw [i1] at this
          exact this hx
        · exact i2 A hA alts hal rhs hrhs x hx
      · exfalso
        have hc : (alts0.foldl (fun acc rhs => firstScan g A0 rhs acc) st).2 = true := by
          simpa using hflag
        have key : ∀ (l : List String) (s : SetMap × Bool), s.2 = true →
            ∀ F', firstPassFrom g l s ≠ .ok (F', false) := by
          intro l
          induction l with
          | nil =>
            intro s hs F' e
            simp only [firstPassFrom, Outcome.ok.injEq] at e
            rw [e] at hs
            exact Bool.noConfusion hs
          | cons B l ihl =>
            intro s hs F' e
            unfold firstPassFrom at e
            split at e
            · simp at e
            · exact ihl _ (firstAlts_flag g B _ s hs) F' e
        exact key more _ hc F h

/-! ## FIRST: every element is contributed by a scan -/

theorem mapLe_refl (F : SetMap) : MapLe F F := fun _ _ h => h

theorem mapLe_trans {F F1 F2 : SetMap} (h1 : MapLe F F1) (h2 : MapLe F1 F2) : MapLe F F2 :=
  fun X x h => h2 X x (h1 X x h)

theorem addSym_le (A x : String) (st : SetMap × Bool) : MapLe st.1 (addSym A x st).1 :=
  fun X y h => (mem_addSym A x st X y).2 (Or.inl h)

theorem inFirstSeq_mono (g : Grammar) (F F1 : SetMap) (hk : HasKeys g F) (hk1 : HasKeys g F1)
    (hle : MapLe F F1) (seq : List String) (x : String) (h : inFirstSeq F g seq x) :
    inFirstSeq F1 g seq x := by
  induction seq with
  | nil => exact h
  | cons X rest ih =>
    unfold inFirstSeq at h ⊢
    by_cases h1 : X = EPS
    · simp only [h1, if_true] at h ⊢
      exact h
    · simp only [h1, if_false] at h ⊢
      by_cases h2 : (g.isTerminal X || !g.isNonTerminal X) = true
      · simp only [h2, if_true] at h ⊢
        exact h
      · have hX := nonterminal_of_not_terminalish g X h2
        have h2' := Bool.eq_false_iff.mpr h2
        simp only [h2', Bool.false_eq_true, if_false] at h ⊢
        rw [hasKeys_mapFind g F hk X hX] at h
        rw [hasKeys_mapFind g F1 hk1 X hX]
        simp only at h ⊢
        rcases h with ⟨a, b⟩ | ⟨a, b⟩
        · exact Or.inl ⟨hle X x a, b⟩
        · exact Or.inr ⟨hle X EPS a, ih b⟩

theorem nullablePre_mono (g : Grammar) (F F1 : SetMap) (hle : MapLe F F1) (pre : List String)
    (h : NullablePre g F pre) : NullablePre g F1 pre :=
  fun X hX => ⟨(h X hX).1, (h X hX).2.1, hle X EPS (h X hX).2.2⟩

theorem inFirstSeq_append (g : Grammar) (F : SetMap) (hk : HasKeys g F) (pre suf : List String)
    (x : String) (hn : NullablePre g F pre) (h : inFirstSeq F g suf x) :
    inFirstSeq F g (pre ++ suf) x := by
  induction pre with
  | nil => exact h
  | cons X pre ih =>
    obtain ⟨n1, n2, n3⟩ := hn X (List.mem_cons_self _ _)
    have hX : X ∈ g.nonterminals :=
      nonterminal_of_not_terminalish g X (by rw [n2]; exact Bool.false_ne_true)
    rw [List.cons_append]
    unfold inFirstSeq
    simp only [n1, if_false, n2, Bool.false_eq_true]
    rw [hasKeys_mapFind g F hk X hX]
    exact Or.inr ⟨n3, ih (fun Y hY => hn Y (List.mem_cons_of_mem _ hY))⟩

/-- A guarded insertion of a symbol that the scan of an alternative contributes keeps the
map sound. -/
theorem addSym_sound (g : Grammar) (A x : String) (st : SetMap × Bool) (hA : A ∈ g.nonterminals)
    (alts : List (List String)) (hal : mapFind A g.prod = some alts) (rhs : List String)
    (hrhs : rhs ∈ alts) (hk : HasKeys g st.1) (hs : FirstSound g st.1)
    (hj : inFirstSeq st.1 g rhs x) : FirstSound g (addSym A x st).1 := by
  have hk1 := hasKeys_addSym g A x st hk
  have hle := addSym_le A x st
  intro B hB y hy
  rcases (mem_addSym A x st B y).1 hy with h | ⟨rfl, rfl⟩
  · rcases hs B hB y h with h1 | ⟨al, h1, r, h2, h3⟩
    · exact Or.inl h1
    · exact Or.inr ⟨al, h1, r, h2, inFirstSeq_mono g _ _ hk hk1 hle r y h3⟩
  · exact Or.inr ⟨alts, hal, rhs, hrhs, inFirstSeq_mono g _ _ hk hk1 hle rhs y hj⟩

theorem addNonEps_sound (g : Grammar) (A : String) (hA : A ∈ g.nonterminals)
    (alts : List (List String)) (hal : mapFind A g.prod = some alts) (rhs : List String)
    (hrhs : rhs ∈ alts) (F0 : SetMap) (xs : List String) (st : SetMap × Bool)
    (hinv : PassInv g F0 st)
    (hj : ∀ a ∈ xs, a ≠ EPS → ∀ F1, HasKeys g F1 → MapLe F0 F1 → inFirstSeq F1 g rhs a) :
    PassInv g F0 (addNonEps A xs st) := by
  unfold addNonEps
  induction xs generalizing st with
  | nil => exact hinv
  | cons a xs ih =>
    rw [List.foldl_cons]
    have hj' : ∀ b ∈ xs, b ≠ EPS → ∀ F1, HasKeys g F1 → MapLe F0 F1 → inFirstSeq F1 g rhs b :=
      fun b hb => hj b (List.mem_cons_of_mem _ hb)
    by_cases ha : a = EPS
    · simp only [ha, if_true]
      exact ih st hinv hj'
    · simp only [ha, if_false]
      obtain ⟨hk, hs, hle⟩ := hinv
      apply ih _ _ hj'
      refine ⟨hasKeys_addSym g A a st hk, ?_, mapLe_trans hle (addSym_le A a st)⟩
      exact addSym_sound g A a st hA alts hal rhs hrhs hk hs
        (hj a (List.mem_cons_self _ _) ha st.1 hk hle)

theorem firstScan_sound (g : Grammar) (A : String) (hA : A ∈ g.nonterminals)
    (alts : List (List String)) (hal : mapFind A g.prod = some alts) (suf pre : List String)
    (hrhs : pre ++ suf ∈ alts) (st : SetMap × Bool) (hk : HasKeys g st.1)
    (hs : FirstSound g st.1) (hn : NullablePre g st.1 pre) :
    PassInv g st.1 (firstScan g A suf st) := by
  induction suf generalizing pre st with
  | nil =>
    simp only [firstScan]
    refine ⟨hasKeys_addSym g A EPS st hk, ?_, addSym_le A EPS st⟩
    exact addSym_sound g A EPS st hA alts hal _ hrhs hk hs
      (inFirstSeq_append g st.1 hk pre [] EPS hn rfl)
  | cons X rest ih =>
    unfold firstScan
    by_cases h1 : X = EPS
    · simp only [h1, if_true]
      refine ⟨hasKeys_addSym g A EPS st hk, ?_, addSym_le A EPS st⟩
      apply addSym_sound g A EPS st hA alts hal _ hrhs hk hs
      apply inFirstSeq_append g st.1 hk pre _ EPS hn
      unfold inFirstSeq
      simp [h1]
    · simp only [h1, if_false]
      by_cases h2 : (g.isTerminal X || !g.isNonTerminal X) = true
      · simp only [h2, if_true]
        refine ⟨hasKeys_addSym g A X st hk, ?_, addSym_le A X st⟩
        apply addSym_sound g A X st hA alts hal _ hrhs hk hs
        apply inFirstSeq_append g st.1 hk pre _ X hn
        unfold inFirstSeq
        simp [h1, h2]
      · have hX := nonterminal_of_not_terminalish g X h2
        have h2' := Bool.eq_false_iff.mpr h2
        simp only [h2', Bool.false_eq_true, if_false]
        rw [hasKeys_ensure g _ hk X hX]
        have hinv1 : PassInv g st.1 (addNonEps A (mapGetD X st.1 []) (st.1, st.2)) := by
          apply addNonEps_sound g A hA alts hal (pre ++ X :: rest) hrhs st.1 _ (st.1, st.2)
            ⟨hk, hs, mapLe_refl _⟩
          intro a ha hne F1 hk1 hle1
          apply inFirstSeq_append g F1 hk1 pre _ a (nullablePre_mono g _ _ hle1 pre hn)
          unfold inFirstSeq
          simp only [h1, if_false, h2', Bool.false_eq_true]
          rw [hasKeys_mapFind g F1 hk1 X hX]
          exact Or.inl ⟨hle1 X a ha, hne⟩
        by_cases h3 : setHas EPS
            (mapGetD X (addNonEps A (mapGetD X st.1 []) (st.1, st.2)).1 []) = true
        · simp only [h3, if_true]
          obtain ⟨k1, s1, l1⟩ := hinv1
          have hrhs' : (pre ++ [X]) ++ rest ∈ alts := by
            simpa using hrhs
          have hn' : NullablePre g (addNonEps A (mapGetD X st.1 []) (st.1, st.2)).1
              (pre ++ [X]) := by
            intro Y hY
            rcases List.mem_append.mp hY with hY | hY
            · exact nullablePre_mono g _ _ l1 pre hn Y hY
            · simp only [List.mem_singleton] at hY
              subst hY
              exact ⟨h1, h2', (setHas_iff _ _).1 h3⟩
          obtain ⟨k2, s2, l2⟩ := ih (pre ++ [X]) hrhs' _ k1 s1 hn'
          exact ⟨k2, s2, mapLe_trans l1 l2⟩
        · have h3' := Bool.eq_false_iff.mpr h3
          simp only [h3', Bool.false_eq_true, if_false]
          exact hinv1

theorem firstAlts_sound (g : Grammar) (A : String) (hA : A ∈ g.nonterminals)
    (alts : List (List String)) (hal : mapFind A g.prod = some alts)
    (todo : List (List String)) (hsub : ∀ rhs ∈ todo, rhs ∈ alts)
    (st : SetMap × Bool) (hk : HasKeys g st.1) (hs : FirstSound g st.1) :
    PassInv g st.1 (todo.foldl (fun acc rhs => firstScan g A rhs acc) st) := by
  induction todo generalizing st with
  | nil => exact ⟨hk, hs, mapLe_refl _⟩
  | cons rhs todo ih =>
    rw [List.foldl_cons]
    obtain ⟨k1, s1, l1⟩ := firstScan_sound g A hA alts hal rhs []
      (by simpa using hsub rhs (List.mem_cons_self _ _)) st hk hs (by intro X hX; simp at hX)
    obtain ⟨k2, s2, l2⟩ := ih (fun r hr => hsub r (List.mem_cons_of_mem _ hr)) _ k1 s1
    exact ⟨k2, s2, mapLe_trans l1 l2⟩

theorem firstPassFrom_sound (g : Grammar) (nts : List String)
    (hsub : ∀ A ∈ nts, A ∈ g.nonterminals) (st st1 : SetMap × Bool)
    (hk : HasKeys g st.1) (hs : FirstSound g st.1) (h : firstPassFrom g nts st = .ok st1) :
    PassInv g st.1 st1 := by
  induction nts generalizing st with
  | nil =>
    simp only [firstPassFrom, Outcome.ok.injEq] at h
    subst h
    exact ⟨hk, hs, mapLe_refl _⟩
  | cons A0 more ih =>
    unfold firstPassFrom at h
    split at h
    · simp at h
    · rename_i alts0 h0
      obtain ⟨k1, s1, l1⟩ := firstAlts_sound g A0 (hsub A0 (List.mem_cons_self _ _)) alts0 h0
        alts0 (fun _ hr => hr) st hk hs
      obtain ⟨k2, s2, l2⟩ := ih (fun A hA => hsub A (List.mem_cons_of_mem _ hA)) _ k1 s1 h
      exact ⟨k2, s2, mapLe_trans l1 l2⟩

/-- The loop of `computeFIRST`: the map it returns is sound, includes the initial map, and
one more pass returns it unchanged. -/
theorem firstLoop_spec (g : Grammar) (fuel : Nat) (F0 F : SetMap) (hk : HasKeys g F0)
    (hs : FirstSound g F0) (h : firstLoop g fuel F0 = .ok F) :
    PassInv g F0 (F, false) ∧ firstPass g F = .ok (F, false) := by
  induction fuel generalizing F0 with
  | zero => simp [firstLoop] at h
  | succ n ih =>
    unfold firstLoop at h
    split at h
    · rename_i F1 changed hp
      have hinv := firstPassFrom_sound g g.nonterminals (fun _ hA => hA) (F0, false)
        (F1, changed) hk hs hp
      obtain ⟨k1, s1, l1⟩ := hinv
      by_cases hc : changed = true
      · simp only [hc, if_true] at h
        obtain ⟨⟨k2, s2, l2⟩, hfix⟩ := ih F1 k1 s1 h
        exact ⟨⟨k2, s2, mapLe_trans l1 l2⟩, hfix⟩
      · have hc' : changed = false := by simpa using hc
        subst hc'
        simp only [Bool.false_eq_true, if_false, Outcome.ok.injEq] at h
        subst h
        refine ⟨⟨k1, s1, l1⟩, ?_⟩
        have := (firstPassFrom_quiet g g.nonterminals (fun _ hA => hA) (F0, false) hk F1 hp).1
        simp only [Prod.mk.injEq, and_true] at this
        subst this
        exact hp
    · simp at h
    · simp at h

/-! ## FIRST: the initial map -/

theorem addTerminals_spec (nts ts rhs : List String)
    (h : ∀ t ∈ ts, t ∉ nts ∧ t ≠ EPS) : ∀ t ∈ addTerminals nts ts rhs, t ∉ nts ∧ t ≠ EPS := by
  unfold addTerminals
  induction rhs generalizing ts with
  | nil => exact h
  | cons s rhs ih =>
    rw [List.foldl_cons]
    apply ih
    by_cases h1 : s = EPS
    · simp only [h1, if_true]
      exact h
    · simp only [h1, if_false]
      by_cases h2 : setHas s nts = true
      · simp only [h2, Bool.not_true, Bool.false_eq_true, if_false]
        exact h
      · have h2' := Bool.eq_false_iff.mpr h2
        simp only [h2', Bool.not_false, if_true]
        intro t ht
        rcases (mem_setInsert s t ts).1 ht with rfl | ht
        · exact ⟨fun e => h2 ((setHas_iff _ _).2 e), h1⟩
        · exact h t ht

theorem recomputeSymbols_terminals (g : Grammar) :
    ∀ t ∈ g.recomputeSymbols.terminals, t ∉ g.nonterminals ∧ t ≠ EPS := by
  unfold Grammar.recomputeSymbols
  simp only
  have alts : ∀ (l : List (List String)) (ts : List String),
      (∀ t ∈ ts, t ∉ g.nonterminals ∧ t ≠ EPS) →
      ∀ t ∈ l.foldl (addTerminals g.nonterminals) ts, t ∉ g.nonterminals ∧ t ≠ EPS := by
    intro l
    induction l with
    | nil => intro ts h; exact h
    | cons rhs l ih =>
      intro ts h
      rw [List.foldl_cons]
      exact ih _ (addTerminals_spec _ _ _ h)
  have prods : ∀ (p : List (String × List (List String))) (ts : List String),
      (∀ t ∈ ts, t ∉ g.nonterminals ∧ t ≠ EPS) →
      ∀ t ∈ p.foldl (fun acc kv => kv.2.foldl (addTerminals g.nonterminals) acc) ts,
        t ∉ g.nonterminals ∧ t ≠ EPS := by
    intro p
    induction p with
    | nil => intro ts h; exact h
    | cons kv p ih =>
      intro ts h
      rw [List.foldl_cons]
      exact ih _ (alts _ _ h)
  exact prods g.prod [] (by simp)

theorem firstInit_terminals (allowed ts : List String) (hsub : ∀ t ∈ ts, t ∈ allowed)
    (F : SetMap) (h : ∀ X x, x ∈ mapGetD X F [] → x = X ∧ X ∈ allowed) :
    ∀ X x, x ∈ mapGetD X (ts.foldl (fun F t => mapSet t (setInsert t (mapGetD t F [])) F) F) [] →
      x = X ∧ X ∈ allowed := by
  induction ts generalizing F with
  | nil => exact h
  | cons t ts ih =>
    rw [List.foldl_cons]
    apply ih (fun u hu => hsub u (List.mem_cons_of_mem _ hu))
    intro X x hx
    rw [mapGetD_mapSet] at hx
    by_cases hX : X = t
    · subst hX
      simp only [if_true, mem_setInsert] at hx
      rcases hx with rfl | hx
      · exact ⟨rfl, hsub _ (List.mem_cons_self _ _)⟩
      · exact h X x hx
    · simp only [hX, if_false] at hx
      exact h X x hx

theorem foldl_ensure_getD (nts : List String) (F : SetMap) (X : String) :
    mapGetD X (nts.foldl (fun F A => mapEnsure A F []) F) [] = mapGetD X F [] := by
  induction nts generalizing F with
  | nil => rfl
  | cons A nts ih => rw [List.foldl_cons, ih, mapGetD_mapEnsure]

theorem foldl_ensure_keys (nts : List String) (F : SetMap) (X : String)
    (h : X ∈ nts ∨ (mapFind X F).isSome = true) :
    (mapFind X (nts.foldl (fun F A => mapEnsure A F []) F)).isSome = true := by
  induction nts generalizing F with
  | nil =>
    rcases h with h | h
    · simp at h
    · exact h
  | cons A nts ih =>
    rw [List.foldl_cons]
    apply ih
    rcases h with h | h
    · rcases List.mem_cons.mp h with rfl | h
      · exact Or.inr (mapFind_mapEnsure_isSome _ _ _)
      · exact Or.inl h
    · exact Or.inr (mapFind_isSome_mapEnsure _ _ h)

theorem hasKeys_firstInit (g : Grammar) : HasKeys g (firstInit g) := by
  intro A hA
  unfold firstInit
  exact foldl_ensure_keys _ _ A (Or.inl hA)

theorem mem_firstInit (g : Grammar) (X x : String) (h : x ∈ mapGetD X (firstInit g) []) :
    x = X ∧ (X = EPS ∨ X ∈ g.terminals) := by
  unfold firstInit at h
  simp only [foldl_ensure_getD, mapGetD_mapSet] at h
  have hT := firstInit_terminals g.terminals g.terminals (fun _ ht => ht) []
    (by intro X x hx; simp [mapGetD, mapFind] at hx)
  by_cases hX : X = EPS
  · subst hX
    simp only [if_true, mem_setInsert] at h
    rcases h with rfl | h
    · exact ⟨rfl, Or.inl rfl⟩
    · exact ⟨(hT _ _ h).1, Or.inl rfl⟩
  · simp only [hX, if_false] at h
    exact ⟨(hT _ _ h).1, Or.inr (hT _ _ h).2⟩

theorem eps_mem_firstInit (g : Grammar) : EPS ∈ mapGetD EPS (firstInit g) [] := by
  unfold firstInit
  simp only [foldl_ensure_getD, mapGetD_mapSet, if_true]
  exact mem_setInsert_self _ _

theorem firstSound_firstInit (g : Grammar) (hre : g.recomputeSymbols = g) :
    FirstSound g (firstInit g) := by
  intro A hA x hx
  obtain ⟨h1, h2⟩ := mem_firstInit g A x hx
  left
  rcases h2 with h2 | h2
  · exact ⟨h2, by rw [h1, h2]⟩
  · exfalso
    have := recomputeSymbols_terminals g A (by rw [hre]; exact h2)
    exact this.1 hA

theorem firstPassFrom_prod (g : Grammar) (nts : List String) (st st1 : SetMap × Bool)
    (h : firstPassFrom g nts st = .ok st1) (A : String) (hA : A ∈ nts) :
    ∃ alts, mapFind A g.prod = some alts := by
  induction nts generalizing st with
  | nil => simp at hA
  | cons A0 more ih =>
    unfold firstPassFrom at h
    split at h
    · simp at h
    · rename_i alts0 h0
      rcases List.mem_cons.mp hA with rfl | hA
      · exact ⟨alts0, h0⟩
      · exact ih _ h hA

/-- The map that `computeFIRST` returns, for a grammar whose symbols are recomputed, is a
fixed point of the scan rule. -/
theorem computeFIRST_scan_rule (fuel : Nat) (g : Grammar) (FIRST : SetMap)
    (hre : g.recomputeSymbols = g) (h : computeFIRST fuel g = .ok FIRST) :
    (∀ A ∈ g.nonterminals, ∃ alts, mapFind A g.prod = some alts ∧
      ∀ x, x ∈ mapGetD A FIRST [] ↔
        ((∃ rhs ∈ alts, x ∈ firstOfSequence rhs FIRST g) ∨ (A = EPS ∧ x = EPS))) ∧
    firstPass g FIRST = .ok (FIRST, false) := by
  obtain ⟨⟨hk, hs, hle⟩, hfix⟩ := firstLoop_spec g fuel (firstInit g) FIRST
    (hasKeys_firstInit g) (firstSound_firstInit g hre) h
  refine ⟨?_, hfix⟩
  intro A hA
  obtain ⟨alts, hal⟩ := firstPassFrom_prod g g.nonterminals _ _ hfix A hA
  refine ⟨alts, hal, ?_⟩
  have hq := (firstPassFrom_quiet g g.nonterminals (fun _ hB => hB) (FIRST, false) hk FIRST
    hfix).2 A hA alts hal
  intro x
  constructor
  · intro hx
    rcases hs A hA x hx with h1 | ⟨al, h1, rhs, h2, h3⟩
    · exact Or.inr h1
    · rw [hal] at h1
      simp only [Option.some.injEq] at h1
      subst h1
      exact Or.inl ⟨rhs, h2, (mem_firstOfSequence FIRST g rhs x).2 h3⟩
  · rintro (⟨rhs, h2, h3⟩ | ⟨rfl, rfl⟩)
    · exact hq rhs h2 x ((mem_firstOfSequence FIRST g rhs x).1 h3)
    · exact hle EPS EPS (eps_mem_firstInit g)

/-! ## Left-recursion elimination: the two rewrites -/

theorem substitute_nonterminals (g : Grammar) (Ai Aj : String) :
    (substituteAjIntoAi g Ai Aj).nonterminals = g.nonterminals := rfl

theorem substitute_other (g : Grammar) (Ai Aj X : String) (hX : X ≠ Ai) :
    mapGetD X (substituteAjIntoAi g Ai Aj).prod [] = mapGetD X g.prod [] := by
  unfold substituteAjIntoAi
  simp only
  rw [mapGetD_mapSet_ne hX]
  split
  · rw [mapGetD_mapEnsure, mapGetD_mapEnsure]
  · rw [mapGetD_mapEnsure]

theorem substitute_fold_nonterminals (g : Grammar) (Ai : String) (l : List String) :
    (l.foldl (fun acc Aj => substituteAjIntoAi acc Ai Aj) g).nonterminals = g.nonterminals := by
  induction l generalizing g with
  | nil => rfl
  | cons Aj l ih => rw [List.foldl_cons, ih, substitute_nonterminals]

theorem substitute_fold_other (g : Grammar) (Ai : String) (l : List String) (X : String)
    (hX : X ≠ Ai) :
    mapGetD X (l.foldl (fun acc Aj => substituteAjIntoAi acc Ai Aj) g).prod []
      = mapGetD X g.prod [] := by
  induction l generalizing g with
  | nil => rfl
  | cons Aj l ih => rw [List.foldl_cons, ih, substitute_other g Ai Aj X hX]

theorem foldl_keep (Aj : String) (deltas : List (List String)) (alts acc : List (List String))
    (h : ∀ rhs ∈ alts, beginsWith Aj rhs = false) :
    alts.foldl
      (fun acc rhs =>
        if beginsWith Aj rhs then acc ++ deltas.map (expandAlt rhs.tail) else acc ++ [rhs])
      acc = acc ++ alts := by
  induction alts generalizing acc with
  | nil => simp
  | cons rhs alts ih =>
    rw [List.foldl_cons]
    have h1 := h rhs (List.mem_cons_self _ _)
    simp only [h1, Bool.false_eq_true, if_false]
    rw [ih _ (fun r hr => h r (List.mem_cons_of_mem _ hr))]
    simp

/-- Substituting `Aj` leaves the alternatives of `Ai` as they are when none begins
with `Aj`. -/
theorem substitute_self_keep (g : Grammar) (Ai Aj : String)
    (h : ∀ rhs ∈ mapGetD Ai g.prod [], beginsWith Aj rhs = false) :
    mapGetD Ai (substituteAjIntoAi g Ai Aj).prod [] = mapGetD Ai g.prod [] := by
  unfold substituteAjIntoAi
  simp only
  rw [mapGetD_mapSet_same, foldl_keep Aj _ _ [] h]
  simp

theorem makeUniqueNonTerminal_prod (g : Grammar) (p : List (String × List (List String)))
    (A : String) :
    makeUniqueNonTerminal
      { start := g.start, nonterminals := g.nonterminals, terminals := g.terminals, prod := p } A
      = makeUniqueNonTerminal g A := rfl

theorem elim_nonterminals (g : Grammar) (A : String) :
    (eliminateImmediateLeftRecursion g A).nonterminals = g.nonterminals ∨
    (eliminateImmediateLeftRecursion g A).nonterminals
      = setInsert (makeUniqueNonTerminal g A) g.nonterminals := by
  unfold eliminateImmediateLeftRecursion
  simp only
  split
  · exact Or.inl rfl
  · exact Or.inr rfl

theorem elim_other (g : Grammar) (A X : String) (hX : X ≠ A)
    (hX' : X ≠ makeUniqueNonTerminal g A) :
    mapGetD X (eliminateImmediateLeftRecursion g A).prod [] = mapGetD X g.prod [] := by
  unfold eliminateImmediateLeftRecursion
  simp only
  split
  · simp only [mapGetD_mapEnsure]
  · simp only [makeUniqueNonTerminal_prod]
    rw [mapGetD_mapSet_ne hX', mapGetD_mapSet_ne hX, mapGetD_mapEnsure]

theorem beginsWith_append (A Aprime : String) (b : List String) (hne : Aprime ≠ A)
    (hb : beginsWith A b = false) : beginsWith A (b ++ [Aprime]) = false := by
  cases b with
  | nil => simpa [beginsWith] using hne
  | cons s t => simpa [beginsWith] using hb

/-- After `eliminateImmediateLeftRecursion(g, A)` no alternative of `A` begins with `A`. -/
theorem elim_noDirect (g : Grammar) (A : String) (hA : A ∈ g.nonterminals) :
    NoDirectLR (eliminateImmediateLeftRecursion g A) A := by
  have hne := makeUniqueNonTerminal_ne g A hA
  unfold eliminateImmediateLeftRecursion NoDirectLR
  simp only
  split
  · rename_i halpha
    simp only [mapGetD_mapEnsure]
    intro rhs hrhs
    have hf : (mapGetD A g.prod []).filter (beginsWith A) = [] :=
      List.map_eq_nil_iff.mp halpha
    by_contra hc
    have hc' : beginsWith A rhs = true := by simpa using hc
    have : rhs ∈ (mapGetD A g.prod []).filter (beginsWith A) :=
      List.mem_filter.mpr ⟨hrhs, hc'⟩
    rw [hf] at this
    simp at this
  · simp only [makeUniqueNonTerminal_prod]
    have hne' : A ≠ makeUniqueNonTerminal g A := fun e => hne e.symm
    rw [mapGetD_mapSet_ne hne', mapGetD_mapSet_same]
    intro rhs hrhs
    obtain ⟨b, hb, rfl⟩ := List.mem_map.mp hrhs
    have hb' : beginsWith A b = false := by
      have := (List.mem_filter.mp hb).2
      simpa using this
    split
    · simpa [beginsWith] using hne
    · exact beginsWith_append A _ b hne hb'

/-! ## Fresh names come later in the order -/

theorem uniqueLoop_form (nts : List String) (base : String) (n k : Nat) :
    ∃ s, uniqueLoop nts base n k = base ++ s ∧ (base ++ s ∉ nts ∨ s = "_NEW") := by
  induction n generalizing k with
  | zero => exact ⟨"_NEW", rfl, Or.inr rfl⟩
  | succ n ih =>
    unfold uniqueLoop
    split
    · rename_i h
      exact ⟨toString k, rfl, Or.inl (by simpa [setHas] using h)⟩
    · split
      · rename_i h
        refine ⟨"'" ++ toString k, by rw [String.append_assoc], Or.inl ?_⟩
        rw [← String.append_assoc]
        simpa [setHas] using h
      · exact ih (k + 1)

theorem makeUniqueNonTerminal_form (g : Grammar) (A : String) :
    ∃ s, makeUniqueNonTerminal g A = A ++ s ∧ (A ++ s ∉ g.nonterminals ∨ s = "_NEW") := by
  unfold makeUniqueNonTerminal
  split
  · rename_i h
    exact ⟨"'", rfl, Or.inl (by simpa [setHas] using h)⟩
  · exact uniqueLoop_form g.nonterminals A 999 1

theorem makeUniqueNonTerminal_gt (g : Grammar) (A : String) (hA : A ∈ g.nonterminals) :
    strLt A (makeUniqueNonTerminal g A) = true := by
  obtain ⟨s, hs, h⟩ := makeUniqueNonTerminal_form g A
  rw [hs]
  apply strLt_append
  rcases h with h | h
  · intro e
    apply h
    rw [e, String.append_empty]
    exact hA
  · rw [h]
    decide

/-! ## Positions in a set -/

theorem setOK_get_lt (s : List String) (h : SetOK s) (k i : Nat) (a b : String)
    (hk : s.get? k = some a) (hi : s.get? i = some b) (hlt : k < i) : strLt a b = true := by
  unfold SetOK at h
  induction s generalizing k i with
  | nil => simp at hk
  | cons y ys ih =>
    rw [List.pairwise_cons] at h
    cases i with
    | zero => omega
    | succ i =>
      simp only [List.get?_cons_succ] at hi
      cases k with
      | zero =>
        simp only [List.get?_cons_zero, Option.some.injEq] at hk
        subst hk
        exact h.1 b (List.get?_mem hi)
      | succ k =>
        simp only [List.get?_cons_succ] at hk
        exact ih h.2 k i hk hi (by omega)

/-- Inserting a name greater than the element at position `i` leaves the positions up
to `i` as they are. -/
theorem setInsert_get_le (x : String) (s : List String) (h : SetOK s) (i : Nat) (b : String)
    (hi : s.get? i = some b) (hlt : strLt b x = true) (k : Nat) (hk : k ≤ i) :
    (setInsert x s).get? k = s.get? k := by
  induction s generalizing i k with
  | nil => simp at hi
  | cons y ys ih =>
    have hy : strLt y x = true := by
      cases i with
      | zero =>
        simp only [List.get?_cons_zero, Option.some.injEq] at hi
        rw [hi]
        exact hlt
      | succ i =>
        exact strLt_trans (setOK_get_lt (y :: ys) h 0 (i + 1) y b rfl hi (by omega)) hlt
    have h1 : x ≠ y := fun e => strLt_ne hy e.symm
    have h2 : strLt x y = false := strLt_asymm hy
    unfold setInsert
    simp only [h1, h2, if_false, Bool.false_eq_true]
    cases k with
    | zero => rfl
    | succ k =>
      cases i with
      | zero => omega
      | succ i =>
        simp only [List.get?_cons_succ] at hi ⊢
        unfold SetOK at h
        rw [List.pairwise_cons] at h
        exact ih h.2 i hi k (by omega)

theorem findIndex_of_get (s : List String) (h : s.Nodup) (i : Nat) (a : String)
    (hi : s.get? i = some a) : findIndex a s = some i := by
  induction s generalizing i with
  | nil => simp at hi
  | cons y ys ih =>
    rw [List.nodup_cons] at h
    unfold findIndex
    cases i with
    | zero =>
      simp only [List.get?_cons_zero, Option.some.injEq] at hi
      simp [hi]
    | succ i =>
      simp only [List.get?_cons_succ] at hi
      have hne : y ≠ a := by
        intro e
        subst e
        exact h.1 (List.get?_mem hi)
      simp [hne, ih h.2 i hi]

/-! ## Left-recursion elimination: the loop -/

theorem noDirectLR_congr (g g1 : Grammar) (A : String)
    (h : mapGetD A g1.prod [] = mapGetD A g.prod []) (hn : NoDirectLR g A) : NoDirectLR g1 A := by
  unfold NoDirectLR at hn ⊢
  rw [h]
  exact hn

/-- The state of the loop after the body for position `i`: the nonterminals up to position
`i` have no alternative that begins with themselves. -/
theorem elr_body (g : Grammar) (nts : List String) (i : Nat) (Ai : String)
    (hn : nts = g.nonterminals) (hok : SetOK nts)
    (hp : ∀ k A, k < i → nts.get? k = some A → NoDirectLR g A)
    (hget : nts.get? i = some Ai) :
    ∀ k A, k < i + 1 → nts.get? k = some A →
      NoDirectLR (eliminateImmediateLeftRecursion
        ((nts.take i).foldl (fun acc Aj => substituteAjIntoAi acc Ai Aj) g) Ai) A := by
  have hnt1 : ((nts.take i).foldl (fun acc Aj => substituteAjIntoAi acc Ai Aj) g).nonterminals
      = nts := by rw [substitute_fold_nonterminals, hn]
  have hAi : Ai ∈ ((nts.take i).foldl (fun acc Aj => substituteAjIntoAi acc Ai Aj) g).nonterminals := by
    rw [hnt1]
    exact List.get?_mem hget
  intro k A hk hA
  by_cases hki : k = i
  · subst hki
    rw [hget] at hA
    simp only [Option.some.injEq] at hA
    subst hA
    exact elim_noDirect _ Ai hAi
  · have hlt : k < i := by omega
    have h1 : strLt A Ai = true := setOK_get_lt nts hok k i A Ai hA hget hlt
    have h2 : strLt A (makeUniqueNonTerminal
        ((nts.take i).foldl (fun acc Aj => substituteAjIntoAi acc Ai Aj) g) Ai) = true :=
      strLt_trans h1 (makeUniqueNonTerminal_gt _ Ai hAi)
    apply noDirectLR_congr g _ A _ (hp k A hlt hA)
    rw [elim_other _ Ai A (strLt_ne h1) (strLt_ne h2),
      substitute_fold_other g Ai _ A (strLt_ne h1)]

theorem elrLoop_noDirect (fuel : Nat) (g : Grammar) (nts : List String) (i : Nat) (g' : Grammar)
    (hn : nts = g.nonterminals) (hok : SetOK nts)
    (hp : ∀ k A, k < i → nts.get? k = some A → NoDirectLR g A)
    (h : elrLoop fuel g nts i = some g') :
    ∀ A ∈ g'.nonterminals, NoDirectLR g' A := by
  induction fuel generalizing g nts i with
  | zero => simp [elrLoop] at h
  | succ n ih =>
    unfold elrLoop at h
    cases hget : nts.get? i with
    | none =>
      rw [hget] at h
      simp only [Option.some.injEq] at h
      subst h
      intro A hA
      have hA' : A ∈ nts := by rw [hn]; exact hA
      obtain ⟨k, hk⟩ := List.mem_iff_get?.mp hA'
      have hlen : nts.length ≤ i := List.get?_eq_none.mp hget
      have hk' : k < nts.length := by
        by_contra hc
        rw [List.get?_eq_none.mpr (by omega)] at hk
        simp at hk
      exact noDirectLR_congr g _ A rfl (hp k A (by omega) hk)
    | some Ai =>
      rw [hget] at h
      simp only at h
      have hbody := elr_body g nts i Ai hn hok hp hget
      have hnt1 : ((nts.take i).foldl (fun acc Aj => substituteAjIntoAi acc Ai Aj) g).nonterminals
          = nts := by rw [substitute_fold_nonterminals, hn]
      have hAi : Ai ∈ ((nts.take i).foldl
          (fun acc Aj => substituteAjIntoAi acc Ai Aj) g).nonterminals := by
        rw [hnt1]
        exact List.get?_mem hget
      have hgt := makeUniqueNonTerminal_gt _ Ai hAi
      generalize (nts.take i).foldl (fun acc Aj => substituteAjIntoAi acc Ai Aj) g = g1
        at h hbody hnt1 hAi hgt
      have hcases := elim_nonterminals g1 Ai
      rw [hnt1] at hcases
      generalize hg2 : eliminateImmediateLeftRecursion g1 Ai = g2 at h hbody hcases
      -- the set of nonterminals after the body
      have hsame : g2.nonterminals = nts → ∀ A ∈ g'.nonterminals, NoDirectLR g' A := by
        intro e
        have hlen : ¬ g2.nonterminals.length ≠ nts.length := by rw [e]; simp
        rw [if_neg hlen] at h
        exact ih g2 nts (i + 1) e.symm hok hbody h
      rcases hcases with e | e
      · exact hsame e
      · by_cases hmem : makeUniqueNonTerminal g1 Ai ∈ nts
        · rw [setInsert_of_mem _ nts hok hmem] at e
          exact hsame e
        · have hlen : g2.nonterminals.length ≠ nts.length := by
            rw [e, length_setInsert_of_not_mem _ _ hmem]
            omega
          have hok2 : SetOK g2.nonterminals := by
            rw [e]
            exact setOK_setInsert _ _ hok
          have hpos : ∀ k, k ≤ i → g2.nonterminals.get? k = nts.get? k := by
            intro k hk
            rw [e]
            exact setInsert_get_le _ nts hok i Ai hget hgt k hk
          have hfind : findIndex Ai g2.nonterminals = some i := by
            apply findIndex_of_get _ (setOK_nodup _ hok2)
            rw [hpos i (le_refl _)]
            exact hget
          simp only [hfind] at h
          rw [if_pos hlen] at h
          apply ih g2 g2.nonterminals (i + 1) rfl hok2 _ h
          intro k A hk hA
          rw [hpos k (by omega)] at hA
          exact hbody k A hk hA

/-! ## Left-recursion elimination: a grammar on which the loop never ends -/

theorem substitute_fold_self_keep (g : Grammar) (Ai : String) (l : List String)
    (h : ∀ Aj ∈ l, ∀ rhs ∈ mapGetD Ai g.prod [], beginsWith Aj rhs = false) :
    mapGetD Ai (l.foldl (fun acc Aj => substituteAjIntoAi acc Ai Aj) g).prod []
      = mapGetD Ai g.prod [] := by
  induction l generalizing g with
  | nil => rfl
  | cons Aj l ih =>
    rw [List.foldl_cons]
    have h1 := substitute_self_keep g Ai Aj (h Aj (List.mem_cons_self _ _))
    rw [ih, h1]
    intro Ak hAk rhs hrhs
    rw [h1] at hrhs
    exact h Ak (List.mem_cons_of_mem _ hAk) rhs hrhs

/-- The rewrite of a nonterminal whose alternatives are itself and `EPS`. -/
theorem elim_selfloop (g : Grammar) (A : String)
    (halts : mapGetD A g.prod [] = [[A], [EPS]]) (hA : A ≠ EPS)
    (hfresh : A ++ "'" ∉ g.nonterminals) :
    (eliminateImmediateLeftRecursion g A).nonterminals = setInsert (A ++ "'") g.nonterminals ∧
    mapGetD (A ++ "'") (eliminateImmediateLeftRecursion g A).prod [] = [[A ++ "'"], [EPS]] := by
  have hu : makeUniqueNonTerminal g A = A ++ "'" := by
    unfold makeUniqueNonTerminal
    have : setHas (A ++ "'") g.nonterminals = false := (setHas_false_iff _ _).2 hfresh
    simp [this]
  have hb1 : beginsWith A [A] = true := by simp [beginsWith]
  have hb2 : beginsWith A [EPS] = false := by
    simp only [beginsWith, beq_eq_false_iff_ne, ne_eq]
    exact fun e => hA e.symm
  unfold eliminateImmediateLeftRecursion
  simp only [halts, List.filter_cons, hb1, hb2, if_true, Bool.false_eq_true, if_false,
    List.filter_nil, List.map_cons, List.map_nil, alphaTail, List.tail_cons, Bool.not_true,
    Bool.not_false, makeUniqueNonTerminal_prod, hu, reduceCtorEq, List.cons_ne_nil]
  refine ⟨trivial, ?_⟩
  rw [mapGetD_mapSet_same]
  rfl

theorem head_append_quote (A : String) (h : A.data.head? = some 'A') :
    (A ++ "'").data.head? = some 'A' := by
  rw [String.data_append]
  cases hd : A.data with
  | nil => rw [hd] at h; simp at h
  | cons c cs => rw [hd] at h; simpa using h

theorem ne_eps_of_head (A : String) (h : A.data.head? = some 'A') : A ≠ EPS := by
  intro e
  rw [e] at h
  revert h
  decide

/-- One iteration of the loop that adds a nonterminal. -/
theorem elrLoop_step_grow (n : Nat) (g : Grammar) (nts : List String) (i k : Nat) (Ai : String)
    (g1 g2 : Grammar) (hget : nts.get? i = some Ai)
    (hg1 : g1 = (nts.take i).foldl (fun acc Aj => substituteAjIntoAi acc Ai Aj) g)
    (hg2 : g2 = eliminateImmediateLeftRecursion g1 Ai)
    (hlen : g2.nonterminals.length ≠ nts.length)
    (hfind : findIndex Ai g2.nonterminals = some k) :
    elrLoop (n + 1) g nts i = elrLoop n g2 g2.nonterminals (k + 1) := by
  subst hg1 hg2
  conv_lhs => unfold elrLoop
  simp only [hget]
  rw [if_pos hlen]
  simp only [hfind]

/-- One iteration of the loop from a diverging state leads to a diverging state. -/
theorem diverging_step (g : Grammar) (nts : List String) (i : Nat) (h : Diverging g nts i)
    (n : Nat) :
    ∃ g2 nts2, elrLoop (n + 1) g nts i = elrLoop n g2 nts2 (i + 1) ∧ Diverging g2 nts2 (i + 1) := by
  obtain ⟨hn, hok, hlast, ⟨Ai, hget, halts⟩, hhead⟩ := h
  have hAi : Ai ∈ nts := List.get?_mem hget
  have hAeps : Ai ≠ EPS := ne_eps_of_head Ai (hhead Ai hAi)
  -- every name is at most `Ai`
  have hmax : ∀ X ∈ nts, X = Ai ∨ strLt X Ai = true := by
    intro X hX
    obtain ⟨k, hk⟩ := List.mem_iff_get?.mp hX
    have hk' : k < nts.length := by
      by_contra hc
      rw [List.get?_eq_none.mpr (by omega)] at hk
      simp at hk
    by_cases hki : k = i
    · subst hki
      rw [hget] at hk
      simp only [Option.some.injEq] at hk
      exact Or.inl hk.symm
    · exact Or.inr (setOK_get_lt nts hok k i X Ai hk hget (by omega))
  have hquote : strLt Ai (Ai ++ "'") = true := strLt_append Ai "'" (by decide)
  have hbelow : ∀ X ∈ nts, strLt X (Ai ++ "'") = true := by
    intro X hX
    rcases hmax X hX with rfl | hlt
    · exact hquote
    · exact strLt_trans hlt hquote
  have hfresh : Ai ++ "'" ∉ nts := fun hmem => strLt_ne (hbelow _ hmem) rfl
  -- the substitutions change nothing for `Ai`
  have hnt1 : ((nts.take i).foldl (fun acc Aj => substituteAjIntoAi acc Ai Aj) g).nonterminals
      = nts := by rw [substitute_fold_nonterminals, hn]
  have halts1 : mapGetD Ai
      ((nts.take i).foldl (fun acc Aj => substituteAjIntoAi acc Ai Aj) g).prod []
      = [[Ai], [EPS]] := by
    rw [substitute_fold_self_keep, halts]
    intro Aj hAj rhs hrhs
    rw [halts] at hrhs
    have hAj' : Aj ∈ nts := List.mem_of_mem_take hAj
    obtain ⟨k, hk⟩ := List.mem_iff_get?.mp hAj
    have hk' : k < (nts.take i).length := by
      by_contra hc
      rw [List.get?_eq_none.mpr (by omega)] at hk
      simp at hk
    have hki : k < i := by
      rw [List.length_take] at hk'
      omega
    have hk2 : nts.get? k = some Aj := by
      rw [List.get?_eq_getElem?] at hk ⊢
      rw [List.getElem?_take_of_lt hki] at hk
      exact hk
    have hne1 : Aj ≠ Ai := strLt_ne (setOK_get_lt nts hok k i Aj Ai hk2 hget hki)
    have hne2 : Aj ≠ EPS := ne_eps_of_head Aj (hhead Aj hAj')
    simp only [List.mem_cons, List.mem_singleton, List.not_mem_nil, or_false] at hrhs
    rcases hrhs with rfl | rfl
    · simpa [beginsWith] using fun e => hne1 e.symm
    · simpa [beginsWith] using fun e => hne2 e.symm
  obtain ⟨g1, hg1⟩ : ∃ g1, g1 = (nts.take i).foldl
      (fun acc Aj => substituteAjIntoAi acc Ai Aj) g := ⟨_, rfl⟩
  rw [← hg1] at hnt1 halts1
  obtain ⟨e1, e2⟩ := elim_selfloop g1 Ai halts1 hAeps (by rw [hnt1]; exact hfresh)
  rw [hnt1, setInsert_last _ _ hbelow] at e1
  refine ⟨eliminateImmediateLeftRecursion g1 Ai, nts ++ [Ai ++ "'"], ?_, ?_⟩
  · -- the iteration
    have hlen : (eliminateImmediateLeftRecursion g1 Ai).nonterminals.length ≠ nts.length := by
      rw [e1]
      simp
    have hok2 : SetOK (nts ++ [Ai ++ "'"]) := by
      rw [← setInsert_last _ _ hbelow]
      exact setOK_setInsert _ _ hok
    have hfind : findIndex Ai (nts ++ [Ai ++ "'"]) = some i := by
      apply findIndex_of_get _ (setOK_nodup _ hok2)
      rw [List.get?_eq_getElem?, List.getElem?_append_left (by omega), ← List.get?_eq_getElem?]
      exact hget
    rw [elrLoop_step_grow n g nts i i Ai g1 _ hget hg1 rfl hlen (by rw [e1]; exact hfind), e1]
  · refine ⟨e1.symm, ?_, ?_, ?_, ?_⟩
    · rw [← setInsert_last _ _ hbelow]
      exact setOK_setInsert _ _ hok
    · simp
      omega
    · refine ⟨Ai ++ "'", ?_, e2⟩
      rw [List.get?_eq_getElem?, hlast]
      simp
    · intro X hX
      rcases List.mem_append.mp hX with hX | hX
      · exact hhead X hX
      · simp only [List.mem_singleton] at hX
        rw [hX]
        exact head_append_quote Ai (hhead Ai hAi)

theorem diverging_none (fuel : Nat) (g : Grammar) (nts : List String) (i : Nat)
    (h : Diverging g nts i) : elrLoop fuel g nts i = none := by
  induction fuel generalizing g nts i with
  | zero => rfl
  | succ n ih =>
    obtain ⟨g2, nts2, e, h2⟩ := diverging_step g nts i h n
    rw [e]
    exact ih g2 nts2 (i + 1) h2

/-- The state of the loop after its first iteration on the grammar `A -> A | a`. -/
theorem selfLoop_first_step (n : Nat) :
    elrLoop (n + 1) selfLoopGrammar ["A"] 0
      = elrLoop n ⟨"A", ["A", "A'"], [], [("A", [["a", "A'"]]), ("A'", [["A'"], ["eps"]])]⟩
          ["A", "A'"] 1 := by
  rw [elrLoop_step_grow n selfLoopGrammar ["A"] 0 0 "A" selfLoopGrammar
    ⟨"A", ["A", "A'"], [], [("A", [["a", "A'"]]), ("A'", [["A'"], ["eps"]])]⟩
    (by decide!) (by decide!) (by decide!) (by decide!) (by decide!)]

/-- C9 fails on the code: on the grammar of the rule line `A -> A | a` the loop of
`eliminateLeftRecursion` never ends: whatever the number of iterations allowed, it is
still running (each iteration adds one more nonterminal `A'`, `A''`, ...). -/
theorem eliminateLeftRecursion_diverges (fuel : Nat) :
    eliminateLeftRecursion fuel selfLoopGrammar = none := by
  cases fuel with
  | zero => rfl
  | succ n =>
    have h0 : eliminateLeftRecursion (n + 1) selfLoopGrammar
        = elrLoop (n + 1) selfLoopGrammar ["A"] 0 := by
      unfold eliminateLeftRecursion
      congr 1
    rw [h0, selfLoop_first_step]
    apply diverging_none
    refine ⟨rfl, by decide!, rfl, ⟨"A'", rfl, by decide!⟩, by decide!⟩

/-! ## Fixed-point loops: sizes -/

theorem mapSize_le_of_le (nts : List String) (F F1 : SetMap)
    (h : ∀ A ∈ nts, (mapGetD A F []).length ≤ (mapGetD A F1 []).length) :
    mapSize nts F ≤ mapSize nts F1 := by
  unfold mapSize
  apply List.sum_le_sum
  intro A hA
  exact h A hA

theorem mapSize_congr (nts : List String) (F F1 : SetMap)
    (h : ∀ A, mapGetD A F1 [] = mapGetD A F []) : mapSize nts F1 = mapSize nts F := by
  unfold mapSize
  simp only [h]

theorem progress_refl (nts : List String) (st : SetMap × Bool) : Progress nts st st :=
  ⟨le_refl _, fun h => Or.inl h⟩

theorem progress_trans (nts : List String) (st st1 st2 : SetMap × Bool)
    (h1 : Progress nts st st1) (h2 : Progress nts st1 st2) : Progress nts st st2 := by
  refine ⟨le_trans h1.1 h2.1, ?_⟩
  intro h
  rcases h2.2 h with h3 | h3
  · rcases h1.2 h3 with h4 | h4
    · exact Or.inl h4
    · exact Or.inr (lt_of_lt_of_le h4 h2.1)
  · exact Or.inr (lt_of_le_of_lt h1.1 h3)

theorem progress_ensure (nts : List String) (A : String) (st : SetMap × Bool) :
    Progress nts st (mapEnsure A st.1 [], st.2) := by
  refine ⟨le_of_eq (mapSize_congr nts _ _ (fun X => mapGetD_mapEnsure A X [] st.1)).symm, ?_⟩
  intro h
  exact Or.inl h

theorem progress_addSym (nts : List String) (A x : String) (hA : A ∈ nts)
    (st : SetMap × Bool) : Progress nts st (addSym A x st) := by
  unfold addSym
  split
  · exact progress_ensure nts A st
  · rename_i hx
    have hx' : x ∉ mapGetD A st.1 [] := fun e => hx ((setHas_iff _ _).2 e)
    have hlt : mapSize nts st.1
        < mapSize nts (mapSet A (setInsert x (mapGetD A st.1 [])) st.1) := by
      unfold mapSize
      apply sum_map_lt _ _ nts A hA
      · intro X _
        rw [mapGetD_mapSet]
        split
        · rename_i e
          subst e
          rw [length_setInsert_of_not_mem _ _ hx']
          omega
        · exact le_refl _
      · rw [mapGetD_mapSet_same, length_setInsert_of_not_mem _ _ hx']
        omega
    exact ⟨le_of_lt hlt, fun _ => Or.inr hlt⟩

theorem progress_addNonEps (nts : List String) (A : String) (hA : A ∈ nts) (xs : List String)
    (st : SetMap × Bool) : Progress nts st (addNonEps A xs st) := by
  unfold addNonEps
  induction xs generalizing st with
  | nil => exact progress_refl nts st
  | cons x xs ih =>
    rw [List.foldl_cons]
    split
    · exact ih st
    · exact progress_trans nts _ _ _ (progress_addSym nts A x hA st) (ih _)

theorem progress_addAll (nts : List String) (B : String) (hB : B ∈ nts) (xs : List String)
    (st : SetMap × Bool) :
    Progress nts st (xs.foldl (fun acc x => addSym B x acc) st) := by
  induction xs generalizing st with
  | nil => exact progress_refl nts st
  | cons x xs ih =>
    rw [List.foldl_cons]
    exact progress_trans nts _ _ _ (progress_addSym nts B x hB st) (ih _)

/-! ## Fixed-point loops: sets stay sets, inside a universe -/

theorem setsOK_addSym (A x : String) (st : SetMap × Bool) (h : SetsOK st.1) :
    SetsOK (addSym A x st).1 := by
  intro X
  unfold addSym
  split
  · simp only [mapGetD_mapEnsure]
    exact h X
  · simp only [mapGetD_mapSet]
    split
    · exact setOK_setInsert _ _ (h A)
    · exact h X

theorem setsOK_ensure (A : String) (F : SetMap) (h : SetsOK F) : SetsOK (mapEnsure A F []) := by
  intro X
  rw [mapGetD_mapEnsure]
  exact h X

theorem setsOK_addNonEps (A : String) (xs : List String) (st : SetMap × Bool)
    (h : SetsOK st.1) : SetsOK (addNonEps A xs st).1 := by
  unfold addNonEps
  induction xs generalizing st with
  | nil => exact h
  | cons x xs ih =>
    rw [List.foldl_cons]
    split
    · exact ih st h
    · exact ih _ (setsOK_addSym A x st h)

theorem setsOK_addAll (B : String) (xs : List String) (st : SetMap × Bool)
    (h : SetsOK st.1) : SetsOK (xs.foldl (fun acc x => addSym B x acc) st).1 := by
  induction xs generalizing st with
  | nil => exact h
  | cons x xs ih =>
    rw [List.foldl_cons]
    exact ih _ (setsOK_addSym B x st h)

theorem within_addSym (nts U : List String) (A x : String) (hx : x ∈ U) (st : SetMap × Bool)
    (h : Within nts U st.1) : Within nts U (addSym A x st).1 := by
  intro B hB y hy
  rcases (mem_addSym A x st B y).1 hy with h1 | ⟨_, rfl⟩
  · exact h B hB y h1
  · exact hx

theorem within_ensure (nts U : List String) (A : String) (F : SetMap) (h : Within nts U F) :
    Within nts U (mapEnsure A F []) := by
  intro B hB y hy
  rw [mapGetD_mapEnsure] at hy
  exact h B hB y hy

theorem within_addNonEps (nts U : List String) (A : String) (xs : List String)
    (hxs : ∀ x ∈ xs, x ∈ U) (st : SetMap × Bool) (h : Within nts U st.1) :
    Within nts U (addNonEps A xs st).1 := by
  unfold addNonEps
  induction xs generalizing st with
  | nil => exact h
  | cons x xs ih =>
    rw [List.foldl_cons]
    have hxs' : ∀ y ∈ xs, y ∈ U := fun y hy => hxs y (List.mem_cons_of_mem _ hy)
    split
    · exact ih hxs' st h
    · exact ih hxs' _ (within_addSym nts U A x (hxs x (List.mem_cons_self _ _)) st h)

theorem within_addAll (nts U : List String) (B : String) (xs : List String)
    (hxs : ∀ x ∈ xs, x ∈ U) (st : SetMap × Bool) (h : Within nts U st.1) :
    Within nts U (xs.foldl (fun acc x => addSym B x acc) st).1 := by
  induction xs generalizing st with
  | nil => exact h
  | cons x xs ih =>
    rw [List.foldl_cons]
    exact ih (fun y hy => hxs y (List.mem_cons_of_mem _ hy)) _
      (within_addSym nts U B x (hxs x (List.mem_cons_self _ _)) st h)

/-- The total size of sets held as sets inside a universe is bounded. -/
theorem mapSize_le_bound (nts U : List String) (F : SetMap) (hok : SetsOK F)
    (hw : Within nts U F) : mapSize nts F ≤ nts.length * U.length := by
  unfold mapSize
  induction nts with
  | nil => simp
  | cons A nts ih =>
    simp only [List.map_cons, List.sum_cons, List.length_cons]
    have h1 : (mapGetD A F []).length ≤ U.length := by
      have hsub : mapGetD A F [] ⊆ U := fun x hx => hw A (List.mem_cons_self _ _) x hx
      exact (List.subperm_of_subset (setOK_nodup _ (hok A)) hsub).length_le
    have h2 := ih (fun B hB => hw B (List.mem_cons_of_mem _ hB))
    have : (nts.length + 1) * U.length = nts.length * U.length + U.length := by ring
    omega

/-! ## The symbols of the right-hand sides -/

theorem mem_symbolsOf (alts : List (List String)) (rhs : List String) (x : String)
    (hrhs : rhs ∈ alts) (hx : x ∈ rhs) : x ∈ symbolsOf alts := by
  unfold symbolsOf
  induction alts with
  | nil => simp at hrhs
  | cons r alts ih =>
    simp only [List.foldr_cons, List.mem_append]
    rcases List.mem_cons.mp hrhs with rfl | h
    · exact Or.inl hx
    · exact Or.inr (ih h)

theorem mem_of_mapFind {V : Type} (k : String) (v : V) (m : List (String × V))
    (h : mapFind k m = some v) : (k, v) ∈ m := by
  induction m with
  | nil => simp [mapFind] at h
  | cons p m ih =>
    obtain ⟨k0, v0⟩ := p
    unfold mapFind at h
    split at h
    · rename_i e
      simp only [Option.some.injEq] at h
      rw [e, h]
      exact List.mem_cons_self _ _
    · exact List.mem_cons_of_mem _ (ih h)

theorem mem_rhsSymbols (prod : List (String × List (List String))) (A : String)
    (alts : List (List String)) (rhs : List String) (x : String)
    (hal : mapFind A prod = some alts) (hrhs : rhs ∈ alts) (hx : x ∈ rhs) :
    x ∈ rhsSymbols prod := by
  have hmem := mem_of_mapFind A alts prod hal
  unfold rhsSymbols
  clear hal
  induction prod with
  | nil => simp at hmem
  | cons kv prod ih =>
    simp only [List.foldr_cons, List.mem_append]
    rcases List.mem_cons.mp hmem with e | h
    · left
      rw [← e]
      exact mem_symbolsOf alts rhs x hrhs hx
    · exact Or.inr (ih h)

theorem mem_setElems (F : SetMap) (X : String) (fx : List String) (x : String)
    (hX : mapFind X F = some fx) (hx : x ∈ fx) : x ∈ setElems F := by
  have hmem := mem_of_mapFind X fx F hX
  unfold setElems
  clear hX
  induction F with
  | nil => simp at hmem
  | cons kv F ih =>
    simp only [List.foldr_cons, List.mem_append]
    rcases List.mem_cons.mp hmem with e | h
    · left
      rw [← e]
      exact hx
    · exact Or.inr (ih h)

/-! ## `computeFIRST` terminates -/

theorem firstScan_term (g : Grammar) (U : List String) (hE : EPS ∈ U) (A : String)
    (hA : A ∈ g.nonterminals) (rhs : List String) (hrhs : ∀ X ∈ rhs, X ∈ U)
    (st : SetMap × Bool) (hok : SetsOK st.1) (hw : Within g.nonterminals U st.1) :
    SetsOK (firstScan g A rhs st).1 ∧ Within g.nonterminals U (firstScan g A rhs st).1 ∧
      Progress g.nonterminals st (firstScan g A rhs st) := by
  induction rhs generalizing st with
  | nil =>
    simp only [firstScan]
    exact ⟨setsOK_addSym _ _ _ hok, within_addSym _ _ _ _ hE _ hw, progress_addSym _ _ _ hA _⟩
  | cons X rest ih =>
    have hrest : ∀ Y ∈ rest, Y ∈ U := fun Y hY => hrhs Y (List.mem_cons_of_mem _ hY)
    have hX : X ∈ U := hrhs X (List.mem_cons_self _ _)
    unfold firstScan
    split
    · exact ⟨setsOK_addSym _ _ _ hok, within_addSym _ _ _ _ hE _ hw, progress_addSym _ _ _ hA _⟩
    · split
      · exact ⟨setsOK_addSym _ _ _ hok, within_addSym _ _ _ _ hX _ hw,
          progress_addSym _ _ _ hA _⟩
      · rename_i _ h2
        have hXn := nonterminal_of_not_terminalish g X h2
        simp only
        have hsub : ∀ x ∈ mapGetD X st.1 [], x ∈ U := fun x hx => hw X hXn x hx
        have k1 : SetsOK (addNonEps A (mapGetD X st.1 []) (mapEnsure X st.1 [], st.2)).1 :=
          setsOK_addNonEps _ _ _ (setsOK_ensure X st.1 hok)
        have k2 : Within g.nonterminals U
            (addNonEps A (mapGetD X st.1 []) (mapEnsure X st.1 [], st.2)).1 :=
          within_addNonEps _ _ _ _ hsub _ (within_ensure _ _ X st.1 hw)
        have k3 : Progress g.nonterminals st
            (addNonEps A (mapGetD X st.1 []) (mapEnsure X st.1 [], st.2)) :=
          progress_trans _ _ _ _ (progress_ensure _ X st) (progress_addNonEps _ _ hA _ _)
        split
        · obtain ⟨i1, i2, i3⟩ := ih hrest _ k1 k2
          exact ⟨i1, i2, progress_trans _ _ _ _ k3 i3⟩
        · exact ⟨k1, k2, k3⟩

theorem firstAlts_term (g : Grammar) (U : List String) (hE : EPS ∈ U) (A : String)
    (hA : A ∈ g.nonterminals) (alts : List (List String))
    (halts : ∀ rhs ∈ alts, ∀ X ∈ rhs, X ∈ U)
    (st : SetMap × Bool) (hok : SetsOK st.1) (hw : Within g.nonterminals U st.1) :
    SetsOK (alts.foldl (fun acc rhs => firstScan g A rhs acc) st).1 ∧
      Within g.nonterminals U (alts.foldl (fun acc rhs => firstScan g A rhs acc) st).1 ∧
      Progress g.nonterminals st (alts.foldl (fun acc rhs => firstScan g A rhs acc) st) := by
  induction alts generalizing st with
  | nil => exact ⟨hok, hw, progress_refl _ _⟩
  | cons rhs alts ih =>
    rw [List.foldl_cons]
    obtain ⟨s1, s2, s3⟩ := firstScan_term g U hE A hA rhs
      (halts rhs (List.mem_cons_self _ _)) st hok hw
    obtain ⟨i1, i2, i3⟩ := ih (fun r hr => halts r (List.mem_cons_of_mem _ hr)) _ s1 s2
    exact ⟨i1, i2, progress_trans _ _ _ _ s3 i3⟩

theorem mem_firstUniverse_eps (g : Grammar) : EPS ∈ firstUniverse g :=
  List.mem_cons_self _ _

theorem mem_firstUniverse_rhs (g : Grammar) (A : String) (alts : List (List String))
    (hal : mapFind A g.prod = some alts) (rhs : List String) (hrhs : rhs ∈ alts) (X : String)
    (hX : X ∈ rhs) : X ∈ firstUniverse g := by
  unfold firstUniverse
  exact List.mem_cons_of_mem _
    (List.mem_append_right _ (mem_rhsSymbols g.prod A alts rhs X hal hrhs hX))

/-- A pass of `computeFIRST` over a grammar in which every nonterminal has a production
list returns, keeps the sets inside the universe, and enlarges some set when it reports
a change. -/
theorem firstPassFrom_term (g : Grammar) (nts : List String)
    (hsub : ∀ A ∈ nts, A ∈ g.nonterminals)
    (hprod : ∀ A ∈ nts, (mapFind A g.prod).isSome = true)
    (st : SetMap × Bool) (hok : SetsOK st.1)
    (hw : Within g.nonterminals (firstUniverse g) st.1) :
    ∃ st1, firstPassFrom g nts st = .ok st1 ∧ SetsOK st1.1 ∧
      Within g.nonterminals (firstUniverse g) st1.1 ∧ Progress g.nonterminals st st1 := by
  induction nts generalizing st with
  | nil => exact ⟨st, rfl, hok, hw, progress_refl _ _⟩
  | cons A more ih =>
    obtain ⟨alts, hal⟩ := Option.isSome_iff_exists.mp (hprod A (List.mem_cons_self _ _))
    unfold firstPassFrom
    rw [hal]
    simp only
    obtain ⟨a1, a2, a3⟩ := firstAlts_term g (firstUniverse g) (mem_firstUniverse_eps g) A
      (hsub A (List.mem_cons_self _ _)) alts
      (fun rhs hrhs X hX => mem_firstUniverse_rhs g A alts hal rhs hrhs X hX) st hok hw
    obtain ⟨st1, e, i1, i2, i3⟩ := ih (fun B hB => hsub B (List.mem_cons_of_mem _ hB))
      (fun B hB => hprod B (List.mem_cons_of_mem _ hB)) _ a1 a2
    exact ⟨st1, e, i1, i2, progress_trans _ _ _ _ a3 i3⟩

theorem firstLoop_term (g : Grammar)
    (hprod : ∀ A ∈ g.nonterminals, (mapFind A g.prod).isSome = true)
    (fuel : Nat) (F : SetMap) (hok : SetsOK F)
    (hw : Within g.nonterminals (firstUniverse g) F)
    (hfuel : g.nonterminals.length * (firstUniverse g).length - mapSize g.nonterminals F < fuel) :
    ∃ F1, firstLoop g fuel F = .ok F1 := by
  induction fuel generalizing F with
  | zero => omega
  | succ n ih =>
    obtain ⟨st1, e, p1, p2, p3⟩ := firstPassFrom_term g g.nonterminals (fun _ h => h) hprod
      (F, false) hok hw
    unfold firstLoop firstPass
    rw [e]
    obtain ⟨F1, changed⟩ := st1
    simp only
    by_cases hc : changed = true
    · simp only [hc, if_true]
      apply ih F1 p1 p2
      have hb := mapSize_le_bound g.nonterminals (firstUniverse g) F1 p1 p2
      rcases p3.2 hc with h | h
      · simp at h
      · simp only at h
        omega
    · simp only [hc]
      exact ⟨F1, rfl⟩

theorem setsOK_firstInit (g : Grammar) : SetsOK (firstInit g) := by
  unfold firstInit
  have terms : ∀ (ts : List String) (F : SetMap), SetsOK F →
      SetsOK (ts.foldl (fun F t => mapSet t (setInsert t (mapGetD t F [])) F) F) := by
    intro ts
    induction ts with
    | nil => intro F h; exact h
    | cons t ts ih =>
      intro F h
      rw [List.foldl_cons]
      apply ih
      intro X
      rw [mapGetD_mapSet]
      split
      · exact setOK_setInsert _ _ (h t)
      · exact h X
  intro X
  simp only [foldl_ensure_getD, mapGetD_mapSet]
  have h1 := terms g.terminals [] (fun X => by simp [mapGetD, mapFind, setOK_nil])
  split
  · exact setOK_setInsert _ _ (h1 EPS)
  · exact h1 X

theorem within_firstInit (g : Grammar) :
    Within g.nonterminals (firstUniverse g) (firstInit g) := by
  intro A _ x hx
  obtain ⟨h1, h2⟩ := mem_firstInit g A x hx
  unfold firstUniverse
  rcases h2 with h2 | h2
  · rw [h1, h2]
    exact List.mem_cons_self _ _
  · rw [h1]
    exact List.mem_cons_of_mem _ (List.mem_append_left _ h2)

/-- `computeFIRST` returns on every grammar in which every nonterminal has a production
list, within a number of passes bounded by the size of the universe. -/
theorem computeFIRST_returns (g : Grammar)
    (hprod : ∀ A ∈ g.nonterminals, (mapFind A g.prod).isSome = true) :
    ∃ FIRST, computeFIRST (g.nonterminals.length * (firstUniverse g).length + 1) g = .ok FIRST := by
  unfold computeFIRST
  apply firstLoop_term g hprod _ _ (setsOK_firstInit g) (within_firstInit g)
  omega

/-- C4 (amended): for a grammar whose symbols are recomputed and in which every nonterminal
has a production list, `computeFIRST` returns, and the FIRST map it returns is a fixed point
of the scan rule: for every nonterminal `A`, `FIRST[A]` is the union over the alternatives
of `A` of `firstOfSequence`, together with `EPS` when `A` is the symbol `EPS` itself; and
one more pass over the returned map changes nothing. -/
theorem computeFIRST_fixed_point (g : Grammar) (hre : g.recomputeSymbols = g)
    (hprod : ∀ A ∈ g.nonterminals, (mapFind A g.prod).isSome = true) :
    (∃ fuel FIRST, computeFIRST fuel g = .ok FIRST) ∧
    ∀ fuel FIRST, computeFIRST fuel g = .ok FIRST →
      (∀ A ∈ g.nonterminals, ∃ alts, mapFind A g.prod = some alts ∧
        ∀ x, x ∈ mapGetD A FIRST [] ↔
          ((∃ rhs ∈ alts, x ∈ firstOfSequence rhs FIRST g) ∨ (A = EPS ∧ x = EPS))) ∧
      firstPass g FIRST = .ok (FIRST, false) :=
  ⟨⟨_, computeFIRST_returns g hprod⟩,
    fun fuel FIRST h => computeFIRST_scan_rule fuel g FIRST hre h⟩

/-- Witness for C4 (amended): the expression grammar after the two rewrites. -/
theorem computeFIRST_fixed_point_witness :
    computeFIRST 3 exprLL1 = .ok exprFIRST ∧
    (∀ A ∈ exprLL1.nonterminals, ∃ alts, mapFind A exprLL1.prod = some alts ∧
      ∀ x, x ∈ mapGetD A exprFIRST [] ↔
        ((∃ rhs ∈ alts, x ∈ firstOfSequence rhs exprFIRST exprLL1) ∨ (A = EPS ∧ x = EPS))) ∧
    firstPass exprLL1 exprFIRST = .ok (exprFIRST, false) :=
  ⟨by decide!,
    (computeFIRST_fixed_point exprLL1 (by decide!) (by decide!)).2 3 exprFIRST (by decide!)⟩

/-- C4 as stated fails: for the rule line `eps -> a` the symbol `eps` is a nonterminal
whose only alternative is `a`, and `FIRST[eps]` contains `eps`, which
`firstOfSequence` of that alternative does not contain. -/
theorem computeFIRST_fixed_point_counterexample :
    epsLhsGrammar.recomputeSymbols = epsLhsGrammar ∧
    computeFIRST 2 epsLhsGrammar = .ok epsLhsFIRST ∧
    "eps" ∈ epsLhsGrammar.nonterminals ∧
    mapFind "eps" epsLhsGrammar.prod = some [["a"]] ∧
    "eps" ∈ mapGetD "eps" epsLhsFIRST [] ∧
    "eps" ∉ firstOfSequence ["a"] epsLhsFIRST epsLhsGrammar := by
  refine ⟨by decide!, by decide!, by decide!, by decide!, by decide!, by decide!⟩

/-! ## `computeFOLLOW` terminates -/

theorem inFirstSeq_universe (FIRST : SetMap) (g : Grammar) (seq : List String) (x : String)
    (h : inFirstSeq FIRST g seq x) : x = EPS ∨ x ∈ seq ∨ x ∈ setElems FIRST := by
  induction seq with
  | nil => exact Or.inl h
  | cons X rest ih =>
    unfold inFirstSeq at h
    split at h
    · exact Or.inl h
    · split at h
      · rw [h]
        exact Or.inr (Or.inl (List.mem_cons_self _ _))
      · split at h
        · rename_i fx hX
          rcases h with ⟨h1, _⟩ | ⟨_, h2⟩
          · exact Or.inr (Or.inr (mem_setElems FIRST X fx x hX h1))
          · rcases ih h2 with e | e | e
            · exact Or.inl e
            · exact Or.inr (Or.inl (List.mem_cons_of_mem _ e))
            · exact Or.inr (Or.inr e)
        · rw [h]
          exact Or.inr (Or.inl (List.mem_cons_self _ _))

theorem mem_followUniverse_first (g : Grammar) (FIRST : SetMap) (beta : List String)
    (hbeta : ∀ X ∈ beta, X ∈ rhsSymbols g.prod) (x : String)
    (hx : x ∈ firstOfSequence beta FIRST g) : x ∈ followUniverse g FIRST := by
  unfold followUniverse
  rcases inFirstSeq_universe FIRST g beta x ((mem_firstOfSequence FIRST g beta x).1 hx)
    with e | e | e
  · rw [e]
    exact List.mem_cons_of_mem _ (List.mem_cons_self _ _)
  · exact List.mem_cons_of_mem _ (List.mem_cons_of_mem _ (List.mem_append_left _ (hbeta x e)))
  · exact List.mem_cons_of_mem _ (List.mem_cons_of_mem _ (List.mem_append_right _ e))

theorem followAt_term (g : Grammar) (FIRST : SetMap) (A B : String) (hA : A ∈ g.nonterminals)
    (beta : List String) (hbeta : ∀ X ∈ beta, X ∈ rhsSymbols g.prod)
    (st : SetMap × Bool) (hok : SetsOK st.1)
    (hw : Within g.nonterminals (followUniverse g FIRST) st.1) :
    SetsOK (followAt g FIRST A B beta st).1 ∧
      Within g.nonterminals (followUniverse g FIRST) (followAt g FIRST A B beta st).1 ∧
      Progress g.nonterminals st (followAt g FIRST A B beta st) := by
  unfold followAt
  split
  · exact ⟨hok, hw, progress_refl _ _⟩
  · rename_i hB
    have hB' : B ∈ g.nonterminals := by
      have : g.isNonTerminal B = true := by simpa using hB
      exact (setHas_iff _ _).1 this
    simp only
    have k1 : SetsOK (addNonEps B (firstOfSequence beta FIRST g) st).1 :=
      setsOK_addNonEps _ _ _ hok
    have k2 : Within g.nonterminals (followUniverse g FIRST)
        (addNonEps B (firstOfSequence beta FIRST g) st).1 :=
      within_addNonEps _ _ _ _ (fun x hx => mem_followUniverse_first g FIRST beta hbeta x hx)
        _ hw
    have k3 : Progress g.nonterminals st (addNonEps B (firstOfSequence beta FIRST g) st) :=
      progress_addNonEps _ _ hB' _ _
    split
    · refine ⟨setsOK_addAll _ _ _ (setsOK_ensure _ _ k1), ?_, ?_⟩
      · exact within_addAll _ _ _ _ (fun x hx => k2 A hA x hx) _ (within_ensure _ _ _ _ k2)
      · exact progress_trans _ _ _ _ k3
          (progress_trans _ _ _ _ (progress_ensure _ A _) (progress_addAll _ _ hB' _ _))
    · exact ⟨k1, k2, k3⟩

theorem followScan_term (g : Grammar) (FIRST : SetMap) (A : String) (hA : A ∈ g.nonterminals)
    (rhs : List String) (hrhs : ∀ X ∈ rhs, X ∈ rhsSymbols g.prod)
    (st : SetMap × Bool) (hok : SetsOK st.1)
    (hw : Within g.nonterminals (followUniverse g FIRST) st.1) :
    SetsOK (followScan g FIRST A rhs st).1 ∧
      Within g.nonterminals (followUniverse g FIRST) (followScan g FIRST A rhs st).1 ∧
      Progress g.nonterminals st (followScan g FIRST A rhs st) := by
  induction rhs generalizing st with
  | nil => exact ⟨hok, hw, progress_refl _ _⟩
  | cons B beta ih =>
    have hbeta : ∀ X ∈ beta, X ∈ rhsSymbols g.prod :=
      fun X hX => hrhs X (List.mem_cons_of_mem _ hX)
    simp only [followScan]
    obtain ⟨a1, a2, a3⟩ := followAt_term g FIRST A B hA beta hbeta st hok hw
    obtain ⟨i1, i2, i3⟩ := ih hbeta _ a1 a2
    exact ⟨i1, i2, progress_trans _ _ _ _ a3 i3⟩

theorem followAlts_term (g : Grammar) (FIRST : SetMap) (A : String) (hA : A ∈ g.nonterminals)
    (alts : List (List String)) (halts : ∀ rhs ∈ alts, ∀ X ∈ rhs, X ∈ rhsSymbols g.prod)
    (st : SetMap × Bool) (hok : SetsOK st.1)
    (hw : Within g.nonterminals (followUniverse g FIRST) st.1) :
    SetsOK (alts.foldl (fun acc rhs => followScan g FIRST A rhs acc) st).1 ∧
      Within g.nonterminals (followUniverse g FIRST)
        (alts.foldl (fun acc rhs => followScan g FIRST A rhs acc) st).1 ∧
      Progress g.nonterminals st (alts.foldl (fun acc rhs => followScan g FIRST A rhs acc) st) := by
  induction alts generalizing st with
  | nil => exact ⟨hok, hw, progress_refl _ _⟩
  | cons rhs alts ih =>
    rw [List.foldl_cons]
    obtain ⟨s1, s2, s3⟩ := followScan_term g FIRST A hA rhs
      (halts rhs (List.mem_cons_self _ _)) st hok hw
    obtain ⟨i1, i2, i3⟩ := ih (fun r hr => halts r (List.mem_cons_of_mem _ hr)) _ s1 s2
    exact ⟨i1, i2, progress_trans _ _ _ _ s3 i3⟩

/-- A pass of `computeFOLLOW` over a grammar in which every nonterminal has a production
list returns, keeps the sets inside the universe, and enlarges some set when it reports
a change. -/
theorem followPassFrom_term (g : Grammar) (FIRST : SetMap) (nts : List String)
    (hsub : ∀ A ∈ nts, A ∈ g.nonterminals)
    (hprod : ∀ A ∈ nts, (mapFind A g.prod).isSome = true)
    (st : SetMap × Bool) (hok : SetsOK st.1)
    (hw : Within g.nonterminals (followUniverse g FIRST) st.1) :
    ∃ st1, followPassFrom g FIRST nts st = .ok st1 ∧ SetsOK st1.1 ∧
      Within g.nonterminals (followUniverse g FIRST) st1.1 ∧
      Progress g.nonterminals st st1 := by
  induction nts generalizing st with
  | nil => exact ⟨st, rfl, hok, hw, progress_refl _ _⟩
  | cons A more ih =>
    obtain ⟨alts, hal⟩ := Option.isSome_iff_exists.mp (hprod A (List.mem_cons_self _ _))
    unfold followPassFrom
    rw [hal]
    simp only
    obtain ⟨a1, a2, a3⟩ := followAlts_term g FIRST A (hsub A (List.mem_cons_self _ _)) alts
      (fun rhs hrhs X hX => mem_rhsSymbols g.prod A alts rhs X hal hrhs hX) st hok hw
    obtain ⟨st1, e, i1, i2, i3⟩ := ih (fun B hB => hsub B (List.mem_cons_of_mem _ hB))
      (fun B hB => hprod B (List.mem_cons_of_mem _ hB)) _ a1 a2
    exact ⟨st1, e, i1, i2, progress_trans _ _ _ _ a3 i3⟩

theorem followLoop_term (g : Grammar) (FIRST : SetMap)
    (hprod : ∀ A ∈ g.nonterminals, (mapFind A g.prod).isSome = true)
    (fuel : Nat) (F : SetMap) (hok : SetsOK F)
    (hw : Within g.nonterminals (followUniverse g FIRST) F)
    (hfuel : g.nonterminals.length * (followUniverse g FIRST).length
      - mapSize g.nonterminals F < fuel) :
    ∃ F1, followLoop g FIRST fuel F = .ok F1 := by
  induction fuel generalizing F with
  | zero => omega
  | succ n ih =>
    obtain ⟨st1, e, p1, p2, p3⟩ := followPassFrom_term g FIRST g.nonterminals (fun _ h => h)
      hprod (F, false) hok hw
    unfold followLoop followPass
    rw [e]
    obtain ⟨F1, changed⟩ := st1
    simp only
    by_cases hc : changed = true
    · simp only [hc, if_true]
      apply ih F1 p1 p2
      have hb := mapSize_le_bound g.nonterminals (followUniverse g FIRST) F1 p1 p2
      rcases p3.2 hc with h | h
      · simp at h
      · simp only at h
        omega
    · simp only [hc]
      exact ⟨F1, rfl⟩

theorem mem_followInit (g : Grammar) (X x : String) (h : x ∈ mapGetD X (followInit g) []) :
    x = END_MARK := by
  unfold followInit at h
  simp only [mapGetD_mapSet, foldl_ensure_getD] at h
  split at h
  · rcases (mem_setInsert _ _ _).1 h with e | e
    · exact e
    · simp [mapGetD, mapFind] at e
  · simp [mapGetD, mapFind] at h

theorem setsOK_followInit (g : Grammar) : SetsOK (followInit g) := by
  intro X
  unfold followInit
  simp only [mapGetD_mapSet, foldl_ensure_getD]
  split
  · apply setOK_setInsert
    simp [mapGetD, mapFind, setOK_nil]
  · simp [mapGetD, mapFind, setOK_nil]

/-- `computeFOLLOW` returns on every grammar in which every nonterminal has a production
list, for every FIRST map. -/
theorem computeFOLLOW_returns (g : Grammar) (FIRST : SetMap)
    (hprod : ∀ A ∈ g.nonterminals, (mapFind A g.prod).isSome = true) :
    ∃ FOLLOW, computeFOLLOW (g.nonterminals.length * (followUniverse g FIRST).length + 1) g FIRST
      = .ok FOLLOW := by
  unfold computeFOLLOW
  apply followLoop_term g FIRST hprod _ _ (setsOK_followInit g)
  · intro A _ x hx
    rw [mem_followInit g A x hx]
    exact List.mem_cons_self _ _
  · omega

/-- C5: for every grammar in which every nonterminal has a production list and every
FIRST map, `computeFOLLOW` returns, and the FOLLOW map it returns is closed under the FOLLOW
rule: for every nonterminal `A`, alternative `rhs` of `A` and occurrence
`rhs = pre ++ B :: beta` of a nonterminal `B`, `FOLLOW[B]` contains `firstOfSequence(beta)`
without `EPS`, and all of `FOLLOW[A]` when `beta` is empty or `EPS` is in
`firstOfSequence(beta)`. -/
theorem computeFOLLOW_closed (g : Grammar) (FIRST : SetMap)
    (hprod : ∀ A ∈ g.nonterminals, (mapFind A g.prod).isSome = true) :
    (∃ fuel FOLLOW, computeFOLLOW fuel g FIRST = .ok FOLLOW) ∧
    ∀ fuel FOLLOW, computeFOLLOW fuel g FIRST = .ok FOLLOW →
      ∀ A ∈ g.nonterminals, ∀ alts, mapFind A g.prod = some alts → ∀ rhs ∈ alts,
        ∀ pre B beta, rhs = pre ++ B :: beta → g.isNonTerminal B = true →
          (∀ x ∈ firstOfSequence beta FIRST g, x ≠ EPS → x ∈ mapGetD B FOLLOW []) ∧
          ((beta = [] ∨ EPS ∈ firstOfSequence beta FIRST g) →
            ∀ x ∈ mapGetD A FOLLOW [], x ∈ mapGetD B FOLLOW []) := by
  refine ⟨⟨_, computeFOLLOW_returns g FIRST hprod⟩, ?_⟩
  intro fuel FOLLOW h A hA alts hal rhs hrhs pre B beta e hB
  exact computeFOLLOW_rule fuel g FIRST FOLLOW h A hA alts hal rhs hrhs pre B beta e hB

/-- Witness for C5: for `S -> A b`, `A -> a | eps` the symbol `b` is in `FOLLOW(A)`. -/
theorem computeFOLLOW_closed_witness :
    computeFIRST 3 epsGrammar = .ok epsFIRST ∧
    computeFOLLOW 2 epsGrammar epsFIRST = .ok epsFOLLOW ∧
    "b" ∈ mapGetD "A" epsFOLLOW [] :=
  ⟨by decide!, by decide!,
    ((computeFOLLOW_closed epsGrammar epsFIRST (by decide!)).2 2 epsFOLLOW (by decide!)
      "S" (by decide!) [["A", "b"]] (by decide!) ["A", "b"] (by decide!) [] "A" ["b"] rfl
      (by decide!)).1 "b" (by decide!) (by decide!)⟩

/-! ## The tokens of a right-hand side -/

theorem flushTok_snd (st : List String × List Char) : (flushTok st).2 = [] := by
  unfold flushTok
  split
  · assumption
  · rfl

theorem string_eq_iff_data (cs : List Char) (s : String) : (⟨cs⟩ : String) = s ↔ cs = s.data := by
  constructor
  · intro h
    rw [← h]
  · intro h
    rw [h]

/-- What `flush` adds: the symbol `EPS` exactly when the run read so far is spelled `eps` or
`epsilon`. -/
theorem eps_mem_flushTok (st : List String × List Char)
    (hid : ∀ c ∈ st.2, isIdentChar c = true) :
    EPS ∈ (flushTok st).1 ↔ EPS ∈ st.1 ∨ st.2 = "eps".data ∨ st.2 = "epsilon".data := by
  unfold flushTok
  split
  · rename_i h
    rw [h]
    constructor
    · exact Or.inl
    · rintro (h1 | h1 | h1)
      · exact h1
      · exact absurd h1 (by decide)
      · exact absurd h1 (by decide)
  · simp only [List.mem_append, List.mem_singleton]
    have hg : (⟨st.2⟩ : String) ≠ greekEpsilon := by
      intro e
      have e' := (string_eq_iff_data _ _).1 e
      have := hid (Char.ofNat 206) (by rw [e']; decide)
      exact absurd this (by decide)
    have ha : (⟨st.2⟩ : String) ≠ "@" := by
      intro e
      have e' := (string_eq_iff_data _ _).1 e
      have := hid '@' (by rw [e']; decide)
      exact absurd this (by decide)
    have h1 : ((⟨st.2⟩ : String) = "eps") ↔ st.2 = "eps".data := string_eq_iff_data _ _
    have h2 : ((⟨st.2⟩ : String) = "epsilon") ↔ st.2 = "epsilon".data := string_eq_iff_data _ _
    by_cases e1 : (⟨st.2⟩ : String) = "eps"
    · simp [e1, h1.1 e1, EPS]
    · by_cases e2 : (⟨st.2⟩ : String) = "epsilon"
      · simp [e2, h2.1 e2, EPS]
      · have n1 : ¬ st.2 = "eps".data := fun e => e1 (h1.2 e)
        have n2 : ¬ st.2 = "epsilon".data := fun e => e2 (h2.2 e)
        simp only [hg, ha, e1, e2, Bool.or_self, decide_False, Bool.false_eq_true, if_false,
          n1, n2, or_false]
        constructor
        · rintro (h | h)
          · exact h
          · exact absurd h.symm e1
        · exact Or.inl

theorem singleton_ne_eps (c : Char) : EPS ≠ String.singleton c := by
  intro h
  have := congrArg String.length h
  simp [EPS, String.singleton, String.length] at this

theorem not_ident_of_space (c : Char) (h : isspaceC c = true) : isIdentChar c = false := by
  unfold isspaceC at h
  unfold isIdentChar isalnumC isalphaC isdigitC
  simp only [Bool.or_eq_true, Bool.and_eq_true, decide_eq_true_eq] at h
  simp only [Bool.or_eq_false_iff, Bool.and_eq_false_iff, decide_eq_false_iff_not]
  omega

theorem not_ident_of_operator (c : Char) (h : isOperatorChar c = true) : isIdentChar c = false := by
  unfold isOperatorChar at h
  simp only [Bool.or_eq_true, decide_eq_true_eq] at h
  rcases h with ((((((h | h) | h) | h) | h) | h) | h) <;> (rw [h]; decide)

theorem tokStep_space (st : List String × List Char) (c : Char) (h : isspaceC c = true) :
    tokStep st c = flushTok st := by
  unfold tokStep
  rw [if_pos h]

theorem tokStep_other (st : List String × List Char) (c : Char) (hs : isspaceC c = false)
    (hi : isIdentChar c = false) :
    tokStep st c = ((flushTok st).1 ++ [String.singleton c], (flushTok st).2) := by
  unfold tokStep
  simp only [hs, hi, Bool.false_eq_true, if_false, ite_self]

theorem tokStep_ident (st : List String × List Char) (c : Char) (hi : isIdentChar c = true) :
    tokStep st c = (st.1, st.2 ++ [c]) := by
  have hs : isspaceC c = false := by
    cases h : isspaceC c
    · rfl
    · rw [not_ident_of_space c h] at hi
      exact absurd hi (by decide)
  have ho : isOperatorChar c = false := by
    cases h : isOperatorChar c
    · rfl
    · rw [not_ident_of_operator c h] at hi
      exact absurd hi (by decide)
  unfold tokStep
  simp only [hs, ho, hi, Bool.false_eq_true, if_false, if_true]

/-- The symbol `EPS` is among the tokens of a text exactly when it was there before or one
of the identifier-like runs is spelled `eps` or `epsilon`. -/
theorem eps_mem_tokens (rest : List Char) (st : List String × List Char)
    (hid : ∀ c ∈ st.2, isIdentChar c = true) :
    EPS ∈ (flushTok (rest.foldl tokStep st)).1 ↔
      EPS ∈ st.1 ∨ ∃ r ∈ identRuns st.2 rest, r = "eps".data ∨ r = "epsilon".data := by
  induction rest generalizing st with
  | nil =>
    simp only [List.foldl_nil, identRuns, List.mem_singleton, exists_eq_left]
    exact eps_mem_flushTok st hid
  | cons c cs ih =>
    rw [List.foldl_cons]
    have hflush : ∀ (extra : List String), EPS ∉ extra → isIdentChar c = false →
        (EPS ∈ (flushTok (cs.foldl tokStep ((flushTok st).1 ++ extra, (flushTok st).2))).1 ↔
          EPS ∈ st.1 ∨ ∃ r ∈ identRuns st.2 (c :: cs), r = "eps".data ∨ r = "epsilon".data) := by
      intro extra hex hc
      rw [ih _ (by simp [flushTok_snd])]
      simp only [flushTok_snd, identRuns, hc, Bool.false_eq_true, if_false, List.mem_cons,
        List.mem_append, exists_eq_or_imp, eps_mem_flushTok st hid, hex, or_false]
      constructor
      · rintro ((h | h) | h)
        · exact Or.inl h
        · exact Or.inr (Or.inl h)
        · exact Or.inr (Or.inr h)
      · rintro (h | h | h)
        · exact Or.inl (Or.inl h)
        · exact Or.inl (Or.inr h)
        · exact Or.inr h
    by_cases hi : isIdentChar c = true
    · rw [tokStep_ident st c hi, ih _ (by
        intro d hd
        rcases List.mem_append.mp hd with h | h
        · exact hid d h
        · rw [List.mem_singleton.mp h]; exact hi)]
      simp only [identRuns, hi, if_true]
    · have hi' : isIdentChar c = false := by simpa using hi
      by_cases hs : isspaceC c = true
      · rw [tokStep_space st c hs]
        have := hflush [] (by simp) hi'
        simpa using this
      · rw [tokStep_other st c (by simpa using hs) hi']
        exact hflush [String.singleton c]
          (by simpa using singleton_ne_eps c) hi'

/-- C14: the spellings `eps` and `epsilon` are normalized to `[EPS]`, but `@` and the Greek
letter epsilon are not: `@` is returned as the symbol `@`, and the two bytes of the Greek
letter are returned as two symbols of one byte each. -/
theorem tokenizeGrammarSegment_spellings :
    tokenizeGrammarSegment "eps" = [EPS] ∧
    tokenizeGrammarSegment "epsilon" = [EPS] ∧
    tokenizeGrammarSegment "@" = ["@"] ∧
    tokenizeGrammarSegment greekEpsilon
      = [String.singleton (Char.ofNat 206), String.singleton (Char.ofNat 181)] ∧
    tokenizeGrammarSegment "@" ≠ [EPS] ∧ tokenizeGrammarSegment greekEpsilon ≠ [EPS] := by
  refine ⟨by decide!, by decide!, by decide!, by decide!, by decide!, by decide!⟩

/-- C15 (amended): for every segment text, if `tokenizeGrammarSegment` returns a sequence of
two or more symbols, then `EPS` is one of them exactly when some identifier-like run of the
segment is spelled `eps` or `epsilon`; so none of the symbols is `EPS` when no run is so
spelled. -/
theorem tokenizeGrammarSegment_eps_inside (seg : String)
    (h2 : 2 ≤ (tokenizeGrammarSegment seg).length) :
    EPS ∈ tokenizeGrammarSegment seg ↔
      ∃ r ∈ identRuns [] seg.data, r = "eps".data ∨ r = "epsilon".data := by
  have key := eps_mem_tokens seg.data ([], []) (by simp)
  simp only [List.not_mem_nil, false_or] at key
  unfold tokenizeGrammarSegment at h2 ⊢
  simp only at h2 ⊢
  split at h2
  · simp at h2
  · split at h2
    · simp at h2
    · rename_i h1 h0
      rw [if_neg h1, if_neg h0]
      exact key

/-- Witness for C15 (amended): the segment `a b` has two symbols and no run spelled as
epsilon. -/
theorem tokenizeGrammarSegment_eps_inside_witness :
    2 ≤ (tokenizeGrammarSegment "a b").length ∧
    (EPS ∈ tokenizeGrammarSegment "a b" ↔
      ∃ r ∈ identRuns [] "a b".data, r = "eps".data ∨ r = "epsilon".data) :=
  ⟨by decide!, tokenizeGrammarSegment_eps_inside "a b" (by decide!)⟩

/-- C15 as stated fails: the segment `eps x` gives the two symbols `eps` and `x`. -/
theorem tokenizeGrammarSegment_eps_inside_counterexample :
    tokenizeGrammarSegment "eps x" = [EPS, "x"] ∧
    2 ≤ (tokenizeGrammarSegment "eps x").length ∧
    EPS ∈ tokenizeGrammarSegment "eps x" := by
  refine ⟨by decide!, by decide!, by decide!⟩

/-! ## Rule lines -/

theorem findSub_eq_none_iff (pat l : List Char) : findSub pat l = none ↔ ¬ pat <:+: l := by
  induction l with
  | nil =>
    unfold findSub
    by_cases h : pat = []
    · simp [h]
    · simp [h]
  | cons c cs ih =>
    unfold findSub
    rw [List.infix_cons_iff]
    by_cases h : pat.isPrefixOf (c :: cs) = true
    · simp only [h, if_true]
      have := List.isPrefixOf_iff_prefix.mp h
      simp [this]
    · have : ¬ pat <+: c :: cs := fun e => h (List.isPrefixOf_iff_prefix.mpr e)
      have h' : pat.isPrefixOf (c :: cs) = false := Bool.eq_false_iff.mpr h
      simp only [h', Bool.false_eq_true, if_false, Option.map_eq_none', this, false_or]
      exact ih

theorem trimChars_sublist (l : List Char) : trimChars l <:+: l := by
  unfold trimChars
  have h1 : ((l.dropWhile isTrimChar).reverse.dropWhile isTrimChar).reverse
      <+: l.dropWhile isTrimChar := List.rdropWhile_prefix isTrimChar _
  exact List.IsInfix.trans h1.isInfix (List.dropWhile_suffix isTrimChar).isInfix

theorem findSub_trim_none (pat l : List Char) (h : findSub pat l = none) :
    findSub pat (trimChars l) = none := by
  rw [findSub_eq_none_iff] at h ⊢
  exact fun e => h (List.IsInfix.trans e (trimChars_sublist l))

theorem dropWhile_blank (p : Char → Bool) (ws : List Char) (a : Char) (r : List Char)
    (hws : ∀ c ∈ ws, p c = true) (ha : p a = false) :
    (ws ++ a :: r).dropWhile p = a :: r := by
  induction ws with
  | nil => simp [List.dropWhile, ha]
  | cons w ws ih =>
    simp only [List.cons_append, List.dropWhile_cons, hws w (List.mem_cons_self _ _), if_true]
    exact ih (fun c hc => hws c (List.mem_cons_of_mem _ hc))

theorem rdropWhile_keep (p : Char → Bool) (pre : List Char) (b : Char) (r : List Char)
    (hb : p b = false) : ∃ r', List.rdropWhile p (pre ++ b :: r) = pre ++ b :: r' := by
  induction r using List.reverseRecOn with
  | nil =>
    refine ⟨[], ?_⟩
    have : pre ++ [b] = pre ++ [b] := rfl
    rw [List.rdropWhile_concat_neg]
    simp [hb]
  | append_singleton r x ih =>
    have e : pre ++ b :: (r ++ [x]) = (pre ++ b :: r) ++ [x] := by simp
    rw [e]
    by_cases hx : p x = true
    · rw [List.rdropWhile_concat_pos _ _ _ hx]
      exact ih
    · rw [List.rdropWhile_concat_neg _ _ _ hx]
      exact ⟨r ++ [x], by simp⟩

/-- The trimmed text of a line whose first non-blank characters are `a :: mid ++ [b]`. -/
theorem trimChars_blank_start (ws mid rest : List Char) (a b : Char)
    (hws : ∀ c ∈ ws, isTrimChar c = true) (ha : isTrimChar a = false)
    (hb : isTrimChar b = false) :
    ∃ r', trimChars (ws ++ (a :: mid ++ [b]) ++ rest) = (a :: mid ++ [b]) ++ r' := by
  unfold trimChars
  have e1 : ws ++ (a :: mid ++ [b]) ++ rest = ws ++ a :: (mid ++ b :: rest) := by simp
  rw [e1, dropWhile_blank isTrimChar ws a _ hws ha]
  obtain ⟨r', hr⟩ := rdropWhile_keep isTrimChar (a :: mid) b rest hb
  refine ⟨r', ?_⟩
  have e2 : a :: (mid ++ b :: rest) = (a :: mid) ++ b :: rest := by simp
  rw [e2]
  have : ((((a :: mid) ++ b :: rest).reverse.dropWhile isTrimChar).reverse)
      = List.rdropWhile isTrimChar ((a :: mid) ++ b :: rest) := rfl
  rw [this, hr]
  simp

theorem addRuleLine_noSeparator (g : Grammar) (line : String) (h : NoSeparator line) :
    addRuleLine g line = g := by
  unfold addRuleLine
  simp only [findSub_trim_none _ _ h.1, findSub_trim_none _ _ h.2, ite_self]

theorem addRuleLine_emptyLhs (g : Grammar) (line : String) (h : EmptyLhs line) :
    addRuleLine g line = g := by
  obtain ⟨ws, rest, hws, h⟩ := h
  rcases h with h | ⟨hno, h⟩
  · obtain ⟨r', hr⟩ := trimChars_blank_start ws [] rest '-' '>' hws (by decide) (by decide)
    have e : trimChars line.data = '-' :: '>' :: r' := by
      rw [h]
      simpa using hr
    unfold addRuleLine
    simp only [e]
    have f : findSub "->".data ('-' :: '>' :: r') = some 0 := by
      simp [findSub, List.isPrefixOf]
    simp [f, trimChars]
  · obtain ⟨r', hr⟩ := trimChars_blank_start ws [Char.ofNat 134] rest (Char.ofNat 226)
      (Char.ofNat 146) hws (by decide) (by decide)
    have e : trimChars line.data = Char.ofNat 226 :: Char.ofNat 134 :: Char.ofNat 146 :: r' := by
      rw [h]
      simpa [unicodeArrow] using hr
    have hno' := findSub_trim_none _ _ hno
    unfold addRuleLine
    rw [e] at hno'
    simp only [e, hno']
    have f : findSub unicodeArrow (Char.ofNat 226 :: Char.ofNat 134 :: Char.ofNat 146 :: r')
        = some 0 := by
      simp [findSub, List.isPrefixOf, unicodeArrow]
    simp [f, trimChars]

/-- C16 (amended): a line that contains neither `->` nor the arrow U+2192, or whose left-hand
side is empty after trimming, is skipped: `addRuleLine` leaves every grammar unchanged, so a
rule list with such a line gives the same grammar as the list without it. -/
theorem addRuleLine_skips_malformed (line : String) (h : NoSeparator line ∨ EmptyLhs line) :
    (∀ g, addRuleLine g line = g) ∧
    (∀ pre post g, (pre ++ line :: post).foldl addRuleLine g = (pre ++ post).foldl addRuleLine g) ∧
    ∀ pre post, readGrammarFromUser (pre ++ line :: post) = readGrammarFromUser (pre ++ post) := by
  have key : ∀ g, addRuleLine g line = g := by
    intro g
    rcases h with h | h
    · exact addRuleLine_noSeparator g line h
    · exact addRuleLine_emptyLhs g line h
  have key2 : ∀ pre post g,
      (pre ++ line :: post).foldl addRuleLine g = (pre ++ post).foldl addRuleLine g := by
    intro pre post g
    simp only [List.foldl_append, List.foldl_cons, key]
  refine ⟨key, key2, ?_⟩
  intro pre post
  unfold readGrammarFromUser
  rw [key2]

/-- Witness for C16 (amended): the line `E + T` has no separator and the line `-> a` has an
empty left-hand side; the expression grammar is read the same with and without them. -/
theorem addRuleLine_skips_malformed_witness :
    (NoSeparator "E + T" ∨ EmptyLhs "E + T") ∧
    addRuleLine exprLines "E + T" = exprLines ∧
    addRuleLine exprLines " -> a" = exprLines ∧
    readGrammarFromUser (["E -> E + T | T"] ++ "E + T" :: ["T -> T * F | F", "F -> ( E ) | id"])
      = readGrammarFromUser (["E -> E + T | T"] ++ ["T -> T * F | F", "F -> ( E ) | id"]) :=
  ⟨Or.inl ⟨by decide!, by decide!⟩,
    (addRuleLine_skips_malformed "E + T" (Or.inl ⟨by decide!, by decide!⟩)).1 exprLines,
    by decide!,
    (addRuleLine_skips_malformed "E + T" (Or.inl ⟨by decide!, by decide!⟩)).2.2 _ _⟩

/-- C16 as stated fails: the line `S → a` contains no `->`, and `addRuleLine` reads it as a
rule for `S`, whose right-hand side begins with the last byte of the arrow. -/
theorem addRuleLine_arrow_counterexample :
    findSub "->".data arrowLine.data = none ∧
    addRuleLine Grammar.empty arrowLine
      = { start := "S", nonterminals := ["S"], terminals := [],
          prod := [("S", [[String.singleton (Char.ofNat 146), "a"]])] } ∧
    addRuleLine Grammar.empty arrowLine ≠ Grammar.empty := by
  refine ⟨by decide!, by decide!, by decide!⟩

/-! ## Fresh names -/

/-- The numbered candidates are tried in turn: the loop returns a name that is not in
`nts`, or every numbered candidate is in `nts` and the loop returns `base_NEW`. -/
theorem uniqueLoop_cases (nts : List String) (base : String) (n k : Nat) :
    uniqueLoop nts base n k ∉ nts ∨
      (uniqueLoop nts base n k = base ++ "_NEW" ∧
        ∀ j, k ≤ j → j < k + n →
          base ++ toString j ∈ nts ∧ base ++ "'" ++ toString j ∈ nts) := by
  induction n generalizing k with
  | zero =>
    right
    exact ⟨rfl, fun j h1 h2 => by omega⟩
  | succ n ih =>
    unfold uniqueLoop
    by_cases h1 : base ++ toString k ∈ nts
    · by_cases h2 : base ++ "'" ++ toString k ∈ nts
      · have e1 : setHas (base ++ toString k) nts = true := (setHas_iff _ _).2 h1
        have e2 : setHas (base ++ "'" ++ toString k) nts = true := (setHas_iff _ _).2 h2
        simp only [e1, e2, Bool.not_true, Bool.false_eq_true, if_false]
        rcases ih (k + 1) with h | ⟨h, hall⟩
        · exact Or.inl h
        · right
          refine ⟨h, ?_⟩
          intro j hj1 hj2
          by_cases e : j = k
          · rw [e]
            exact ⟨h1, h2⟩
          · exact hall j (by omega) (by omega)
      · have e1 : setHas (base ++ toString k) nts = true := (setHas_iff _ _).2 h1
        have e2 : setHas (base ++ "'" ++ toString k) nts = false := (setHas_false_iff _ _).2 h2
        simp only [e1, e2, Bool.not_true, Bool.not_false, Bool.false_eq_true, if_false, if_true]
        exact Or.inl h2
    · have e1 : setHas (base ++ toString k) nts = false := (setHas_false_iff _ _).2 h1
      simp only [e1, Bool.not_false, if_true]
      exact Or.inl h1

theorem uniqueLoop_full (nts : List String) (base : String) (n k : Nat)
    (hall : ∀ j, k ≤ j → j < k + n →
      base ++ toString j ∈ nts ∧ base ++ "'" ++ toString j ∈ nts) :
    uniqueLoop nts base n k = base ++ "_NEW" := by
  induction n generalizing k with
  | zero => rfl
  | succ n ih =>
    unfold uniqueLoop
    have h := hall k (le_refl _) (by omega)
    have e1 : setHas (base ++ toString k) nts = true := (setHas_iff _ _).2 h.1
    have e2 : setHas (base ++ "'" ++ toString k) nts = true := (setHas_iff _ _).2 h.2
    simp only [e1, e2, Bool.not_true, Bool.false_eq_true, if_false]
    exact ih (k + 1) (fun j h1 h2 => hall j (by omega) (by omega))

theorem mem_foldl_setInsert (l s : List String) (x : String) :
    x ∈ l.foldl (fun s y => setInsert y s) s ↔ x ∈ l ∨ x ∈ s := by
  induction l generalizing s with
  | nil => simp
  | cons y l ih =>
    rw [List.foldl_cons, ih, mem_setInsert, List.mem_cons]
    constructor
    · rintro (h | h | h)
      · exact Or.inl (Or.inr h)
      · exact Or.inl (Or.inl h)
      · exact Or.inr h
    · rintro ((h | h) | h)
      · exact Or.inr (Or.inl h)
      · exact Or.inl h
      · exact Or.inr (Or.inr h)

theorem mem_crowded_fold (l : List Nat) (init : List String) (i : Nat) (hi : i ∈ l) :
    ("A" ++ toString (i + 1)) ∈ l.foldr
        (fun i acc => ("A" ++ toString (i + 1)) :: ("A" ++ "'" ++ toString (i + 1)) :: acc) init ∧
    ("A" ++ "'" ++ toString (i + 1)) ∈ l.foldr
        (fun i acc => ("A" ++ toString (i + 1)) :: ("A" ++ "'" ++ toString (i + 1)) :: acc) init := by
  induction l with
  | nil => simp at hi
  | cons a l ih =>
    simp only [List.foldr_cons, List.mem_cons]
    rcases List.mem_cons.mp hi with e | h
    · subst e
      exact ⟨Or.inl rfl, Or.inr (Or.inl rfl)⟩
    · exact ⟨Or.inr (Or.inr (ih h).1), Or.inr (Or.inr (ih h).2)⟩

theorem mem_fold_init (l : List Nat) (init : List String) (x : String) (hx : x ∈ init) :
    x ∈ l.foldr
        (fun i acc => ("A" ++ toString (i + 1)) :: ("A" ++ "'" ++ toString (i + 1)) :: acc) init := by
  induction l with
  | nil => exact hx
  | cons a l ih =>
    simp only [List.foldr_cons, List.mem_cons]
    exact Or.inr (Or.inr ih)

theorem mem_crowdedGrammar (x : String) (h : x ∈ crowdedNames) : x ∈ crowdedGrammar.nonterminals := by
  unfold crowdedGrammar
  simp only
  rw [mem_foldl_setInsert]
  exact Or.inl h

/-- C17 (amended): `makeUniqueNonTerminal g base` returns a name that is not a member of
`g.nonterminals`, provided that one of the names it can return (`base'`, `base1`, `base'1`,
..., `base999`, `base'999`, `base_NEW`) is not a member of `g.nonterminals`. -/
theorem makeUniqueNonTerminal_fresh (g : Grammar) (base : String)
    (h : base ++ "'" ∉ g.nonterminals ∨ base ++ "_NEW" ∉ g.nonterminals ∨
      ∃ k, 1 ≤ k ∧ k ≤ 999 ∧
        (base ++ toString k ∉ g.nonterminals ∨ base ++ "'" ++ toString k ∉ g.nonterminals)) :
    makeUniqueNonTerminal g base ∉ g.nonterminals := by
  unfold makeUniqueNonTerminal
  by_cases h0 : base ++ "'" ∈ g.nonterminals
  · have e0 : setHas (base ++ "'") g.nonterminals = true := (setHas_iff _ _).2 h0
    simp only [e0, Bool.not_true, Bool.false_eq_true, if_false]
    rcases uniqueLoop_cases g.nonterminals base 999 1 with hl | ⟨hl, hall⟩
    · exact hl
    · rw [hl]
      rcases h with h | h | ⟨k, hk1, hk2, hk⟩
      · exact absurd h0 h
      · exact h
      · have := hall k hk1 (by omega)
        rcases hk with hk | hk
        · exact absurd this.1 hk
        · exact absurd this.2 hk
  · have e0 : setHas (base ++ "'") g.nonterminals = false := (setHas_false_iff _ _).2 h0
    simp only [e0, Bool.not_false, if_true]
    exact h0

/-- Witness for C17 (amended): in the expression grammar after the rewrites, where `E'`
is taken, the name made for `E` is `E1`. -/
theorem makeUniqueNonTerminal_fresh_witness :
    "E" ++ "_NEW" ∉ exprLL1.nonterminals ∧
    makeUniqueNonTerminal exprLL1 "E" = "E1" ∧
    makeUniqueNonTerminal exprLL1 "E" ∉ exprLL1.nonterminals :=
  ⟨by decide!, by decide!,
    makeUniqueNonTerminal_fresh exprLL1 "E" (Or.inr (Or.inl (by decide!)))⟩

/-- C17 as stated fails: when `A'`, `A1`, `A'1`, ..., `A999`, `A'999` and `A_NEW` are all
nonterminals, the name made for `A` is `A_NEW`, a nonterminal. -/
theorem makeUniqueNonTerminal_taken_counterexample :
    makeUniqueNonTerminal crowdedGrammar "A" = "A_NEW" ∧
    makeUniqueNonTerminal crowdedGrammar "A" ∈ crowdedGrammar.nonterminals := by
  have hq : "A" ++ "'" ∈ crowdedGrammar.nonterminals :=
    mem_crowdedGrammar _ (mem_fold_init _ _ _ (by simp))
  have hn : "A" ++ "_NEW" ∈ crowdedGrammar.nonterminals :=
    mem_crowdedGrammar _ (mem_fold_init _ _ _ (by simp))
  have hall : ∀ j, 1 ≤ j → j < 1 + 999 →
      "A" ++ toString j ∈ crowdedGrammar.nonterminals ∧
        "A" ++ "'" ++ toString j ∈ crowdedGrammar.nonterminals := by
    intro j h1 h2
    have hm := mem_crowded_fold (List.range 999) ["A" ++ "'", "A" ++ "_NEW"] (j - 1)
      (List.mem_range.mpr (by omega))
    have e : j - 1 + 1 = j := by omega
    rw [e] at hm
    exact ⟨mem_crowdedGrammar _ hm.1, mem_crowdedGrammar _ hm.2⟩
  have key : makeUniqueNonTerminal crowdedGrammar "A" = "A" ++ "_NEW" := by
    unfold makeUniqueNonTerminal
    have e0 : setHas ("A" ++ "'") crowdedGrammar.nonterminals = true := (setHas_iff _ _).2 hq
    simp only [e0, Bool.not_true, Bool.false_eq_true, if_false]
    exact uniqueLoop_full crowdedGrammar.nonterminals "A" 999 1 hall
  rw [key]
  exact ⟨by decide, hn⟩

/-! ## Entries of a map -/

theorem mem_mapSet {V : Type} (k : String) (v : V) (m : List (String × V)) (kv : String × V)
    (h : kv ∈ mapSet k v m) : kv = (k, v) ∨ kv ∈ m := by
  induction m with
  | nil =>
    simp only [mapSet, List.mem_singleton] at h
    exact Or.inl h
  | cons p m ih =>
    obtain ⟨k', v'⟩ := p
    unfold mapSet at h
    split at h
    · rcases List.mem_cons.mp h with e | e
      · exact Or.inl e
      · exact Or.inr (List.mem_cons_of_mem _ e)
    · split at h
      · rcases List.mem_cons.mp h with e | e
        · exact Or.inl e
        · exact Or.inr e
      · rcases List.mem_cons.mp h with e | e
        · exact Or.inr (by rw [e]; exact List.mem_cons_self _ _)
        · rcases ih e with e | e
          · exact Or.inl e
          · exact Or.inr (List.mem_cons_of_mem _ e)

theorem mem_mapSet_of_none {V : Type} (k : String) (v : V) (m : List (String × V))
    (hk : mapFind k m = none) (kv : String × V) :
    kv ∈ mapSet k v m ↔ kv = (k, v) ∨ kv ∈ m := by
  induction m with
  | nil => simp [mapSet]
  | cons p m ih =>
    obtain ⟨k', v'⟩ := p
    unfold mapFind at hk
    split at hk
    · simp at hk
    · rename_i hne
      unfold mapSet
      rw [if_neg hne]
      split
      · simp
      · simp only [List.mem_cons, ih hk]
        constructor
        · rintro (h | h | h)
          · exact Or.inr (Or.inl h)
          · exact Or.inl h
          · exact Or.inr (Or.inr h)
        · rintro (h | h | h)
          · exact Or.inr (Or.inl h)
          · exact Or.inl h
          · exact Or.inr (Or.inr h)

theorem mem_mapEnsure {V : Type} (k : String) (d : V) (m : List (String × V)) (kv : String × V) :
    kv ∈ mapEnsure k m d ↔ kv = (k, d) ∧ mapFind k m = none ∨ kv ∈ m := by
  unfold mapEnsure
  split
  · rename_i v hv
    simp [hv]
  · rename_i hv
    rw [mem_mapSet_of_none k d m hv]
    simp [hv]

theorem mapGetD_mem {V : Type} (k : String) (m : List (String × V)) (d : V) :
    mapGetD k m d = d ∨ (k, mapGetD k m d) ∈ m := by
  unfold mapGetD
  cases h : mapFind k m with
  | none => exact Or.inl rfl
  | some v => exact Or.inr (mem_of_mapFind k v m h)

/-! ## No alternative is empty -/

theorem altsNonEmpty_getD (prod : List (String × List (List String))) (h : AltsNonEmpty prod)
    (A : String) : ∀ rhs ∈ mapGetD A prod [], rhs ≠ [] := by
  intro rhs hrhs
  rcases mapGetD_mem A prod [] with e | e
  · rw [e] at hrhs
    simp at hrhs
  · exact h _ e rhs hrhs

theorem altsNonEmpty_mapSet (prod : List (String × List (List String))) (h : AltsNonEmpty prod)
    (A : String) (alts : List (List String)) (halts : ∀ rhs ∈ alts, rhs ≠ []) :
    AltsNonEmpty (mapSet A alts prod) := by
  intro kv hkv
  rcases mem_mapSet A alts prod kv hkv with e | e
  · rw [e]
    exact halts
  · exact h kv e

theorem altsNonEmpty_mapEnsure (prod : List (String × List (List String)))
    (h : AltsNonEmpty prod) (A : String) : AltsNonEmpty (mapEnsure A prod []) := by
  intro kv hkv
  rcases (mem_mapEnsure A [] prod kv).1 hkv with ⟨e, _⟩ | e
  · rw [e]
    simp
  · exact h kv e

theorem tokens_blank (cs : List Char) (hcs : ∀ c ∈ cs, isspaceC c = true) :
    cs.foldl tokStep ([], []) = ([], []) := by
  induction cs with
  | nil => rfl
  | cons c cs ih =>
    rw [List.foldl_cons, tokStep_space _ _ (hcs c (List.mem_cons_self _ _))]
    exact ih (fun d hd => hcs d (List.mem_cons_of_mem _ hd))

theorem tokenizeGrammarSegment_ne_nil (seg : String) : tokenizeGrammarSegment seg ≠ [] := by
  unfold tokenizeGrammarSegment
  simp only
  split
  · simp
  · split
    · simp
    · assumption

theorem tokenizeGrammarSegment_blank (seg : String) (h : ∀ c ∈ seg.data, isspaceC c = true) :
    tokenizeGrammarSegment seg = [EPS] := by
  unfold tokenizeGrammarSegment
  rw [tokens_blank seg.data h]
  decide

theorem altsNonEmpty_pushProd (prod : List (String × List (List String)))
    (h : AltsNonEmpty prod) (lhs : String) (rhs : List String) (hrhs : rhs ≠ []) :
    AltsNonEmpty (pushProd lhs rhs prod) := by
  unfold pushProd
  apply altsNonEmpty_mapSet prod h
  intro r hr
  rcases List.mem_append.mp hr with e | e
  · exact altsNonEmpty_getD prod h lhs r e
  · rw [List.mem_singleton.mp e]
    exact hrhs

theorem altsNonEmpty_addRuleLine (g : Grammar) (line : String) (h : AltsNonEmpty g.prod) :
    AltsNonEmpty (addRuleLine g line).prod := by
  unfold addRuleLine
  simp only
  split
  · exact h
  · split
    · exact h
    · split
      · exact h
      · simp only
        generalize splitAlternatives [] _ = parts
        generalize g.prod = prod at h
        induction parts generalizing prod with
        | nil => exact h
        | cons p parts ih =>
          rw [List.foldl_cons]
          apply ih
          split
          · exact altsNonEmpty_pushProd prod h _ _ (by simp)
          · exact altsNonEmpty_pushProd prod h _ _ (tokenizeGrammarSegment_ne_nil p)

theorem remainder_ne_nil (n : Nat) (rhs : List String) : remainder n rhs ≠ [] := by
  unfold remainder
  split
  · simp
  · assumption

theorem altsNonEmpty_leftFactorOnceFrom (more : List String) (g : Grammar)
    (h : AltsNonEmpty g.prod) : AltsNonEmpty (leftFactorOnceFrom more g).2.prod := by
  induction more generalizing g with
  | nil => exact h
  | cons A more ih =>
    have h0 : AltsNonEmpty (mapEnsure A g.prod []) := altsNonEmpty_mapEnsure g.prod h A
    unfold leftFactorOnceFrom
    simp only
    split
    · exact ih _ h0
    · split
      · exact ih _ h0
      · split
        · exact ih _ h0
        · simp only [Grammar.recomputeSymbols]
          apply altsNonEmpty_mapSet
          · apply altsNonEmpty_mapSet _ h0
            intro r hr
            rcases List.mem_append.mp hr with e | e
            · exact altsNonEmpty_getD g.prod h A r (List.mem_of_mem_filter e)
            · rw [List.mem_singleton.mp e]
              simp
          · intro r hr
            obtain ⟨x, _, e⟩ := List.mem_map.mp hr
            rw [← e]
            exact remainder_ne_nil _ _

theorem altsNonEmpty_leftFactor (n : Nat) (g g' : Grammar) (h : AltsNonEmpty g.prod)
    (hg : leftFactor n g = some g') : AltsNonEmpty g'.prod := by
  induction n generalizing g with
  | zero => simp [leftFactor] at hg
  | succ n ih =>
    have h1 : AltsNonEmpty (leftFactorOnce g).2.prod := altsNonEmpty_leftFactorOnceFrom _ g h
    unfold leftFactor at hg
    split at hg
    · exact ih _ h1 hg
    · simp only [Option.some.injEq] at hg
      rw [← hg]
      exact h1

theorem expandAlt_ne_nil (gamma delta : List String) : expandAlt gamma delta ≠ [] := by
  unfold expandAlt
  simp only
  generalize (if delta = [EPS] then [] else delta) ++ gamma = e
  split
  · simp
  · assumption

theorem substitute_fold_nonEmpty (Aj : String) (deltas : List (List String))
    (alts acc : List (List String)) (halts : ∀ rhs ∈ alts, rhs ≠ [])
    (hacc : ∀ rhs ∈ acc, rhs ≠ []) :
    ∀ r ∈ alts.foldl
      (fun acc rhs =>
        if beginsWith Aj rhs then acc ++ deltas.map (expandAlt rhs.tail) else acc ++ [rhs])
      acc, r ≠ [] := by
  induction alts generalizing acc with
  | nil => exact hacc
  | cons rhs alts ih =>
    rw [List.foldl_cons]
    apply ih _ (fun r hr => halts r (List.mem_cons_of_mem _ hr))
    intro r hr
    split at hr
    · rcases List.mem_append.mp hr with e | e
      · exact hacc r e
      · obtain ⟨d, _, e'⟩ := List.mem_map.mp e
        rw [← e']
        exact expandAlt_ne_nil _ _
    · rcases List.mem_append.mp hr with e | e
      · exact hacc r e
      · rw [List.mem_singleton.mp e]
        exact halts rhs (List.mem_cons_self _ _)

theorem altsNonEmpty_substitute (g : Grammar) (Ai Aj : String) (h : AltsNonEmpty g.prod) :
    AltsNonEmpty (substituteAjIntoAi g Ai Aj).prod := by
  unfold substituteAjIntoAi
  simp only
  apply altsNonEmpty_mapSet
  · split
    · exact altsNonEmpty_mapEnsure _ (altsNonEmpty_mapEnsure _ h Ai) Aj
    · exact altsNonEmpty_mapEnsure _ h Ai
  · exact substitute_fold_nonEmpty Aj _ _ [] (altsNonEmpty_getD g.prod h Ai) (by simp)

theorem altsNonEmpty_substitute_fold (l : List String) (g : Grammar) (Ai : String)
    (h : AltsNonEmpty g.prod) :
    AltsNonEmpty (l.foldl (fun acc Aj => substituteAjIntoAi acc Ai Aj) g).prod := by
  induction l generalizing g with
  | nil => exact h
  | cons Aj l ih =>
    rw [List.foldl_cons]
    exact ih _ (altsNonEmpty_substitute g Ai Aj h)

theorem altsNonEmpty_elim (g : Grammar) (A : String) (h : AltsNonEmpty g.prod) :
    AltsNonEmpty (eliminateImmediateLeftRecursion g A).prod := by
  have h0 : AltsNonEmpty (mapEnsure A g.prod []) := altsNonEmpty_mapEnsure g.prod h A
  unfold eliminateImmediateLeftRecursion
  simp only
  split
  · exact h0
  · apply altsNonEmpty_mapSet
    · apply altsNonEmpty_mapSet _ h0
      intro r hr
      obtain ⟨b, _, e⟩ := List.mem_map.mp hr
      rw [← e]
      split <;> simp
    · intro r hr
      rcases List.mem_append.mp hr with e | e
      · obtain ⟨a, _, e'⟩ := List.mem_map.mp e
        rw [← e']
        split <;> simp
      · rw [List.mem_singleton.mp e]
        simp

theorem altsNonEmpty_elrLoop (fuel : Nat) (g : Grammar) (nts : List String) (i : Nat)
    (g' : Grammar) (h : AltsNonEmpty g.prod) (hg : elrLoop fuel g nts i = some g') :
    AltsNonEmpty g'.prod := by
  induction fuel generalizing g nts i with
  | zero => simp [elrLoop] at hg
  | succ n ih =>
    unfold elrLoop at hg
    split at hg
    · simp only [Option.some.injEq] at hg
      rw [← hg]
      exact h
    · rename_i Ai _
      have h1 := altsNonEmpty_substitute_fold (nts.take i) g Ai h
      have h2 := altsNonEmpty_elim _ Ai h1
      simp only at hg
      split at hg
      · split at hg
        · exact ih _ _ _ h2 hg
        · exact ih _ _ _ h2 hg
      · exact ih _ _ _ h2 hg

/-- C19: no production has an empty right-hand side. `tokenizeGrammarSegment` never returns
the empty sequence, and returns `[EPS]` for a blank segment; if no alternative of `g` is
empty then no alternative of `addRuleLine g line` is; `leftFactor` returns, and no
alternative of the grammar it returns is empty; and no alternative of a grammar that
`eliminateLeftRecursion` returns is empty. -/
theorem alternatives_nonempty (g : Grammar) (h : AltsNonEmpty g.prod) :
    (∀ seg, tokenizeGrammarSegment seg ≠ [] ∧
      ((∀ c ∈ seg.data, isspaceC c = true) → tokenizeGrammarSegment seg = [EPS])) ∧
    (∀ line, AltsNonEmpty (addRuleLine g line).prod) ∧
    (∃ n g', leftFactor n g = some g') ∧
    (∀ n g', leftFactor n g = some g' → AltsNonEmpty g'.prod) ∧
    (∀ n g', eliminateLeftRecursion n g = some g' → AltsNonEmpty g'.prod) :=
  ⟨fun seg => ⟨tokenizeGrammarSegment_ne_nil seg, tokenizeGrammarSegment_blank seg⟩,
    fun line => altsNonEmpty_addRuleLine g line h,
    ⟨_, leftFactor_of_measure (factorMeasure g + 1) g (Nat.lt_succ_self _)⟩,
    fun n g' hg => altsNonEmpty_leftFactor n g g' h hg,
    fun n g' hg => altsNonEmpty_elrLoop n g g.nonterminals 0 g' h hg⟩

/-- Witness for C19: the rule line `A -> a | | eps` stores `a`, `eps`, `eps`, and the
expression grammar keeps its alternatives non-empty through the rewrites. -/
theorem alternatives_nonempty_witness :
    AltsNonEmpty exprLines.prod ∧
    (addRuleLine Grammar.empty "A -> a | | eps").prod = [("A", [["a"], [EPS], [EPS]])] ∧
    AltsNonEmpty (addRuleLine exprLines "A -> a | | eps").prod ∧
    leftFactor 2 exprLines = some exprLines ∧
    AltsNonEmpty exprLines.prod :=
  ⟨by decide!, by decide!, (alternatives_nonempty exprLines (by decide!)).2.1 _, by decide!,
    (alternatives_nonempty exprLines (by decide!)).2.2.2.1 2 exprLines (by decide!)⟩

/-! ## The terminal set -/

theorem mem_symbolsOf_iff (alts : List (List String)) (x : String) :
    x ∈ symbolsOf alts ↔ ∃ rhs ∈ alts, x ∈ rhs := by
  unfold symbolsOf
  induction alts with
  | nil => simp
  | cons r alts ih =>
    simp only [List.foldr_cons, List.mem_append, ih, List.mem_cons, exists_eq_or_imp]

theorem mem_rhsSymbols_iff (prod : List (String × List (List String))) (x : String) :
    x ∈ rhsSymbols prod ↔ ∃ kv ∈ prod, ∃ rhs ∈ kv.2, x ∈ rhs := by
  unfold rhsSymbols
  induction prod with
  | nil => simp
  | cons kv prod ih =>
    simp only [List.foldr_cons, List.mem_append, ih, List.mem_cons, exists_eq_or_imp,
      mem_symbolsOf_iff]

theorem mem_addTerminals (nts ts rhs : List String) (t : String) :
    t ∈ addTerminals nts ts rhs ↔ t ∈ ts ∨ (t ∈ rhs ∧ t ∉ nts ∧ t ≠ EPS) := by
  unfold addTerminals
  induction rhs generalizing ts with
  | nil => simp
  | cons s rhs ih =>
    rw [List.foldl_cons, ih]
    by_cases h1 : s = EPS
    · simp only [h1, if_true, List.mem_cons]
      constructor
      · rintro (h | ⟨h, h'⟩)
        · exact Or.inl h
        · exact Or.inr ⟨Or.inr h, h'⟩
      · rintro (h | ⟨h | h, h'⟩)
        · exact Or.inl h
        · exact absurd h h'.2
        · exact Or.inr ⟨h, h'⟩
    · simp only [h1, if_false, List.mem_cons]
      by_cases h2 : setHas s nts = true
      · have h2m : s ∈ nts := (setHas_iff _ _).1 h2
        simp only [h2, Bool.not_true, Bool.false_eq_true, if_false]
        constructor
        · rintro (h | ⟨h, h'⟩)
          · exact Or.inl h
          · exact Or.inr ⟨Or.inr h, h'⟩
        · rintro (h | ⟨h | h, h'⟩)
          · exact Or.inl h
          · rw [h] at h'
            exact absurd h2m h'.1
          · exact Or.inr ⟨h, h'⟩
      · have h2' := Bool.eq_false_iff.mpr h2
        have h2m : s ∉ nts := (setHas_false_iff _ _).1 h2'
        simp only [h2', Bool.not_false, if_true, mem_setInsert]
        constructor
        · rintro ((h | h) | ⟨h, h'⟩)
          · rw [h]
            exact Or.inr ⟨Or.inl rfl, h2m, h1⟩
          · exact Or.inl h
          · exact Or.inr ⟨Or.inr h, h'⟩
        · rintro (h | ⟨h | h, h'⟩)
          · exact Or.inl (Or.inr h)
          · exact Or.inl (Or.inl h)
          · exact Or.inr ⟨h, h'⟩

theorem mem_addTerminals_alts (nts : List String) (alts : List (List String)) (ts : List String)
    (t : String) :
    t ∈ alts.foldl (addTerminals nts) ts ↔ t ∈ ts ∨ (t ∈ symbolsOf alts ∧ t ∉ nts ∧ t ≠ EPS) := by
  induction alts generalizing ts with
  | nil => simp [symbolsOf]
  | cons rhs alts ih =>
    rw [List.foldl_cons, ih, mem_addTerminals]
    simp only [mem_symbolsOf_iff, List.mem_cons, exists_eq_or_imp]
    constructor
    · rintro ((h | ⟨h, h'⟩) | ⟨h, h'⟩)
      · exact Or.inl h
      · exact Or.inr ⟨Or.inl h, h'⟩
      · exact Or.inr ⟨Or.inr h, h'⟩
    · rintro (h | ⟨h | h, h'⟩)
      · exact Or.inl (Or.inl h)
      · exact Or.inl (Or.inr ⟨h, h'⟩)
      · exact Or.inr ⟨h, h'⟩

theorem mem_addTerminals_prod (nts : List String) (prod : List (String × List (List String)))
    (ts : List String) (t : String) :
    t ∈ prod.foldl (fun acc kv => kv.2.foldl (addTerminals nts) acc) ts
      ↔ t ∈ ts ∨ (t ∈ rhsSymbols prod ∧ t ∉ nts ∧ t ≠ EPS) := by
  induction prod generalizing ts with
  | nil => simp [rhsSymbols]
  | cons kv prod ih =>
    rw [List.foldl_cons, ih, mem_addTerminals_alts]
    have e : ∀ x, x ∈ rhsSymbols (kv :: prod) ↔ x ∈ symbolsOf kv.2 ∨ x ∈ rhsSymbols prod := by
      intro x
      simp [rhsSymbols]
    rw [e]
    constructor
    · rintro ((h | ⟨h, h'⟩) | ⟨h, h'⟩)
      · exact Or.inl h
      · exact Or.inr ⟨Or.inl h, h'⟩
      · exact Or.inr ⟨Or.inr h, h'⟩
    · rintro (h | ⟨h | h, h'⟩)
      · exact Or.inl (Or.inl h)
      · exact Or.inl (Or.inr ⟨h, h'⟩)
      · exact Or.inr ⟨h, h'⟩

/-- After `recomputeSymbols` the terminals are exactly the right-hand-side symbols that
are neither nonterminals nor `EPS`. -/
theorem terminalsExact_recompute (g : Grammar) : TerminalsExact g.recomputeSymbols := by
  intro t
  unfold Grammar.recomputeSymbols
  simp only
  rw [mem_addTerminals_prod]
  simp

theorem mem_rhsSymbols_mapEnsure (prod : List (String × List (List String))) (A : String)
    (x : String) : x ∈ rhsSymbols (mapEnsure A prod []) ↔ x ∈ rhsSymbols prod := by
  simp only [mem_rhsSymbols_iff, mem_mapEnsure]
  constructor
  · rintro ⟨kv, h | h, rhs, hrhs, hx⟩
    · rw [h.1] at hrhs
      simp at hrhs
    · exact ⟨kv, h, rhs, hrhs, hx⟩
  · rintro ⟨kv, h, rhs, hrhs, hx⟩
    exact ⟨kv, Or.inr h, rhs, hrhs, hx⟩

theorem terminalsExact_ensure (g : Grammar) (A : String) (h : TerminalsExact g) :
    TerminalsExact { g with prod := mapEnsure A g.prod [] } := by
  intro t
  simp only [mem_rhsSymbols_mapEnsure]
  exact h t

theorem terminalsExact_leftFactorOnceFrom (more : List String) (g : Grammar)
    (h : TerminalsExact g) : TerminalsExact (leftFactorOnceFrom more g).2 := by
  induction more generalizing g with
  | nil => exact h
  | cons A more ih =>
    have h0 := terminalsExact_ensure g A h
    unfold leftFactorOnceFrom
    simp only
    split
    · exact ih _ h0
    · split
      · exact ih _ h0
      · split
        · exact ih _ h0
        · exact terminalsExact_recompute _

theorem terminalsExact_leftFactor (n : Nat) (g g' : Grammar) (h : TerminalsExact g)
    (hg : leftFactor n g = some g') : TerminalsExact g' := by
  induction n generalizing g with
  | zero => simp [leftFactor] at hg
  | succ n ih =>
    have h1 : TerminalsExact (leftFactorOnce g).2 := terminalsExact_leftFactorOnceFrom _ g h
    unfold leftFactor at hg
    split at hg
    · exact ih _ h1 hg
    · simp only [Option.some.injEq] at hg
      rw [← hg]
      exact h1

theorem elrLoop_recomputed (fuel : Nat) (g : Grammar) (nts : List String) (i : Nat)
    (g' : Grammar) (hg : elrLoop fuel g nts i = some g') : ∃ g1 : Grammar, g' = g1.recomputeSymbols := by
  induction fuel generalizing g nts i with
  | zero => simp [elrLoop] at hg
  | succ n ih =>
    unfold elrLoop at hg
    split at hg
    · simp only [Option.some.injEq] at hg
      exact ⟨g, hg.symm⟩
    · simp only at hg
      split at hg
      · split at hg
        · exact ih _ _ _ hg
        · exact ih _ _ _ hg
      · exact ih _ _ _ hg

/-- C18: the invariant of the terminal set (the terminals are exactly the symbols of the
right-hand sides that are neither nonterminals nor `EPS`) holds after `recomputeSymbols` on
any grammar, holds for every grammar that `eliminateLeftRecursion` returns, and is
preserved by `leftFactor`, which returns on every grammar. -/
theorem terminals_invariant (g : Grammar) :
    TerminalsExact g.recomputeSymbols ∧
    (∀ n g', eliminateLeftRecursion n g = some g' → TerminalsExact g') ∧
    (∃ n g', leftFactor n g = some g') ∧
    (TerminalsExact g → ∀ n g', leftFactor n g = some g' → TerminalsExact g') := by
  refine ⟨terminalsExact_recompute g, ?_,
    ⟨_, leftFactor_of_measure (factorMeasure g + 1) g (Nat.lt_succ_self _)⟩,
    fun h n g' hg => terminalsExact_leftFactor n g g' h hg⟩
  intro n g' hg
  obtain ⟨g1, e⟩ := elrLoop_recomputed n g g.nonterminals 0 g' hg
  rw [e]
  exact terminalsExact_recompute g1

/-- Witness for C18: the expression grammar, read without recomputing the symbols, has no
terminals recorded; the grammar that `eliminateLeftRecursion` returns for it has the
terminals `(`, `)`, `*`, `+`, `id`, and `leftFactor` keeps them. -/
theorem terminals_invariant_witness :
    exprLines.terminals = [] ∧
    eliminateLeftRecursion 6 exprLines = some exprLL1 ∧
    TerminalsExact exprLL1 ∧
    leftFactor 1 exprLL1 = some exprLL1 ∧
    (∀ t, t ∈ exprLL1.terminals ↔
      (t ∈ rhsSymbols exprLL1.prod ∧ t ∉ exprLL1.nonterminals ∧ t ≠ EPS)) :=
  ⟨by decide!, by decide!, (terminals_invariant exprLines).2.1 6 exprLL1 (by decide!),
    by decide!,
    (terminals_invariant exprLL1).2.2.2 ((terminals_invariant exprLines).2.1 6 exprLL1 (by decide!))
      1 exprLL1 (by decide!)⟩

/-! ## The grammar `S -> a | a b` -/

/-- C13: for the grammar of the rule line `S -> a | a b`, the table built from its FIRST and
FOLLOW maps has a conflict in the cell of `S` and `a`; `leftFactor` turns the grammar into
`S -> a S'`, `S' -> eps | b`, whose symbols are recomputed, and no cell of the table built
from the FIRST and FOLLOW maps of that grammar is flagged. -/
theorem conflict_before_factoring :
    computeFIRST 2 prefixGrammar = .ok prefixFIRST ∧
    computeFOLLOW 1 prefixGrammar prefixFIRST = .ok prefixFOLLOW ∧
    buildParseTable prefixGrammar prefixFIRST prefixFOLLOW
      = .ok (prefixTable, ["$", "a", "b"]) ∧
    (tableCell prefixTable "S" "a").conflict = true ∧
    leftFactor 2 prefixGrammar = some factoredGrammar ∧
    factoredGrammar.recomputeSymbols = factoredGrammar ∧
    computeFIRST 2 factoredGrammar = .ok factoredFIRST ∧
    computeFOLLOW 2 factoredGrammar factoredFIRST = .ok factoredFOLLOW ∧
    buildParseTable factoredGrammar factoredFIRST factoredFOLLOW
      = .ok (factoredTable, ["$", "a", "b"]) ∧
    hasConflict factoredGrammar factoredTable ["$", "a", "b"] = false ∧
    (∀ row ∈ factoredTable, ∀ cell ∈ row.2, cell.2.conflict = false) := by
  refine ⟨by decide!, by decide!, by decide!, by decide!, by decide!, by decide!, by decide!,
    by decide!, by decide!, by decide!, by decide!⟩

/-! ## Passes: no set shrinks, a reported change enlarges a set -/

theorem mapLe_ensure (A : String) (F : SetMap) : MapLe F (mapEnsure A F []) := by
  intro X x h
  rw [mapGetD_mapEnsure]
  exact h

theorem addNonEps_le (A : String) (xs : List String) (st : SetMap × Bool) :
    MapLe st.1 (addNonEps A xs st).1 := by
  unfold addNonEps
  induction xs generalizing st with
  | nil => exact mapLe_refl _
  | cons x xs ih =>
    rw [List.foldl_cons]
    split
    · exact ih st
    · exact mapLe_trans (addSym_le A x st) (ih _)

theorem addAll_le (B : String) (xs : List String) (st : SetMap × Bool) :
    MapLe st.1 (xs.foldl (fun acc x => addSym B x acc) st).1 := by
  induction xs generalizing st with
  | nil => exact mapLe_refl _
  | cons x xs ih =>
    rw [List.foldl_cons]
    exact mapLe_trans (addSym_le B x st) (ih _)

theorem firstScan_grow (g : Grammar) (A : String) (hA : A ∈ g.nonterminals) (rhs : List String)
    (st : SetMap × Bool) :
    MapLe st.1 (firstScan g A rhs st).1 ∧ Progress g.nonterminals st (firstScan g A rhs st) := by
  induction rhs generalizing st with
  | nil =>
    simp only [firstScan]
    exact ⟨addSym_le _ _ _, progress_addSym _ _ _ hA _⟩
  | cons X rest ih =>
    unfold firstScan
    split
    · exact ⟨addSym_le _ _ _, progress_addSym _ _ _ hA _⟩
    · split
      · exact ⟨addSym_le _ _ _, progress_addSym _ _ _ hA _⟩
      · simp only
        have k1 : MapLe st.1 (addNonEps A (mapGetD X st.1 []) (mapEnsure X st.1 [], st.2)).1 :=
          mapLe_trans (mapLe_ensure X st.1) (addNonEps_le A _ (mapEnsure X st.1 [], st.2))
        have k2 : Progress g.nonterminals st
            (addNonEps A (mapGetD X st.1 []) (mapEnsure X st.1 [], st.2)) :=
          progress_trans _ _ _ _ (progress_ensure _ X st) (progress_addNonEps _ _ hA _ _)
        split
        · obtain ⟨i1, i2⟩ := ih (addNonEps A (mapGetD X st.1 []) (mapEnsure X st.1 [], st.2))
          exact ⟨mapLe_trans k1 i1, progress_trans _ _ _ _ k2 i2⟩
        · exact ⟨k1, k2⟩

theorem firstAlts_grow (g : Grammar) (A : String) (hA : A ∈ g.nonterminals)
    (alts : List (List String)) (st : SetMap × Bool) :
    MapLe st.1 (alts.foldl (fun acc rhs => firstScan g A rhs acc) st).1 ∧
      Progress g.nonterminals st (alts.foldl (fun acc rhs => firstScan g A rhs acc) st) := by
  induction alts generalizing st with
  | nil => exact ⟨mapLe_refl _, progress_refl _ _⟩
  | cons rhs alts ih =>
    rw [List.foldl_cons]
    obtain ⟨s1, s2⟩ := firstScan_grow g A hA rhs st
    obtain ⟨i1, i2⟩ := ih (firstScan g A rhs st)
    exact ⟨mapLe_trans s1 i1, progress_trans _ _ _ _ s2 i2⟩

theorem firstPassFrom_grow (g : Grammar) (nts : List String)
    (hsub : ∀ A ∈ nts, A ∈ g.nonterminals) (st st1 : SetMap × Bool)
    (h : firstPassFrom g nts st = .ok st1) :
    MapLe st.1 st1.1 ∧ Progress g.nonterminals st st1 := by
  induction nts generalizing st with
  | nil =>
    simp only [firstPassFrom, Outcome.ok.injEq] at h
    rw [← h]
    exact ⟨mapLe_refl _, progress_refl _ _⟩
  | cons A more ih =>
    unfold firstPassFrom at h
    split at h
    · simp at h
    · rename_i alts _
      obtain ⟨a1, a2⟩ := firstAlts_grow g A (hsub A (List.mem_cons_self _ _)) alts st
      obtain ⟨i1, i2⟩ := ih (fun B hB => hsub B (List.mem_cons_of_mem _ hB)) _ h
      exact ⟨mapLe_trans a1 i1, progress_trans _ _ _ _ a2 i2⟩

theorem followAt_grow (g : Grammar) (FIRST : SetMap) (A B : String) (beta : List String)
    (st : SetMap × Bool) :
    MapLe st.1 (followAt g FIRST A B beta st).1 ∧
      Progress g.nonterminals st (followAt g FIRST A B beta st) := by
  unfold followAt
  split
  · exact ⟨mapLe_refl _, progress_refl _ _⟩
  · rename_i hB
    have hB' : B ∈ g.nonterminals := by
      have : g.isNonTerminal B = true := by simpa using hB
      exact (setHas_iff _ _).1 this
    simp only
    have k1 := addNonEps_le B (firstOfSequence beta FIRST g) st
    have k2 := progress_addNonEps g.nonterminals B hB' (firstOfSequence beta FIRST g) st
    split
    · refine ⟨mapLe_trans k1 (mapLe_trans (mapLe_ensure A _) (addAll_le B _ (_, _))), ?_⟩
      exact progress_trans _ _ _ _ k2
        (progress_trans _ _ _ _ (progress_ensure _ A _) (progress_addAll _ B hB' _ _))
    · exact ⟨k1, k2⟩

theorem followScan_grow (g : Grammar) (FIRST : SetMap) (A : String) (rhs : List String)
    (st : SetMap × Bool) :
    MapLe st.1 (followScan g FIRST A rhs st).1 ∧
      Progress g.nonterminals st (followScan g FIRST A rhs st) := by
  induction rhs generalizing st with
  | nil => exact ⟨mapLe_refl _, progress_refl _ _⟩
  | cons B beta ih =>
    unfold followScan
    obtain ⟨a1, a2⟩ := followAt_grow g FIRST A B beta st
    obtain ⟨i1, i2⟩ := ih (followAt g FIRST A B beta st)
    exact ⟨mapLe_trans a1 i1, progress_trans _ _ _ _ a2 i2⟩

theorem followAlts_grow (g : Grammar) (FIRST : SetMap) (A : String)
    (alts : List (List String)) (st : SetMap × Bool) :
    MapLe st.1 (alts.foldl (fun acc rhs => followScan g FIRST A rhs acc) st).1 ∧
      Progress g.nonterminals st
        (alts.foldl (fun acc rhs => followScan g FIRST A rhs acc) st) := by
  induction alts generalizing st with
  | nil => exact ⟨mapLe_refl _, progress_refl _ _⟩
  | cons rhs alts ih =>
    rw [List.foldl_cons]
    obtain ⟨s1, s2⟩ := followScan_grow g FIRST A rhs st
    obtain ⟨i1, i2⟩ := ih (followScan g FIRST A rhs st)
    exact ⟨mapLe_trans s1 i1, progress_trans _ _ _ _ s2 i2⟩

theorem followPassFrom_grow (g : Grammar) (FIRST : SetMap) (nts : List String)
    (st st1 : SetMap × Bool) (h : followPassFrom g FIRST nts st = .ok st1) :
    MapLe st.1 st1.1 ∧ Progress g.nonterminals st st1 := by
  induction nts generalizing st with
  | nil =>
    simp only [followPassFrom, Outcome.ok.injEq] at h
    rw [← h]
    exact ⟨mapLe_refl _, progress_refl _ _⟩
  | cons A more ih =>
    unfold followPassFrom at h
    split at h
    · simp at h
    · rename_i alts _
      obtain ⟨a1, a2⟩ := followAlts_grow g FIRST A alts st
      obtain ⟨i1, i2⟩ := ih _ h
      exact ⟨mapLe_trans a1 i1, progress_trans _ _ _ _ a2 i2⟩

/-- When the total size of the sets of the keys `nts` grows, one of the sets grows. -/
theorem exists_longer (nts : List String) (F F1 : SetMap)
    (h : mapSize nts F < mapSize nts F1) :
    ∃ A ∈ nts, (mapGetD A F []).length < (mapGetD A F1 []).length := by
  by_contra hc
  push_neg at hc
  have := mapSize_le_of_le nts F1 F hc
  omega

/-! ## The sets stay inside a universe -/

theorem within_addNonEps_ne (K U : List String) (A : String) (xs : List String)
    (hxs : ∀ x ∈ xs, x ≠ EPS → x ∈ U) (st : SetMap × Bool) (h : Within K U st.1) :
    Within K U (addNonEps A xs st).1 := by
  unfold addNonEps
  induction xs generalizing st with
  | nil => exact h
  | cons x xs ih =>
    rw [List.foldl_cons]
    have hxs' : ∀ y ∈ xs, y ≠ EPS → y ∈ U := fun y hy => hxs y (List.mem_cons_of_mem _ hy)
    split
    · exact ih hxs' st h
    · rename_i hx
      exact ih hxs' _ (within_addSym K U A x (hxs x (List.mem_cons_self _ _) hx) st h)

theorem firstScan_within (g : Grammar) (K U : List String)
    (hK : ∀ A ∈ g.nonterminals, A ∈ K) (hE : EPS ∈ U) (A : String) (rhs : List String)
    (hrhs : ∀ X ∈ rhs, X ≠ EPS → (g.isTerminal X || !g.isNonTerminal X) = true → X ∈ U)
    (st : SetMap × Bool) (hw : Within K U st.1) : Within K U (firstScan g A rhs st).1 := by
  induction rhs generalizing st with
  | nil =>
    simp only [firstScan]
    exact within_addSym _ _ _ _ hE _ hw
  | cons X rest ih =>
    have hrest : ∀ Y ∈ rest, Y ≠ EPS → (g.isTerminal Y || !g.isNonTerminal Y) = true → Y ∈ U :=
      fun Y hY => hrhs Y (List.mem_cons_of_mem _ hY)
    unfold firstScan
    split
    · exact within_addSym _ _ _ _ hE _ hw
    · rename_i h1
      split
      · rename_i h2
        exact within_addSym _ _ _ _ (hrhs X (List.mem_cons_self _ _) h1 h2) _ hw
      · rename_i h2
        have hXn := nonterminal_of_not_terminalish g X h2
        simp only
        have k : Within K U (addNonEps A (mapGetD X st.1 []) (mapEnsure X st.1 [], st.2)).1 :=
          within_addNonEps _ _ _ _ (fun x hx => hw X (hK X hXn) x hx) _
            (within_ensure _ _ X st.1 hw)
        split
        · exact ih hrest _ k
        · exact k

theorem firstAlts_within (g : Grammar) (K U : List String)
    (hK : ∀ A ∈ g.nonterminals, A ∈ K) (hE : EPS ∈ U) (A : String) (alts : List (List String))
    (halts : ∀ rhs ∈ alts, ∀ X ∈ rhs, X ≠ EPS →
      (g.isTerminal X || !g.isNonTerminal X) = true → X ∈ U)
    (st : SetMap × Bool) (hw : Within K U st.1) :
    Within K U (alts.foldl (fun acc rhs => firstScan g A rhs acc) st).1 := by
  induction alts generalizing st with
  | nil => exact hw
  | cons rhs alts ih =>
    rw [List.foldl_cons]
    exact ih (fun r hr => halts r (List.mem_cons_of_mem _ hr)) _
      (firstScan_within g K U hK hE A rhs (halts rhs (List.mem_cons_self _ _)) st hw)

theorem firstPassFrom_within (g : Grammar) (K U : List String)
    (hK : ∀ A ∈ g.nonterminals, A ∈ K) (hE : EPS ∈ U) (nts : List String)
    (hsym : ∀ A ∈ nts, ∀ alts, mapFind A g.prod = some alts → ∀ rhs ∈ alts, ∀ X ∈ rhs,
      X ≠ EPS → (g.isTerminal X || !g.isNonTerminal X) = true → X ∈ U)
    (st st1 : SetMap × Bool) (h : firstPassFrom g nts st = .ok st1) (hw : Within K U st.1) :
    Within K U st1.1 := by
  induction nts generalizing st with
  | nil =>
    simp only [firstPassFrom, Outcome.ok.injEq] at h
    rw [← h]
    exact hw
  | cons A more ih =>
    unfold firstPassFrom at h
    split at h
    · simp at h
    · rename_i alts hal
      exact ih (fun B hB => hsym B (List.mem_cons_of_mem _ hB)) _ h
        (firstAlts_within g K U hK hE A alts (hsym A (List.mem_cons_self _ _) alts hal) st hw)

theorem firstLoop_within (g : Grammar) (K U : List String)
    (hK : ∀ A ∈ g.nonterminals, A ∈ K) (hE : EPS ∈ U)
    (hsym : ∀ A ∈ g.nonterminals, ∀ alts, mapFind A g.prod = some alts → ∀ rhs ∈ alts,
      ∀ X ∈ rhs, X ≠ EPS → (g.isTerminal X || !g.isNonTerminal X) = true → X ∈ U)
    (fuel : Nat) (F F1 : SetMap) (h : firstLoop g fuel F = .ok F1) (hw : Within K U F) :
    Within K U F1 := by
  induction fuel generalizing F with
  | zero => simp [firstLoop] at h
  | succ n ih =>
    unfold firstLoop firstPass at h
    split at h
    · rename_i F2 changed e
      have hw2 := firstPassFrom_within g K U hK hE g.nonterminals hsym (F, false) (F2, changed)
        e hw
      split at h
      · exact ih F2 h hw2
      · simp only [Outcome.ok.injEq] at h
        rw [← h]
        exact hw2
    · simp at h
    · simp at h

/-- Where an element of `firstOfSequence` comes from. -/
theorem inFirstSeq_cases (FIRST : SetMap) (g : Grammar) (seq : List String) (x : String)
    (h : inFirstSeq FIRST g seq x) :
    x = EPS ∨ (x ∈ seq ∧ x ≠ EPS ∧ (g.isTerminal x || !g.isNonTerminal x) = true) ∨
      (x ∈ seq ∧ x ∈ g.nonterminals ∧ mapFind x FIRST = none) ∨
      ∃ X ∈ seq, X ∈ g.nonterminals ∧ x ∈ mapGetD X FIRST [] := by
  induction seq with
  | nil => exact Or.inl h
  | cons X rest ih =>
    unfold inFirstSeq at h
    split at h
    · exact Or.inl h
    · rename_i h1
      split at h
      · rename_i h2
        rw [h]
        exact Or.inr (Or.inl ⟨List.mem_cons_self _ _, h1, h2⟩)
      · rename_i h2
        have hXn := nonterminal_of_not_terminalish g X h2
        split at h
        · rename_i fx hX
          rcases h with ⟨h3, _⟩ | ⟨_, h3⟩
          · right; right; right
            exact ⟨X, List.mem_cons_self _ _, hXn, by rw [mapGetD_of_some [] hX]; exact h3⟩
          · rcases ih h3 with e | ⟨e, e'⟩ | ⟨e, e'⟩ | ⟨Y, hY, e⟩
            · exact Or.inl e
            · exact Or.inr (Or.inl ⟨List.mem_cons_of_mem _ e, e'⟩)
            · exact Or.inr (Or.inr (Or.inl ⟨List.mem_cons_of_mem _ e, e'⟩))
            · exact Or.inr (Or.inr (Or.inr ⟨Y, List.mem_cons_of_mem _ hY, e⟩))
        · rename_i hX
          rw [h]
          exact Or.inr (Or.inr (Or.inl ⟨List.mem_cons_self _ _, hXn, hX⟩))

theorem followAt_within (g : Grammar) (FIRST : SetMap) (K U : List String)
    (A B : String) (hA : A ∈ K) (beta : List String)
    (hbeta : ∀ x ∈ firstOfSequence beta FIRST g, x ≠ EPS → x ∈ U)
    (st : SetMap × Bool) (hw : Within K U st.1) :
    Within K U (followAt g FIRST A B beta st).1 := by
  unfold followAt
  split
  · exact hw
  · simp only
    have k := within_addNonEps_ne K U B (firstOfSequence beta FIRST g) hbeta st hw
    split
    · apply within_addAll
      · intro x hx
        exact k A hA x hx
      · exact within_ensure _ _ A _ k
    · exact k

theorem followScan_within (g : Grammar) (FIRST : SetMap) (K U : List String)
    (A : String) (hA : A ∈ K) (rhs : List String)
    (hseq : ∀ beta : List String, (∀ X ∈ beta, X ∈ rhs) →
      ∀ x ∈ firstOfSequence beta FIRST g, x ≠ EPS → x ∈ U)
    (st : SetMap × Bool) (hw : Within K U st.1) :
    Within K U (followScan g FIRST A rhs st).1 := by
  induction rhs generalizing st with
  | nil => exact hw
  | cons B beta ih =>
    unfold followScan
    apply ih
    · intro b hb
      exact hseq b (fun X hX => List.mem_cons_of_mem _ (hb X hX))
    · exact followAt_within g FIRST K U A B hA beta
        (hseq beta (fun X hX => List.mem_cons_of_mem _ hX)) st hw

theorem followAlts_within (g : Grammar) (FIRST : SetMap) (K U : List String)
    (A : String) (hA : A ∈ K) (alts : List (List String))
    (hseq : ∀ rhs ∈ alts, ∀ beta : List String, (∀ X ∈ beta, X ∈ rhs) →
      ∀ x ∈ firstOfSequence beta FIRST g, x ≠ EPS → x ∈ U)
    (st : SetMap × Bool) (hw : Within K U st.1) :
    Within K U (alts.foldl (fun acc rhs => followScan g FIRST A rhs acc) st).1 := by
  induction alts generalizing st with
  | nil => exact hw
  | cons rhs alts ih =>
    rw [List.foldl_cons]
    exact ih (fun r hr => hseq r (List.mem_cons_of_mem _ hr)) _
      (followScan_within g FIRST K U A hA rhs (hseq rhs (List.mem_cons_self _ _)) st hw)

theorem followPassFrom_within (g : Grammar) (FIRST : SetMap) (K U : List String)
    (nts : List String) (hK : ∀ A ∈ nts, A ∈ K)
    (hseq : ∀ beta : List String, (∀ X ∈ beta, X ∈ rhsSymbols g.prod) →
      ∀ x ∈ firstOfSequence beta FIRST g, x ≠ EPS → x ∈ U)
    (st st1 : SetMap × Bool) (h : followPassFrom g FIRST nts st = .ok st1)
    (hw : Within K U st.1) : Within K U st1.1 := by
  induction nts generalizing st with
  | nil =>
    simp only [followPassFrom, Outcome.ok.injEq] at h
    rw [← h]
    exact hw
  | cons A more ih =>
    unfold followPassFrom at h
    split at h
    · simp at h
    · rename_i alts hal
      apply ih (fun B hB => hK B (List.mem_cons_of_mem _ hB)) _ h
      apply followAlts_within g FIRST K U A (hK A (List.mem_cons_self _ _)) alts _ st hw
      intro rhs hrhs beta hb
      exact hseq beta (fun X hX => mem_rhsSymbols g.prod A alts rhs X hal hrhs (hb X hX))

theorem followLoop_within (g : Grammar) (FIRST : SetMap) (K U : List String)
    (hK : ∀ A ∈ g.nonterminals, A ∈ K)
    (hseq : ∀ beta : List String, (∀ X ∈ beta, X ∈ rhsSymbols g.prod) →
      ∀ x ∈ firstOfSequence beta FIRST g, x ≠ EPS → x ∈ U)
    (fuel : Nat) (F F1 : SetMap) (h : followLoop g FIRST fuel F = .ok F1) (hw : Within K U F) :
    Within K U F1 := by
  induction fuel generalizing F with
  | zero => simp [followLoop] at h
  | succ n ih =>
    unfold followLoop followPass at h
    split at h
    · rename_i F2 changed e
      have hw2 := followPassFrom_within g FIRST K U g.nonterminals hK hseq (F, false)
        (F2, changed) e hw
      split at h
      · exact ih F2 h hw2
      · simp only [Outcome.ok.injEq] at h
        rw [← h]
        exact hw2
    · simp at h
    · simp at h

/-! ## `computeFIRST` and `computeFOLLOW` terminate -/

theorem mem_symbolUniverse_rhs (g : Grammar) (x : String) (h : x ∈ rhsSymbols g.prod) :
    x ∈ symbolUniverse g :=
  List.mem_cons_of_mem _ (List.mem_cons_of_mem _ h)

theorem computeFIRST_universe (g : Grammar) (hterm : ∀ t ∈ g.terminals, t ∈ rhsSymbols g.prod)
    (fuel : Nat) (FIRST : SetMap) (h : computeFIRST fuel g = .ok FIRST) (X x : String)
    (hx : x ∈ mapGetD X FIRST []) : x ∈ symbolUniverse g := by
  have hw : Within (X :: g.nonterminals) (symbolUniverse g) FIRST := by
    apply firstLoop_within g (X :: g.nonterminals) (symbolUniverse g)
      (fun A hA => List.mem_cons_of_mem _ hA) (List.mem_cons_self _ _) _ fuel _ _ h
    · intro A _ y hy
      obtain ⟨h1, h2⟩ := mem_firstInit g A y hy
      rcases h2 with h2 | h2
      · rw [h1, h2]
        exact List.mem_cons_self _ _
      · rw [h1]
        exact mem_symbolUniverse_rhs g A (hterm A h2)
    · intro A _ alts hal rhs hrhs Y hY _ _
      exact mem_symbolUniverse_rhs g Y (mem_rhsSymbols g.prod A alts rhs Y hal hrhs hY)
  exact hw X (List.mem_cons_self _ _) x hx

theorem computeFOLLOW_universe (g : Grammar) (FIRST : SetMap)
    (hfirst : ∀ X, ∀ x ∈ mapGetD X FIRST [], x ∈ symbolUniverse g)
    (fuel : Nat) (FOLLOW : SetMap) (h : computeFOLLOW fuel g FIRST = .ok FOLLOW) (X x : String)
    (hx : x ∈ mapGetD X FOLLOW []) : x ∈ symbolUniverse g := by
  have hw : Within (X :: g.nonterminals) (symbolUniverse g) FOLLOW := by
    apply followLoop_within g FIRST (X :: g.nonterminals) (symbolUniverse g)
      (fun A hA => List.mem_cons_of_mem _ hA) _ fuel _ _ h
    · intro A _ y hy
      rw [mem_followInit g A y hy]
      exact List.mem_cons_of_mem _ (List.mem_cons_self _ _)
    · intro beta hbeta y hy _
      rcases inFirstSeq_cases FIRST g beta y ((mem_firstOfSequence FIRST g beta y).1 hy)
        with e | ⟨e, _⟩ | ⟨e, _⟩ | ⟨Y, _, _, e⟩
      · rw [e]
        exact List.mem_cons_self _ _
      · exact mem_symbolUniverse_rhs g y (hbeta y e)
      · exact mem_symbolUniverse_rhs g y (hbeta y e)
      · exact hfirst Y y e
  exact hw X (List.mem_cons_self _ _) x hx

theorem computeFIRST_inside (g : Grammar) (U : List String)
    (hU : ∀ x ∈ symbolUniverse g, x ∈ U) (hterm : ∀ t ∈ g.terminals, t ∈ U)
    (fuel : Nat) (FIRST : SetMap) (h : computeFIRST fuel g = .ok FIRST) (X x : String)
    (hx : x ∈ mapGetD X FIRST []) : x ∈ U := by
  have hw : Within (X :: g.nonterminals) U FIRST := by
    apply firstLoop_within g (X :: g.nonterminals) U
      (fun A hA => List.mem_cons_of_mem _ hA) (hU _ (List.mem_cons_self _ _)) _ fuel _ _ h
    · intro A _ y hy
      obtain ⟨h1, h2⟩ := mem_firstInit g A y hy
      rcases h2 with h2 | h2
      · rw [h1, h2]
        exact hU _ (List.mem_cons_self _ _)
      · rw [h1]
        exact hterm A h2
    · intro A _ alts hal rhs hrhs Y hY _ _
      exact hU _ (mem_symbolUniverse_rhs g Y (mem_rhsSymbols g.prod A alts rhs Y hal hrhs hY))
  exact hw X (List.mem_cons_self _ _) x hx

theorem computeFOLLOW_inside (g : Grammar) (FIRST : SetMap) (U : List String)
    (hU : ∀ x ∈ symbolUniverse g, x ∈ U)
    (hfirst : ∀ X, ∀ x ∈ mapGetD X FIRST [], x ∈ U)
    (fuel : Nat) (FOLLOW : SetMap) (h : computeFOLLOW fuel g FIRST = .ok FOLLOW) (X x : String)
    (hx : x ∈ mapGetD X FOLLOW []) : x ∈ U := by
  have hw : Within (X :: g.nonterminals) U FOLLOW := by
    apply followLoop_within g FIRST (X :: g.nonterminals) U
      (fun A hA => List.mem_cons_of_mem _ hA) _ fuel _ _ h
    · intro A _ y hy
      rw [mem_followInit g A y hy]
      exact hU _ (List.mem_cons_of_mem _ (List.mem_cons_self _ _))
    · intro beta hbeta y hy _
      rcases inFirstSeq_cases FIRST g beta y ((mem_firstOfSequence FIRST g beta y).1 hy)
        with e | ⟨e, _⟩ | ⟨e, _⟩ | ⟨Y, _, _, e⟩
      · rw [e]
        exact hU _ (List.mem_cons_self _ _)
      · exact hU _ (mem_symbolUniverse_rhs g y (hbeta y e))
      · exact hU _ (mem_symbolUniverse_rhs g y (hbeta y e))
      · exact hfirst Y y e
  exact hw X (List.mem_cons_self _ _) x hx

/-- C11 (amended): on every grammar in which every nonterminal has a production list,
`computeFIRST` returns, and `computeFOLLOW` returns for every FIRST map. A pass of either
loop takes no element out of a set, and a pass that reports a change leaves the set of some
nonterminal with more elements than it had. When the terminals of the grammar are
right-hand-side symbols (as they are once the symbols are recomputed), every set of the
FIRST map and of the FOLLOW map computed from it is inside the universe of `EPS`, the end
marker and the right-hand-side symbols; for every grammar, every such set is inside that
universe together with the recorded terminals of the grammar. -/
theorem fixed_points_terminate (g : Grammar)
    (hprod : ∀ A ∈ g.nonterminals, (mapFind A g.prod).isSome = true) :
    (∃ fuel FIRST, computeFIRST fuel g = .ok FIRST) ∧
    (∀ FIRST, ∃ fuel FOLLOW, computeFOLLOW fuel g FIRST = .ok FOLLOW) ∧
    (∀ F F1 changed, firstPass g F = .ok (F1, changed) →
      MapLe F F1 ∧ (changed = true →
        ∃ A ∈ g.nonterminals, (mapGetD A F []).length < (mapGetD A F1 []).length)) ∧
    (∀ FIRST F F1 changed, followPass g FIRST F = .ok (F1, changed) →
      MapLe F F1 ∧ (changed = true →
        ∃ A ∈ g.nonterminals, (mapGetD A F []).length < (mapGetD A F1 []).length)) ∧
    ((∀ t ∈ g.terminals, t ∈ rhsSymbols g.prod) →
      ∀ fuel FIRST, computeFIRST fuel g = .ok FIRST →
        (∀ X, ∀ x ∈ mapGetD X FIRST [], x ∈ symbolUniverse g) ∧
        ∀ fuel' FOLLOW, computeFOLLOW fuel' g FIRST = .ok FOLLOW →
          ∀ X, ∀ x ∈ mapGetD X FOLLOW [], x ∈ symbolUniverse g) ∧
    (∀ fuel FIRST, computeFIRST fuel g = .ok FIRST →
      (∀ X, ∀ x ∈ mapGetD X FIRST [], x ∈ symbolUniverse g ∨ x ∈ g.terminals) ∧
      ∀ fuel' FOLLOW, computeFOLLOW fuel' g FIRST = .ok FOLLOW →
        ∀ X, ∀ x ∈ mapGetD X FOLLOW [], x ∈ symbolUniverse g ∨ x ∈ g.terminals) := by
  refine ⟨⟨_, computeFIRST_returns g hprod⟩, fun FIRST => ⟨_, computeFOLLOW_returns g FIRST hprod⟩,
    ?_, ?_, ?_, ?_⟩
  · intro F F1 changed h
    obtain ⟨h1, h2⟩ := firstPassFrom_grow g g.nonterminals (fun _ hA => hA) (F, false)
      (F1, changed) h
    refine ⟨h1, fun hc => ?_⟩
    rcases h2.2 hc with e | e
    · simp at e
    · exact exists_longer _ _ _ e
  · intro FIRST F F1 changed h
    obtain ⟨h1, h2⟩ := followPassFrom_grow g FIRST g.nonterminals (F, false) (F1, changed) h
    refine ⟨h1, fun hc => ?_⟩
    rcases h2.2 hc with e | e
    · simp at e
    · exact exists_longer _ _ _ e
  · intro hterm fuel FIRST h
    have hF := computeFIRST_universe g hterm fuel FIRST h
    exact ⟨hF, fun fuel' FOLLOW h' => computeFOLLOW_universe g FIRST hF fuel' FOLLOW h'⟩
  · intro fuel FIRST h
    have hF : ∀ X, ∀ x ∈ mapGetD X FIRST [], x ∈ symbolUniverse g ++ g.terminals :=
      computeFIRST_inside g (symbolUniverse g ++ g.terminals)
        (fun x hx => List.mem_append_left _ hx) (fun x hx => List.mem_append_right _ hx)
        fuel FIRST h
    refine ⟨fun X x hx => List.mem_append.mp (hF X x hx), fun fuel' FOLLOW h' X x hx => ?_⟩
    exact List.mem_append.mp (computeFOLLOW_inside g FIRST (symbolUniverse g ++ g.terminals)
      (fun x hx => List.mem_append_left _ hx) hF fuel' FOLLOW h' X x hx)

/-- Witness for C11 (amended): the grammar `S -> A b`, `A -> a | eps`. The first pass of
`computeFIRST` reports a change and enlarges a set, and the sets of its FOLLOW map are
inside the universe. -/
theorem fixed_points_terminate_witness :
    (∀ A ∈ epsGrammar.nonterminals, (mapFind A epsGrammar.prod).isSome = true) ∧
    computeFIRST 3 epsGrammar = .ok epsFIRST ∧
    computeFOLLOW 2 epsGrammar epsFIRST = .ok epsFOLLOW ∧
    (∃ F1, firstPass epsGrammar (firstInit epsGrammar) = .ok (F1, true) ∧
      ∃ A ∈ epsGrammar.nonterminals,
        (mapGetD A (firstInit epsGrammar) []).length < (mapGetD A F1 []).length) ∧
    (∀ X, ∀ x ∈ mapGetD X epsFOLLOW [], x ∈ symbolUniverse epsGrammar) :=
  ⟨by decide!, by decide!, by decide!,
    ⟨epsFIRST, by decide!,
      ((fixed_points_terminate epsGrammar (by decide!)).2.2.1 (firstInit epsGrammar) _ true
        (by decide!)).2 rfl⟩,
    ((fixed_points_terminate epsGrammar (by decide!)).2.2.2.2.1 (by decide!) 3 epsFIRST
      (by decide!)).2 2 epsFOLLOW (by decide!)⟩

/-- C11 as stated fails: in the grammar value `staleGrammar` the only nonterminal `S` has
the production list `S -> a`, and the recorded terminal `zz` is in no right-hand side.
`computeFIRST` copies the recorded terminals into the map (line 465), so it returns a map
in which the set of `zz` holds `zz`, outside the universe of `EPS`, the end marker and
the right-hand-side symbols. -/
theorem fixed_points_universe_counterexample :
    (∀ A ∈ staleGrammar.nonterminals, (mapFind A staleGrammar.prod).isSome = true) ∧
    computeFIRST 2 staleGrammar = .ok [("S", ["a"]), ("eps", ["eps"]), ("zz", ["zz"])] ∧
    "zz" ∈ mapGetD "zz" [("S", ["a"]), ("eps", ["eps"]), ("zz", ["zz"])] [] ∧
    symbolUniverse staleGrammar = ["eps", "$", "a"] ∧
    "zz" ∉ symbolUniverse staleGrammar := by
  refine ⟨by decide!, by decide!, by decide!, by decide!, by decide!⟩

/-! ## FIRST and FOLLOW hold terminals only -/

theorem terminalsExact_of_recomputed (g : Grammar) (hre : g.recomputeSymbols = g) :
    TerminalsExact g := by
  have := terminalsExact_recompute g
  rwa [hre] at this

theorem terminal_of_rhs_symbol (g : Grammar) (hT : TerminalsExact g) (x : String)
    (hx : x ∈ rhsSymbols g.prod) (hne : x ≠ EPS)
    (ht : (g.isTerminal x || !g.isNonTerminal x) = true) : x ∈ g.terminals := by
  simp only [Bool.or_eq_true, Bool.not_eq_true'] at ht
  rcases ht with ht | ht
  · exact (setHas_iff _ _).1 ht
  · exact (hT x).2 ⟨hx, (setHas_false_iff _ _).1 ht, hne⟩

theorem not_terminalish_of_nonterminal (g : Grammar) (hT : TerminalsExact g) (X : String)
    (hX : X ∈ g.nonterminals) : (g.isTerminal X || !g.isNonTerminal X) = false := by
  simp only [Bool.or_eq_false_iff, Bool.not_eq_false']
  refine ⟨?_, (setHas_iff _ _).2 hX⟩
  apply (setHas_false_iff _ _).2
  intro h
  exact ((hT X).1 h).2.1 hX

/-- For a grammar whose symbols are recomputed, the FIRST sets of the nonterminals hold
terminals and `EPS` only, and every nonterminal is a key of the FIRST map. -/
theorem computeFIRST_terminals (fuel : Nat) (g : Grammar) (FIRST : SetMap)
    (hre : g.recomputeSymbols = g) (h : computeFIRST fuel g = .ok FIRST) :
    HasKeys g FIRST ∧ Within g.nonterminals (EPS :: g.terminals) FIRST := by
  have hT := terminalsExact_of_recomputed g hre
  obtain ⟨⟨hk, _, _⟩, _⟩ := firstLoop_spec g fuel (firstInit g) FIRST
    (hasKeys_firstInit g) (firstSound_firstInit g hre) h
  refine ⟨hk, ?_⟩
  apply firstLoop_within g g.nonterminals (EPS :: g.terminals) (fun _ hA => hA)
    (List.mem_cons_self _ _) _ fuel _ _ h
  · intro A _ y hy
    obtain ⟨h1, h2⟩ := mem_firstInit g A y hy
    rcases h2 with h2 | h2
    · rw [h1, h2]
      exact List.mem_cons_self _ _
    · rw [h1]
      exact List.mem_cons_of_mem _ h2
  · intro A _ alts hal rhs hrhs Y hY hne ht
    exact List.mem_cons_of_mem _
      (terminal_of_rhs_symbol g hT Y (mem_rhsSymbols g.prod A alts rhs Y hal hrhs hY) hne ht)

theorem firstOfSequence_terminals (g : Grammar) (FIRST : SetMap) (hT : TerminalsExact g)
    (hk : HasKeys g FIRST) (hw : Within g.nonterminals (EPS :: g.terminals) FIRST)
    (beta : List String) (hbeta : ∀ X ∈ beta, X ∈ rhsSymbols g.prod) (x : String)
    (hx : x ∈ firstOfSequence beta FIRST g) : x = EPS ∨ x ∈ g.terminals := by
  rcases inFirstSeq_cases FIRST g beta x ((mem_firstOfSequence FIRST g beta x).1 hx)
    with e | ⟨e, hne, ht⟩ | ⟨_, e, hnone⟩ | ⟨Y, _, hY, e⟩
  · exact Or.inl e
  · exact Or.inr (terminal_of_rhs_symbol g hT x (hbeta x e) hne ht)
  · have := hk x e
    rw [hnone] at this
    simp at this
  · exact List.mem_cons.mp (hw Y hY x e)

theorem hasKeys_addNonEps (g : Grammar) (A : String) (xs : List String) (st : SetMap × Bool)
    (hk : HasKeys g st.1) : HasKeys g (addNonEps A xs st).1 := by
  unfold addNonEps
  induction xs generalizing st with
  | nil => exact hk
  | cons x xs ih =>
    rw [List.foldl_cons]
    split
    · exact ih st hk
    · exact ih _ (hasKeys_addSym g A x st hk)

theorem hasKeys_addAll (g : Grammar) (B : String) (xs : List String) (st : SetMap × Bool)
    (hk : HasKeys g st.1) : HasKeys g (xs.foldl (fun acc x => addSym B x acc) st).1 := by
  induction xs generalizing st with
  | nil => exact hk
  | cons x xs ih =>
    rw [List.foldl_cons]
    exact ih _ (hasKeys_addSym g B x st hk)

theorem hasKeys_followAt (g : Grammar) (FIRST : SetMap) (A B : String) (beta : List String)
    (st : SetMap × Bool) (hk : HasKeys g st.1) : HasKeys g (followAt g FIRST A B beta st).1 := by
  unfold followAt
  split
  · exact hk
  · simp only
    have k := hasKeys_addNonEps g B (firstOfSequence beta FIRST g) st hk
    split
    · exact hasKeys_addAll g B _ (_, _)
        (fun C hC => mapFind_isSome_mapEnsure _ _ (k C hC))
    · exact k

theorem hasKeys_followScan (g : Grammar) (FIRST : SetMap) (A : String) (rhs : List String)
    (st : SetMap × Bool) (hk : HasKeys g st.1) : HasKeys g (followScan g FIRST A rhs st).1 := by
  induction rhs generalizing st with
  | nil => exact hk
  | cons B beta ih =>
    unfold followScan
    exact ih _ (hasKeys_followAt g FIRST A B beta st hk)

theorem hasKeys_followAlts (g : Grammar) (FIRST : SetMap) (A : String)
    (alts : List (List String)) (st : SetMap × Bool) (hk : HasKeys g st.1) :
    HasKeys g (alts.foldl (fun acc rhs => followScan g FIRST A rhs acc) st).1 := by
  induction alts generalizing st with
  | nil => exact hk
  | cons rhs alts ih =>
    rw [List.foldl_cons]
    exact ih _ (hasKeys_followScan g FIRST A rhs st hk)

theorem hasKeys_followPassFrom (g : Grammar) (FIRST : SetMap) (nts : List String)
    (st st1 : SetMap × Bool) (h : followPassFrom g FIRST nts st = .ok st1)
    (hk : HasKeys g st.1) : HasKeys g st1.1 := by
  induction nts generalizing st with
  | nil =>
    simp only [followPassFrom, Outcome.ok.injEq] at h
    rw [← h]
    exact hk
  | cons A more ih =>
    unfold followPassFrom at h
    split at h
    · simp at h
    · exact ih _ h (hasKeys_followAlts g FIRST A _ st hk)

theorem hasKeys_followLoop (g : Grammar) (FIRST : SetMap) (fuel : Nat) (F F1 : SetMap)
    (h : followLoop g FIRST fuel F = .ok F1) (hk : HasKeys g F) : HasKeys g F1 := by
  induction fuel generalizing F with
  | zero => simp [followLoop] at h
  | succ n ih =>
    unfold followLoop followPass at h
    split at h
    · rename_i F2 changed e
      have hk2 := hasKeys_followPassFrom g FIRST g.nonterminals (F, false) (F2, changed) e hk
      split at h
      · exact ih F2 h hk2
      · simp only [Outcome.ok.injEq] at h
        rw [← h]
        exact hk2
    · simp at h
    · simp at h

theorem hasKeys_followInit (g : Grammar) : HasKeys g (followInit g) := by
  intro A hA
  unfold followInit
  exact mapFind_isSome_mapSet _ _ (foldl_ensure_keys _ _ A (Or.inl hA))

/-- For a grammar whose symbols are recomputed, the FOLLOW sets of the nonterminals hold
terminals and the end marker only, and every nonterminal is a key of the FOLLOW map. -/
theorem computeFOLLOW_terminals (fuel : Nat) (g : Grammar) (FIRST FOLLOW : SetMap)
    (hT : TerminalsExact g) (hk : HasKeys g FIRST)
    (hw : Within g.nonterminals (EPS :: g.terminals) FIRST)
    (h : computeFOLLOW fuel g FIRST = .ok FOLLOW) :
    HasKeys g FOLLOW ∧ Within g.nonterminals (END_MARK :: g.terminals) FOLLOW := by
  refine ⟨hasKeys_followLoop g FIRST fuel _ _ h (hasKeys_followInit g), ?_⟩
  apply followLoop_within g FIRST g.nonterminals (END_MARK :: g.terminals) (fun _ hA => hA) _
    fuel _ _ h
  · intro A _ y hy
    rw [mem_followInit g A y hy]
    exact List.mem_cons_self _ _
  · intro beta hbeta y hy hne
    rcases firstOfSequence_terminals g FIRST hT hk hw beta hbeta y hy with e | e
    · exact absurd e hne
    · exact List.mem_cons_of_mem _ e

/-! ## The rows and columns of the table -/

theorem hasCell_set (T : Table) (A a : String) (c : ParseTableCell) (A' t : String) :
    (mapFind t (mapGetD A' (mapSet A (mapSet a c (mapGetD A T [])) T) [])).isSome = true ↔
      (A' = A ∧ t = a) ∨ (mapFind t (mapGetD A' T [])).isSome = true := by
  rw [mapGetD_mapSet]
  by_cases e1 : A' = A
  · subst e1
    simp only [if_true, true_and, mapFind_mapSet]
    by_cases e2 : t = a
    · simp [e2]
    · simp [e2]
  · simp [e1]

theorem tableKeys_set (T : Table) (nts cols : List String) (A a : String) (c : ParseTableCell)
    (hA : A ∈ nts) (ha : a ∈ cols) (h : TableKeys T nts cols) :
    TableKeys (mapSet A (mapSet a c (mapGetD A T [])) T) nts cols := by
  intro A' t
  rw [hasCell_set, h A' t]
  constructor
  · rintro (⟨e1, e2⟩ | e)
    · rw [e1, e2]
      exact ⟨hA, ha⟩
    · exact e
  · exact Or.inr

theorem tableKeys_markCell (T : Table) (nts cols : List String) (A : String)
    (rhs : List String) (t : String) (hA : A ∈ nts) (ht : t ∈ cols) (h : TableKeys T nts cols) :
    TableKeys (markCell A rhs T t) nts cols :=
  tableKeys_set T nts cols A t _ hA ht h

theorem tableKeys_blankTable (g : Grammar) :
    TableKeys (blankTable g) g.nonterminals (tableCols g) := by
  unfold blankTable
  have inner : ∀ (A0 : String) (cs : List String) (tb : Table) A t,
      (mapFind t (mapGetD A (cs.foldl
        (fun tb1 a => mapSet A0 (mapSet a ParseTableCell.blank (mapGetD A0 tb1 [])) tb1) tb)
          [])).isSome = true ↔
        (A = A0 ∧ t ∈ cs) ∨ (mapFind t (mapGetD A tb [])).isSome = true := by
    intro A0 cs
    induction cs with
    | nil => intro tb A t; simp
    | cons a cs ih =>
      intro tb A t
      rw [List.foldl_cons, ih, hasCell_set, List.mem_cons]
      constructor
      · rintro (⟨e1, e2⟩ | ⟨e1, e2⟩ | e)
        · exact Or.inl ⟨e1, Or.inr e2⟩
        · exact Or.inl ⟨e1, Or.inl e2⟩
        · exact Or.inr e
      · rintro (⟨e1, e2 | e2⟩ | e)
        · exact Or.inr (Or.inl ⟨e1, e2⟩)
        · exact Or.inl ⟨e1, e2⟩
        · exact Or.inr (Or.inr e)
  have outer : ∀ (nts : List String) (tb : Table) A t,
      (mapFind t (mapGetD A (nts.foldl
        (fun tb A0 => (tableCols g).foldl
          (fun tb1 a => mapSet A0 (mapSet a ParseTableCell.blank (mapGetD A0 tb1 [])) tb1) tb)
            tb) [])).isSome = true ↔
        (A ∈ nts ∧ t ∈ tableCols g) ∨ (mapFind t (mapGetD A tb [])).isSome = true := by
    intro nts
    induction nts with
    | nil => intro tb A t; simp
    | cons A0 nts ih =>
      intro tb A t
      rw [List.foldl_cons, ih, inner, List.mem_cons]
      constructor
      · rintro (⟨e1, e2⟩ | ⟨e1, e2⟩ | e)
        · exact Or.inl ⟨Or.inr e1, e2⟩
        · exact Or.inl ⟨Or.inl e1, e2⟩
        · exact Or.inr e
      · rintro (⟨e1 | e1, e2⟩ | e)
        · exact Or.inr (Or.inl ⟨e1, e2⟩)
        · exact Or.inl ⟨e1, e2⟩
        · exact Or.inr (Or.inr e)
  intro A t
  rw [outer]
  simp [mapGetD, mapFind]

theorem tableKeys_marks (nts cols : List String) (A : String) (rhs : List String)
    (hA : A ∈ nts) (ts : List String) (hts : ∀ t ∈ ts, t ∈ cols) (T : Table)
    (h : TableKeys T nts cols) : TableKeys (ts.foldl (markCell A rhs) T) nts cols := by
  induction ts generalizing T with
  | nil => exact h
  | cons t ts ih =>
    rw [List.foldl_cons]
    exact ih (fun x hx => hts x (List.mem_cons_of_mem _ hx)) _
      (tableKeys_markCell T nts cols A rhs t hA (hts t (List.mem_cons_self _ _)) h)

theorem tableKeys_marks_skip (nts cols : List String) (A : String) (rhs : List String)
    (hA : A ∈ nts) (ts : List String) (hts : ∀ t ∈ ts, t ≠ EPS → t ∈ cols) (T : Table)
    (h : TableKeys T nts cols) :
    TableKeys (ts.foldl (fun tb t => if t = EPS then tb else markCell A rhs tb t) T)
      nts cols := by
  induction ts generalizing T with
  | nil => exact h
  | cons t ts ih =>
    rw [List.foldl_cons]
    apply ih (fun x hx => hts x (List.mem_cons_of_mem _ hx))
    split
    · exact h
    · rename_i hne
      exact tableKeys_markCell T nts cols A rhs t hA (hts t (List.mem_cons_self _ _) hne) h

theorem mem_tableCols (g : Grammar) (t : String) :
    t ∈ tableCols g ↔ (t ∈ g.terminals ∨ t = END_MARK) := by
  unfold tableCols
  rw [mem_setInsert]
  constructor
  · rintro (h | h)
    · exact Or.inr h
    · exact Or.inl h
  · rintro (h | h)
    · exact Or.inr h
    · exact Or.inl h

/-- The hypotheses under which the second loop of `buildParseTable` stays inside the
columns: what FIRST and FOLLOW hold. -/
theorem tableAlt_keys (g : Grammar) (FIRST FOLLOW : SetMap)
    (hfirst : ∀ rhs, (∀ X ∈ rhs, X ∈ rhsSymbols g.prod) →
      ∀ x ∈ firstOfSequence rhs FIRST g, x = EPS ∨ x ∈ g.terminals)
    (hkF : HasKeys g FOLLOW) (hwF : Within g.nonterminals (END_MARK :: g.terminals) FOLLOW)
    (A : String) (hA : A ∈ g.nonterminals) (rhs : List String)
    (hrhs : ∀ X ∈ rhs, X ∈ rhsSymbols g.prod) (T : Table)
    (h : TableKeys T g.nonterminals (tableCols g)) :
    ∃ T', tableAlt g FIRST FOLLOW A rhs T = .ok T' ∧
      TableKeys T' g.nonterminals (tableCols g) := by
  unfold tableAlt
  simp only
  have k1 := tableKeys_marks_skip g.nonterminals (tableCols g) A rhs hA
    (firstOfSequence rhs FIRST g)
    (fun t ht hne => by
      rcases hfirst rhs hrhs t ht with e | e
      · exact absurd e hne
      · exact (mem_tableCols g t).2 (Or.inl e)) T h
  split
  · obtain ⟨fa, hfa⟩ := Option.isSome_iff_exists.mp (hkF A hA)
    rw [hfa]
    refine ⟨_, rfl, ?_⟩
    apply tableKeys_marks g.nonterminals (tableCols g) A rhs hA fa _ _ k1
    intro t ht
    have := hwF A hA t (by rw [mapGetD_of_some [] hfa]; exact ht)
    rcases List.mem_cons.mp this with e | e
    · exact (mem_tableCols g t).2 (Or.inr e)
    · exact (mem_tableCols g t).2 (Or.inl e)
  · exact ⟨_, rfl, k1⟩

theorem tableAlts_keys (g : Grammar) (FIRST FOLLOW : SetMap)
    (hfirst : ∀ rhs, (∀ X ∈ rhs, X ∈ rhsSymbols g.prod) →
      ∀ x ∈ firstOfSequence rhs FIRST g, x = EPS ∨ x ∈ g.terminals)
    (hkF : HasKeys g FOLLOW) (hwF : Within g.nonterminals (END_MARK :: g.terminals) FOLLOW)
    (A : String) (hA : A ∈ g.nonterminals) (alts : List (List String))
    (halts : ∀ rhs ∈ alts, ∀ X ∈ rhs, X ∈ rhsSymbols g.prod) (T : Table)
    (h : TableKeys T g.nonterminals (tableCols g)) :
    ∃ T', tableAlts g FIRST FOLLOW A alts T = .ok T' ∧
      TableKeys T' g.nonterminals (tableCols g) := by
  induction alts generalizing T with
  | nil => exact ⟨T, rfl, h⟩
  | cons rhs alts ih =>
    obtain ⟨T1, e1, k1⟩ := tableAlt_keys g FIRST FOLLOW hfirst hkF hwF A hA rhs
      (halts rhs (List.mem_cons_self _ _)) T h
    obtain ⟨T2, e2, k2⟩ := ih (fun r hr => halts r (List.mem_cons_of_mem _ hr)) T1 k1
    refine ⟨T2, ?_, k2⟩
    unfold tableAlts
    rw [e1]
    exact e2

theorem tableRows_keys (g : Grammar) (FIRST FOLLOW : SetMap)
    (hfirst : ∀ rhs, (∀ X ∈ rhs, X ∈ rhsSymbols g.prod) →
      ∀ x ∈ firstOfSequence rhs FIRST g, x = EPS ∨ x ∈ g.terminals)
    (hkF : HasKeys g FOLLOW) (hwF : Within g.nonterminals (END_MARK :: g.terminals) FOLLOW)
    (nts : List String) (hsub : ∀ A ∈ nts, A ∈ g.nonterminals)
    (hprod : ∀ A ∈ nts, (mapFind A g.prod).isSome = true) (T : Table)
    (h : TableKeys T g.nonterminals (tableCols g)) :
    ∃ T', tableRows g FIRST FOLLOW nts T = .ok T' ∧
      TableKeys T' g.nonterminals (tableCols g) := by
  induction nts generalizing T with
  | nil => exact ⟨T, rfl, h⟩
  | cons A more ih =>
    obtain ⟨alts, hal⟩ := Option.isSome_iff_exists.mp (hprod A (List.mem_cons_self _ _))
    obtain ⟨T1, e1, k1⟩ := tableAlts_keys g FIRST FOLLOW hfirst hkF hwF A
      (hsub A (List.mem_cons_self _ _)) alts
      (fun rhs hrhs X hX => mem_rhsSymbols g.prod A alts rhs X hal hrhs hX) T h
    obtain ⟨T2, e2, k2⟩ := ih (fun B hB => hsub B (List.mem_cons_of_mem _ hB))
      (fun B hB => hprod B (List.mem_cons_of_mem _ hB)) T1 k1
    refine ⟨T2, ?_, k2⟩
    unfold tableRows
    rw [hal]
    simp only
    rw [e1]
    exact e2

theorem setOK_addTerminals (nts ts rhs : List String) (h : SetOK ts) :
    SetOK (addTerminals nts ts rhs) := by
  unfold addTerminals
  induction rhs generalizing ts with
  | nil => exact h
  | cons s rhs ih =>
    rw [List.foldl_cons]
    apply ih
    split
    · exact h
    · split
      · exact setOK_setInsert _ _ h
      · exact h

theorem setOK_recompute (g : Grammar) : SetOK g.recomputeSymbols.terminals := by
  unfold Grammar.recomputeSymbols
  simp only
  have alts : ∀ (l : List (List String)) (ts : List String), SetOK ts →
      SetOK (l.foldl (addTerminals g.nonterminals) ts) := by
    intro l
    induction l with
    | nil => intro ts h; exact h
    | cons rhs l ih =>
      intro ts h
      rw [List.foldl_cons]
      exact ih _ (setOK_addTerminals _ _ _ h)
  have prods : ∀ (p : List (String × List (List String))) (ts : List String), SetOK ts →
      SetOK (p.foldl (fun acc kv => kv.2.foldl (addTerminals g.nonterminals) acc) ts) := by
    intro p
    induction p with
    | nil => intro ts h; exact h
    | cons kv p ih =>
      intro ts h
      rw [List.foldl_cons]
      exact ih _ (alts _ _ h)
  exact prods g.prod [] setOK_nil

/-- The table built from the FIRST and FOLLOW maps of a grammar whose symbols are
recomputed: `buildParseTable` returns, with cells exactly in the rows of the nonterminals
and the columns of the terminals and the end marker. -/
theorem buildParseTable_keys (g : Grammar) (hre : g.recomputeSymbols = g) (n m : Nat)
    (FIRST FOLLOW : SetMap) (hF : computeFIRST n g = .ok FIRST)
    (hFo : computeFOLLOW m g FIRST = .ok FOLLOW) :
    ∃ table, buildParseTable g FIRST FOLLOW = .ok (table, tableCols g) ∧
      TableKeys table g.nonterminals (tableCols g) := by
  have hT := terminalsExact_of_recomputed g hre
  obtain ⟨hk, hw⟩ := computeFIRST_terminals n g FIRST hre hF
  obtain ⟨hkF, hwF⟩ := computeFOLLOW_terminals m g FIRST FOLLOW hT hk hw hFo
  have hprod : ∀ A ∈ g.nonterminals, (mapFind A g.prod).isSome = true := by
    intro A hA
    obtain ⟨alts, hal⟩ := (computeFIRST_scan_rule n g FIRST hre hF).1 A hA
    rw [hal.1]
    rfl
  obtain ⟨T, e, k⟩ := tableRows_keys g FIRST FOLLOW
    (fun rhs hrhs x hx => firstOfSequence_terminals g FIRST hT hk hw rhs hrhs x hx)
    hkF hwF g.nonterminals (fun _ hA => hA) hprod (blankTable g) (tableKeys_blankTable g)
  refine ⟨T, ?_, k⟩
  unfold buildParseTable
  rw [e]

/-- C20: for a grammar whose symbols are recomputed, with the FIRST and FOLLOW maps that
`computeFIRST` and `computeFOLLOW` return, `buildParseTable` returns a table and the column
list `g.terminals` with the end marker inserted; the column list is a set that holds the
terminals and the end marker and nothing else, so not `EPS`; the row of every nonterminal has
a cell for a symbol exactly when the symbol is in the column list; and the table has no
cell outside the rows of the nonterminals. -/
theorem buildParseTable_columns (g : Grammar) (hre : g.recomputeSymbols = g) (n m : Nat)
    (FIRST FOLLOW : SetMap) (hF : computeFIRST n g = .ok FIRST)
    (hFo : computeFOLLOW m g FIRST = .ok FOLLOW) :
    ∃ table, buildParseTable g FIRST FOLLOW = .ok (table, tableCols g) ∧
      SetOK (tableCols g) ∧
      (∀ t, t ∈ tableCols g ↔ (t ∈ g.terminals ∨ t = END_MARK)) ∧
      EPS ∉ tableCols g ∧
      (∀ A ∈ g.nonterminals, ∀ t,
        (mapFind t (mapGetD A table [])).isSome = true ↔ t ∈ tableCols g) ∧
      (∀ A t, (mapFind t (mapGetD A table [])).isSome = true → A ∈ g.nonterminals) := by
  obtain ⟨table, e, k⟩ := buildParseTable_keys g hre n m FIRST FOLLOW hF hFo
  refine ⟨table, e, ?_, mem_tableCols g, ?_, ?_, ?_⟩
  · unfold tableCols
    apply setOK_setInsert
    rw [← hre]
    exact setOK_recompute g
  · rw [mem_tableCols]
    rintro (h | h)
    · exact (recomputeSymbols_terminals g EPS (by rw [hre]; exact h)).2 rfl
    · exact absurd h (by decide)
  · intro A hA t
    rw [k A t]
    exact ⟨fun h => h.2, fun h => ⟨hA, h⟩⟩
  · intro A t h
    exact ((k A t).1 h).1

/-- Witness for C20: the expression grammar after the two rewrites. -/
theorem buildParseTable_columns_witness :
    exprLL1.recomputeSymbols = exprLL1 ∧
    computeFIRST 3 exprLL1 = .ok exprFIRST ∧
    computeFOLLOW 3 exprLL1 exprFIRST = .ok exprFOLLOW ∧
    tableCols exprLL1 = ["$", "(", ")", "*", "+", "id"] ∧
    ∃ table, buildParseTable exprLL1 exprFIRST exprFOLLOW = .ok (table, tableCols exprLL1) ∧
      SetOK (tableCols exprLL1) ∧
      (∀ t, t ∈ tableCols exprLL1 ↔ (t ∈ exprLL1.terminals ∨ t = END_MARK)) ∧
      EPS ∉ tableCols exprLL1 ∧
      (∀ A ∈ exprLL1.nonterminals, ∀ t,
        (mapFind t (mapGetD A table [])).isSome = true ↔ t ∈ tableCols exprLL1) ∧
      (∀ A t, (mapFind t (mapGetD A table [])).isSome = true → A ∈ exprLL1.nonterminals) :=
  ⟨by decide!, by decide!, by decide!, by decide!,
    buildParseTable_columns exprLL1 (by decide!) 3 3 exprFIRST exprFOLLOW (by decide!)
      (by decide!)⟩

/-! ## FIRST: every element is derived -/

theorem least_ensure (g : Grammar) (X : String) (F : SetMap) (h : Least g F) :
    Least g (mapEnsure X F []) := by
  intro A hA x hx
  rw [mapGetD_mapEnsure] at hx
  exact h A hA x hx

theorem least_addSym (g : Grammar) (A x : String) (st : SetMap × Bool)
    (hd : Derives g A x) (h : Least g st.1) : Least g (addSym A x st).1 := by
  intro B hB y hy
  rcases (mem_addSym A x st B y).1 hy with h1 | ⟨rfl, rfl⟩
  · exact h B hB y h1
  · exact hd

theorem least_addNonEps (g : Grammar) (A : String) (xs : List String) (st : SetMap × Bool)
    (hd : ∀ x ∈ xs, x ≠ EPS → Derives g A x) (h : Least g st.1) :
    Least g (addNonEps A xs st).1 := by
  unfold addNonEps
  induction xs generalizing st with
  | nil => exact h
  | cons x xs ih =>
    rw [List.foldl_cons]
    have hd' : ∀ y ∈ xs, y ≠ EPS → Derives g A y := fun y hy => hd y (List.mem_cons_of_mem _ hy)
    split
    · exact ih st hd' h
    · rename_i hx
      exact ih _ hd' (least_addSym g A x st (hd x (List.mem_cons_self _ _) hx) h)

theorem firstScan_least (g : Grammar) (A : String) (hA : A ∈ g.nonterminals)
    (alts : List (List String)) (hal : mapFind A g.prod = some alts) (suf pre : List String)
    (hrhs : pre ++ suf ∈ alts) (st : SetMap × Bool)
    (hpre : ∀ Y ∈ pre, Y ≠ EPS ∧ (g.isTerminal Y || !g.isNonTerminal Y) = false)
    (hpreD : ∀ Y ∈ pre, Derives g Y EPS) (hl : Least g st.1) :
    Least g (firstScan g A suf st).1 := by
  induction suf generalizing pre st with
  | nil =>
    simp only [firstScan]
    exact least_addSym g A EPS st
      (Derives.eps A alts pre [] hA hal hrhs hpre hpreD (Or.inl rfl)) hl
  | cons X rest ih =>
    unfold firstScan
    by_cases h1 : X = EPS
    · simp only [h1, if_true]
      exact least_addSym g A EPS st
        (Derives.eps A alts pre (X :: rest) hA hal hrhs hpre hpreD
          (Or.inr (by simp [h1]))) hl
    · simp only [h1, if_false]
      by_cases h2 : (g.isTerminal X || !g.isNonTerminal X) = true
      · simp only [h2, if_true]
        exact least_addSym g A X st
          (Derives.term A alts pre X rest hA hal hrhs hpre hpreD h1 h2) hl
      · have hX := nonterminal_of_not_terminalish g X h2
        have h2' := Bool.eq_false_iff.mpr h2
        simp only [h2', Bool.false_eq_true, if_false]
        have hl1 : Least g (addNonEps A (mapGetD X st.1 []) (mapEnsure X st.1 [], st.2)).1 := by
          apply least_addNonEps g A _ _ _ (least_ensure g X st.1 hl)
          intro a ha hne
          exact Derives.sub A alts pre X rest a hA hal hrhs hpre hpreD h1 h2' (hl X hX a ha) hne
        split
        · rename_i h3
          have hrhs' : (pre ++ [X]) ++ rest ∈ alts := by simpa using hrhs
          apply ih (pre ++ [X]) hrhs' _ _ _ hl1
          · intro Y hY
            rcases List.mem_append.mp hY with hY | hY
            · exact hpre Y hY
            · rw [List.mem_singleton.mp hY]
              exact ⟨h1, h2'⟩
          · intro Y hY
            rcases List.mem_append.mp hY with hY | hY
            · exact hpreD Y hY
            · rw [List.mem_singleton.mp hY]
              exact hl1 X hX EPS ((setHas_iff _ _).1 h3)
        · exact hl1

theorem firstAlts_least (g : Grammar) (A : String) (hA : A ∈ g.nonterminals)
    (alts : List (List String)) (hal : mapFind A g.prod = some alts)
    (todo : List (List String)) (hsub : ∀ rhs ∈ todo, rhs ∈ alts)
    (st : SetMap × Bool) (hl : Least g st.1) :
    Least g (todo.foldl (fun acc rhs => firstScan g A rhs acc) st).1 := by
  induction todo generalizing st with
  | nil => exact hl
  | cons rhs todo ih =>
    rw [List.foldl_cons]
    exact ih (fun r hr => hsub r (List.mem_cons_of_mem _ hr)) _
      (firstScan_least g A hA alts hal rhs []
        (by simpa using hsub rhs (List.mem_cons_self _ _)) st
        (by intro Y hY; simp at hY) (by intro Y hY; simp at hY) hl)

theorem firstPassFrom_least (g : Grammar) (nts : List String)
    (hsub : ∀ A ∈ nts, A ∈ g.nonterminals) (st st1 : SetMap × Bool)
    (h : firstPassFrom g nts st = .ok st1) (hl : Least g st.1) : Least g st1.1 := by
  induction nts generalizing st with
  | nil =>
    simp only [firstPassFrom, Outcome.ok.injEq] at h
    rw [← h]
    exact hl
  | cons A more ih =>
    unfold firstPassFrom at h
    split at h
    · simp at h
    · rename_i alts hal
      exact ih (fun B hB => hsub B (List.mem_cons_of_mem _ hB)) _ h
        (firstAlts_least g A (hsub A (List.mem_cons_self _ _)) alts hal alts (fun _ hr => hr)
          st hl)

theorem firstLoop_least (g : Grammar) (fuel : Nat) (F F1 : SetMap)
    (h : firstLoop g fuel F = .ok F1) (hl : Least g F) : Least g F1 := by
  induction fuel generalizing F with
  | zero => simp [firstLoop] at h
  | succ n ih =>
    unfold firstLoop firstPass at h
    split at h
    · rename_i F2 changed e
      have hl2 := firstPassFrom_least g g.nonterminals (fun _ hA => hA) (F, false)
        (F2, changed) e hl
      split at h
      · exact ih F2 h hl2
      · simp only [Outcome.ok.injEq] at h
        rw [← h]
        exact hl2
    · simp at h
    · simp at h

/-- For a grammar whose symbols are recomputed and in which `EPS` is not a nonterminal,
every element of a FIRST set of a nonterminal is derived by the scan rule. -/
theorem computeFIRST_least (fuel : Nat) (g : Grammar) (FIRST : SetMap)
    (hre : g.recomputeSymbols = g) (hE : EPS ∉ g.nonterminals)
    (h : computeFIRST fuel g = .ok FIRST) : Least g FIRST := by
  apply firstLoop_least g fuel _ _ h
  intro A hA x hx
  exfalso
  obtain ⟨_, h2⟩ := mem_firstInit g A x hx
  rcases h2 with h2 | h2
  · exact hE (by rw [← h2]; exact hA)
  · exact (recomputeSymbols_terminals g A (by rw [hre]; exact h2)).1 hA

/-- What the scan rule derives is in the FIRST map that `computeFIRST` returns. -/
theorem derives_mem (fuel : Nat) (g : Grammar) (FIRST : SetMap)
    (hre : g.recomputeSymbols = g) (h : computeFIRST fuel g = .ok FIRST) (A x : String)
    (hd : Derives g A x) : x ∈ mapGetD A FIRST [] := by
  obtain ⟨hk, _⟩ := computeFIRST_terminals fuel g FIRST hre h
  have hrule := (computeFIRST_scan_rule fuel g FIRST hre h).1
  have close : ∀ A ∈ g.nonterminals, ∀ alts, mapFind A g.prod = some alts →
      ∀ rhs ∈ alts, ∀ y, inFirstSeq FIRST g rhs y → y ∈ mapGetD A FIRST [] := by
    intro A hA alts hal rhs hrhs y hy
    obtain ⟨alts', hal', hiff⟩ := hrule A hA
    rw [hal] at hal'
    simp only [Option.some.injEq] at hal'
    subst hal'
    exact (hiff y).2 (Or.inl ⟨rhs, hrhs, (mem_firstOfSequence FIRST g rhs y).2 hy⟩)
  induction hd with
  | eps A alts pre suf hA hal hrhs hpre _ hsuf ih =>
    apply close A hA alts hal _ hrhs
    apply inFirstSeq_append g FIRST hk pre suf EPS
      (fun Y hY => ⟨(hpre Y hY).1, (hpre Y hY).2, ih Y hY⟩)
    rcases hsuf with e | e
    · rw [e]
      rfl
    · cases suf with
      | nil => simp at e
      | cons X rest =>
        simp only [List.head?_cons, Option.some.injEq] at e
        unfold inFirstSeq
        simp [e]
  | term A alts pre X rest hA hal hrhs hpre _ h1 h2 ih =>
    apply close A hA alts hal _ hrhs
    apply inFirstSeq_append g FIRST hk pre _ X
      (fun Y hY => ⟨(hpre Y hY).1, (hpre Y hY).2, ih Y hY⟩)
    unfold inFirstSeq
    simp [h1, h2]
  | sub A alts pre X rest x hA hal hrhs hpre _ h1 h2 _ hne ih ihX =>
    apply close A hA alts hal _ hrhs
    apply inFirstSeq_append g FIRST hk pre _ x
      (fun Y hY => ⟨(hpre Y hY).1, (hpre Y hY).2, ih Y hY⟩)
    have hX : X ∈ g.nonterminals :=
      nonterminal_of_not_terminalish g X (by rw [h2]; exact Bool.false_ne_true)
    unfold inFirstSeq
    simp only [h1, if_false, h2, Bool.false_eq_true]
    rw [hasKeys_mapFind g FIRST hk X hX]
    exact Or.inl ⟨ihX, hne⟩

/-! ## Cells of a table without conflict -/

theorem mem_rowHits (cnt : List String → Nat) (alts : List (List String)) (r : List String) :
    r ∈ rowHits cnt alts ↔ r ∈ alts ∧ 0 < cnt r := by
  induction alts with
  | nil => simp [rowHits]
  | cons rhs more ih =>
    simp only [rowHits, List.mem_append, ih, List.mem_cons, List.mem_replicate]
    constructor
    · rintro (⟨h1, h2⟩ | ⟨h1, h2⟩)
      · exact ⟨Or.inl h2, by rw [h2]; omega⟩
      · exact ⟨Or.inr h1, h2⟩
    · rintro ⟨h1 | h1, h2⟩
      · exact Or.inl ⟨by rw [← h1]; omega, h1⟩
      · exact Or.inr ⟨h1, h2⟩

theorem mem_repeatHits (R : List (List String)) (n : Nat) (r : List String) :
    r ∈ repeatHits R n ↔ r ∈ R ∧ 0 < n := by
  induction n with
  | zero => simp [repeatHits]
  | succ n ih =>
    simp only [repeatHits, List.mem_append, ih]
    constructor
    · rintro (h | h)
      · exact ⟨h, Nat.succ_pos _⟩
      · exact ⟨h.1, Nat.succ_pos _⟩
    · exact fun h => Or.inl h.1

/-- In a cell that is not flagged, an alternative that reaches the cell is the one that
the cell records. -/
theorem cell_of_hit (g : Grammar) (FIRST FOLLOW : SetMap) (table : Table)
    (hrows : tableRows g FIRST FOLLOW g.nonterminals (blankTable g) = .ok table)
    (A : String) (hA : A ∈ g.nonterminals) (alts : List (List String))
    (hal : mapFind A g.prod = some alts) (rhs0 : List String) (hrhs : rhs0 ∈ alts)
    (t : String) (ht : isCandidate g FIRST FOLLOW A t rhs0 = true)
    (hc : (tableCell table A t).conflict = false) :
    tableCell table A t = ⟨true, false, rhs0, A⟩ := by
  have hcell := tableRows_cells g FIRST FOLLOW g.nonterminals (blankTable g) table hrows A t
    alts hal
  rw [tableCell_blankTable] at hcell
  rw [hcell] at hc ⊢
  have hmem : rhs0 ∈ repeatHits
      (rowHits (fun rhs => (altHits g FIRST FOLLOW A rhs).count t) alts)
      (g.nonterminals.count A) := by
    rw [mem_repeatHits, mem_rowHits]
    refine ⟨⟨hrhs, ?_⟩, List.count_pos_iff.mpr hA⟩
    exact List.count_pos_iff.mpr ((mem_altHits g FIRST FOLLOW A t rhs0).2 ht)
  generalize repeatHits (rowHits (fun rhs => (altHits g FIRST FOLLOW A rhs).count t) alts)
    (g.nonterminals.count A) = L at hc hmem
  rw [runCell_blank_conflict] at hc
  have hlen : L.length < 2 := by simpa using hc
  match L, hmem, hlen with
  | [r], hmem, _ =>
    rw [List.mem_singleton] at hmem
    rw [hmem, runCell_blank_cons]
    rfl
  | _ :: _ :: _, _, hlen => simp only [List.length_cons] at hlen; omega

/-- A filled cell is reached by an alternative of its nonterminal. -/
theorem hit_of_filled (g : Grammar) (FIRST FOLLOW : SetMap) (table : Table)
    (hrows : tableRows g FIRST FOLLOW g.nonterminals (blankTable g) = .ok table)
    (A : String) (alts : List (List String)) (hal : mapFind A g.prod = some alts) (t : String)
    (hf : (tableCell table A t).filled = true) :
    ∃ rhs0 ∈ alts, isCandidate g FIRST FOLLOW A t rhs0 = true := by
  have hcell := tableRows_cells g FIRST FOLLOW g.nonterminals (blankTable g) table hrows A t
    alts hal
  rw [tableCell_blankTable] at hcell
  rw [hcell, runCell_blank_filled] at hf
  have hne : repeatHits (rowHits (fun rhs => (altHits g FIRST FOLLOW A rhs).count t) alts)
      (g.nonterminals.count A) ≠ [] := by
    intro e
    rw [e] at hf
    simp at hf
  obtain ⟨r, hr⟩ := List.exists_mem_of_ne_nil _ hne
  rw [mem_repeatHits, mem_rowHits] at hr
  exact ⟨r, hr.1.1, (mem_altHits g FIRST FOLLOW A t r).1 (List.count_pos_iff.mp hr.1.2)⟩

theorem conflict_of_hasConflict (g : Grammar) (table : Table) (cols : List String)
    (h : hasConflict g table cols = false) (A : String) (hA : A ∈ g.nonterminals) (t : String)
    (ht : t ∈ cols) : (tableCell table A t).conflict = false := by
  unfold hasConflict at h
  rw [List.any_eq_false] at h
  have h1 := h A hA
  simp only [Bool.not_eq_true] at h1
  rw [List.any_eq_false] at h1
  simpa using h1 t ht

/-! ## One iteration of the parser -/

theorem parseStep_terminal (g : Grammar) (table : Table) (inp : List String) (X : String)
    (st : List String) (ip : Nat) (hX : g.isNonTerminal X = false ∨ X = END_MARK) :
    parseStep g table inp X st ip =
      if X = END_MARK ∧ (inp.get? ip).getD END_MARK = END_MARK then .accept
      else if X = (inp.get? ip).getD END_MARK then .next st (ip + 1) else .reject := by
  unfold parseStep
  simp only
  split
  · rfl
  · have : (!g.isNonTerminal X || decide (X = END_MARK)) = true := by
      rcases hX with h | h
      · simp [h]
      · simp [h]
    rw [if_pos this]

theorem parseStep_nonterminal (g : Grammar) (table : Table) (inp : List String) (X : String)
    (st : List String) (ip : Nat) (hX : g.isNonTerminal X = true) (hne : X ≠ END_MARK) :
    parseStep g table inp X st ip =
      if (tableCell table X ((inp.get? ip).getD END_MARK)).filled = false ∨
          (tableCell table X ((inp.get? ip).getD END_MARK)).conflict = true then .reject
      else if (tableCell table X ((inp.get? ip).getD END_MARK)).rhs = [EPS] then .next st ip
      else .next ((tableCell table X ((inp.get? ip).getD END_MARK)).rhs ++ st) ip := by
  unfold parseStep
  simp only
  rw [if_neg (fun h => hne h.1)]
  have : (!g.isNonTerminal X || decide (X = END_MARK)) = false := by simp [hX, hne]
  rw [if_neg (by rw [this]; exact Bool.false_ne_true)]
  generalize (inp.get? ip).getD END_MARK = a
  unfold tableCell mapGetD
  cases h1 : mapFind X table with
  | none => simp [mapFind, ParseTableCell.blank]
  | some row =>
    simp only [Option.getD_some]
    cases h2 : mapFind a row with
    | none => simp [ParseTableCell.blank]
    | some cell =>
      simp only [Option.getD_some]
      by_cases hf : cell.filled = true
      · by_cases hc : cell.conflict = true
        · simp [hf, hc]
        · simp [hf, hc]
      · simp [hf]

/-! ## Runs of the parser -/

theorem parseLoop_step (g : Grammar) (table : Table) (inp : List String) (n : Nat) (X : String)
    (st : List String) (ip : Nat) :
    parseLoop g table inp (n + 1) (X :: st) ip =
      match parseStep g table inp X st ip with
      | .accept => some true
      | .reject => some false
      | .next st1 ip1 => parseLoop g table inp n st1 ip1 := rfl

theorem leads_refl (g : Grammar) (table : Table) (inp : List String) (st : List String)
    (ip : Nat) : Leads g table inp st ip st ip :=
  ⟨0, fun k => by rw [Nat.zero_add]⟩

theorem leads_trans (g : Grammar) (table : Table) (inp : List String)
    (st : List String) (ip : Nat) (st1 : List String) (ip1 : Nat) (st2 : List String) (ip2 : Nat)
    (h1 : Leads g table inp st ip st1 ip1) (h2 : Leads g table inp st1 ip1 st2 ip2) :
    Leads g table inp st ip st2 ip2 := by
  obtain ⟨n1, e1⟩ := h1
  obtain ⟨n2, e2⟩ := h2
  refine ⟨n1 + n2, fun k => ?_⟩
  rw [Nat.add_assoc, e1, e2]

theorem leads_of_next (g : Grammar) (table : Table) (inp : List String) (X : String)
    (st : List String) (ip : Nat) (st1 : List String) (ip1 : Nat)
    (h : parseStep g table inp X st ip = .next st1 ip1) :
    Leads g table inp (X :: st) ip st1 ip1 := by
  refine ⟨1, fun k => ?_⟩
  rw [Nat.add_comm, parseLoop_step, h]

theorem halts_of_leads (g : Grammar) (table : Table) (inp : List String)
    (st : List String) (ip : Nat) (st1 : List String) (ip1 : Nat)
    (h1 : Leads g table inp st ip st1 ip1) (h2 : Halts g table inp st1 ip1) :
    Halts g table inp st ip := by
  obtain ⟨n1, e1⟩ := h1
  obtain ⟨n2, b, e2⟩ := h2
  exact ⟨n1 + n2, b, by rw [e1, e2]⟩

theorem halts_of_accept (g : Grammar) (table : Table) (inp : List String) (X : String)
    (st : List String) (ip : Nat) (h : parseStep g table inp X st ip = .accept) :
    Halts g table inp (X :: st) ip :=
  ⟨1, true, by rw [parseLoop_step, h]⟩

theorem halts_of_reject (g : Grammar) (table : Table) (inp : List String) (X : String)
    (st : List String) (ip : Nat) (h : parseStep g table inp X st ip = .reject) :
    Halts g table inp (X :: st) ip :=
  ⟨1, false, by rw [parseLoop_step, h]⟩

theorem halts_nil (g : Grammar) (table : Table) (inp : List String) (ip : Nat) :
    Halts g table inp [] ip :=
  ⟨1, false, rfl⟩

theorem advances_of_leads (g : Grammar) (table : Table) (inp : List String)
    (st : List String) (ip : Nat) (st1 : List String)
    (h1 : Leads g table inp st ip st1 ip) (h2 : Advances g table inp st1 ip) :
    Advances g table inp st ip := by
  rcases h2 with h | ⟨st2, hlt, h⟩
  · exact Or.inl (halts_of_leads g table inp st ip st1 ip h1 h)
  · exact Or.inr ⟨st2, hlt, leads_trans g table inp _ _ _ _ _ _ h1 h⟩

/-- The top of the stack is not expanded: the parser accepts, rejects, or matches the
token at `ip`. -/
theorem advances_terminal (g : Grammar) (table : Table) (inp : List String) (X : String)
    (st : List String) (ip : Nat) (hX : g.isNonTerminal X = false ∨ X = END_MARK) :
    Advances g table inp (X :: st) ip := by
  have hs := parseStep_terminal g table inp X st ip hX
  by_cases h1 : X = END_MARK ∧ (inp.get? ip).getD END_MARK = END_MARK
  · rw [if_pos h1] at hs
    exact Or.inl (halts_of_accept g table inp X st ip hs)
  · rw [if_neg h1] at hs
    by_cases h2 : X = (inp.get? ip).getD END_MARK
    · rw [if_pos h2] at hs
      right
      refine ⟨st, ?_, leads_of_next g table inp X st ip st (ip + 1) hs⟩
      by_contra hlt
      have hnone : inp.get? ip = none := List.get?_eq_none.mpr (by omega)
      rw [hnone] at h1 h2
      simp only [Option.getD_none, and_true] at h1 h2
      exact h1 h2
    · rw [if_neg h2] at hs
      exact Or.inl (halts_of_reject g table inp X st ip hs)

/-- Symbols that the parser takes off the stack one after the other. -/
theorem erase_start (g : Grammar) (table : Table) (inp : List String) (ip : Nat)
    (pre : List String)
    (hpre : ∀ Y ∈ pre, ∀ st, Advances g table inp (Y :: st) ip ∨
      Leads g table inp (Y :: st) ip st ip) (st : List String) :
    Advances g table inp (pre ++ st) ip ∨ Leads g table inp (pre ++ st) ip st ip := by
  induction pre with
  | nil => exact Or.inr (leads_refl g table inp st ip)
  | cons Y pre ih =>
    rcases hpre Y (List.mem_cons_self _ _) (pre ++ st) with h | h
    · exact Or.inl h
    · rcases ih (fun Z hZ => hpre Z (List.mem_cons_of_mem _ hZ)) with h2 | h2
      · exact Or.inl (advances_of_leads g table inp _ ip _ h h2)
      · exact Or.inr (leads_trans g table inp _ _ _ _ _ _ h h2)

theorem halts_of_advances (g : Grammar) (table : Table) (inp : List String)
    (st : List String) (ip : Nat) (h : Advances g table inp st ip)
    (hnext : ip < inp.length → ∀ st1, Halts g table inp st1 (ip + 1)) :
    Halts g table inp st ip := by
  rcases h with h | ⟨st1, hlt, h⟩
  · exact h
  · exact halts_of_leads g table inp st ip st1 (ip + 1) h (hnext hlt st1)

/-! ## The parser follows the derivations of FIRST -/

theorem setting_keys (g : Grammar) (FIRST FOLLOW : SetMap) (table : Table)
    (hS : ParserSetting g FIRST FOLLOW table) : HasKeys g FIRST := by
  obtain ⟨hre, _, ⟨n, hF⟩, _⟩ := hS
  exact (computeFIRST_terminals n g FIRST hre hF).1

theorem setting_rows (g : Grammar) (FIRST FOLLOW : SetMap) (table : Table)
    (hS : ParserSetting g FIRST FOLLOW table) :
    tableRows g FIRST FOLLOW g.nonterminals (blankTable g) = .ok table :=
  buildParseTable_rows g FIRST FOLLOW table _ hS.2.2.2.2.1

/-- The cell that an alternative reaches through a symbol of its FIRST set. -/
theorem setting_cell_first (g : Grammar) (FIRST FOLLOW : SetMap) (table : Table)
    (hS : ParserSetting g FIRST FOLLOW table) (A : String) (hA : A ∈ g.nonterminals)
    (alts : List (List String)) (hal : mapFind A g.prod = some alts) (rhs0 : List String)
    (hrhs : rhs0 ∈ alts) (a : String) (ha : inFirstSeq FIRST g rhs0 a) (hne : a ≠ EPS) :
    tableCell table A a = ⟨true, false, rhs0, A⟩ := by
  have hrows := setting_rows g FIRST FOLLOW table hS
  obtain ⟨hre, _, ⟨n, hF⟩, _, _, hC⟩ := hS
  have hT := terminalsExact_of_recomputed g hre
  obtain ⟨hk, hw⟩ := computeFIRST_terminals n g FIRST hre hF
  have hmem := (mem_firstOfSequence FIRST g rhs0 a).2 ha
  have hcol : a ∈ tableCols g := by
    rcases firstOfSequence_terminals g FIRST hT hk hw rhs0
      (fun X hX => mem_rhsSymbols g.prod A alts rhs0 X hal hrhs hX) a hmem with e | e
    · exact absurd e hne
    · exact (mem_tableCols g a).2 (Or.inl e)
  apply cell_of_hit g FIRST FOLLOW table hrows A hA alts hal rhs0 hrhs a _
    (conflict_of_hasConflict g table _ hC A hA a hcol)
  unfold isCandidate
  simp [(setHas_iff _ _).2 hmem, hne]

/-- The cell that an alternative whose FIRST set holds `EPS` reaches through a symbol of
the FOLLOW set. -/
theorem setting_cell_follow (g : Grammar) (FIRST FOLLOW : SetMap) (table : Table)
    (hS : ParserSetting g FIRST FOLLOW table) (A : String) (hA : A ∈ g.nonterminals)
    (alts : List (List String)) (hal : mapFind A g.prod = some alts) (rhs0 : List String)
    (hrhs : rhs0 ∈ alts) (a : String) (he : inFirstSeq FIRST g rhs0 EPS)
    (ha : a ∈ mapGetD A FOLLOW []) :
    tableCell table A a = ⟨true, false, rhs0, A⟩ := by
  have hrows := setting_rows g FIRST FOLLOW table hS
  obtain ⟨hre, _, ⟨n, hF⟩, ⟨m, hFo⟩, _, hC⟩ := hS
  have hT := terminalsExact_of_recomputed g hre
  obtain ⟨hk, hw⟩ := computeFIRST_terminals n g FIRST hre hF
  obtain ⟨_, hwF⟩ := computeFOLLOW_terminals m g FIRST FOLLOW hT hk hw hFo
  have hmem := (mem_firstOfSequence FIRST g rhs0 EPS).2 he
  have hcol : a ∈ tableCols g := by
    rcases List.mem_cons.mp (hwF A hA a ha) with e | e
    · exact (mem_tableCols g a).2 (Or.inr e)
    · exact (mem_tableCols g a).2 (Or.inl e)
  apply cell_of_hit g FIRST FOLLOW table hrows A hA alts hal rhs0 hrhs a _
    (conflict_of_hasConflict g table _ hC A hA a hcol)
  unfold isCandidate
  simp [(setHas_iff _ _).2 hmem, (setHas_iff _ _).2 ha]

/-- The FOLLOW set of a nonterminal of the start `pre` of an alternative `pre ++ suf` whose
scan goes through `pre` and stops at `suf` with `x`. -/
theorem prefix_follow (fuel : Nat) (g : Grammar) (FIRST FOLLOW : SetMap)
    (hFo : computeFOLLOW fuel g FIRST = .ok FOLLOW) (hk : HasKeys g FIRST)
    (A : String) (hA : A ∈ g.nonterminals) (alts : List (List String))
    (hal : mapFind A g.prod = some alts) (pre suf : List String) (hrhs : pre ++ suf ∈ alts)
    (hn : NullablePre g FIRST pre) (x : String) (hx : inFirstSeq FIRST g suf x)
    (Y : String) (hY : Y ∈ pre) :
    (x ≠ EPS → x ∈ mapGetD Y FOLLOW []) ∧
      (x = EPS → ∀ a ∈ mapGetD A FOLLOW [], a ∈ mapGetD Y FOLLOW []) := by
  obtain ⟨s, t, e⟩ := List.append_of_mem hY
  have hYn : g.isNonTerminal Y = true := by
    have := (hn Y hY).2.1
    simp only [Bool.or_eq_false_iff, Bool.not_eq_false'] at this
    exact this.2
  have hrule := computeFOLLOW_rule fuel g FIRST FOLLOW hFo A hA alts hal (pre ++ suf) hrhs
    s Y (t ++ suf) (by rw [e]; simp) hYn
  have hbeta : inFirstSeq FIRST g (t ++ suf) x := by
    apply inFirstSeq_append g FIRST hk t suf x _ hx
    intro Z hZ
    exact hn Z (by rw [e]; exact List.mem_append_right _ (List.mem_cons_of_mem _ hZ))
  have hmem := (mem_firstOfSequence FIRST g (t ++ suf) x).2 hbeta
  constructor
  · intro hne
    exact hrule.1 x hmem hne
  · intro he a ha
    rw [he] at hmem
    exact hrule.2 (Or.inr hmem) a ha

/-- The parser expands a nonterminal by the alternative `pre ++ suf` of its cell and takes
the symbols of `pre` off the stack. -/
theorem expand_alt (g : Grammar) (table : Table) (inp : List String) (ip : Nat) (A : String)
    (hA : A ∈ g.nonterminals) (pre suf : List String)
    (hcell : tableCell table A ((inp.get? ip).getD END_MARK) = ⟨true, false, pre ++ suf, A⟩)
    (hpre : ∀ Y ∈ pre, ∀ st, Advances g table inp (Y :: st) ip ∨
      Leads g table inp (Y :: st) ip st ip) (st : List String) :
    Advances g table inp (A :: st) ip ∨
      (pre ++ suf = [EPS] ∧ Leads g table inp (A :: st) ip st ip) ∨
      Leads g table inp (A :: st) ip (suf ++ st) ip := by
  by_cases hend : A = END_MARK
  · exact Or.inl (advances_terminal g table inp A st ip (Or.inr hend))
  · have hs := parseStep_nonterminal g table inp A st ip ((setHas_iff _ _).2 hA) hend
    rw [hcell] at hs
    simp only [Bool.true_eq_false, Bool.false_eq_true, or_self, if_false] at hs
    by_cases h1 : pre ++ suf = [EPS]
    · rw [if_pos h1] at hs
      exact Or.inr (Or.inl ⟨h1, leads_of_next g table inp A st ip st ip hs⟩)
    · rw [if_neg h1] at hs
      have hl := leads_of_next g table inp A st ip _ ip hs
      rw [List.append_assoc] at hl
      rcases erase_start g table inp ip pre hpre (suf ++ st) with h | h
      · exact Or.inl (advances_of_leads g table inp _ ip _ hl h)
      · exact Or.inr (Or.inr (leads_trans g table inp _ _ _ _ _ _ hl h))

/-- The parser on a nonterminal for which the scan rule derives `x`: when `x` is `EPS` and
the token is in the FOLLOW set, the nonterminal is taken off the stack, unless the parser
returns or matches the token before; when `x` is the token, the parser returns or matches
the token. -/
theorem parse_derived (g : Grammar) (FIRST FOLLOW : SetMap) (table : Table)
    (hS : ParserSetting g FIRST FOLLOW table) (inp : List String) (A x : String)
    (hd : Derives g A x) :
    (x = EPS → ∀ ip, (inp.get? ip).getD END_MARK ∈ mapGetD A FOLLOW [] → ∀ st,
      Advances g table inp (A :: st) ip ∨ Leads g table inp (A :: st) ip st ip) ∧
    (x ≠ EPS → ∀ ip, (inp.get? ip).getD END_MARK = x → ∀ st,
      Advances g table inp (A :: st) ip) := by
  have hk := setting_keys g FIRST FOLLOW table hS
  have hS' := hS
  obtain ⟨hre, hE, ⟨n, hF⟩, ⟨m, hFo⟩, _, _⟩ := hS'
  have hT := terminalsExact_of_recomputed g hre
  induction hd with
  | eps A alts pre suf hA hal hrhs hpre hpreD hsuf ih =>
    refine ⟨fun _ ip ha st => ?_, fun h => absurd rfl h⟩
    have hn : NullablePre g FIRST pre := fun Y hY =>
      ⟨(hpre Y hY).1, (hpre Y hY).2, derives_mem n g FIRST hre hF Y EPS (hpreD Y hY)⟩
    have hsufE : inFirstSeq FIRST g suf EPS := by
      rcases hsuf with e | e
      · rw [e]
        rfl
      · cases suf with
        | nil => simp at e
        | cons X rest =>
          simp only [List.head?_cons, Option.some.injEq] at e
          unfold inFirstSeq
          simp [e]
    have hcell := setting_cell_follow g FIRST FOLLOW table hS A hA alts hal (pre ++ suf) hrhs
      _ (inFirstSeq_append g FIRST hk pre suf EPS hn hsufE) ha
    have hpre' : ∀ Y ∈ pre, ∀ st, Advances g table inp (Y :: st) ip ∨
        Leads g table inp (Y :: st) ip st ip := fun Y hY st =>
      (ih Y hY).1 rfl ip
        ((prefix_follow m g FIRST FOLLOW hFo hk A hA alts hal pre suf hrhs hn EPS hsufE
          Y hY).2 rfl _ ha) st
    rcases expand_alt g table inp ip A hA pre suf hcell hpre' st with h | ⟨_, h⟩ | h
    · exact Or.inl h
    · exact Or.inr h
    · rcases hsuf with e | e
      · rw [e] at h
        exact Or.inr h
      · cases suf with
        | nil => simp at e
        | cons X rest =>
          simp only [List.head?_cons, Option.some.injEq] at e
          left
          apply advances_of_leads g table inp _ ip _ h
          rw [List.cons_append]
          exact advances_terminal g table inp X _ ip
            (Or.inl ((setHas_false_iff _ _).2 (by rw [e]; exact hE)))
  | term A alts pre X rest hA hal hrhs hpre hpreD h1 h2 ih =>
    refine ⟨fun h => absurd h h1, fun _ ip ha st => ?_⟩
    have hn : NullablePre g FIRST pre := fun Y hY =>
      ⟨(hpre Y hY).1, (hpre Y hY).2, derives_mem n g FIRST hre hF Y EPS (hpreD Y hY)⟩
    have hsufX : inFirstSeq FIRST g (X :: rest) X := by
      unfold inFirstSeq
      simp [h1, h2]
    have hcell := setting_cell_first g FIRST FOLLOW table hS A hA alts hal (pre ++ X :: rest)
      hrhs X (inFirstSeq_append g FIRST hk pre _ X hn hsufX) h1
    have hcell : tableCell table A ((inp.get? ip).getD END_MARK)
        = ⟨true, false, pre ++ X :: rest, A⟩ := by
      rw [ha]
      exact hcell
    have hpre' : ∀ Y ∈ pre, ∀ st, Advances g table inp (Y :: st) ip ∨
        Leads g table inp (Y :: st) ip st ip := fun Y hY st =>
      (ih Y hY).1 rfl ip
        (by
          rw [ha]
          exact (prefix_follow m g FIRST FOLLOW hFo hk A hA alts hal pre (X :: rest) hrhs hn X
            hsufX Y hY).1 h1) st
    have hXn : g.isNonTerminal X = false := by
      cases hnt : g.isNonTerminal X with
      | false => rfl
      | true =>
        have := not_terminalish_of_nonterminal g hT X ((setHas_iff _ _).1 hnt)
        rw [this] at h2
        exact absurd h2 Bool.false_ne_true
    rcases expand_alt g table inp ip A hA pre (X :: rest) hcell hpre' st with h | ⟨e, _⟩ | h
    · exact h
    · exfalso
      cases pre with
      | nil =>
        simp only [List.nil_append, List.cons.injEq] at e
        exact h1 e.1
      | cons Y pre =>
        have := congrArg List.length e
        simp at this
    · apply advances_of_leads g table inp _ ip _ h
      rw [List.cons_append]
      exact advances_terminal g table inp X _ ip (Or.inl hXn)
  | sub A alts pre X rest x hA hal hrhs hpre hpreD h1 h2 hdX hne ih ihX =>
    refine ⟨fun h => absurd h hne, fun _ ip ha st => ?_⟩
    have hn : NullablePre g FIRST pre := fun Y hY =>
      ⟨(hpre Y hY).1, (hpre Y hY).2, derives_mem n g FIRST hre hF Y EPS (hpreD Y hY)⟩
    have hX : X ∈ g.nonterminals :=
      nonterminal_of_not_terminalish g X (by rw [h2]; exact Bool.false_ne_true)
    have hsufX : inFirstSeq FIRST g (X :: rest) x := by
      unfold inFirstSeq
      simp only [h1, if_false, h2, Bool.false_eq_true]
      rw [hasKeys_mapFind g FIRST hk X hX]
      exact Or.inl ⟨derives_mem n g FIRST hre hF X x hdX, hne⟩
    have hcell := setting_cell_first g FIRST FOLLOW table hS A hA alts hal (pre ++ X :: rest)
      hrhs x (inFirstSeq_append g FIRST hk pre _ x hn hsufX) hne
    have hcell : tableCell table A ((inp.get? ip).getD END_MARK)
        = ⟨true, false, pre ++ X :: rest, A⟩ := by
      rw [ha]
      exact hcell
    have hpre' : ∀ Y ∈ pre, ∀ st, Advances g table inp (Y :: st) ip ∨
        Leads g table inp (Y :: st) ip st ip := fun Y hY st =>
      (ih Y hY).1 rfl ip
        (by
          rw [ha]
          exact (prefix_follow m g FIRST FOLLOW hFo hk A hA alts hal pre (X :: rest) hrhs hn x
            hsufX Y hY).1 hne) st
    rcases expand_alt g table inp ip A hA pre (X :: rest) hcell hpre' st with h | ⟨e, _⟩ | h
    · exact h
    · exfalso
      cases pre with
      | nil =>
        simp only [List.nil_append, List.cons.injEq] at e
        exact h1 e.1
      | cons Y pre =>
        have := congrArg List.length e
        simp at this
    · apply advances_of_leads g table inp _ ip _ h
      rw [List.cons_append]
      exact ihX.2 hne ip ha _

/-! ## The parser returns -/

/-- In the setting of the parser, when the parser returns from every configuration at the
next position, it returns from every configuration at this position. -/
theorem halts_at (g : Grammar) (FIRST FOLLOW : SetMap) (table : Table)
    (hS : ParserSetting g FIRST FOLLOW table) (inp : List String) (ip : Nat)
    (hnext : ip < inp.length → ∀ st1, Halts g table inp st1 (ip + 1)) (st : List String) :
    Halts g table inp st ip := by
  have hrows := setting_rows g FIRST FOLLOW table hS
  have hS' := hS
  obtain ⟨hre, hE, ⟨n, hF⟩, _, _, _⟩ := hS'
  have hrule := (computeFIRST_scan_rule n g FIRST hre hF).1
  have hleast := computeFIRST_least n g FIRST hre hE hF
  induction st with
  | nil => exact halts_nil g table inp ip
  | cons X st ih =>
    by_cases hX : g.isNonTerminal X = false ∨ X = END_MARK
    · exact halts_of_advances g table inp _ ip (advances_terminal g table inp X st ip hX) hnext
    · have hXn : g.isNonTerminal X = true := by
        cases h : g.isNonTerminal X with
        | true => rfl
        | false => exact absurd (Or.inl h) hX
      have hend : X ≠ END_MARK := fun e => hX (Or.inr e)
      have hXm : X ∈ g.nonterminals := (setHas_iff _ _).1 hXn
      have hs := parseStep_nonterminal g table inp X st ip hXn hend
      by_cases hbad : (tableCell table X ((inp.get? ip).getD END_MARK)).filled = false ∨
          (tableCell table X ((inp.get? ip).getD END_MARK)).conflict = true
      · rw [if_pos hbad] at hs
        exact halts_of_reject g table inp X st ip hs
      · have hf : (tableCell table X ((inp.get? ip).getD END_MARK)).filled = true := by
          cases h : (tableCell table X ((inp.get? ip).getD END_MARK)).filled with
          | true => rfl
          | false => exact absurd (Or.inl h) hbad
        obtain ⟨alts, hal, hiff⟩ := hrule X hXm
        obtain ⟨rhs0, hrhs, hcand⟩ := hit_of_filled g FIRST FOLLOW table hrows X alts hal _ hf
        unfold isCandidate at hcand
        simp only [Bool.or_eq_true, Bool.and_eq_true, bne_iff_ne, ne_eq, setHas_iff] at hcand
        rcases hcand with ⟨h1, h2⟩ | ⟨h1, h2⟩
        · have hd := hleast X hXm _ ((hiff _).2 (Or.inl ⟨rhs0, hrhs, h1⟩))
          exact halts_of_advances g table inp _ ip
            ((parse_derived g FIRST FOLLOW table hS inp X _ hd).2 h2 ip rfl st) hnext
        · have hd := hleast X hXm _ ((hiff _).2 (Or.inl ⟨rhs0, hrhs, h1⟩))
          rcases (parse_derived g FIRST FOLLOW table hS inp X _ hd).1 rfl ip h2 st with h | h
          · exact halts_of_advances g table inp _ ip h hnext
          · exact halts_of_leads g table inp _ ip st ip h ih

theorem halts_all (g : Grammar) (FIRST FOLLOW : SetMap) (table : Table)
    (hS : ParserSetting g FIRST FOLLOW table) (inp : List String) (k : Nat) :
    ∀ ip, inp.length - ip ≤ k → ∀ st, Halts g table inp st ip := by
  induction k with
  | zero =>
    intro ip hk st
    exact halts_at g FIRST FOLLOW table hS inp ip (fun hlt => by omega) st
  | succ k ih =>
    intro ip hk st
    exact halts_at g FIRST FOLLOW table hS inp ip (fun _ st1 => ih (ip + 1) (by omega) st1) st

/-- C12 (amended): for every grammar whose symbols are recomputed and in which `EPS` is not
a nonterminal, if the table that `buildParseTable` makes of the maps that `computeFIRST` and
`computeFOLLOW` return has no flagged cell, then `predictiveParse` returns, accepting or
rejecting, on every input string after finitely many iterations of its loop. -/
theorem predictiveParse_halts (g : Grammar) (hre : g.recomputeSymbols = g)
    (hE : EPS ∉ g.nonterminals) (n m : Nat) (FIRST FOLLOW : SetMap) (table : Table)
    (cols : List String) (hF : computeFIRST n g = .ok FIRST)
    (hFo : computeFOLLOW m g FIRST = .ok FOLLOW)
    (hT : buildParseTable g FIRST FOLLOW = .ok (table, cols))
    (hC : hasConflict g table cols = false) (inputStr : String) :
    ∃ fuel b, predictiveParse fuel g table inputStr = some b := by
  have hcols : cols = tableCols g := by
    unfold buildParseTable at hT
    split at hT
    · simp only [Outcome.ok.injEq, Prod.mk.injEq] at hT
      exact hT.2.symm
    · simp at hT
    · simp at hT
  subst hcols
  have hS : ParserSetting g FIRST FOLLOW table := ⟨hre, hE, ⟨n, hF⟩, ⟨m, hFo⟩, hT, hC⟩
  exact halts_all g FIRST FOLLOW table hS (tokenizeExpressionInput inputStr) _ 0 (le_refl _)
    [g.start, END_MARK]

/-- Witness for C12 (amended): the expression grammar after the two rewrites and the input
`id+id*id`, which the parser accepts. -/
theorem predictiveParse_halts_witness :
    exprLL1.recomputeSymbols = exprLL1 ∧ EPS ∉ exprLL1.nonterminals ∧
    computeFIRST 3 exprLL1 = .ok exprFIRST ∧
    computeFOLLOW 3 exprLL1 exprFIRST = .ok exprFOLLOW ∧
    buildParseTable exprLL1 exprFIRST exprFOLLOW
      = .ok (exprTable, ["$", "(", ")", "*", "+", "id"]) ∧
    hasConflict exprLL1 exprTable ["$", "(", ")", "*", "+", "id"] = false ∧
    predictiveParse 40 exprLL1 exprTable "id+id*id" = some true ∧
    ∃ fuel b, predictiveParse fuel exprLL1 exprTable "id+id*id" = some b :=
  ⟨by decide!, by decide!, by decide!, by decide!, by decide!, by decide!, by decide!,
    predictiveParse_halts exprLL1 (by decide!) (by decide!) 3 3 exprFIRST exprFOLLOW exprTable
      ["$", "(", ")", "*", "+", "id"] (by decide!) (by decide!) (by decide!) (by decide!)
      "id+id*id"⟩

theorem loop_step (st : List String) :
    parseStep loopGrammar loopTable ["$"] "eps" st 0 = .next ("eps" :: "eps" :: st) 0 := by
  have hs := parseStep_nonterminal loopGrammar loopTable ["$"] "eps" st 0 (by decide!)
    (by decide!)
  have hc : tableCell loopTable "eps" ((["$"].get? 0).getD END_MARK)
      = ⟨true, false, ["eps", "eps"], "eps"⟩ := by decide!
  rw [hc] at hs
  simp only [Bool.true_eq_false, Bool.false_eq_true, or_self, if_false] at hs
  rw [if_neg (by decide!)] at hs
  exact hs

theorem loop_none (fuel : Nat) (st : List String) :
    parseLoop loopGrammar loopTable ["$"] fuel ("eps" :: st) 0 = none := by
  induction fuel generalizing st with
  | zero => rfl
  | succ k ih =>
    rw [parseLoop_step, loop_step]
    exact ih _

/-- C12 as stated fails: for the rule line `eps -> eps eps` the symbols are recomputed and
the table has one cell, filled and not flagged, whose alternative `eps eps` stands for the
empty string in FIRST but is pushed by the parser; on the empty input the parser expands
`eps` for ever. -/
theorem predictiveParse_loops_counterexample :
    loopGrammar.recomputeSymbols = loopGrammar ∧
    computeFIRST 2 loopGrammar = .ok loopFIRST ∧
    computeFOLLOW 2 loopGrammar loopFIRST = .ok loopFOLLOW ∧
    buildParseTable loopGrammar loopFIRST loopFOLLOW = .ok (loopTable, ["$"]) ∧
    hasConflict loopGrammar loopTable ["$"] = false ∧
    ∀ fuel, predictiveParse fuel loopGrammar loopTable "" = none := by
  refine ⟨by decide!, by decide!, by decide!, by decide!, by decide!, ?_⟩
  intro fuel
  exact loop_none fuel [END_MARK]

/-! ## FOLLOW of the start symbol -/

theorem followLoop_le (g : Grammar) (FIRST : SetMap) (fuel : Nat) (F F1 : SetMap)
    (h : followLoop g FIRST fuel F = .ok F1) : MapLe F F1 := by
  induction fuel generalizing F with
  | zero => simp [followLoop] at h
  | succ n ih =>
    unfold followLoop followPass at h
    split at h
    · rename_i F2 changed e
      have h2 := (followPassFrom_grow g FIRST g.nonterminals (F, false) (F2, changed) e).1
      split at h
      · exact mapLe_trans h2 (ih F2 h)
      · simp only [Outcome.ok.injEq] at h
        rw [← h]
        exact h2
    · simp at h
    · simp at h

theorem end_mem_followInit (g : Grammar) : END_MARK ∈ mapGetD g.start (followInit g) [] := by
  unfold followInit
  simp only [mapGetD_mapSet_same]
  exact mem_setInsert_self _ _

/-- C21: for every grammar and FIRST map, the FOLLOW map that `computeFOLLOW` returns has
the end marker in the set of the start symbol; and `computeFOLLOW` does return when every
nonterminal has a production list. -/
theorem computeFOLLOW_start (g : Grammar) (FIRST : SetMap) :
    (∀ fuel FOLLOW, computeFOLLOW fuel g FIRST = .ok FOLLOW →
      END_MARK ∈ mapGetD g.start FOLLOW []) ∧
    ((∀ A ∈ g.nonterminals, (mapFind A g.prod).isSome = true) →
      ∃ fuel FOLLOW, computeFOLLOW fuel g FIRST = .ok FOLLOW ∧
        END_MARK ∈ mapGetD g.start FOLLOW []) := by
  have key : ∀ fuel FOLLOW, computeFOLLOW fuel g FIRST = .ok FOLLOW →
      END_MARK ∈ mapGetD g.start FOLLOW [] := by
    intro fuel FOLLOW h
    exact followLoop_le g FIRST fuel _ _ h g.start END_MARK (end_mem_followInit g)
  refine ⟨key, fun hprod => ?_⟩
  obtain ⟨FOLLOW, h⟩ := computeFOLLOW_returns g FIRST hprod
  exact ⟨_, FOLLOW, h, key _ _ h⟩

/-- Witness for C21: the grammar `S -> A b`, `A -> a | eps`, whose start symbol is `S`. -/
theorem computeFOLLOW_start_witness :
    computeFOLLOW 2 epsGrammar epsFIRST = .ok epsFOLLOW ∧ epsGrammar.start = "S" ∧
    END_MARK ∈ mapGetD epsGrammar.start epsFOLLOW [] :=
  ⟨by decide!, by decide!,
    (computeFOLLOW_start epsGrammar epsFIRST).1 2 epsFOLLOW (by decide!)⟩

/-! ## The tokens of an input string -/

theorem tokenizeExprLoop_fuel (n m : Nat) (cs : List Char) (hn : cs.length ≤ n)
    (hm : cs.length ≤ m) : tokenizeExprLoop n cs = tokenizeExprLoop m cs := by
  induction n generalizing m cs with
  | zero =>
    cases cs with
    | nil => cases m <;> rfl
    | cons c cs => simp at hn
  | succ n ih =>
    cases cs with
    | nil => cases m <;> rfl
    | cons c cs =>
      cases m with
      | zero => simp at hm
      | succ m =>
        simp only [List.length_cons, Nat.add_le_add_iff_right] at hn hm
        have hd : ∀ p : Char → Bool, (cs.dropWhile p).length ≤ cs.length := fun p =>
          (List.dropWhile_suffix p).length_le
        unfold tokenizeExprLoop
        split
        · exact ih m cs hn hm
        · split
          · rw [ih m _ (le_trans (hd _) hn) (le_trans (hd _) hm)]
          · split
            · rw [ih m _ (le_trans (hd _) hn) (le_trans (hd _) hm)]
            · rw [ih m cs hn hm]

/-- One step of the loop of `tokenizeExpressionInput` on a text that begins with `c`. -/
theorem tokenizeExpressionInput_cons (c : Char) (cs : List Char) :
    tokenizeExpressionInput ⟨c :: cs⟩ =
      if isspaceC c then tokenizeExpressionInput ⟨cs⟩
      else if isalphaC c || c.toNat = 95 then
        "id" :: tokenizeExpressionInput ⟨cs.dropWhile (fun d => isalnumC d || d.toNat = 95)⟩
      else if isdigitC c then
        "id" :: tokenizeExpressionInput ⟨cs.dropWhile (fun d => isdigitC d || d.toNat = 46)⟩
      else String.singleton c :: tokenizeExpressionInput ⟨cs⟩ := by
  have hd : ∀ p : Char → Bool, (cs.dropWhile p).length ≤ cs.length := fun p =>
    (List.dropWhile_suffix p).length_le
  unfold tokenizeExpressionInput
  simp only [List.length_cons]
  rw [tokenizeExprLoop]
  rw [tokenizeExprLoop_fuel cs.length _ (cs.dropWhile (fun d => isalnumC d || d.toNat = 95))
    (hd _) (le_refl _)]
  rw [tokenizeExprLoop_fuel cs.length _ (cs.dropWhile (fun d => isdigitC d || d.toNat = 46))
    (hd _) (le_refl _)]

theorem dropWhile_run (p : Char → Bool) (r rest : List Char) (hr : ∀ d ∈ r, p d = true)
    (hrest : ∀ d, rest.head? = some d → p d = false) : (r ++ rest).dropWhile p = rest := by
  induction r with
  | nil =>
    cases rest with
    | nil => rfl
    | cons d rest =>
      simp only [List.nil_append, List.dropWhile_cons, hrest d rfl, Bool.false_eq_true, if_false]
  | cons a r ih =>
    simp only [List.cons_append, List.dropWhile_cons, hr a (List.mem_cons_self _ _), if_true]
    exact ih (fun d hd => hr d (List.mem_cons_of_mem _ hd))

theorem tokens_body (n : Nat) (cs : List Char) :
    ∃ body, tokenizeExprLoop n cs = body ++ [END_MARK] ∧
      ∀ t ∈ body, t = "id" ∨ ∃ c ∈ cs, t = String.singleton c := by
  induction n generalizing cs with
  | zero =>
    refine ⟨[], ?_, by simp⟩
    cases cs <;> rfl
  | succ n ih =>
    cases cs with
    | nil => exact ⟨[], rfl, by simp⟩
    | cons c cs =>
      have sub : ∀ (l : List Char) (body : List String), (∀ d ∈ l, d ∈ cs) →
          (∀ t ∈ body, t = "id" ∨ ∃ d ∈ l, t = String.singleton d) →
          ∀ t ∈ body, t = "id" ∨ ∃ d ∈ c :: cs, t = String.singleton d := by
        intro l body hl hb t ht
        rcases hb t ht with e | ⟨d, hd, e⟩
        · exact Or.inl e
        · exact Or.inr ⟨d, List.mem_cons_of_mem _ (hl d hd), e⟩
      have hdrop : ∀ p : Char → Bool, ∀ d ∈ cs.dropWhile p, d ∈ cs := fun p d hd =>
        (List.dropWhile_suffix p).subset hd
      unfold tokenizeExprLoop
      split
      · obtain ⟨body, e, hb⟩ := ih cs
        exact ⟨body, e, sub cs body (fun _ h => h) hb⟩
      · split
        · obtain ⟨body, e, hb⟩ := ih (cs.dropWhile (fun d => isalnumC d || d.toNat = 95))
          refine ⟨"id" :: body, by rw [e]; rfl, ?_⟩
          intro t ht
          rcases List.mem_cons.mp ht with e1 | e1
          · exact Or.inl e1
          · exact sub _ body (hdrop _) hb t e1
        · split
          · obtain ⟨body, e, hb⟩ := ih (cs.dropWhile (fun d => isdigitC d || d.toNat = 46))
            refine ⟨"id" :: body, by rw [e]; rfl, ?_⟩
            intro t ht
            rcases List.mem_cons.mp ht with e1 | e1
            · exact Or.inl e1
            · exact sub _ body (hdrop _) hb t e1
          · obtain ⟨body, e, hb⟩ := ih cs
            refine ⟨String.singleton c :: body, by rw [e]; rfl, ?_⟩
            intro t ht
            rcases List.mem_cons.mp ht with e1 | e1
            · exact Or.inr ⟨c, List.mem_cons_self _ _, e1⟩
            · exact sub cs body (fun _ h => h) hb t e1

/-- C22: for every input string, `tokenizeExpressionInput` returns some tokens followed by
the end marker, so a non-empty list whose last element is the end marker, and every earlier
token is `id` or the one-character string of a character of the input. A white-space
character gives no token; a letter or underscore followed by a maximal run of letters,
digits and underscores gives one `id`; a digit followed by a maximal run of digits and dots
gives one `id`; each of `+`, `*`, `(`, `)`, like every other character, gives itself. -/
theorem tokenizeExpressionInput_shape :
    (∀ s : String, ∃ body, tokenizeExpressionInput s = body ++ [END_MARK] ∧
      tokenizeExpressionInput s ≠ [] ∧
      (tokenizeExpressionInput s).getLast? = some END_MARK ∧
      ∀ t ∈ body, t = "id" ∨ ∃ c ∈ s.data, t = String.singleton c) ∧
    tokenizeExpressionInput "" = [END_MARK] ∧
    (∀ c rest, isspaceC c = true →
      tokenizeExpressionInput ⟨c :: rest⟩ = tokenizeExpressionInput ⟨rest⟩) ∧
    (∀ c run rest, (isalphaC c || c.toNat = 95) = true →
      (∀ d ∈ run, (isalnumC d || d.toNat = 95) = true) →
      (∀ d, rest.head? = some d → (isalnumC d || d.toNat = 95) = false) →
      tokenizeExpressionInput ⟨c :: (run ++ rest)⟩ = "id" :: tokenizeExpressionInput ⟨rest⟩) ∧
    (∀ c run rest, isdigitC c = true →
      (∀ d ∈ run, (isdigitC d || d.toNat = 46) = true) →
      (∀ d, rest.head? = some d → (isdigitC d || d.toNat = 46) = false) →
      tokenizeExpressionInput ⟨c :: (run ++ rest)⟩ = "id" :: tokenizeExpressionInput ⟨rest⟩) ∧
    (∀ c rest, isspaceC c = false → (isalphaC c || c.toNat = 95) = false →
      isdigitC c = false →
      tokenizeExpressionInput ⟨c :: rest⟩ = String.singleton c :: tokenizeExpressionInput ⟨rest⟩) ∧
    (∀ rest, tokenizeExpressionInput ⟨'+' :: rest⟩ = "+" :: tokenizeExpressionInput ⟨rest⟩) ∧
    (∀ rest, tokenizeExpressionInput ⟨'*' :: rest⟩ = "*" :: tokenizeExpressionInput ⟨rest⟩) ∧
    (∀ rest, tokenizeExpressionInput ⟨'(' :: rest⟩ = "(" :: tokenizeExpressionInput ⟨rest⟩) ∧
    (∀ rest, tokenizeExpressionInput ⟨')' :: rest⟩ = ")" :: tokenizeExpressionInput ⟨rest⟩) := by
  have other : ∀ c rest, isspaceC c = false → (isalphaC c || c.toNat = 95) = false →
      isdigitC c = false →
      tokenizeExpressionInput ⟨c :: rest⟩
        = String.singleton c :: tokenizeExpressionInput ⟨rest⟩ := by
    intro c rest h1 h2 h3
    rw [tokenizeExpressionInput_cons]
    simp only [h1, h2, h3, Bool.false_eq_true, if_false]
  refine ⟨?_, rfl, ?_, ?_, ?_, other, ?_, ?_, ?_, ?_⟩
  · intro s
    obtain ⟨body, e, hb⟩ := tokens_body s.data.length s.data
    refine ⟨body, e, ?_, ?_, hb⟩
    · unfold tokenizeExpressionInput
      rw [e]
      simp
    · unfold tokenizeExpressionInput
      rw [e]
      simp
  · intro c rest h
    rw [tokenizeExpressionInput_cons, if_pos h]
  · intro c run rest h1 h2 h3
    have hs : isspaceC c = false := by
      cases hsp : isspaceC c with
      | false => rfl
      | true =>
        exfalso
        unfold isspaceC at hsp
        unfold isalphaC at h1
        simp only [Bool.or_eq_true, Bool.and_eq_true, decide_eq_true_eq] at hsp h1
        omega
    rw [tokenizeExpressionInput_cons]
    simp only [hs, Bool.false_eq_true, if_false, h1, if_true]
    rw [dropWhile_run _ run rest h2 h3]
  · intro c run rest h1 h2 h3
    have hs : isspaceC c = false := by
      cases hsp : isspaceC c with
      | false => rfl
      | true =>
        exfalso
        unfold isspaceC at hsp
        unfold isdigitC at h1
        simp only [Bool.or_eq_true, Bool.and_eq_true, decide_eq_true_eq] at hsp h1
        omega
    have ha : (isalphaC c || c.toNat = 95) = false := by
      cases hal : (isalphaC c || decide (c.toNat = 95)) with
      | false => rfl
      | true =>
        exfalso
        unfold isalphaC at hal
        unfold isdigitC at h1
        simp only [Bool.or_eq_true, Bool.and_eq_true, decide_eq_true_eq] at hal h1
        omega
    rw [tokenizeExpressionInput_cons]
    simp only [hs, Bool.false_eq_true, if_false, ha, h1, if_true]
    rw [dropWhile_run _ run rest h2 h3]
  · intro rest
    exact other '+' rest (by decide) (by decide) (by decide)
  · intro rest
    exact other '*' rest (by decide) (by decide) (by decide)
  · intro rest
    exact other '(' rest (by decide) (by decide) (by decide)
  · intro rest
    exact other ')' rest (by decide) (by decide) (by decide)

/-- Witness for C22: the input `ab1+2.5 x` gives `id + id id $`, and the run `ab1` before
`+2.5 x` gives one `id`. -/
theorem tokenizeExpressionInput_shape_witness :
    tokenizeExpressionInput "ab1+2.5 x" = ["id", "+", "id", "id", END_MARK] ∧
    tokenizeExpressionInput ⟨'a' :: (['b', '1'] ++ "+2.5 x".data)⟩
      = "id" :: tokenizeExpressionInput ⟨"+2.5 x".data⟩ :=
  ⟨by decide!,
    tokenizeExpressionInput_shape.2.2.2.1 'a' ['b', '1'] "+2.5 x".data (by decide)
      (by decide) (by decide)⟩

/-! ## The configurations that the parser reaches -/

/-- A property of configurations that holds at the start and is kept by every iteration
holds at every configuration of the run. -/
theorem parseConfigs_invariant (g : Grammar) (table : Table) (inp : List String)
    (P : List String → Nat → Prop)
    (hstep : ∀ X st ip st1 ip1, P (X :: st) ip →
      parseStep g table inp X st ip = .next st1 ip1 → P st1 ip1)
    (fuel : Nat) (st : List String) (ip : Nat) (h0 : P st ip) :
    ∀ c ∈ parseConfigs g table inp fuel st ip, P c.1 c.2 := by
  induction fuel generalizing st ip with
  | zero =>
    intro c hc
    simp only [parseConfigs, List.mem_singleton] at hc
    rw [hc]
    exact h0
  | succ n ih =>
    cases st with
    | nil =>
      intro c hc
      simp only [parseConfigs, List.mem_singleton] at hc
      rw [hc]
      exact h0
    | cons X st =>
      intro c hc
      simp only [parseConfigs, List.mem_cons] at hc
      rcases hc with hc | hc
      · rw [hc]
        exact h0
      · cases e : parseStep g table inp X st ip with
        | accept => rw [e] at hc; simp at hc
        | reject => rw [e] at hc; simp at hc
        | next st1 ip1 =>
          rw [e] at hc
          exact ih st1 ip1 (hstep X st ip st1 ip1 h0 e) c hc

/-- The configuration in which the loop is left when `parseLoop` returns: the stack is
empty and the result is `false`, or the iteration on a non-empty stack accepts or rejects. -/
theorem parseLoop_final (g : Grammar) (table : Table) (inp : List String) (fuel : Nat)
    (st : List String) (ip : Nat) (b : Bool) (h : parseLoop g table inp fuel st ip = some b) :
    (∃ ip1, ([], ip1) ∈ parseConfigs g table inp fuel st ip ∧ b = false) ∨
    ∃ X st1 ip1, (X :: st1, ip1) ∈ parseConfigs g table inp fuel st ip ∧
      ((parseStep g table inp X st1 ip1 = .accept ∧ b = true) ∨
        (parseStep g table inp X st1 ip1 = .reject ∧ b = false)) := by
  induction fuel generalizing st ip with
  | zero => simp [parseLoop] at h
  | succ n ih =>
    cases st with
    | nil =>
      simp only [parseLoop, Option.some.injEq] at h
      exact Or.inl ⟨ip, by simp [parseConfigs], h.symm⟩
    | cons X st =>
      simp only [parseLoop] at h
      cases e : parseStep g table inp X st ip with
      | accept =>
        rw [e] at h
        simp only [Option.some.injEq] at h
        exact Or.inr ⟨X, st, ip, by simp [parseConfigs], Or.inl ⟨e, h.symm⟩⟩
      | reject =>
        rw [e] at h
        simp only [Option.some.injEq] at h
        exact Or.inr ⟨X, st, ip, by simp [parseConfigs], Or.inr ⟨e, h.symm⟩⟩
      | next st1 ip1 =>
        rw [e] at h
        simp only at h
        rcases ih st1 ip1 h with ⟨ip2, h1, h2⟩ | ⟨Y, st2, ip2, h1, h2⟩
        · refine Or.inl ⟨ip2, ?_, h2⟩
          simp only [parseConfigs, e, List.mem_cons]
          exact Or.inr h1
        · refine Or.inr ⟨Y, st2, ip2, ?_, h2⟩
          simp only [parseConfigs, e, List.mem_cons]
          exact Or.inr h1

/-- An iteration that goes on keeps the end marker at the bottom of the stack. -/
theorem parseStep_bottom (g : Grammar) (table : Table) (inp : List String) (X : String)
    (st : List String) (ip : Nat) (st1 : List String) (ip1 : Nat)
    (hb : (X :: st).getLast? = some END_MARK)
    (h : parseStep g table inp X st ip = .next st1 ip1) :
    st1 ≠ [] ∧ st1.getLast? = some END_MARK := by
  have key : X ≠ END_MARK → st ≠ [] ∧ st.getLast? = some END_MARK := by
    intro hX
    cases st with
    | nil =>
      simp only [List.getLast?_singleton, Option.some.injEq] at hb
      exact absurd hb hX
    | cons Y st => exact ⟨List.cons_ne_nil _ _, by rw [← hb, List.getLast?_cons_cons]⟩
  have app : ∀ r : List String, st ≠ [] → (r ++ st).getLast? = st.getLast? := by
    intro r hne
    rw [List.getLast?_append]
    cases hl : st.getLast? with
    | none => exact absurd (List.getLast?_eq_none_iff.mp hl) hne
    | some z => rfl
  unfold parseStep at h
  simp only at h
  split at h
  · simp at h
  · rename_i hacc
    split at h
    · split at h
      · rename_i hXa
        simp only [StepResult.next.injEq] at h
        have hX : X ≠ END_MARK := by
          intro e
          exact hacc ⟨e, by rw [← hXa]; exact e⟩
        rw [← h.1]
        exact key hX
      · simp at h
    · rename_i hnt
      have hX : X ≠ END_MARK := by
        intro e
        apply hnt
        simp [e]
      obtain ⟨k1, k2⟩ := key hX
      split at h
      · simp at h
      · split at h
        · simp at h
        · split at h
          · simp at h
          · split at h
            · simp only [StepResult.next.injEq] at h
              rw [← h.1]
              exact ⟨k1, k2⟩
            · simp only [StepResult.next.injEq] at h
              rw [← h.1]
              refine ⟨?_, ?_⟩
              · intro e
                exact k1 (List.append_eq_nil.mp e).2
              · rw [app _ k1]
                exact k2

/-- C30: for every grammar, table and input string, every configuration that the loop of
`predictiveParse` reaches has a non-empty stack with the end marker at its bottom; so
when the loop is left with a result, it is left in an iteration on a non-empty stack
that accepts (result `true`) or rejects (result `false`), never through the
`return false` that follows the loop. -/
theorem predictiveParse_stack (g : Grammar) (table : Table) (s : String) :
    (∀ fuel, ∀ c ∈ parseConfigs g table (tokenizeExpressionInput s) fuel [g.start, END_MARK] 0,
      c.1 ≠ [] ∧ c.1.getLast? = some END_MARK) ∧
    (∀ fuel b, predictiveParse fuel g table s = some b →
      ∃ X st ip,
        (X :: st, ip) ∈ parseConfigs g table (tokenizeExpressionInput s) fuel
          [g.start, END_MARK] 0 ∧
        ((parseStep g table (tokenizeExpressionInput s) X st ip = .accept ∧ b = true) ∨
          (parseStep g table (tokenizeExpressionInput s) X st ip = .reject ∧ b = false))) := by
  have inv : ∀ fuel,
      ∀ c ∈ parseConfigs g table (tokenizeExpressionInput s) fuel [g.start, END_MARK] 0,
      c.1 ≠ [] ∧ c.1.getLast? = some END_MARK := by
    intro fuel
    apply parseConfigs_invariant g table (tokenizeExpressionInput s)
      (fun st _ => st ≠ [] ∧ st.getLast? = some END_MARK)
    · intro X st ip st1 ip1 hP hstep
      exact parseStep_bottom g table _ X st ip st1 ip1 hP.2 hstep
    · exact ⟨List.cons_ne_nil _ _, rfl⟩
  refine ⟨inv, ?_⟩
  intro fuel b h
  unfold predictiveParse at h
  rcases parseLoop_final g table _ fuel _ 0 b h with ⟨ip1, h1, _⟩ | h1
  · exact absurd rfl (inv fuel _ h1).1
  · exact h1

/-- Witness for C30: on the expression grammar and the input `id`, the third configuration
has the stack `id T' E' $`, and the run is left by an accepting iteration. -/
theorem predictiveParse_stack_witness :
    (["id", "T'", "E'", "$"], 0)
        ∈ parseConfigs exprLL1 exprTable (tokenizeExpressionInput "id") 2
            [exprLL1.start, END_MARK] 0 ∧
    predictiveParse 20 exprLL1 exprTable "id" = some true ∧
    (["id", "T'", "E'", "$"] ≠ [] ∧ ["id", "T'", "E'", "$"].getLast? = some END_MARK) ∧
    ∃ X st ip,
      (X :: st, ip) ∈ parseConfigs exprLL1 exprTable (tokenizeExpressionInput "id") 20
        [exprLL1.start, END_MARK] 0 ∧
      ((parseStep exprLL1 exprTable (tokenizeExpressionInput "id") X st ip = .accept
          ∧ true = true) ∨
        (parseStep exprLL1 exprTable (tokenizeExpressionInput "id") X st ip = .reject
          ∧ true = false)) :=
  ⟨by decide!, by decide!,
    (predictiveParse_stack exprLL1 exprTable "id").1 2 (["id", "T'", "E'", "$"], 0) (by decide!),
    (predictiveParse_stack exprLL1 exprTable "id").2 20 true (by decide!)⟩

/-! ## The read cursor -/

/-- An accepting iteration sees the end marker on the stack and in the input. -/
theorem parseStep_accept (g : Grammar) (table : Table) (inp : List String) (X : String)
    (st : List String) (ip : Nat) (h : parseStep g table inp X st ip = .accept) :
    X = END_MARK ∧ (inp.get? ip).getD END_MARK = END_MARK := by
  unfold parseStep at h
  simp only at h
  split at h
  · rename_i hacc
    exact hacc
  · split at h
    · split at h <;> simp at h
    · split at h
      · simp at h
      · split at h
        · simp at h
        · split at h
          · simp at h
          · split at h <;> simp at h

/-- An iteration that goes on leaves the cursor where it is, or matches the token under
the cursor, which is then not the end marker, and moves the cursor by one. -/
theorem parseStep_cursor (g : Grammar) (table : Table) (inp : List String) (X : String)
    (st : List String) (ip : Nat) (st1 : List String) (ip1 : Nat)
    (h : parseStep g table inp X st ip = .next st1 ip1) :
    (ip1 = ip ∧ X ∈ g.nonterminals ∧ X ≠ END_MARK) ∨
    (ip1 = ip + 1 ∧ st1 = st ∧ inp.get? ip = some X ∧ X ≠ END_MARK) := by
  unfold parseStep at h
  simp only at h
  split at h
  · simp at h
  · rename_i hacc
    split at h
    · split at h
      · rename_i hXa
        simp only [StepResult.next.injEq] at h
        have hX : X ≠ END_MARK := by
          intro e
          exact hacc ⟨e, by rw [← hXa]; exact e⟩
        refine Or.inr ⟨h.2.symm, h.1.symm, ?_, hX⟩
        cases hg : inp.get? ip with
        | none =>
          rw [hg] at hXa
          exact absurd hXa hX
        | some a =>
          rw [hg] at hXa
          simp only [Option.getD_some] at hXa
          rw [hXa]
      · simp at h
    · rename_i hnt
      have hX : X ≠ END_MARK := by
        intro e
        apply hnt
        simp [e]
      have hN : X ∈ g.nonterminals := by
        have : g.isNonTerminal X = true := by
          cases hb : g.isNonTerminal X with
          | true => rfl
          | false =>
            exfalso
            apply hnt
            simp [hb]
        simpa [Grammar.isNonTerminal, setHas_iff] using this
      split at h
      · simp at h
      · split at h
        · simp at h
        · split at h
          · simp at h
          · split at h
            · simp only [StepResult.next.injEq] at h
              exact Or.inl ⟨h.2.symm, hN, hX⟩
            · simp only [StepResult.next.injEq] at h
              exact Or.inl ⟨h.2.symm, hN, hX⟩

theorem singleton_eq_end (c : Char) (h : String.singleton c = END_MARK) : c = '$' := by
  have := congrArg String.data h
  simpa [END_MARK, String.singleton] using this

/-- The tokens of a text without the character `$`: the end marker is the last token
and occurs nowhere else. -/
theorem tokens_end_last (s : String) (hs : '$' ∉ s.data) :
    ∃ body, tokenizeExpressionInput s = body ++ [END_MARK] ∧ END_MARK ∉ body := by
  obtain ⟨body, e, hb⟩ := tokens_body s.data.length s.data
  refine ⟨body, e, ?_⟩
  intro hmem
  rcases hb END_MARK hmem with h | ⟨c, hc, h⟩
  · exact absurd h (by decide)
  · exact hs (by rw [← singleton_eq_end c h.symm]; exact hc)

/-- With the end marker as the last token only, the cursor stays inside the token list. -/
theorem cursor_inside (g : Grammar) (table : Table) (body : List String) (fuel : Nat)
    (st : List String) :
    ∀ c ∈ parseConfigs g table (body ++ [END_MARK]) fuel st 0,
      c.2 < (body ++ [END_MARK]).length := by
  apply parseConfigs_invariant g table (body ++ [END_MARK])
    (fun _ ip => ip < (body ++ [END_MARK]).length)
  · intro X st ip st1 ip1 hP hstep
    rcases parseStep_cursor g table _ X st ip st1 ip1 hstep with ⟨h1, _⟩ | ⟨h1, _, h3, h4⟩
    · rw [h1]
      exact hP
    · rw [h1]
      simp only [List.length_append, List.length_singleton] at hP ⊢
      by_contra hlt
      have hip : ip = body.length := by omega
      rw [hip, List.get?_eq_getElem?, List.getElem?_append_right (le_refl _)] at h3
      simp at h3
      exact h4 h3.symm
  · simp

/-- C28: for every grammar and table and every input string that does not contain the
character `$`: in an accepting iteration of `predictiveParse` the read cursor is at the
last element of the token list of `tokenizeExpressionInput`, which is the end marker, so
every token before it has been matched and no input remains; and a run that returns
`true` is left in such an iteration. -/
theorem predictiveParse_cursor (g : Grammar) (table : Table) (s : String)
    (hs : '$' ∉ s.data) :
    (∀ fuel X st ip,
      (X :: st, ip) ∈ parseConfigs g table (tokenizeExpressionInput s) fuel
        [g.start, END_MARK] 0 →
      parseStep g table (tokenizeExpressionInput s) X st ip = .accept →
      ip + 1 = (tokenizeExpressionInput s).length ∧
        (tokenizeExpressionInput s).get? ip = some END_MARK) ∧
    (∀ fuel, predictiveParse fuel g table s = some true →
      ∃ X st ip,
        (X :: st, ip) ∈ parseConfigs g table (tokenizeExpressionInput s) fuel
          [g.start, END_MARK] 0 ∧
        parseStep g table (tokenizeExpressionInput s) X st ip = .accept ∧
        ip + 1 = (tokenizeExpressionInput s).length) := by
  obtain ⟨body, e, hb⟩ := tokens_end_last s hs
  have main : ∀ fuel X st ip,
      (X :: st, ip) ∈ parseConfigs g table (tokenizeExpressionInput s) fuel
        [g.start, END_MARK] 0 →
      parseStep g table (tokenizeExpressionInput s) X st ip = .accept →
      ip + 1 = (tokenizeExpressionInput s).length ∧
        (tokenizeExpressionInput s).get? ip = some END_MARK := by
    intro fuel X st ip hc hacc
    rw [e] at hc hacc ⊢
    have hlt := cursor_inside g table body fuel _ _ hc
    simp only [List.length_append, List.length_singleton] at hlt ⊢
    obtain ⟨_, ha⟩ := parseStep_accept g table _ X st ip hacc
    by_cases hip : ip < body.length
    · exfalso
      rw [List.get?_eq_getElem?, List.getElem?_append_left hip,
        List.getElem?_eq_getElem hip] at ha
      simp only [Option.getD_some] at ha
      exact hb (by rw [← ha]; exact List.getElem_mem _)
    · have hip' : ip = body.length := by omega
      refine ⟨by omega, ?_⟩
      rw [hip', List.get?_eq_getElem?, List.getElem?_append_right (le_refl _)]
      simp
  refine ⟨main, ?_⟩
  intro fuel h
  unfold predictiveParse at h
  rcases parseLoop_final g table _ fuel _ 0 true h with ⟨_, _, h2⟩ | ⟨X, st, ip, h1, h2⟩
  · simp at h2
  · rcases h2 with ⟨h2, _⟩ | ⟨_, h2⟩
    · exact ⟨X, st, ip, h1, h2, (main fuel X st ip h1 h2).1⟩
    · simp at h2

/-- Witness for C28: the input `id` is accepted with the cursor at position 1 of the two
tokens `id $`. -/
theorem predictiveParse_cursor_witness :
    '$' ∉ "id".data ∧
    (["$"], 1) ∈ parseConfigs exprLL1 exprTable (tokenizeExpressionInput "id") 20
      [exprLL1.start, END_MARK] 0 ∧
    parseStep exprLL1 exprTable (tokenizeExpressionInput "id") "$" [] 1 = .accept ∧
    (1 + 1 = (tokenizeExpressionInput "id").length ∧
      (tokenizeExpressionInput "id").get? 1 = some END_MARK) :=
  ⟨by decide, by decide!, by decide!,
    (predictiveParse_cursor exprLL1 exprTable "id" (by decide)).1 20 "$" [] 1
      (by decide!) (by decide!)⟩

/-- Counterexample to C28 as stated: the input `id$id` gives the tokens `id $ id $`, and
`predictiveParse` accepts it in the configuration with the cursor at position 1, where the
tokens `id $` at positions 2 and 3 have not been read. -/
theorem predictiveParse_cursor_counterexample :
    tokenizeExpressionInput "id$id" = ["id", "$", "id", "$"] ∧
    predictiveParse 20 exprLL1 exprTable "id$id" = some true ∧
    parseConfigs exprLL1 exprTable (tokenizeExpressionInput "id$id") 20
        [exprLL1.start, END_MARK] 0
      = [(["E", "$"], 0), (["T", "E'", "$"], 0), (["id", "T'", "E'", "$"], 0),
          (["T'", "E'", "$"], 1), (["E'", "$"], 1), (["$"], 1)] ∧
    parseStep exprLL1 exprTable (tokenizeExpressionInput "id$id") "$" [] 1 = .accept ∧
    1 + 1 ≠ (tokenizeExpressionInput "id$id").length := by
  decide!

/-! ## What an accepted input is derived from -/

/-- A filled cell without conflict of a table that `buildParseTable` returns holds an
alternative of the nonterminal of its row. -/
theorem cell_rhs_mem (g : Grammar) (FIRST FOLLOW : SetMap) (table : Table) (cols : List String)
    (hT : buildParseTable g FIRST FOLLOW = .ok (table, cols)) (A : String)
    (hA : A ∈ g.nonterminals) (t : String) (hf : (tableCell table A t).filled = true)
    (hc : (tableCell table A t).conflict = false) :
    (tableCell table A t).rhs ∈ mapGetD A g.prod [] := by
  have hrows := buildParseTable_rows g FIRST FOLLOW table cols hT
  obtain ⟨alts, hal⟩ := tableRows_prod g FIRST FOLLOW g.nonterminals _ table hrows A hA
  obtain ⟨rhs0, hrhs, hcand⟩ := hit_of_filled g FIRST FOLLOW table hrows A alts hal t hf
  rw [cell_of_hit g FIRST FOLLOW table hrows A hA alts hal rhs0 hrhs t hcand hc,
    mapGetD_of_some [] hal]
  exact hrhs

theorem generates_step (g : Grammar) (u pre suf rhs : List String) (A : String)
    (h : Generates g u (pre ++ A :: suf)) (hA : A ∈ g.nonterminals)
    (hrhs : rhs ∈ mapGetD A g.prod []) : Generates g u (pre ++ altBody rhs ++ suf) :=
  Relation.ReflTransGen.tail h ⟨pre, A, suf, rhs, hA, hrhs, rfl, rfl⟩

theorem end_not_mem_altBody (g : Grammar) (A : String) (rhs : List String)
    (hend : END_MARK ∉ rhsSymbols g.prod) (hrhs : rhs ∈ mapGetD A g.prod []) :
    END_MARK ∉ altBody rhs := by
  intro h
  have hmem : END_MARK ∈ rhs := by
    unfold altBody at h
    split at h
    · simp at h
    · exact h
  rcases mapGetD_mem A g.prod ([] : List (List String)) with e | e
  · rw [e] at hrhs
    simp at hrhs
  · exact hend ((mem_rhsSymbols_iff g.prod END_MARK).2 ⟨_, e, rhs, hrhs, hmem⟩)

/-- The invariant of the loop of `predictiveParse`: the stack is a sequence without the
end marker on top of the end marker, and the tokens read so far followed by that
sequence are derivable from the start symbol. -/
theorem sound_step (g : Grammar) (FIRST FOLLOW : SetMap) (table : Table) (cols : List String)
    (hT : buildParseTable g FIRST FOLLOW = .ok (table, cols))
    (hend : END_MARK ∉ rhsSymbols g.prod) (inp : List String) (X : String) (st : List String)
    (ip : Nat) (st1 : List String) (ip1 : Nat)
    (hP : ∃ body, X :: st = body ++ [END_MARK] ∧ END_MARK ∉ body ∧
      Generates g [g.start] (inp.take ip ++ body))
    (h : parseStep g table inp X st ip = .next st1 ip1) :
    ∃ body, st1 = body ++ [END_MARK] ∧ END_MARK ∉ body ∧
      Generates g [g.start] (inp.take ip1 ++ body) := by
  obtain ⟨body, hst, hb, hgen⟩ := hP
  have hcases := parseStep_cursor g table inp X st ip st1 ip1 h
  have hX : X ≠ END_MARK := by
    rcases hcases with ⟨_, _, h3⟩ | ⟨_, _, _, h4⟩
    · exact h3
    · exact h4
  obtain ⟨body1, rfl, hst'⟩ : ∃ body1, body = X :: body1 ∧ st = body1 ++ [END_MARK] := by
    cases body with
    | nil =>
      simp only [List.nil_append, List.cons.injEq] at hst
      exact absurd hst.1 hX
    | cons Y body1 =>
      simp only [List.cons_append, List.cons.injEq] at hst
      exact ⟨body1, by rw [hst.1], hst.2⟩
  have hb1 : END_MARK ∉ body1 := fun hm => hb (List.mem_cons_of_mem _ hm)
  rcases hcases with ⟨h1, hN, _⟩ | ⟨h1, h2, h3, _⟩
  · -- a nonterminal is replaced by the alternative of its cell
    have hnt : g.isNonTerminal X = true := by
      simpa [Grammar.isNonTerminal, setHas_iff] using hN
    rw [parseStep_nonterminal g table inp X st ip hnt hX] at h
    split at h
    · simp at h
    · rename_i hcell
      have hf : (tableCell table X ((inp.get? ip).getD END_MARK)).filled = true := by
        cases hfl : (tableCell table X ((inp.get? ip).getD END_MARK)).filled with
        | true => rfl
        | false => exact absurd (Or.inl hfl) hcell
      have hc : (tableCell table X ((inp.get? ip).getD END_MARK)).conflict = false := by
        cases hcl : (tableCell table X ((inp.get? ip).getD END_MARK)).conflict with
        | false => rfl
        | true => exact absurd (Or.inr hcl) hcell
      have hrhs := cell_rhs_mem g FIRST FOLLOW table cols hT X hN _ hf hc
      have hgen1 := generates_step g [g.start] (inp.take ip) body1 _ X hgen hN hrhs
      have hne := end_not_mem_altBody g X _ hend hrhs
      generalize (tableCell table X ((inp.get? ip).getD END_MARK)).rhs = rhs at h hgen1 hne
      refine ⟨altBody rhs ++ body1, ?_, ?_, ?_⟩
      · unfold altBody
        split at h
        · rename_i e
          simp only [StepResult.next.injEq] at h
          rw [if_pos e, ← h.1, hst']
          rfl
        · rename_i e
          simp only [StepResult.next.injEq] at h
          rw [if_neg e, ← h.1, hst', List.append_assoc]
      · intro hm
        rcases List.mem_append.mp hm with hm | hm
        · exact hne hm
        · exact hb1 hm
      · rw [h1, ← List.append_assoc]
        exact hgen1
  · -- the token under the cursor is matched
    refine ⟨body1, by rw [h2, hst'], hb1, ?_⟩
    have htake : inp.take (ip + 1) = inp.take ip ++ [X] := by
      rw [List.get?_eq_getElem?] at h3
      rw [List.take_succ, h3]
      rfl
    rw [h1, htake, List.append_assoc]
    exact hgen

/-- C27: for every grammar in which the end marker `$` occurs in no right-hand side and is
not the start symbol, with a table that `buildParseTable` returns for the grammar: in an
accepting iteration of `predictiveParse` the tokens before the read cursor are derivable
from the start symbol by the productions of the grammar (an alternative `[eps]` standing
for the empty sequence), and a run that returns `true` is left in such an iteration. -/
theorem predictiveParse_sound (g : Grammar) (FIRST FOLLOW : SetMap) (table : Table)
    (cols : List String) (hT : buildParseTable g FIRST FOLLOW = .ok (table, cols))
    (hstart : g.start ≠ END_MARK) (hend : END_MARK ∉ rhsSymbols g.prod) (s : String) :
    (∀ fuel X st ip,
      (X :: st, ip) ∈ parseConfigs g table (tokenizeExpressionInput s) fuel
        [g.start, END_MARK] 0 →
      parseStep g table (tokenizeExpressionInput s) X st ip = .accept →
      Generates g [g.start] ((tokenizeExpressionInput s).take ip)) ∧
    (∀ fuel, predictiveParse fuel g table s = some true →
      ∃ X st ip,
        (X :: st, ip) ∈ parseConfigs g table (tokenizeExpressionInput s) fuel
          [g.start, END_MARK] 0 ∧
        parseStep g table (tokenizeExpressionInput s) X st ip = .accept ∧
        Generates g [g.start] ((tokenizeExpressionInput s).take ip)) := by
  have main : ∀ fuel X st ip,
      (X :: st, ip) ∈ parseConfigs g table (tokenizeExpressionInput s) fuel
        [g.start, END_MARK] 0 →
      parseStep g table (tokenizeExpressionInput s) X st ip = .accept →
      Generates g [g.start] ((tokenizeExpressionInput s).take ip) := by
    intro fuel X st ip hc hacc
    have inv := parseConfigs_invariant g table (tokenizeExpressionInput s)
      (fun st ip => ∃ body, st = body ++ [END_MARK] ∧ END_MARK ∉ body ∧
        Generates g [g.start] ((tokenizeExpressionInput s).take ip ++ body))
      (fun X st ip st1 ip1 hP hstep =>
        sound_step g FIRST FOLLOW table cols hT hend _ X st ip st1 ip1 hP hstep)
      fuel [g.start, END_MARK] 0
      ⟨[g.start], rfl, by simpa using hstart.symm, Relation.ReflTransGen.refl⟩
      (X :: st, ip) hc
    obtain ⟨body, hst, hb, hgen⟩ := inv
    obtain ⟨hX, _⟩ := parseStep_accept g table _ X st ip hacc
    cases body with
    | nil => simpa using hgen
    | cons Y body1 =>
      exfalso
      simp only [List.cons_append, List.cons.injEq] at hst
      exact hb (by rw [← hst.1, hX]; exact List.mem_cons_self _ _)
  refine ⟨main, ?_⟩
  intro fuel h
  unfold predictiveParse at h
  rcases parseLoop_final g table _ fuel _ 0 true h with ⟨_, _, h2⟩ | ⟨X, st, ip, h1, h2⟩
  · simp at h2
  · rcases h2 with ⟨h2, _⟩ | ⟨_, h2⟩
    · exact ⟨X, st, ip, h1, h2, main fuel X st ip h1 h2⟩
    · simp at h2

/-- Witness for C27: the expression grammar accepts `id` with one token read, and `id`
is derivable from `E`. -/
theorem predictiveParse_sound_witness :
    buildParseTable exprLL1 exprFIRST exprFOLLOW
      = .ok (exprTable, ["$", "(", ")", "*", "+", "id"]) ∧
    exprLL1.start ≠ END_MARK ∧ END_MARK ∉ rhsSymbols exprLL1.prod ∧
    (tokenizeExpressionInput "id").take 1 = ["id"] ∧
    Generates exprLL1 [exprLL1.start] ((tokenizeExpressionInput "id").take 1) :=
  ⟨by decide!, by decide!, by decide!, by decide!,
    (predictiveParse_sound exprLL1 exprFIRST exprFOLLOW exprTable
      ["$", "(", ")", "*", "+", "id"] (by decide!) (by decide!) (by decide!) "id").1
      20 "$" [] 1 (by decide!) (by decide!)⟩

theorem dollarGrammar_eq :
    dollarGrammar
      = { start := "S", nonterminals := ["S"], terminals := ["$", "id"],
          prod := [("S", [["$", "id"]])] } := by
  decide!

/-- What the grammar `S -> $ id` derives from `S`. -/
theorem dollar_forms (v : List String) (h : Generates dollarGrammar ["S"] v) :
    v = ["S"] ∨ v = ["$", "id"] := by
  induction h with
  | refl => exact Or.inl rfl
  | tail _ hstep ih =>
    obtain ⟨pre, A, suf, rhs, hA, hrhs, hu, hv⟩ := hstep
    rw [dollarGrammar_eq] at hA hrhs
    simp only [List.mem_singleton] at hA
    subst hA
    have hr : rhs = ["$", "id"] := by
      have : mapGetD "S" [("S", [["$", "id"]])] ([] : List (List String)) = [["$", "id"]] := by
        decide!
      rw [this] at hrhs
      simpa using hrhs
    subst hr
    rcases ih with e | e
    · right
      rw [e] at hu
      cases pre with
      | nil =>
        simp only [List.nil_append, List.cons.injEq, true_and] at hu
        rw [hv, ← hu]
        decide!
      | cons p pre1 =>
        simp only [List.cons_append, List.cons.injEq] at hu
        have := hu.2
        simp at this
    · exfalso
      have hmem : "S" ∈ pre ++ "S" :: suf := by simp
      rw [← hu, e] at hmem
      revert hmem
      decide

/-- Counterexample to C27 as stated: for the rule line `S -> $ id`, which has no eps at
all, the table built from the computed FIRST and FOLLOW maps sends `S` on `$` to `$ id`;
on the empty input the parser expands `S` and accepts with `$` on top of the stack `$ id $`
and no token read, but the empty sequence is not derivable from `S`. -/
theorem predictiveParse_sound_counterexample :
    (∀ kv ∈ dollarGrammar.prod, ∀ rhs ∈ kv.2, EPS ∈ rhs → rhs = [EPS]) ∧
    computeFIRST 3 dollarGrammar = .ok dollarFIRST ∧
    computeFOLLOW 3 dollarGrammar dollarFIRST = .ok dollarFOLLOW ∧
    buildParseTable dollarGrammar dollarFIRST dollarFOLLOW = .ok (dollarTable, ["$", "id"]) ∧
    predictiveParse 3 dollarGrammar dollarTable "" = some true ∧
    parseConfigs dollarGrammar dollarTable (tokenizeExpressionInput "") 3
        [dollarGrammar.start, END_MARK] 0
      = [(["S", "$"], 0), (["$", "id", "$"], 0)] ∧
    parseStep dollarGrammar dollarTable (tokenizeExpressionInput "") "$" ["id", "$"] 0
      = .accept ∧
    (tokenizeExpressionInput "").take 0 = [] ∧
    ¬ Generates dollarGrammar [dollarGrammar.start] [] := by
  refine ⟨by decide!, by decide!, by decide!, by decide!, by decide!, by decide!, by decide!,
    by decide!, ?_⟩
  intro h
  have hs : dollarGrammar.start = "S" := by decide!
  rw [hs] at h
  rcases dollar_forms [] h with e | e <;> simp at e

/-! ## The shape of the substitution step -/

theorem substituteSpec_cons (Aj : String) (deltas : List (List String)) (rhs : List String)
    (more : List (List String)) :
    substituteSpec Aj deltas (rhs :: more)
      = (if beginsWith Aj rhs then deltas.map (expandAlt rhs.tail) else [rhs])
          ++ substituteSpec Aj deltas more := rfl

theorem substitute_foldl (Aj : String) (deltas alts acc : List (List String)) :
    alts.foldl
        (fun acc rhs =>
          if beginsWith Aj rhs then acc ++ deltas.map (expandAlt rhs.tail) else acc ++ [rhs])
        acc
      = acc ++ substituteSpec Aj deltas alts := by
  induction alts generalizing acc with
  | nil => simp [substituteSpec]
  | cons rhs more ih =>
    rw [List.foldl_cons, ih, substituteSpec_cons]
    by_cases h : beginsWith Aj rhs = true
    · simp only [h, if_true, List.append_assoc]
    · simp only [h, Bool.false_eq_true, if_false, List.append_assoc]

/-- C26: for every grammar and all symbols `Ai`, `Aj` (distinct or not),
`substituteAjIntoAi` gives `Ai` the list of its description: each alternative that begins
with `Aj` is replaced, in place, by one alternative per alternative `delta` of `Aj`, in
order, equal to `delta` (nothing when `delta` is `[eps]`) followed by the remainder after
the leading `Aj`, an empty result being `[eps]`, and the other alternatives of `Ai` keep
their value and position; the production list of every other symbol is unchanged, and so
are the sets of nonterminals and terminals and the start symbol. -/
theorem substituteAjIntoAi_shape (g : Grammar) (Ai Aj : String) :
    mapGetD Ai (substituteAjIntoAi g Ai Aj).prod []
      = substituteSpec Aj (mapGetD Aj g.prod []) (mapGetD Ai g.prod []) ∧
    (∀ X, X ≠ Ai → mapGetD X (substituteAjIntoAi g Ai Aj).prod [] = mapGetD X g.prod []) ∧
    (substituteAjIntoAi g Ai Aj).nonterminals = g.nonterminals ∧
    (substituteAjIntoAi g Ai Aj).terminals = g.terminals ∧
    (substituteAjIntoAi g Ai Aj).start = g.start := by
  refine ⟨?_, fun X hX => substitute_other g Ai Aj X hX, rfl, rfl, rfl⟩
  unfold substituteAjIntoAi
  simp only
  rw [mapGetD_mapSet_same, substitute_foldl, mapGetD_mapEnsure]
  rfl

/-- Witness for C26: in `S -> A a | b`, `A -> c | eps`, substituting `A` into `S` gives
`S -> c a | a | b` and leaves the list of `A` as it was. -/
theorem substituteAjIntoAi_shape_witness :
    mapGetD "S"
        (substituteAjIntoAi (readGrammarFromUser ["S -> A a | b", "A -> c | eps"]) "S" "A").prod
        []
      = [["c", "a"], ["a"], ["b"]] ∧
    "A" ≠ "S" ∧
    mapGetD "A"
        (substituteAjIntoAi (readGrammarFromUser ["S -> A a | b", "A -> c | eps"]) "S" "A").prod
        []
      = mapGetD "A" (readGrammarFromUser ["S -> A a | b", "A -> c | eps"]).prod [] :=
  ⟨by decide!, by decide,
    (substituteAjIntoAi_shape (readGrammarFromUser ["S -> A a | b", "A -> c | eps"])
      "S" "A").2.1 "A" (by decide)⟩

/-! ## The shape of the removal of immediate left recursion -/

theorem filter_eq_nil_of_all_false {α : Type} (p : α → Bool) (l : List α)
    (h : ∀ x ∈ l, p x = false) : l.filter p = [] := by
  rw [List.filter_eq_nil_iff]
  intro x hx
  rw [h x hx]
  exact Bool.false_ne_true

/-- C25 (amended): for every grammar `g` and nonterminal `A`, with `A'` the name that
`makeUniqueNonTerminal` gives for `A`. If some alternative of `A` begins with `A`, then
`eliminateImmediateLeftRecursion g A` gives `A` the alternatives `beta ++ [A']` for the
alternatives `beta` that do not begin with `A`, in order (`[A']` when `beta` is `[eps]`),
and gives `A'` the alternatives `alpha ++ [A']` for the tails `alpha` of the alternatives
that begin with `A`, in order (`[A']` when the tail is empty or is `[eps]`), followed by
`[eps]`; `A'` is added to the nonterminals and no other production list changes. If no
alternative of `A` begins with `A`, the grammar is unchanged, except that `A` gets an
empty production list when it has none. -/
theorem eliminateImmediateLeftRecursion_shape (g : Grammar) (A : String)
    (hA : A ∈ g.nonterminals) :
    ((∃ rhs ∈ mapGetD A g.prod [], beginsWith A rhs = true) →
      mapGetD A (eliminateImmediateLeftRecursion g A).prod []
        = ((mapGetD A g.prod []).filter (fun rhs => !beginsWith A rhs)).map
            (fun beta =>
              if beta = [EPS] then [makeUniqueNonTerminal g A]
              else beta ++ [makeUniqueNonTerminal g A]) ∧
      mapGetD (makeUniqueNonTerminal g A) (eliminateImmediateLeftRecursion g A).prod []
        = ((mapGetD A g.prod []).filter (beginsWith A)).map
            (fun rhs =>
              if rhs.tail = [] ∨ rhs.tail = [EPS] then [makeUniqueNonTerminal g A]
              else rhs.tail ++ [makeUniqueNonTerminal g A]) ++ [[EPS]] ∧
      (eliminateImmediateLeftRecursion g A).nonterminals
        = setInsert (makeUniqueNonTerminal g A) g.nonterminals ∧
      ∀ X, X ≠ A → X ≠ makeUniqueNonTerminal g A →
        mapGetD X (eliminateImmediateLeftRecursion g A).prod [] = mapGetD X g.prod []) ∧
    ((∀ rhs ∈ mapGetD A g.prod [], beginsWith A rhs = false) →
      eliminateImmediateLeftRecursion g A = { g with prod := mapEnsure A g.prod [] } ∧
      ((mapFind A g.prod).isSome = true → eliminateImmediateLeftRecursion g A = g) ∧
      ∀ X, mapGetD X (eliminateImmediateLeftRecursion g A).prod [] = mapGetD X g.prod []) := by
  constructor
  · rintro ⟨rhs0, hmem, hb⟩
    have hne : (List.map alphaTail (List.filter (beginsWith A) (mapGetD A g.prod []))) ≠ [] := by
      intro e
      have h1 : rhs0 ∈ List.filter (beginsWith A) (mapGetD A g.prod []) :=
        List.mem_filter.mpr ⟨hmem, hb⟩
      rw [List.map_eq_nil_iff] at e
      rw [e] at h1
      simp at h1
    have hfresh := makeUniqueNonTerminal_ne g A hA
    refine ⟨?_, ?_, ?_, fun X hX hX' => elim_other g A X hX hX'⟩
    · unfold eliminateImmediateLeftRecursion
      simp only [hne, if_false, makeUniqueNonTerminal_prod]
      rw [mapGetD_mapSet_ne (fun e => hfresh e.symm), mapGetD_mapSet_same]
    · unfold eliminateImmediateLeftRecursion
      simp only [hne, if_false, makeUniqueNonTerminal_prod]
      rw [mapGetD_mapSet_same, List.map_map]
      congr 1
      apply List.map_congr_left
      intro rhs _
      simp only [Function.comp, alphaTail]
      by_cases h1 : rhs.tail = []
      · simp [h1]
      · by_cases h2 : rhs.tail = [EPS]
        · simp [h2]
        · simp [h1, h2]
    · unfold eliminateImmediateLeftRecursion
      simp only [hne, if_false, makeUniqueNonTerminal_prod]
  · intro hall
    have hnil : (List.map alphaTail (List.filter (beginsWith A) (mapGetD A g.prod []))) = [] := by
      rw [filter_eq_nil_of_all_false _ _ hall]
      rfl
    have e1 : eliminateImmediateLeftRecursion g A = { g with prod := mapEnsure A g.prod [] } := by
      unfold eliminateImmediateLeftRecursion
      simp only [hnil, if_true]
    refine ⟨e1, ?_, ?_⟩
    · intro hs
      rw [e1, mapEnsure_of_isSome [] hs]
    · intro X
      rw [e1]
      exact mapGetD_mapEnsure _ _ _ _

/-- Witness for C25 (amended): for the rule line `A -> A x | A y z | b | eps` the result
is `A -> b A' | A'`, `A' -> x A' | y z A' | eps`. -/
theorem eliminateImmediateLeftRecursion_shape_witness :
    "A" ∈ (readGrammarFromUser ["A -> A x | A y z | b | eps"]).nonterminals ∧
    makeUniqueNonTerminal (readGrammarFromUser ["A -> A x | A y z | b | eps"]) "A" = "A'" ∧
    (eliminateImmediateLeftRecursion (readGrammarFromUser ["A -> A x | A y z | b | eps"])
        "A").prod
      = [("A", [["b", "A'"], ["A'"]]), ("A'", [["x", "A'"], ["y", "z", "A'"], ["eps"]])] ∧
    (eliminateImmediateLeftRecursion (readGrammarFromUser ["A -> A x | A y z | b | eps"])
        "A").nonterminals
      = setInsert (makeUniqueNonTerminal (readGrammarFromUser ["A -> A x | A y z | b | eps"]) "A")
          (readGrammarFromUser ["A -> A x | A y z | b | eps"]).nonterminals :=
  ⟨by decide!, by decide!, by decide!,
    ((eliminateImmediateLeftRecursion_shape
      (readGrammarFromUser ["A -> A x | A y z | b | eps"]) "A" (by decide!)).1
      ⟨["A", "x"], by decide!, by decide!⟩).2.2.1⟩

/-- Counterexample to C25 as stated: for the rule line `A -> A | a` the tail of the
alternative `A` is empty, so `[eps]`, and the alternative made of it for `A'` is `[A']`,
not `[eps] ++ [A']`; and for a nonterminal `A` without a production list, none of whose
alternatives begins with `A`, the grammar gets an empty list for `A`. -/
theorem eliminateImmediateLeftRecursion_shape_counterexample :
    makeUniqueNonTerminal selfLoopGrammar "A" = "A'" ∧
    mapGetD "A'" (eliminateImmediateLeftRecursion selfLoopGrammar "A").prod []
      = [["A'"], ["eps"]] ∧
    ((mapGetD "A" selfLoopGrammar.prod []).filter (beginsWith "A")).map
        (fun rhs => (if rhs.tail = [] then [EPS] else rhs.tail) ++ ["A'"]) ++ [[EPS]]
      = [["eps", "A'"], ["eps"]] ∧
    "A" ∈ bareGrammar.nonterminals ∧
    (∀ rhs ∈ mapGetD "A" bareGrammar.prod [], beginsWith "A" rhs = false) ∧
    eliminateImmediateLeftRecursion bareGrammar "A" ≠ bareGrammar := by
  decide!

/-! ## The shape of one left-factoring step -/

theorem factoredAt_ensure (g res : Grammar) (A B : String)
    (h : FactoredAt { g with prod := mapEnsure B g.prod [] } res A) : FactoredAt g res A := by
  unfold FactoredAt at h ⊢
  simp only [mapGetD_mapEnsure, makeUniqueNonTerminal_prod] at h
  exact h

/-- A call of `leftFactorOnce` that returns `true` has rewritten one nonterminal. -/
theorem leftFactorOnceFrom_true (more : List String) (g : Grammar)
    (hsub : ∀ A ∈ more, A ∈ g.nonterminals) (h : (leftFactorOnceFrom more g).1 = true) :
    ∃ A ∈ more, FactoredAt g (leftFactorOnceFrom more g).2 A := by
  induction more generalizing g with
  | nil => simp [leftFactorOnceFrom] at h
  | cons A more ih =>
    have hstep : ∀ h' : (leftFactorOnceFrom more { g with prod := mapEnsure A g.prod [] }).1 = true,
        ∃ B ∈ A :: more,
          FactoredAt g (leftFactorOnceFrom more { g with prod := mapEnsure A g.prod [] }).2 B := by
      intro h'
      obtain ⟨B, hB, hF⟩ := ih { g with prod := mapEnsure A g.prod [] }
        (fun X hX => hsub X (List.mem_cons_of_mem _ hX)) h'
      exact ⟨B, List.mem_cons_of_mem _ hB, factoredAt_ensure g _ B A hF⟩
    unfold leftFactorOnceFrom at h ⊢
    simp only at h ⊢
    split
    · rename_i h1
      simp only [h1, if_true] at h
      exact hstep h
    · rename_i h1
      simp only [h1, if_false] at h
      split
      · rename_i h2
        simp only [h2, if_true] at h
        exact hstep h
      · rename_i h2
        simp only [h2, if_false] at h
        split
        · rename_i h3
          simp only [h3, if_true] at h
          exact hstep h
        · rename_i h3
          have hA : A ∈ g.nonterminals := hsub A (List.mem_cons_self _ _)
          have hne := makeUniqueNonTerminal_ne g A hA
          refine ⟨A, List.mem_cons_self _ _, ?_⟩
          unfold FactoredAt Grammar.recomputeSymbols
          simp only [makeUniqueNonTerminal_prod]
          refine ⟨h2, by omega, ?_, ?_, ?_, trivial, trivial⟩
          · rw [mapGetD_mapSet_ne (fun e => hne e.symm), mapGetD_mapSet_same]
          · rw [mapGetD_mapSet_same]
          · intro X hX hX'
            rw [mapGetD_mapSet_ne hX', mapGetD_mapSet_ne hX, mapGetD_mapEnsure]

theorem le_commonPrefixLen (q s t : List String) (hq : EPS ∉ q) :
    q.length ≤ commonPrefixLen (q ++ s) (q ++ t) := by
  rw [commonPrefixLen_append q s t hq]
  exact Nat.le_add_right _ _

theorem remainder_append (p s : List String) :
    remainder p.length (p ++ s) = if s = [] then [EPS] else s := by
  unfold remainder
  simp

/-- C24 (amended): when `leftFactorOnce` returns `true` it has rewritten one nonterminal `A`
with a best prefix `p` and the name `A'` of `makeUniqueNonTerminal`: `p` has length at
least 1, contains no eps, is a common prefix of two alternatives of `A` at different
positions, and is a longest such prefix without eps; the new list of `A` is the
alternatives that do not start with `p`, in their order, followed by `p ++ [A']`; the list
of `A'` is, in order, each alternative that starts with `p` with `p` stripped, an empty
remainder being `[eps]`; the production lists of all other symbols are unchanged. -/
theorem leftFactorOnce_shape (g : Grammar) (h : (leftFactorOnce g).1 = true) :
    ∃ A p Aprime, A ∈ g.nonterminals ∧ Aprime = makeUniqueNonTerminal g A ∧ Aprime ≠ A ∧
      p = (bestOuter (mapGetD A g.prod []) (0, [])).2 ∧
      1 ≤ p.length ∧ EPS ∉ p ∧
      (∃ x y, [x, y].Sublist (mapGetD A g.prod []) ∧ (∃ s, x = p ++ s) ∧ (∃ t, y = p ++ t)) ∧
      (∀ q x y, [x, y].Sublist (mapGetD A g.prod []) → EPS ∉ q →
        (∃ s, x = q ++ s) → (∃ t, y = q ++ t) → q.length ≤ p.length) ∧
      mapGetD A (leftFactorOnce g).2.prod []
        = (mapGetD A g.prod []).filter (fun rhs => !sharesStart p.length p rhs)
            ++ [p ++ [Aprime]] ∧
      mapGetD Aprime (leftFactorOnce g).2.prod []
        = ((mapGetD A g.prod []).filter (sharesStart p.length p)).map (remainder p.length) ∧
      (∀ rhs, sharesStart p.length p rhs = true ↔ ∃ s, rhs = p ++ s) ∧
      (∀ s, remainder p.length (p ++ s) = if s = [] then [EPS] else s) ∧
      (∀ X, X ≠ A → X ≠ Aprime →
        mapGetD X (leftFactorOnce g).2.prod [] = mapGetD X g.prod []) := by
  obtain ⟨A, hA, hF⟩ := leftFactorOnceFrom_true g.nonterminals g (fun _ hX => hX) h
  obtain ⟨h0, _, hnewA, hnewP, hother, _, _⟩ := hF
  obtain ⟨hpair, hlen, heps, x, y, hsub, hx, hy⟩ := best_spec (mapGetD A g.prod []) h0
  refine ⟨A, (bestOuter (mapGetD A g.prod []) (0, [])).2, makeUniqueNonTerminal g A, hA, rfl,
    makeUniqueNonTerminal_ne g A hA, rfl, ?_, heps, ?_, ?_, ?_, ?_, ?_, ?_, hother⟩
  · rw [hlen]
    omega
  · exact ⟨x, y, hsub, (sharesStart_iff _ _ x hlen).1 hx, (sharesStart_iff _ _ y hlen).1 hy⟩
  · rintro q x1 y1 hs hq ⟨s, rfl⟩ ⟨t, rfl⟩
    have hp := List.Pairwise.sublist hs hpair
    simp only [List.pairwise_cons, List.mem_singleton, forall_eq, List.not_mem_nil,
      IsEmpty.forall_iff, implies_true, List.Pairwise.nil, and_true] at hp
    rw [hlen]
    exact le_trans (le_commonPrefixLen q s t hq) hp
  · rw [hlen]
    exact hnewA
  · rw [hlen]
    exact hnewP
  · intro rhs
    exact sharesStart_iff _ _ rhs rfl
  · intro s
    exact remainder_append _ s

/-- Witness for C24 (amended): the rule line `S -> a | a b` is rewritten to `S -> a S'`,
`S' -> eps | b`. -/
theorem leftFactorOnce_shape_witness :
    (leftFactorOnce prefixGrammar).1 = true ∧
    (leftFactorOnce prefixGrammar).2.prod = [("S", [["a", "S'"]]), ("S'", [["eps"], ["b"]])] ∧
    ∃ A p Aprime, A ∈ prefixGrammar.nonterminals ∧
      Aprime = makeUniqueNonTerminal prefixGrammar A ∧ Aprime ≠ A ∧
      p = (bestOuter (mapGetD A prefixGrammar.prod []) (0, [])).2 ∧
      1 ≤ p.length ∧ EPS ∉ p ∧
      (∃ x y, [x, y].Sublist (mapGetD A prefixGrammar.prod []) ∧
        (∃ s, x = p ++ s) ∧ (∃ t, y = p ++ t)) ∧
      (∀ q x y, [x, y].Sublist (mapGetD A prefixGrammar.prod []) → EPS ∉ q →
        (∃ s, x = q ++ s) → (∃ t, y = q ++ t) → q.length ≤ p.length) ∧
      mapGetD A (leftFactorOnce prefixGrammar).2.prod []
        = (mapGetD A prefixGrammar.prod []).filter (fun rhs => !sharesStart p.length p rhs)
            ++ [p ++ [Aprime]] ∧
      mapGetD Aprime (leftFactorOnce prefixGrammar).2.prod []
        = ((mapGetD A prefixGrammar.prod []).filter (sharesStart p.length p)).map
            (remainder p.length) ∧
      (∀ rhs, sharesStart p.length p rhs = true ↔ ∃ s, rhs = p ++ s) ∧
      (∀ s, remainder p.length (p ++ s) = if s = [] then [EPS] else s) ∧
      (∀ X, X ≠ A → X ≠ Aprime →
        mapGetD X (leftFactorOnce prefixGrammar).2.prod [] = mapGetD X prefixGrammar.prod []) :=
  ⟨by decide!, by decide!, leftFactorOnce_shape prefixGrammar (by decide!)⟩

/-- Counterexample to C24 as stated: for the rule line `A -> a eps b | a eps c` the two
alternatives have the common prefix `a eps` of length 2, but `leftFactorOnce` rewrites
`A` with the prefix `a`, because `commonPrefixLen` stops at eps: the result is
`A -> a A'`, `A' -> eps b | eps c`, not `A -> a eps A'`, `A' -> b | c`. -/
theorem leftFactorOnce_shape_counterexample :
    mapGetD "A" epsInsideGrammar.prod [] = [["a", "eps"] ++ ["b"], ["a", "eps"] ++ ["c"]] ∧
    (leftFactorOnce epsInsideGrammar).1 = true ∧
    (bestOuter (mapGetD "A" epsInsideGrammar.prod []) (0, [])).2 = ["a"] ∧
    (leftFactorOnce epsInsideGrammar).2.prod
      = [("A", [["a", "A'"]]), ("A'", [["eps", "b"], ["eps", "c"]])] ∧
    mapGetD "A" (leftFactorOnce epsInsideGrammar).2.prod [] ≠ [["a", "eps"] ++ ["A'"]] ∧
    mapGetD "A'" (leftFactorOnce epsInsideGrammar).2.prod [] ≠ [["b"], ["c"]] := by
  decide!

/-! ## The name of the new nonterminal -/

/-- The name that `makeUniqueNonTerminal` returns is not a nonterminal when one of the
names it can return is not. -/
theorem makeUniqueNonTerminal_new (g : Grammar) (base : String)
    (h : base ++ "'" ∉ g.nonterminals ∨ base ++ "_NEW" ∉ g.nonterminals ∨
      ∃ k, 1 ≤ k ∧ k ≤ 999 ∧
        (base ++ toString k ∉ g.nonterminals ∨ base ++ "'" ++ toString k ∉ g.nonterminals)) :
    makeUniqueNonTerminal g base ∉ g.nonterminals := by
  unfold makeUniqueNonTerminal
  by_cases h0 : base ++ "'" ∈ g.nonterminals
  · have e0 : setHas (base ++ "'") g.nonterminals = true := (setHas_iff _ _).2 h0
    simp only [e0, Bool.not_true, Bool.false_eq_true, if_false]
    rcases uniqueLoop_cases g.nonterminals base 999 1 with hl | ⟨hl, hall⟩
    · exact hl
    · rw [hl]
      rcases h with h | h | ⟨k, hk1, hk2, hk⟩
      · exact absurd h0 h
      · exact h
      · have := hall k hk1 (by omega)
        rcases hk with hk | hk
        · exact absurd this.1 hk
        · exact absurd this.2 hk
  · have e0 : setHas (base ++ "'") g.nonterminals = false := (setHas_false_iff _ _).2 h0
    simp only [e0, Bool.not_false, if_true]
    exact h0

/-- C29 (amended): the name `A'` that `leftFactorOnce` or `eliminateImmediateLeftRecursion`
obtains from `makeUniqueNonTerminal` and adds to the nonterminals is not a nonterminal of
the grammar before the rewrite, provided that one of the names `A'`, `A1`, `A'1`, ...,
`A999`, `A'999`, `A_NEW` is not a nonterminal. (It can occur as a symbol of a right-hand
side.) -/
theorem fresh_name_not_nonterminal (g : Grammar) :
    ((leftFactorOnce g).1 = true →
      ∃ A ∈ g.nonterminals,
        (leftFactorOnce g).2.nonterminals
          = setInsert (makeUniqueNonTerminal g A) g.nonterminals ∧
        ((A ++ "'" ∉ g.nonterminals ∨ A ++ "_NEW" ∉ g.nonterminals ∨
            ∃ k, 1 ≤ k ∧ k ≤ 999 ∧
              (A ++ toString k ∉ g.nonterminals ∨ A ++ "'" ++ toString k ∉ g.nonterminals)) →
          makeUniqueNonTerminal g A ∉ g.nonterminals)) ∧
    (∀ A, (∃ rhs ∈ mapGetD A g.prod [], beginsWith A rhs = true) →
      (eliminateImmediateLeftRecursion g A).nonterminals
        = setInsert (makeUniqueNonTerminal g A) g.nonterminals ∧
      ((A ++ "'" ∉ g.nonterminals ∨ A ++ "_NEW" ∉ g.nonterminals ∨
          ∃ k, 1 ≤ k ∧ k ≤ 999 ∧
            (A ++ toString k ∉ g.nonterminals ∨ A ++ "'" ++ toString k ∉ g.nonterminals)) →
        makeUniqueNonTerminal g A ∉ g.nonterminals)) := by
  constructor
  · intro h
    obtain ⟨A, hA, hF⟩ := leftFactorOnceFrom_true g.nonterminals g (fun _ hX => hX) h
    exact ⟨A, hA, hF.2.2.2.2.2.1, makeUniqueNonTerminal_new g A⟩
  · rintro A ⟨rhs0, hmem, hb⟩
    refine ⟨?_, makeUniqueNonTerminal_new g A⟩
    have hne : (List.map alphaTail (List.filter (beginsWith A) (mapGetD A g.prod []))) ≠ [] := by
      intro e
      have h1 : rhs0 ∈ List.filter (beginsWith A) (mapGetD A g.prod []) :=
        List.mem_filter.mpr ⟨hmem, hb⟩
      rw [List.map_eq_nil_iff] at e
      rw [e] at h1
      simp at h1
    unfold eliminateImmediateLeftRecursion
    simp only [hne, if_false, makeUniqueNonTerminal_prod]

/-- Witness for C29 (amended): for the rule line `A -> A x | b` the name `A'` is added and
was not a nonterminal. -/
theorem fresh_name_not_nonterminal_witness :
    makeUniqueNonTerminal (readGrammarFromUser ["A -> A x | b"]) "A" = "A'" ∧
    (eliminateImmediateLeftRecursion (readGrammarFromUser ["A -> A x | b"]) "A").nonterminals
      = setInsert (makeUniqueNonTerminal (readGrammarFromUser ["A -> A x | b"]) "A")
          (readGrammarFromUser ["A -> A x | b"]).nonterminals ∧
    makeUniqueNonTerminal (readGrammarFromUser ["A -> A x | b"]) "A"
      ∉ (readGrammarFromUser ["A -> A x | b"]).nonterminals :=
  ⟨by decide!,
    ((fresh_name_not_nonterminal (readGrammarFromUser ["A -> A x | b"])).2 "A"
      ⟨["A", "x"], by decide!, by decide!⟩).1,
    ((fresh_name_not_nonterminal (readGrammarFromUser ["A -> A x | b"])).2 "A"
      ⟨["A", "x"], by decide!, by decide!⟩).2 (Or.inl (by decide!))⟩

/-- Counterexample to C29 as stated: in `S -> S' a | S' b` the symbol `S'` occurs in the
right-hand sides as a terminal, and `leftFactorOnce` takes `S'` as the new name, giving
`S -> S' S'`, `S' -> a | b`; in `A -> A x | A'` the terminal `A'` is the name that
`eliminateImmediateLeftRecursion` takes, giving `A -> A' A'`, `A' -> x A' | eps`. -/
theorem fresh_name_captures_counterexample :
    primedGrammar
      = { start := "S", nonterminals := ["S"], terminals := ["S'", "a", "b"],
          prod := [("S", [["S'", "a"], ["S'", "b"]])] } ∧
    makeUniqueNonTerminal primedGrammar "S" = "S'" ∧
    "S'" ∈ rhsSymbols primedGrammar.prod ∧
    leftFactorOnce primedGrammar
      = (true, { start := "S", nonterminals := ["S", "S'"], terminals := ["a", "b"],
                 prod := [("S", [["S'", "S'"]]), ("S'", [["a"], ["b"]])] }) ∧
    primedRecGrammar
      = { start := "A", nonterminals := ["A"], terminals := ["A'", "x"],
          prod := [("A", [["A", "x"], ["A'"]])] } ∧
    makeUniqueNonTerminal primedRecGrammar "A" = "A'" ∧
    "A'" ∈ rhsSymbols primedRecGrammar.prod ∧
    eliminateImmediateLeftRecursion primedRecGrammar "A"
      = { start := "A", nonterminals := ["A", "A'"], terminals := ["A'", "x"],
          prod := [("A", [["A'", "A'"]]), ("A'", [["x", "A'"], ["eps"]])] } := by
  decide!

/-! ## FIRST is below every closed map -/

theorem mapFind_of_mem_getD (F : SetMap) (X x : String) (h : x ∈ mapGetD X F []) :
    ∃ fx, mapFind X F = some fx ∧ x ∈ fx := by
  unfold mapGetD at h
  cases e : mapFind X F with
  | none => rw [e] at h; simp at h
  | some fx => rw [e] at h; exact ⟨fx, rfl, h⟩

/-- The scan rule goes through a prefix of nonterminals whose sets in `F` contain `EPS`;
no assumption on the keys of `F` is needed. -/
theorem inFirstSeq_nullable (g : Grammar) (F : SetMap) (pre suf : List String) (x : String)
    (hn : NullablePre g F pre) (h : inFirstSeq F g suf x) : inFirstSeq F g (pre ++ suf) x := by
  induction pre with
  | nil => exact h
  | cons Y pre ih =>
    obtain ⟨h1, h2, h3⟩ := hn Y (List.mem_cons_self _ _)
    obtain ⟨fy, hfy, hmem⟩ := mapFind_of_mem_getD F Y EPS h3
    have ih' := ih (fun Z hZ => hn Z (List.mem_cons_of_mem _ hZ))
    rw [List.cons_append]
    unfold inFirstSeq
    simp only [h1, if_false, h2, Bool.false_eq_true, hfy]
    exact Or.inr ⟨hmem, ih'⟩

theorem below_addSym (F : SetMap) (A x : String) (st : SetMap × Bool)
    (hx : x ∈ mapGetD A F []) (h : MapLe st.1 F) : MapLe (addSym A x st).1 F := by
  intro B y hy
  rcases (mem_addSym A x st B y).1 hy with h1 | ⟨rfl, rfl⟩
  · exact h B y h1
  · exact hx

theorem below_addNonEps (F : SetMap) (A : String) (xs : List String) (st : SetMap × Bool)
    (hx : ∀ x ∈ xs, x ≠ EPS → x ∈ mapGetD A F []) (h : MapLe st.1 F) :
    MapLe (addNonEps A xs st).1 F := by
  unfold addNonEps
  induction xs generalizing st with
  | nil => exact h
  | cons x xs ih =>
    rw [List.foldl_cons]
    have hx' : ∀ y ∈ xs, y ≠ EPS → y ∈ mapGetD A F [] :=
      fun y hy => hx y (List.mem_cons_of_mem _ hy)
    split
    · exact ih st hx' h
    · rename_i hne
      exact ih _ hx' (below_addSym F A x st (hx x (List.mem_cons_self _ _) hne) h)

theorem firstScan_below (g : Grammar) (F : SetMap) (A : String) (suf pre : List String)
    (hcl : ∀ x, inFirstSeq F g (pre ++ suf) x → x ∈ mapGetD A F [])
    (hpre : NullablePre g F pre) (st : SetMap × Bool) (h : MapLe st.1 F) :
    MapLe (firstScan g A suf st).1 F := by
  induction suf generalizing pre st with
  | nil =>
    simp only [firstScan]
    exact below_addSym F A EPS st (hcl EPS (inFirstSeq_nullable g F pre [] EPS hpre rfl)) h
  | cons X rest ih =>
    unfold firstScan
    by_cases h1 : X = EPS
    · simp only [h1, if_true]
      apply below_addSym F A EPS st _ h
      apply hcl EPS
      apply inFirstSeq_nullable g F pre _ EPS hpre
      unfold inFirstSeq
      simp [h1]
    · simp only [h1, if_false]
      by_cases h2 : (g.isTerminal X || !g.isNonTerminal X) = true
      · simp only [h2, if_true]
        apply below_addSym F A X st _ h
        apply hcl X
        apply inFirstSeq_nullable g F pre _ X hpre
        unfold inFirstSeq
        simp [h1, h2]
      · have h2' := Bool.eq_false_iff.mpr h2
        simp only [h2', Bool.false_eq_true, if_false]
        have hl0 : MapLe (mapEnsure X st.1 []) F := by
          intro B y hy
          rw [mapGetD_mapEnsure] at hy
          exact h B y hy
        have hl1 : MapLe (addNonEps A (mapGetD X st.1 []) (mapEnsure X st.1 [], st.2)).1 F := by
          apply below_addNonEps F A _ _ _ hl0
          intro a ha hne
          apply hcl a
          apply inFirstSeq_nullable g F pre _ a hpre
          obtain ⟨fx, hfx, hmem⟩ := mapFind_of_mem_getD F X a (h X a ha)
          unfold inFirstSeq
          simp only [h1, if_false, h2', Bool.false_eq_true, hfx]
          exact Or.inl ⟨hmem, hne⟩
        split
        · rename_i h3
          apply ih (pre ++ [X]) _ _ _ hl1
          · simpa using hcl
          · intro Y hY
            rcases List.mem_append.mp hY with hY | hY
            · exact hpre Y hY
            · rw [List.mem_singleton.mp hY]
              exact ⟨h1, h2', hl1 X EPS ((setHas_iff _ _).1 h3)⟩
        · exact hl1

theorem firstAlts_below (g : Grammar) (F : SetMap) (A : String) (todo : List (List String))
    (hcl : ∀ rhs ∈ todo, ∀ x, inFirstSeq F g rhs x → x ∈ mapGetD A F [])
    (st : SetMap × Bool) (h : MapLe st.1 F) :
    MapLe (todo.foldl (fun acc rhs => firstScan g A rhs acc) st).1 F := by
  induction todo generalizing st with
  | nil => exact h
  | cons rhs todo ih =>
    rw [List.foldl_cons]
    exact ih (fun r hr => hcl r (List.mem_cons_of_mem _ hr)) _
      (firstScan_below g F A rhs [] (by simpa using hcl rhs (List.mem_cons_self _ _))
        (by intro Y hY; simp at hY) st h)

theorem firstPassFrom_below (g : Grammar) (F : SetMap) (nts : List String)
    (hcl : ∀ A ∈ nts, ∀ rhs ∈ mapGetD A g.prod [], ∀ x, inFirstSeq F g rhs x →
      x ∈ mapGetD A F [])
    (st st1 : SetMap × Bool) (hp : firstPassFrom g nts st = .ok st1) (h : MapLe st.1 F) :
    MapLe st1.1 F := by
  induction nts generalizing st with
  | nil =>
    simp only [firstPassFrom, Outcome.ok.injEq] at hp
    rw [← hp]
    exact h
  | cons A more ih =>
    unfold firstPassFrom at hp
    split at hp
    · simp at hp
    · rename_i alts hal
      apply ih (fun B hB => hcl B (List.mem_cons_of_mem _ hB)) _ hp
      apply firstAlts_below g F A alts _ st h
      have := hcl A (List.mem_cons_self _ _)
      rw [mapGetD_of_some [] hal] at this
      exact this

theorem firstLoop_below (g : Grammar) (F : SetMap)
    (hcl : ∀ A ∈ g.nonterminals, ∀ rhs ∈ mapGetD A g.prod [], ∀ x, inFirstSeq F g rhs x →
      x ∈ mapGetD A F [])
    (fuel : Nat) (F0 F1 : SetMap) (hl : firstLoop g fuel F0 = .ok F1) (h : MapLe F0 F) :
    MapLe F1 F := by
  induction fuel generalizing F0 with
  | zero => simp [firstLoop] at hl
  | succ n ih =>
    unfold firstLoop firstPass at hl
    split at hl
    · rename_i F2 changed e
      have h2 := firstPassFrom_below g F g.nonterminals hcl (F0, false) (F2, changed) e h
      split at hl
      · exact ih F2 hl h2
      · simp only [Outcome.ok.injEq] at hl
        rw [← hl]
        exact h2
    · simp at hl
    · simp at hl

/-- C23: for every grammar `g` (its symbols recomputed or not) and every map `F` that
assigns `{t}` to each terminal `t` and `{eps}` to eps and contains
`firstOfSequence(alt, F, g)` in `F[A]` for every nonterminal `A` and alternative `alt` of
`A`: every FIRST map that `computeFIRST` returns has `FIRST[A]` included in `F[A]` for
every nonterminal `A`, and `computeFIRST` does return one when every nonterminal has a
production list. When the symbols of `g` are recomputed, the returned map contains
`firstOfSequence(alt, FIRST, g)` in `FIRST[A]` itself. -/
theorem computeFIRST_least_fixed_point (g : Grammar) (F : SetMap)
    (hT : ∀ t ∈ g.terminals, mapGetD t F [] = [t]) (hE : mapGetD EPS F [] = [EPS])
    (hF : ∀ A ∈ g.nonterminals, ∀ alt ∈ mapGetD A g.prod [],
      ∀ x ∈ firstOfSequence alt F g, x ∈ mapGetD A F []) :
    (∀ fuel FIRST, computeFIRST fuel g = .ok FIRST →
      ∀ A ∈ g.nonterminals, ∀ x ∈ mapGetD A FIRST [], x ∈ mapGetD A F []) ∧
    ((∀ A ∈ g.nonterminals, (mapFind A g.prod).isSome = true) →
      ∃ fuel FIRST, computeFIRST fuel g = .ok FIRST ∧
        ∀ A ∈ g.nonterminals, ∀ x ∈ mapGetD A FIRST [], x ∈ mapGetD A F []) ∧
    (g.recomputeSymbols = g → ∀ fuel FIRST, computeFIRST fuel g = .ok FIRST →
      ∀ A ∈ g.nonterminals, ∀ alt ∈ mapGetD A g.prod [],
        ∀ x ∈ firstOfSequence alt FIRST g, x ∈ mapGetD A FIRST []) := by
  have main : ∀ fuel FIRST, computeFIRST fuel g = .ok FIRST →
      ∀ A ∈ g.nonterminals, ∀ x ∈ mapGetD A FIRST [], x ∈ mapGetD A F [] := by
    intro fuel FIRST h A _ x hx
    have hcl : ∀ A ∈ g.nonterminals, ∀ rhs ∈ mapGetD A g.prod [], ∀ x, inFirstSeq F g rhs x →
        x ∈ mapGetD A F [] := fun A hA rhs hrhs x hx =>
      hF A hA rhs hrhs x ((mem_firstOfSequence F g rhs x).2 hx)
    have hinit : MapLe (firstInit g) F := by
      intro X y hy
      obtain ⟨e, hX⟩ := mem_firstInit g X y hy
      rw [e]
      rcases hX with hX | hX
      · rw [hX, hE]
        exact List.mem_singleton.mpr rfl
      · rw [hT X hX]
        exact List.mem_singleton.mpr rfl
    exact firstLoop_below g F hcl fuel _ FIRST h hinit A x hx
  refine ⟨main, ?_, ?_⟩
  · intro hprod
    obtain ⟨FIRST, h⟩ := computeFIRST_returns g hprod
    exact ⟨_, FIRST, h, main _ FIRST h⟩
  · intro hre fuel FIRST h A hA alt halt x hx
    obtain ⟨alts, hal, hiff⟩ := (computeFIRST_scan_rule fuel g FIRST hre h).1 A hA
    rw [mapGetD_of_some [] hal] at halt
    exact (hiff x).2 (Or.inl ⟨alt, halt, hx⟩)

/-- Witness for C23: for `S -> A b`, `A -> a | eps` the map `epsUpper`, which has `b` in the
set of `A`, satisfies the three conditions, and the computed FIRST map is below it. -/
theorem computeFIRST_least_fixed_point_witness :
    computeFIRST 2 epsGrammar = .ok epsFIRST ∧
    "b" ∈ mapGetD "A" epsUpper [] ∧ "b" ∉ mapGetD "A" epsFIRST [] ∧
    ∀ A ∈ epsGrammar.nonterminals, ∀ x ∈ mapGetD A epsFIRST [], x ∈ mapGetD A epsUpper [] :=
  ⟨by decide!, by decide!, by decide!,
    (computeFIRST_least_fixed_point epsGrammar epsUpper (by decide!) (by decide!)
      (by decide!)).1 2 epsFIRST (by decide!)⟩

/-! ## The key set of the production map -/

theorem keysExact_set_mem (nts : List String) (prod : List (String × List (List String)))
    (k : String) (v : List (List String)) (hk : k ∈ nts) (h : KeysExact nts prod) :
    KeysExact nts (mapSet k v prod) := by
  refine ⟨fun A hA => mapFind_isSome_mapSet _ _ (h.1 A hA), ?_⟩
  intro kv hkv
  rcases mem_mapSet k v prod kv hkv with e | e
  · rw [e]
    exact hk
  · exact h.2 kv e

theorem keysExact_set_insert (nts : List String) (prod : List (String × List (List String)))
    (k : String) (v : List (List String)) (h : KeysExact nts prod) :
    KeysExact (setInsert k nts) (mapSet k v prod) := by
  constructor
  · intro A hA
    rw [mapFind_mapSet]
    split
    · rfl
    · rename_i hne
      rcases (mem_setInsert k A nts).1 hA with e | e
      · exact absurd e hne
      · exact h.1 A e
  · intro kv hkv
    rcases mem_mapSet k v prod kv hkv with e | e
    · rw [e]
      exact mem_setInsert_self k nts
    · exact mem_setInsert_of_mem (h.2 kv e)

theorem keysExact_ensure_mem (nts : List String) (prod : List (String × List (List String)))
    (k : String) (hk : k ∈ nts) (h : KeysExact nts prod) :
    KeysExact nts (mapEnsure k prod []) := by
  rw [mapEnsure_of_isSome [] (h.1 k hk)]
  exact h

theorem prodKeys_empty : ProdKeys Grammar.empty := by
  decide

theorem splitAlternatives_ne_nil (cur cs : List Char) : splitAlternatives cur cs ≠ [] := by
  induction cs generalizing cur with
  | nil => simp [splitAlternatives]
  | cons c cs ih =>
    unfold splitAlternatives
    split
    · simp
    · exact ih _

theorem keysExact_pushes (nts : List String) (lhs : String) (hl : lhs ∈ nts)
    (parts : List String) (prod : List (String × List (List String)))
    (h : KeysExact nts prod) :
    KeysExact nts
      (parts.foldl
        (fun pr p =>
          if tokenizeGrammarSegment p = [EPS] then pushProd lhs [EPS] pr
          else pushProd lhs (tokenizeGrammarSegment p) pr)
        prod) := by
  induction parts generalizing prod with
  | nil => exact h
  | cons p parts ih =>
    rw [List.foldl_cons]
    apply ih
    split
    · exact keysExact_set_mem nts prod lhs _ hl h
    · exact keysExact_set_mem nts prod lhs _ hl h

/-- The statement `addRuleLine` keeps the key set of `prod` equal to the nonterminal set:
the left-hand side is inserted into both. -/
theorem prodKeys_addRuleLine (g : Grammar) (line : String) (h : ProdKeys g) :
    ProdKeys (addRuleLine g line) := by
  unfold addRuleLine
  simp only
  split
  · exact h
  · split
    · exact h
    · split
      · exact h
      · rename_i pos _ _
        unfold ProdKeys
        simp only
        have hne := splitAlternatives_ne_nil [] (trimChars (List.drop (pos + 2)
          (trimChars line.data)))
        generalize splitAlternatives [] _ = parts at hne
        cases parts with
        | nil => exact absurd rfl hne
        | cons p parts =>
          rw [List.foldl_cons]
          apply keysExact_pushes _ _ (mem_setInsert_self _ _)
          split
          · exact keysExact_set_insert _ _ _ _ h
          · exact keysExact_set_insert _ _ _ _ h

theorem prodKeys_lines (lines : List String) (g : Grammar) (h : ProdKeys g) :
    ProdKeys (lines.foldl addRuleLine g) := by
  induction lines generalizing g with
  | nil => exact h
  | cons l lines ih =>
    rw [List.foldl_cons]
    exact ih _ (prodKeys_addRuleLine g l h)

theorem prodKeys_recompute (g : Grammar) (h : ProdKeys g) : ProdKeys g.recomputeSymbols := h

/-! ## Left factoring keeps the key set -/

theorem prodKeys_leftFactorOnceFrom (more : List String) (g : Grammar)
    (hsub : ∀ A ∈ more, A ∈ g.nonterminals) (h : ProdKeys g) :
    ProdKeys (leftFactorOnceFrom more g).2 := by
  induction more generalizing g with
  | nil => exact h
  | cons A more ih =>
    have hA : A ∈ g.nonterminals := hsub A (List.mem_cons_self _ _)
    have h0 : KeysExact g.nonterminals (mapEnsure A g.prod []) :=
      keysExact_ensure_mem _ _ A hA h
    have hskip : ProdKeys (leftFactorOnceFrom more { g with prod := mapEnsure A g.prod [] }).2 :=
      ih _ (fun X hX => hsub X (List.mem_cons_of_mem _ hX)) h0
    unfold leftFactorOnceFrom
    simp only
    split
    · exact hskip
    · split
      · exact hskip
      · split
        · exact hskip
        · unfold ProdKeys Grammar.recomputeSymbols
          simp only
          exact keysExact_set_insert _ _ _ _ (keysExact_set_mem _ _ A _ hA h0)

theorem prodKeys_leftFactor (n : Nat) (g g' : Grammar) (h : ProdKeys g)
    (hg : leftFactor n g = some g') : ProdKeys g' := by
  induction n generalizing g with
  | zero => simp [leftFactor] at hg
  | succ n ih =>
    have h1 : ProdKeys (leftFactorOnce g).2 :=
      prodKeys_leftFactorOnceFrom _ g (fun _ hX => hX) h
    unfold leftFactor at hg
    split at hg
    · exact ih _ h1 hg
    · simp only [Option.some.injEq] at hg
      rw [← hg]
      exact h1

/-! ## The steps of left-recursion elimination keep the key set -/

theorem prodKeys_substitute (g : Grammar) (Ai Aj : String) (hi : Ai ∈ g.nonterminals)
    (hj : Aj ∈ g.nonterminals) (h : ProdKeys g) : ProdKeys (substituteAjIntoAi g Ai Aj) := by
  unfold substituteAjIntoAi ProdKeys
  simp only
  apply keysExact_set_mem _ _ Ai _ hi
  split
  · exact keysExact_ensure_mem _ _ Aj hj (keysExact_ensure_mem _ _ Ai hi h)
  · exact keysExact_ensure_mem _ _ Ai hi h

theorem prodKeys_elim (g : Grammar) (A : String) (hA : A ∈ g.nonterminals) (h : ProdKeys g) :
    ProdKeys (eliminateImmediateLeftRecursion g A) := by
  have h0 : KeysExact g.nonterminals (mapEnsure A g.prod []) :=
    keysExact_ensure_mem _ _ A hA h
  unfold eliminateImmediateLeftRecursion ProdKeys
  simp only
  split
  · exact h0
  · exact keysExact_set_insert _ _ _ _ (keysExact_set_mem _ _ A _ hA h0)

theorem elim_nonterminals_sub (g : Grammar) (A X : String) (hX : X ∈ g.nonterminals) :
    X ∈ (eliminateImmediateLeftRecursion g A).nonterminals := by
  rcases elim_nonterminals g A with e | e
  · rw [e]
    exact hX
  · rw [e]
    exact mem_setInsert_of_mem hX

theorem prodKeys_substitute_fold (Ai : String) (l : List String) (g : Grammar)
    (hi : Ai ∈ g.nonterminals) (hl : ∀ Aj ∈ l, Aj ∈ g.nonterminals) (h : ProdKeys g) :
    ProdKeys (l.foldl (fun acc Aj => substituteAjIntoAi acc Ai Aj) g) ∧
    ∀ g' ∈ substituteTrace Ai l g, ProdKeys g' := by
  induction l generalizing g with
  | nil => exact ⟨h, by intro g' hg'; simp [substituteTrace] at hg'⟩
  | cons Aj l ih =>
    have h1 := prodKeys_substitute g Ai Aj hi (hl Aj (List.mem_cons_self _ _)) h
    obtain ⟨i1, i2⟩ := ih (substituteAjIntoAi g Ai Aj) hi
      (fun X hX => hl X (List.mem_cons_of_mem _ hX)) h1
    refine ⟨by rw [List.foldl_cons]; exact i1, ?_⟩
    intro g' hg'
    simp only [substituteTrace, List.mem_cons] at hg'
    rcases hg' with e | e
    · rw [e]
      exact h1
    · exact i2 g' e

/-- Every grammar that the loop of `eliminateLeftRecursion` goes through has the key set
of `prod` equal to the nonterminal set, when the grammar it starts from has. -/
theorem prodKeys_elrTrace (fuel : Nat) (g : Grammar) (nts : List String) (i : Nat)
    (hn : ∀ X ∈ nts, X ∈ g.nonterminals) (h : ProdKeys g) :
    ∀ g' ∈ elrTrace fuel g nts i, ProdKeys g' := by
  induction fuel generalizing g nts i with
  | zero =>
    intro g' hg'
    simp only [elrTrace, List.mem_singleton] at hg'
    rw [hg']
    exact h
  | succ n ih =>
    intro g' hg'
    unfold elrTrace at hg'
    split at hg'
    · simp only [List.mem_cons, List.mem_singleton, List.not_mem_nil, or_false] at hg'
      rcases hg' with e | e
      · rw [e]
        exact h
      · rw [e]
        exact h
    · rename_i Ai hget
      have hAi : Ai ∈ g.nonterminals := by
        exact hn Ai (List.get?_mem hget)
      obtain ⟨h1, ht⟩ := prodKeys_substitute_fold Ai (nts.take i) g hAi
        (fun X hX => hn X (List.mem_of_mem_take hX)) h
      have hnt1 : ((nts.take i).foldl (fun acc Aj => substituteAjIntoAi acc Ai Aj) g).nonterminals
          = g.nonterminals := substitute_fold_nonterminals g Ai (nts.take i)
      have h2 := prodKeys_elim _ Ai (by rw [hnt1]; exact hAi) h1
      have hn2 : ∀ X ∈ nts, X ∈ (eliminateImmediateLeftRecursion
          ((nts.take i).foldl (fun acc Aj => substituteAjIntoAi acc Ai Aj) g) Ai).nonterminals :=
        fun X hX => elim_nonterminals_sub _ Ai X (by rw [hnt1]; exact hn X hX)
      simp only [List.mem_cons, List.mem_append] at hg'
      rcases hg' with e | e | e
      · rw [e]
        exact h
      · exact ht g' e
      · split at e
        · split at e
          · exact ih _ _ _ (fun _ hX => hX) h2 g' e
          · exact ih _ _ _ (fun _ hX => hX) h2 g' e
        · exact ih _ _ _ hn2 h2 g' e

theorem elrLoop_mem_trace (fuel : Nat) (g : Grammar) (nts : List String) (i : Nat)
    (g' : Grammar) (hg : elrLoop fuel g nts i = some g') : g' ∈ elrTrace fuel g nts i := by
  induction fuel generalizing g nts i with
  | zero => simp [elrLoop] at hg
  | succ n ih =>
    unfold elrLoop at hg
    unfold elrTrace
    cases hget : nts.get? i with
    | none =>
      rw [hget] at hg
      simp only [Option.some.injEq] at hg
      rw [← hg]
      simp
    | some Ai =>
      rw [hget] at hg
      simp only at hg ⊢
      generalize eliminateImmediateLeftRecursion _ Ai = g2 at hg ⊢
      simp only [List.mem_cons, List.mem_append]
      right
      right
      by_cases hlen : g2.nonterminals.length ≠ nts.length
      · rw [if_pos hlen] at hg ⊢
        cases hk : findIndex Ai g2.nonterminals with
        | none =>
          rw [hk] at hg
          exact ih _ _ _ hg
        | some k =>
          rw [hk] at hg
          exact ih _ _ _ hg
      · rw [if_neg hlen] at hg ⊢
        exact ih _ _ _ hg

/-! ## The lookups `prod.at(A)` -/

theorem firstPassFrom_some (g : Grammar) (nts : List String)
    (hprod : ∀ A ∈ nts, (mapFind A g.prod).isSome = true) (st : SetMap × Bool) :
    ∃ st1, firstPassFrom g nts st = .ok st1 := by
  induction nts generalizing st with
  | nil => exact ⟨st, rfl⟩
  | cons A more ih =>
    obtain ⟨alts, hal⟩ := Option.isSome_iff_exists.mp (hprod A (List.mem_cons_self _ _))
    unfold firstPassFrom
    rw [hal]
    exact ih (fun B hB => hprod B (List.mem_cons_of_mem _ hB)) _

theorem firstLoop_not_threw (g : Grammar)
    (hprod : ∀ A ∈ g.nonterminals, (mapFind A g.prod).isSome = true) (fuel : Nat)
    (F : SetMap) : firstLoop g fuel F ≠ .threw := by
  induction fuel generalizing F with
  | zero => simp [firstLoop]
  | succ n ih =>
    obtain ⟨st1, e⟩ := firstPassFrom_some g g.nonterminals hprod (F, false)
    unfold firstLoop firstPass
    rw [e]
    obtain ⟨F1, changed⟩ := st1
    simp only
    split
    · exact ih F1
    · simp

theorem followPassFrom_some (g : Grammar) (FIRST : SetMap) (nts : List String)
    (hprod : ∀ A ∈ nts, (mapFind A g.prod).isSome = true) (st : SetMap × Bool) :
    ∃ st1, followPassFrom g FIRST nts st = .ok st1 := by
  induction nts generalizing st with
  | nil => exact ⟨st, rfl⟩
  | cons A more ih =>
    obtain ⟨alts, hal⟩ := Option.isSome_iff_exists.mp (hprod A (List.mem_cons_self _ _))
    unfold followPassFrom
    rw [hal]
    exact ih (fun B hB => hprod B (List.mem_cons_of_mem _ hB)) _

theorem followLoop_not_threw (g : Grammar) (FIRST : SetMap)
    (hprod : ∀ A ∈ g.nonterminals, (mapFind A g.prod).isSome = true) (fuel : Nat)
    (F : SetMap) : followLoop g FIRST fuel F ≠ .threw := by
  induction fuel generalizing F with
  | zero => simp [followLoop]
  | succ n ih =>
    obtain ⟨st1, e⟩ := followPassFrom_some g FIRST g.nonterminals hprod (F, false)
    unfold followLoop followPass
    rw [e]
    obtain ⟨F1, changed⟩ := st1
    simp only
    split
    · exact ih F1
    · simp

theorem tableAlts_some (g : Grammar) (FIRST FOLLOW : SetMap) (A : String)
    (hA : (mapFind A FOLLOW).isSome = true) (alts : List (List String)) (T : Table) :
    ∃ T1, tableAlts g FIRST FOLLOW A alts T = .ok T1 := by
  induction alts generalizing T with
  | nil => exact ⟨T, rfl⟩
  | cons rhs alts ih =>
    obtain ⟨fa, hfa⟩ := Option.isSome_iff_exists.mp hA
    have h1 : ∃ T1, tableAlt g FIRST FOLLOW A rhs T = .ok T1 := by
      unfold tableAlt
      simp only [hfa]
      split
      · exact ⟨_, rfl⟩
      · exact ⟨_, rfl⟩
    obtain ⟨T1, e1⟩ := h1
    unfold tableAlts
    rw [e1]
    exact ih T1

theorem tableRows_some (g : Grammar) (FIRST FOLLOW : SetMap) (nts : List String)
    (hprod : ∀ A ∈ nts, (mapFind A g.prod).isSome = true)
    (hF : ∀ A ∈ nts, (mapFind A FOLLOW).isSome = true) (T : Table) :
    ∃ T1, tableRows g FIRST FOLLOW nts T = .ok T1 := by
  induction nts generalizing T with
  | nil => exact ⟨T, rfl⟩
  | cons A more ih =>
    obtain ⟨alts, hal⟩ := Option.isSome_iff_exists.mp (hprod A (List.mem_cons_self _ _))
    obtain ⟨T1, e1⟩ := tableAlts_some g FIRST FOLLOW A (hF A (List.mem_cons_self _ _)) alts T
    unfold tableRows
    rw [hal]
    simp only
    rw [e1]
    exact ih (fun B hB => hprod B (List.mem_cons_of_mem _ hB))
      (fun B hB => hF B (List.mem_cons_of_mem _ hB)) T1

/-- C31: the key set of `prod` is the nonterminal set (every nonterminal has a production
list and every key is a nonterminal) for every grammar built from the empty grammar by a
sequence of `addRuleLine` calls, also after `recomputeSymbols`. A grammar with this
property keeps it through `addRuleLine`, through each call of `leftFactorOnce` and through
`leftFactor`, which returns, through every grammar that the loop of
`eliminateLeftRecursion` goes through (after each call of `substituteAjIntoAi` and of
`eliminateImmediateLeftRecursion`) and in the grammar it returns. For such a grammar the
lookup `prod.at(A)` succeeds for every nonterminal `A`: `computeFIRST` and `computeFOLLOW`
never throw and do return, and `buildParseTable` returns for every FIRST map and every
FOLLOW map that has a set for each nonterminal. -/
theorem prod_keys_invariant :
    (∀ lines : List String,
      ProdKeys (lines.foldl addRuleLine Grammar.empty) ∧ ProdKeys (readGrammarFromUser lines)) ∧
    (∀ g : Grammar, ProdKeys g →
      (∀ line, ProdKeys (addRuleLine g line)) ∧
      ProdKeys (leftFactorOnce g).2 ∧
      (∃ n g', leftFactor n g = some g') ∧
      (∀ n g', leftFactor n g = some g' → ProdKeys g') ∧
      (∀ fuel, ∀ g' ∈ elrTrace fuel g g.nonterminals 0, ProdKeys g') ∧
      (∀ fuel g', eliminateLeftRecursion fuel g = some g' → ProdKeys g') ∧
      (∀ A ∈ g.nonterminals, ∃ alts, mapFind A g.prod = some alts) ∧
      (∀ fuel, computeFIRST fuel g ≠ .threw) ∧
      (∃ fuel FIRST, computeFIRST fuel g = .ok FIRST) ∧
      (∀ FIRST fuel, computeFOLLOW fuel g FIRST ≠ .threw) ∧
      (∀ FIRST, ∃ fuel FOLLOW, computeFOLLOW fuel g FIRST = .ok FOLLOW) ∧
      (∀ FIRST FOLLOW, HasKeys g FOLLOW →
        ∃ table, buildParseTable g FIRST FOLLOW = .ok (table, tableCols g))) := by
  constructor
  · intro lines
    have h := prodKeys_lines lines Grammar.empty prodKeys_empty
    exact ⟨h, prodKeys_recompute _ h⟩
  · intro g h
    have hprod : ∀ A ∈ g.nonterminals, (mapFind A g.prod).isSome = true := h.1
    refine ⟨fun line => prodKeys_addRuleLine g line h,
      prodKeys_leftFactorOnceFrom _ g (fun _ hX => hX) h,
      ⟨_, leftFactor_of_measure (factorMeasure g + 1) g (Nat.lt_succ_self _)⟩,
      fun n g' hg => prodKeys_leftFactor n g g' h hg,
      fun fuel => prodKeys_elrTrace fuel g g.nonterminals 0 (fun _ hX => hX) h,
      ?_, fun A hA => Option.isSome_iff_exists.mp (hprod A hA),
      fun fuel => firstLoop_not_threw g hprod fuel _,
      ?_, fun FIRST fuel => followLoop_not_threw g FIRST hprod fuel _, ?_, ?_⟩
    · intro fuel g' hg
      exact prodKeys_elrTrace fuel g g.nonterminals 0 (fun _ hX => hX) h g'
        (elrLoop_mem_trace fuel g g.nonterminals 0 g' hg)
    · obtain ⟨FIRST, e⟩ := computeFIRST_returns g hprod
      exact ⟨_, FIRST, e⟩
    · intro FIRST
      obtain ⟨FOLLOW, e⟩ := computeFOLLOW_returns g FIRST hprod
      exact ⟨_, FOLLOW, e⟩
    · intro FIRST FOLLOW hk
      obtain ⟨T, e⟩ := tableRows_some g FIRST FOLLOW g.nonterminals hprod hk (blankTable g)
      refine ⟨T, ?_⟩
      unfold buildParseTable
      rw [e]

/-- Witness for C31: the three rule lines of the expression grammar give a grammar with
the key set `E F T` of its nonterminals, and so has the grammar `exprLL1` that
`eliminateLeftRecursion` returns for it; the grammar `bareGrammar`, whose nonterminal has
no production list, does not have the property and makes `computeFIRST` throw. -/
theorem prod_keys_invariant_witness :
    ProdKeys exprLines ∧
    exprLines.prod.map Prod.fst = exprLines.nonterminals ∧
    eliminateLeftRecursion 10 exprLines = some exprLL1 ∧
    ProdKeys exprLL1 ∧
    exprLL1.prod.map Prod.fst = exprLL1.nonterminals ∧
    ¬ ProdKeys bareGrammar ∧
    computeFIRST 1 bareGrammar = .threw :=
  ⟨by decide!, by decide!, by decide!,
    (prod_keys_invariant.2 exprLines (by decide!)).2.2.2.2.2.1 10 exprLL1 (by decide!),
    by decide!, by decide!, by decide!⟩

/-! ## The parser is not run against a table with a conflict -/

theorem quote_data : "'".data = [Char.ofNat 39] := rfl

theorem append_quote_inj (P Q : String) (h : P ++ "'" = Q ++ "'") : P = Q := by
  have h1 : (P ++ "'").data = (Q ++ "'").data := by rw [h]
  rw [String.data_append, String.data_append] at h1
  exact String.ext (List.append_cancel_right h1)

theorem parentOf_quote (P : String) : parentOf (P ++ "'") = P := by
  unfold parentOf
  apply String.ext
  rw [String.data_append, quote_data]
  simp

theorem endsWithQuote_quote (P : String) : endsWithQuote (P ++ "'") = true := by
  unfold endsWithQuote
  rw [String.data_append, quote_data]
  simp

theorem eps_ne_quote (P : String) : P ++ "'" ≠ EPS := by
  intro h
  have := endsWithQuote_quote P
  rw [h] at this
  revert this
  decide

/-! ## Positions in a set -/

theorem get_split (nts : List String) (i : Nat) (Ai : String) (h : nts.get? i = some Ai) :
    (∃ rest, nts = nts.take i ++ Ai :: rest) ∧ nts.take (i + 1) = nts.take i ++ [Ai] := by
  induction nts generalizing i with
  | nil => simp at h
  | cons y ys ih =>
    cases i with
    | zero =>
      simp only [List.get?_cons_zero, Option.some.injEq] at h
      subst h
      exact ⟨⟨ys, rfl⟩, rfl⟩
    | succ i =>
      simp only [List.get?_cons_succ] at h
      obtain ⟨⟨rest, h1⟩, h2⟩ := ih i h
      refine ⟨⟨rest, ?_⟩, ?_⟩
      · rw [List.take_succ_cons, List.cons_append, ← h1]
      · rw [List.take_succ_cons, List.take_succ_cons, h2, List.cons_append]

theorem take_lt (nts : List String) (hok : SetOK nts) (i : Nat) (Ai : String)
    (h : nts.get? i = some Ai) (Aj : String) (hj : Aj ∈ nts.take i) : strLt Aj Ai = true := by
  obtain ⟨⟨rest, h1⟩, _⟩ := get_split nts i Ai h
  unfold SetOK at hok
  rw [h1, List.pairwise_append] at hok
  exact hok.2.2 Aj hj Ai (List.mem_cons_self _ _)

theorem not_mem_take (nts : List String) (hok : SetOK nts) (i : Nat) (Ai : String)
    (h : nts.get? i = some Ai) : Ai ∉ nts.take i :=
  fun hm => strLt_ne (take_lt nts hok i Ai h Ai hm) rfl

theorem lt_of_not_take (nts : List String) (hok : SetOK nts) (i : Nat) (Ai : String)
    (h : nts.get? i = some Ai) (B : String) (hB : B ∈ nts) (hn : B ∉ nts.take i)
    (hne : B ≠ Ai) : strLt Ai B = true := by
  obtain ⟨⟨rest, h1⟩, _⟩ := get_split nts i Ai h
  unfold SetOK at hok
  rw [h1, List.pairwise_append, List.pairwise_cons] at hok
  rw [h1] at hB
  rcases List.mem_append.mp hB with hB | hB
  · exact absurd hB hn
  · rcases List.mem_cons.mp hB with hB | hB
    · exact absurd hB hne
    · exact hok.2.1.1 B hB

theorem take_all (nts : List String) (i : Nat) (h : nts.get? i = none) : nts.take i = nts :=
  List.take_of_length_le (List.get?_eq_none.mp h)

theorem take_pairwise (nts : List String) (hok : SetOK nts) (i : Nat) :
    (nts.take i).Pairwise (fun a b => strLt a b = true) :=
  List.Pairwise.sublist (List.take_sublist i nts) hok

/-- Inserting a name that is greater than the element at the position `i` leaves the
first `i + 1` elements as they are. -/
theorem take_setInsert (x : String) (nts : List String) (hok : SetOK nts) (i : Nat)
    (Ai : String) (h : nts.get? i = some Ai) (hlt : strLt Ai x = true) :
    (setInsert x nts).take (i + 1) = nts.take (i + 1) := by
  apply List.ext_get?
  intro k
  by_cases hk : k < i + 1
  · rw [List.get?_eq_getElem?, List.get?_eq_getElem?, List.getElem?_take_of_lt hk,
      List.getElem?_take_of_lt hk, ← List.get?_eq_getElem?, ← List.get?_eq_getElem?]
    exact setInsert_get_le x nts hok i Ai h hlt k (by omega)
  · rw [List.get?_eq_none.mpr (by rw [List.length_take]; omega),
      List.get?_eq_none.mpr (by rw [List.length_take]; omega)]

/-! ## The substitution step on lists of alternatives -/

theorem mem_substituteSpec (Aj : String) (deltas alts : List (List String)) (r : List String) :
    r ∈ substituteSpec Aj deltas alts ↔
      ∃ rhs ∈ alts, (beginsWith Aj rhs = false ∧ r = rhs) ∨
        (beginsWith Aj rhs = true ∧ ∃ delta ∈ deltas, r = expandAlt rhs.tail delta) := by
  induction alts with
  | nil => simp [substituteSpec]
  | cons rhs more ih =>
    rw [substituteSpec_cons, List.mem_append, ih]
    constructor
    · rintro (h | ⟨rhs1, h1, h2⟩)
      · refine ⟨rhs, List.mem_cons_self _ _, ?_⟩
        by_cases hb : beginsWith Aj rhs = true
        · rw [if_pos hb] at h
          obtain ⟨delta, hd, e⟩ := List.mem_map.mp h
          exact Or.inr ⟨hb, delta, hd, e.symm⟩
        · rw [if_neg hb] at h
          exact Or.inl ⟨by simpa using hb, List.mem_singleton.mp h⟩
      · exact ⟨rhs1, List.mem_cons_of_mem _ h1, h2⟩
    · rintro ⟨rhs1, h1, h2⟩
      rcases List.mem_cons.mp h1 with e | h1
      · subst e
        left
        rcases h2 with ⟨hb, e⟩ | ⟨hb, delta, hd, e⟩
        · rw [if_neg (by rw [hb]; simp), e]
          exact List.mem_singleton.mpr rfl
        · rw [if_pos hb, e]
          exact List.mem_map.mpr ⟨delta, hd, rfl⟩
      · exact Or.inr ⟨rhs1, h1, h2⟩

theorem substitute_alts (g : Grammar) (Ai Aj : String) :
    mapGetD Ai (substituteAjIntoAi g Ai Aj).prod []
      = substituteSpec Aj (mapGetD Aj g.prod []) (mapGetD Ai g.prod []) := by
  unfold substituteAjIntoAi
  simp only
  rw [mapGetD_mapSet_same, substitute_foldl, mapGetD_mapEnsure]
  rfl

theorem substitute_fold_alts (g : Grammar) (Ai : String) (l : List String) (hAi : Ai ∉ l) :
    mapGetD Ai (l.foldl (fun acc Aj => substituteAjIntoAi acc Ai Aj) g).prod []
      = l.foldl (fun acc Aj => substituteSpec Aj (mapGetD Aj g.prod []) acc)
          (mapGetD Ai g.prod []) := by
  induction l generalizing g with
  | nil => rfl
  | cons Aj l ih =>
    rw [List.foldl_cons, List.foldl_cons, ih _ (fun h => hAi (List.mem_cons_of_mem _ h)),
      substitute_alts]
    apply List.foldl_ext
    intro acc Ak hAk
    rw [substitute_other g Ai Aj Ak (fun e => hAi (by rw [← e]; exact List.mem_cons_of_mem _ hAk))]

/-- A property of the list of alternatives that every substitution of the loop over `T`
carries on holds after the loop. -/
theorem fold_induct (T : List String) (D : String → List (List String))
    (P : List String → List (List String) → Prop) (alts0 : List (List String))
    (h0 : P [] alts0)
    (hs : ∀ done Aj rest alts, T = done ++ Aj :: rest → P done alts →
      P (done ++ [Aj]) (substituteSpec Aj (D Aj) alts)) :
    P T (T.foldl (fun acc Aj => substituteSpec Aj (D Aj) acc) alts0) := by
  have key : ∀ l done alts, T = done ++ l → P done alts →
      P T (l.foldl (fun acc Aj => substituteSpec Aj (D Aj) acc) alts) := by
    intro l
    induction l with
    | nil =>
      intro done alts e h
      rw [List.append_nil] at e
      rw [e]
      exact h
    | cons Aj l ih =>
      intro done alts e h
      rw [List.foldl_cons]
      exact ih (done ++ [Aj]) _ (by rw [e, List.append_assoc]; rfl) (hs done Aj l alts e h)
  exact key T [] alts0 rfl h0

/-! ## The alternative built from `delta` and the remainder `gamma` -/

theorem expandAlt_cons (gamma : List String) (h : String) (t : List String)
    (hne : h :: t ≠ [EPS]) : expandAlt gamma (h :: t) = h :: (t ++ gamma) := by
  unfold expandAlt
  simp only [hne, if_false, List.cons_append, reduceCtorEq]

theorem expandAlt_eps (gamma : List String) :
    expandAlt gamma [EPS] = if gamma = [] then [EPS] else gamma := by
  unfold expandAlt
  simp

theorem expandAlt_other (gamma delta : List String) (hne : delta ≠ [EPS]) :
    expandAlt gamma delta = if delta ++ gamma = [] then [EPS] else delta ++ gamma := by
  unfold expandAlt
  simp only [hne, if_false]

theorem mem_expandAlt (gamma delta : List String) (s : String) (h : s ∈ expandAlt gamma delta) :
    s = EPS ∨ s ∈ delta ∨ s ∈ gamma := by
  by_cases hd : delta = [EPS]
  · rw [hd, expandAlt_eps] at h
    by_cases hg : gamma = []
    · rw [if_pos hg] at h
      exact Or.inl (List.mem_singleton.mp h)
    · rw [if_neg hg] at h
      exact Or.inr (Or.inr h)
  · rw [expandAlt_other gamma delta hd] at h
    by_cases hg : delta ++ gamma = []
    · rw [if_pos hg] at h
      exact Or.inl (List.mem_singleton.mp h)
    · rw [if_neg hg] at h
      exact Or.inr (List.mem_append.mp h)

theorem beginsWith_iff (X : String) (rhs : List String) :
    beginsWith X rhs = true ↔ ∃ t, rhs = X :: t := by
  cases rhs with
  | nil => simp [beginsWith]
  | cons s t => simp [beginsWith]

/-! ## The rewrite of `eliminateImmediateLeftRecursion` -/

theorem elim_keep (g : Grammar) (A : String)
    (h : ∀ rhs ∈ mapGetD A g.prod [], beginsWith A rhs = false) :
    (eliminateImmediateLeftRecursion g A).nonterminals = g.nonterminals ∧
    ∀ B, mapGetD B (eliminateImmediateLeftRecursion g A).prod [] = mapGetD B g.prod [] := by
  have hf : ((mapGetD A g.prod []).filter (beginsWith A)).map alphaTail = [] := by
    rw [List.map_eq_nil_iff, List.filter_eq_nil_iff]
    intro rhs hrhs
    rw [h rhs hrhs]
    simp
  unfold eliminateImmediateLeftRecursion
  simp only [hf, if_true]
  exact ⟨trivial, fun B => mapGetD_mapEnsure A B [] g.prod⟩

theorem elim_rewrite (g : Grammar) (A : String) (rhs0 : List String)
    (h0 : rhs0 ∈ mapGetD A g.prod []) (hb : beginsWith A rhs0 = true)
    (hX : makeUniqueNonTerminal g A ≠ A) :
    (eliminateImmediateLeftRecursion g A).nonterminals
      = setInsert (makeUniqueNonTerminal g A) g.nonterminals ∧
    mapGetD A (eliminateImmediateLeftRecursion g A).prod []
      = ((mapGetD A g.prod []).filter (fun rhs => !beginsWith A rhs)).map
          (fun b => if b = [EPS] then [makeUniqueNonTerminal g A]
            else b ++ [makeUniqueNonTerminal g A]) ∧
    mapGetD (makeUniqueNonTerminal g A) (eliminateImmediateLeftRecursion g A).prod []
      = (((mapGetD A g.prod []).filter (beginsWith A)).map alphaTail).map
          (fun a => if a = [EPS] then [makeUniqueNonTerminal g A]
            else a ++ [makeUniqueNonTerminal g A]) ++ [[EPS]] := by
  have hf : ((mapGetD A g.prod []).filter (beginsWith A)).map alphaTail ≠ [] := by
    rw [Ne, List.map_eq_nil_iff, List.filter_eq_nil_iff]
    intro hc
    exact hc rhs0 h0 hb
  unfold eliminateImmediateLeftRecursion
  simp only [hf, if_false, makeUniqueNonTerminal_prod]
  refine ⟨trivial, ?_, ?_⟩
  · rw [mapGetD_mapSet_ne (fun e => hX e.symm), mapGetD_mapSet_same]
  · rw [mapGetD_mapSet_same]

/-! ## One iteration of the loop of `eliminateLeftRecursion` -/

theorem makeUniqueNonTerminal_quote (g : Grammar) (A : String) (h : A ++ "'" ∉ g.nonterminals) :
    makeUniqueNonTerminal g A = A ++ "'" := by
  unfold makeUniqueNonTerminal
  have : setHas (A ++ "'") g.nonterminals = false := (setHas_false_iff _ _).2 h
  simp [this]

/-- One iteration of the loop that adds no nonterminal. -/
theorem elrLoop_step_same (n : Nat) (g : Grammar) (nts : List String) (i : Nat) (Ai : String)
    (g1 g2 : Grammar) (hget : nts.get? i = some Ai)
    (hg1 : g1 = (nts.take i).foldl (fun acc Aj => substituteAjIntoAi acc Ai Aj) g)
    (hg2 : g2 = eliminateImmediateLeftRecursion g1 Ai)
    (hlen : g2.nonterminals.length = nts.length) :
    elrLoop (n + 1) g nts i = elrLoop n g2 nts (i + 1) := by
  subst hg1 hg2
  conv_lhs => unfold elrLoop
  simp only [hget]
  rw [if_neg (by rw [hlen]; simp)]

/-- One iteration of the loop at a position whose fresh name is not taken: the loop goes
on at the next position, the nonterminals stay or get the fresh name, and the positions
up to the current one stay. -/
theorem elr_step (n : Nat) (g : Grammar) (nts : List String) (i : Nat) (Ai : String)
    (hn : nts = g.nonterminals) (hok : SetOK nts) (hQ : FreshAt nts i)
    (hget : nts.get? i = some Ai) (g1 g2 : Grammar)
    (hg1 : g1 = (nts.take i).foldl (fun acc Aj => substituteAjIntoAi acc Ai Aj) g)
    (hg2 : g2 = eliminateImmediateLeftRecursion g1 Ai) :
    elrLoop (n + 1) g nts i = elrLoop n g2 g2.nonterminals (i + 1) ∧
    g1.nonterminals = nts ∧
    makeUniqueNonTerminal g1 Ai = Ai ++ "'" ∧ Ai ++ "'" ∉ nts ∧
    (g2.nonterminals = nts ∨ g2.nonterminals = setInsert (Ai ++ "'") nts) ∧
    SetOK g2.nonterminals ∧
    g2.nonterminals.take (i + 1) = nts.take i ++ [Ai] ∧
    FreshAt g2.nonterminals (i + 1) := by
  have hnot : Ai ∉ nts.take i := not_mem_take nts hok i Ai hget
  have hfresh : Ai ++ "'" ∉ nts := fun hm => hnot (hQ Ai hm)
  have hnt1 : g1.nonterminals = nts := by rw [hg1, substitute_fold_nonterminals, hn]
  have hu : makeUniqueNonTerminal g1 Ai = Ai ++ "'" :=
    makeUniqueNonTerminal_quote g1 Ai (by rw [hnt1]; exact hfresh)
  have htake : nts.take (i + 1) = nts.take i ++ [Ai] := (get_split nts i Ai hget).2
  have hcases := elim_nonterminals g1 Ai
  rw [← hg2, hu, hnt1] at hcases
  refine ⟨?_, hnt1, hu, hfresh, hcases, ?_, ?_, ?_⟩
  · rcases hcases with e | e
    · rw [elrLoop_step_same n g nts i Ai g1 g2 hget hg1 hg2 (by rw [e]), e]
    · have hlen : g2.nonterminals.length ≠ nts.length := by
        rw [e, length_setInsert_of_not_mem _ _ hfresh]
        omega
      have hok2 : SetOK g2.nonterminals := by
        rw [e]
        exact setOK_setInsert _ _ hok
      have hfind : findIndex Ai g2.nonterminals = some i := by
        apply findIndex_of_get _ (setOK_nodup _ hok2)
        rw [e]
        rw [setInsert_get_le _ nts hok i Ai hget (strLt_append Ai "'" (by decide)) i (le_refl _)]
        exact hget
      exact elrLoop_step_grow n g nts i i Ai g1 g2 hget hg1 hg2 hlen hfind
  · rcases hcases with e | e
    · rw [e]
      exact hok
    · rw [e]
      exact setOK_setInsert _ _ hok
  · rcases hcases with e | e
    · rw [e, htake]
    · rw [e, take_setInsert _ nts hok i Ai hget (strLt_append Ai "'" (by decide)), htake]
  · intro Z hZ
    have hsub : ∀ Y, Y ∈ nts.take i → Y ∈ g2.nonterminals.take (i + 1) := by
      intro Y hY
      rcases hcases with e | e
      · rw [e, htake]
        exact List.mem_append_left _ hY
      · rw [e, take_setInsert _ nts hok i Ai hget (strLt_append Ai "'" (by decide)), htake]
        exact List.mem_append_left _ hY
    rcases hcases with e | e
    · rw [e] at hZ
      exact hsub Z (hQ Z hZ)
    · have hZ' := hZ
      rw [e] at hZ'
      rcases (mem_setInsert _ _ _).1 hZ' with h | h
      · have : Z = Ai := append_quote_inj Z Ai h
        rw [this, e, take_setInsert _ nts hok i Ai hget (strLt_append Ai "'" (by decide)), htake]
        exact List.mem_append_right _ (List.mem_singleton.mpr rfl)
      · exact hsub Z (hQ Z h)

/-! ## A nonterminal with the alternative of itself alone -/

theorem alphaTail_unit (W : String) : alphaTail [W] = [EPS] := rfl

/-- An iteration at a nonterminal that, after the substitutions, has the alternative of
itself alone leads to a stuck state. -/
theorem stuck_of_unit (n : Nat) (g : Grammar) (nts : List String) (i : Nat) (Ai : String)
    (hn : nts = g.nonterminals) (hok : SetOK nts) (hQ : FreshAt nts i)
    (hget : nts.get? i = some Ai)
    (hunit : [Ai] ∈ mapGetD Ai
      ((nts.take i).foldl (fun acc Aj => substituteAjIntoAi acc Ai Aj) g).prod []) :
    ∃ g2 nts2, elrLoop (n + 1) g nts i = elrLoop n g2 nts2 (i + 1) ∧ Stuck g2 nts2 (i + 1) := by
  obtain ⟨g1, hg1⟩ : ∃ g1, g1 = (nts.take i).foldl
      (fun acc Aj => substituteAjIntoAi acc Ai Aj) g := ⟨_, rfl⟩
  obtain ⟨g2, hg2⟩ : ∃ g2, g2 = eliminateImmediateLeftRecursion g1 Ai := ⟨_, rfl⟩
  obtain ⟨hloop, hnt1, hu, hfresh, -, hok2, htake, hQ2⟩ :=
    elr_step n g nts i Ai hn hok hQ hget g1 g2 hg1 hg2
  rw [← hg1] at hunit
  have hb : beginsWith Ai [Ai] = true := by simp [beginsWith]
  have hX : makeUniqueNonTerminal g1 Ai ≠ Ai := by
    rw [hu]
    exact string_append_ne_self Ai "'" (by decide)
  obtain ⟨e1, -, e3⟩ := elim_rewrite g1 Ai [Ai] hunit hb hX
  rw [← hg2, hu] at e1 e3
  rw [hnt1] at e1
  refine ⟨g2, g2.nonterminals, hloop, rfl, hok2, hQ2, Ai ++ "'", ?_, ?_, ?_⟩
  · rw [e1]
    exact mem_setInsert_self _ _
  · rw [htake]
    intro hm
    rcases List.mem_append.mp hm with hm | hm
    · exact hfresh (List.mem_of_mem_take hm)
    · exact string_append_ne_self Ai "'" (by decide) (List.mem_singleton.mp hm)
  · rw [e3]
    apply List.mem_append_left
    apply List.mem_map.mpr
    refine ⟨[EPS], ?_, by simp⟩
    apply List.mem_map.mpr
    exact ⟨[Ai], List.mem_filter.mpr ⟨hunit, hb⟩, rfl⟩

theorem stuck_step (g : Grammar) (nts : List String) (i : Nat) (h : Stuck g nts i) (n : Nat) :
    ∃ g2 nts2, elrLoop (n + 1) g nts i = elrLoop n g2 nts2 (i + 1) ∧ Stuck g2 nts2 (i + 1) := by
  obtain ⟨hn, hok, hQ, W, hW, hWn, hunit⟩ := h
  cases hget : nts.get? i with
  | none =>
    rw [take_all nts i hget] at hWn
    exact absurd hW hWn
  | some Ai =>
    have hnot : Ai ∉ nts.take i := not_mem_take nts hok i Ai hget
    by_cases hWA : W = Ai
    · subst hWA
      apply stuck_of_unit n g nts i W hn hok hQ hget
      rw [substitute_fold_alts g W _ hnot]
      apply fold_induct (nts.take i) (fun Aj => mapGetD Aj g.prod [])
        (fun _ alts => [W] ∈ alts) _ hunit
      intro done Aj rest alts e hP
      rw [mem_substituteSpec]
      refine ⟨[W], hP, Or.inl ⟨?_, rfl⟩⟩
      have hAj : Aj ∈ nts.take i := by
        rw [e]
        exact List.mem_append_right _ (List.mem_cons_self _ _)
      have hne : W ≠ Aj := fun e' => hnot (by rw [e']; exact hAj)
      simpa [beginsWith] using hne
    · obtain ⟨g1, hg1⟩ : ∃ g1, g1 = (nts.take i).foldl
          (fun acc Aj => substituteAjIntoAi acc Ai Aj) g := ⟨_, rfl⟩
      obtain ⟨g2, hg2⟩ : ∃ g2, g2 = eliminateImmediateLeftRecursion g1 Ai := ⟨_, rfl⟩
      obtain ⟨hloop, hnt1, hu, hfresh, hcases, hok2, htake, hQ2⟩ :=
        elr_step n g nts i Ai hn hok hQ hget g1 g2 hg1 hg2
      refine ⟨g2, g2.nonterminals, hloop, rfl, hok2, hQ2, W, ?_, ?_, ?_⟩
      · rcases hcases with e | e
        · rw [e]
          exact hW
        · rw [e]
          exact mem_setInsert_of_mem hW
      · rw [htake]
        intro hm
        rcases List.mem_append.mp hm with hm | hm
        · exact hWn hm
        · exact hWA (List.mem_singleton.mp hm)
      · have hWX : W ≠ makeUniqueNonTerminal g1 Ai := by
          rw [hu]
          intro e
          exact hfresh (by rw [← e]; exact hW)
        rw [hg2, elim_other g1 Ai W hWA hWX, hg1, substitute_fold_other g Ai _ W hWA]
        exact hunit

/-- From a stuck state the loop never returns. -/
theorem stuck_none (fuel : Nat) (g : Grammar) (nts : List String) (i : Nat)
    (h : Stuck g nts i) : elrLoop fuel g nts i = none := by
  induction fuel generalizing g nts i with
  | zero => rfl
  | succ n ih =>
    obtain ⟨g2, nts2, e, h2⟩ := stuck_step g nts i h n
    rw [e]
    exact ih g2 nts2 (i + 1) h2

/-! ## Alternatives and added nonterminals -/

theorem unmade_eps (O T : List String) : Unmade O T EPS :=
  fun A _ _ e => eps_ne_quote A e.symm

theorem unmade_mono (O T T2 : List String) (h : ∀ A, A ∈ T → A ∈ T2) (s : String)
    (hs : Unmade O T s) : Unmade O T2 s :=
  fun A hA hn => hs A hA (fun hm => hn (h A hm))

theorem runOK_solid (O nts : List String) (X h : String) (t : List String)
    (hh : h ∈ nts → h ∈ O) : RunOK O nts X (h :: t) := by
  intro pre s post e hpre hs
  cases pre with
  | nil =>
    simp only [List.nil_append, List.cons.injEq] at e
    rw [← e.1] at hs
    exact absurd (hh hs.1) hs.2
  | cons y ys =>
    simp only [List.cons_append, List.cons.injEq] at e
    have hy := hpre y (List.mem_cons_self _ _)
    rw [← e.1] at hy
    exact absurd (hh hy.1) hy.2

theorem runOK_single (O nts : List String) (X y : String) (hy : ¬ IsNew O nts y ∨ y = X) :
    RunOK O nts X [y] := by
  intro pre s post e hpre hs
  cases pre with
  | nil =>
    simp only [List.nil_append, List.cons.injEq] at e
    rcases hy with hy | hy
    · rw [e.1] at hy
      exact absurd hs hy
    · exact Or.inr ⟨by rw [← e.1, hy], e.2.symm⟩
  | cons z zs =>
    simp only [List.cons_append, List.cons.injEq] at e
    have := e.2
    simp at this

theorem runOK_tail (O nts : List String) (X Aj : String) (gamma : List String)
    (hAj : IsNew O nts Aj) (h : RunOK O nts X (Aj :: gamma)) : RunOK O nts X gamma := by
  intro pre s post e hpre hs
  apply h (Aj :: pre) s post (by rw [e]; rfl) _ hs
  intro y hy
  rcases List.mem_cons.mp hy with hy | hy
  · rw [hy]
    exact hAj
  · exact hpre y hy

theorem runOK_append (O nts : List String) (X Aj : String) (delta gamma : List String)
    (hAj : IsNew O nts Aj) (hlt : strLt (parentOf Aj) (parentOf X) = true)
    (hd : RunOK O nts Aj delta) (h : RunOK O nts X (Aj :: gamma)) :
    RunOK O nts X (delta ++ gamma) := by
  intro pre s post e hpre hs
  rcases List.append_eq_append_iff.mp e with ⟨a, e1, e2⟩ | ⟨c, e1, e2⟩
  · -- `pre = delta ++ a`
    apply h (Aj :: a) s post (by rw [e2]; rfl) _ hs
    intro y hy
    rcases List.mem_cons.mp hy with hy | hy
    · rw [hy]
      exact hAj
    · exact hpre y (by rw [e1]; exact List.mem_append_right _ hy)
  · -- `delta = pre ++ c`
    cases c with
    | nil =>
      rw [List.append_nil] at e1
      simp only [List.nil_append] at e2
      apply h [Aj] s post (by rw [← e2]; rfl) _ hs
      intro y hy
      rw [List.mem_singleton.mp hy]
      exact hAj
    | cons s1 post1 =>
      simp only [List.cons_append, List.cons.injEq] at e2
      rw [← e2.1] at e1
      rcases hd pre s post1 e1 hpre hs with h1 | ⟨h1, _⟩
      · exact Or.inl (strLt_trans h1 hlt)
      · rw [h1]
        exact Or.inl hlt

theorem split_concat (pre post a : List String) (s X : String)
    (e : a ++ [X] = pre ++ s :: post) : s ∈ a ∨ (s = X ∧ post = []) := by
  rcases List.append_eq_append_iff.mp e with ⟨c, e1, e2⟩ | ⟨c, e1, e2⟩
  · cases c with
    | nil =>
      simp only [List.nil_append, List.cons.injEq] at e2
      exact Or.inr ⟨e2.1.symm, e2.2.symm⟩
    | cons z zs =>
      simp only [List.cons_append, List.cons.injEq] at e2
      have := e2.2
      simp at this
  · cases c with
    | nil =>
      simp only [List.nil_append, List.cons.injEq] at e2
      exact Or.inr e2
    | cons z zs =>
      simp only [List.cons_append, List.cons.injEq] at e2
      left
      rw [e1, ← e2.1]
      simp

/-! ## The invariant of the loop: consequences -/

theorem inv_freshAt (O : List String) (g : Grammar) (nts : List String) (i : Nat)
    (h : ElrInv O g nts i) : FreshAt nts i := by
  intro Z hZ
  have hO : Z ++ "'" ∉ O := by
    intro hm
    have := h.oq _ hm
    rw [endsWithQuote_quote] at this
    simp at this
  obtain ⟨P, _, hP, e⟩ := h.child _ hZ hO
  rw [append_quote_inj Z P e]
  exact hP

theorem not_isNew_eps (O : List String) (g : Grammar) (nts : List String) (i : Nat)
    (h : ElrInv O g nts i) : ¬ IsNew O nts EPS := by
  rintro ⟨h1, h2⟩
  obtain ⟨P, _, _, e⟩ := h.child _ h1 h2
  exact eps_ne_quote P e.symm

theorem inv_take_congr (O : List String) (g : Grammar) (nts : List String) (i j : Nat)
    (e : nts.take i = nts.take j) (h : ElrInv O g nts i) : ElrInv O g nts j where
  hn := h.hn
  ok := h.ok
  sub := h.sub
  oq := h.oq
  child := by
    rw [← e]
    exact h.child
  fresh := by
    rw [← e]
    exact h.fresh
  orig := by
    rw [← e]
    exact h.orig
  added := h.added

/-- The invariant at the next position, from what the iteration at the position `i` did
to the nonterminal `Ai` and to the nonterminal it added. -/
theorem inv_next (O : List String) (g : Grammar) (nts : List String) (i : Nat) (Ai : String)
    (g2 : Grammar) (nts2 : List String) (hinv : ElrInv O g nts i)
    (hn2 : nts2 = g2.nonterminals) (hok2 : SetOK nts2)
    (htake : nts2.take (i + 1) = nts.take i ++ [Ai])
    (hsub : ∀ B ∈ nts, B ∈ nts2)
    (hnew : ∀ B ∈ nts2, B ∈ nts ∨ (B = Ai ++ "'" ∧ Ai ∈ O))
    (hAiT : Ai ∉ nts.take i)
    (hother : ∀ B ∈ nts, B ≠ Ai → mapGetD B g2.prod [] = mapGetD B g.prod [])
    (hsym : ∀ B ∈ nts2, (B = Ai ∨ B ∉ nts) → ∀ rhs ∈ mapGetD B g2.prod [], ∀ s ∈ rhs,
      Unmade O (nts.take i ++ [Ai]) s)
    (hmine : Ai ∈ O → ∀ rhs ∈ mapGetD Ai g2.prod [], ∃ h t, rhs = h :: t ∧ rhs ≠ [EPS] ∧
      (h ∈ nts2 → h ∈ O) ∧ (h ∈ nts2 → strLt Ai h = true))
    (hrun : ∀ B ∈ nts2, B ∉ O → (B = Ai ∨ B ∉ nts) → ∀ rhs ∈ mapGetD B g2.prod [],
      RunOK O nts2 B rhs) :
    ElrInv O g2 nts2 (i + 1) := by
  have hold : ∀ B ∈ nts, ∀ rhs ∈ mapGetD B g.prod [], ∀ y ∈ rhs, y ∈ nts2 → y ∈ nts := by
    intro B hB rhs hrhs y hy hy2
    rcases hnew y hy2 with h | ⟨h, hAiO⟩
    · exact h
    · exact absurd h (hinv.fresh B hB rhs hrhs y hy Ai hAiO hAiT)
  refine ⟨hn2, hok2, fun A hA => hsub A (hinv.sub A hA), hinv.oq, ?_, ?_, ?_, ?_⟩
  · intro X hX hXO
    rw [htake]
    rcases hnew X hX with h | ⟨h, hAiO⟩
    · obtain ⟨P, hP, hPT, e⟩ := hinv.child X h hXO
      exact ⟨P, hP, List.mem_append_left _ hPT, e⟩
    · exact ⟨Ai, hAiO, List.mem_append_right _ (List.mem_singleton.mpr rfl), h⟩
  · intro B hB rhs hrhs s hs
    rw [htake]
    by_cases hc : B = Ai ∨ B ∉ nts
    · exact hsym B hB hc rhs hrhs s hs
    · have hBn : B ∈ nts := by
        by_contra hcn
        exact hc (Or.inr hcn)
      have hBA : B ≠ Ai := fun e => hc (Or.inl e)
      rw [hother B hBn hBA] at hrhs
      exact unmade_mono O _ _ (fun A hA => List.mem_append_left _ hA) s
        (hinv.fresh B hBn rhs hrhs s hs)
  · intro A hA rhs hrhs
    by_cases hAA : A = Ai
    · subst hAA
      obtain ⟨h, t, e, hne, h1, h2⟩ := hmine hA rhs hrhs
      exact ⟨h, t, e, hne, h1, fun _ hh => h2 hh⟩
    · have hAn : A ∈ nts := hinv.sub A hA
      rw [hother A hAn hAA] at hrhs
      obtain ⟨h, t, e, hne, h1, h2⟩ := hinv.orig A hA rhs hrhs
      have hh : h ∈ nts2 → h ∈ nts :=
        hold A hAn rhs hrhs h (by rw [e]; exact List.mem_cons_self _ _)
      refine ⟨h, t, e, hne, fun hm => h1 (hh hm), fun hAT hm => h2 ?_ (hh hm)⟩
      rw [htake] at hAT
      rcases List.mem_append.mp hAT with hAT | hAT
      · exact hAT
      · exact absurd (List.mem_singleton.mp hAT) hAA
  · intro X hX hXO rhs hrhs
    by_cases hc : X = Ai ∨ X ∉ nts
    · exact hrun X hX hXO hc rhs hrhs
    · have hXn : X ∈ nts := by
        by_contra hcn
        exact hc (Or.inr hcn)
      have hXA : X ≠ Ai := fun e => hc (Or.inl e)
      rw [hother X hXn hXA] at hrhs
      have old := hinv.added X hXn hXO rhs hrhs
      intro pre s post e hpre hs
      have hmem : ∀ y ∈ rhs, IsNew O nts2 y → IsNew O nts y :=
        fun y hy hn => ⟨hold X hXn rhs hrhs y hy hn.1, hn.2⟩
      apply old pre s post e
      · intro y hy
        exact hmem y (by rw [e]; exact List.mem_append_left _ hy) (hpre y hy)
      · exact hmem s (by rw [e]; simp) hs

/-! ## The substitutions at a nonterminal of the input -/

theorem cons_ne_eps (h : String) (t gamma : List String) (hne : h :: t ≠ [EPS]) :
    h :: (t ++ gamma) ≠ [EPS] := by
  intro e
  simp only [List.cons.injEq, List.append_eq_nil] at e
  apply hne
  rw [e.1, e.2.1]

/-- After the substitutions at a nonterminal `Ai` of the input, every alternative of `Ai`
has a first symbol, is not `[EPS]`, and its first symbol is not an added nonterminal
and not a nonterminal before the position `i`. -/
theorem fold_orig (O : List String) (g : Grammar) (nts : List String) (i : Nat) (Ai : String)
    (hinv : ElrInv O g nts i) (hget : nts.get? i = some Ai) (hAi : Ai ∈ O) :
    ∀ rhs ∈ mapGetD Ai
        ((nts.take i).foldl (fun acc Aj => substituteAjIntoAi acc Ai Aj) g).prod [],
      ∃ h t, rhs = h :: t ∧ rhs ≠ [EPS] ∧ (h ∈ nts → h ∈ O) ∧ h ∉ nts.take i ∧
        ∀ s ∈ rhs, Unmade O (nts.take i) s := by
  have hnot : Ai ∉ nts.take i := not_mem_take nts hinv.ok i Ai hget
  have hAin : Ai ∈ nts := List.get?_mem hget
  rw [substitute_fold_alts g Ai _ hnot]
  apply fold_induct (nts.take i) (fun Aj => mapGetD Aj g.prod [])
    (fun done alts => ∀ rhs ∈ alts, ∃ h t, rhs = h :: t ∧ rhs ≠ [EPS] ∧ (h ∈ nts → h ∈ O) ∧
      h ∉ done ∧ ∀ s ∈ rhs, Unmade O (nts.take i) s)
  · intro rhs hrhs
    obtain ⟨h, t, e, hne, h1, _⟩ := hinv.orig Ai hAi rhs hrhs
    exact ⟨h, t, e, hne, h1, List.not_mem_nil _, hinv.fresh Ai hAin rhs hrhs⟩
  · intro done Aj rest alts eT hP r hr
    have hAjT : Aj ∈ nts.take i := by
      rw [eT]
      exact List.mem_append_right _ (List.mem_cons_self _ _)
    have hAjn : Aj ∈ nts := List.mem_of_mem_take hAjT
    have hpw := take_pairwise nts hinv.ok i
    rw [eT, List.pairwise_append] at hpw
    obtain ⟨rhs, hrhs, hcase⟩ := (mem_substituteSpec Aj _ alts r).1 hr
    obtain ⟨h, t, e, hne, h1, h2, h3⟩ := hP rhs hrhs
    rcases hcase with ⟨hb, er⟩ | ⟨hb, delta, hd, er⟩
    · rw [er]
      refine ⟨h, t, e, hne, h1, ?_, h3⟩
      intro hm
      rcases List.mem_append.mp hm with hm | hm
      · exact h2 hm
      · rw [e] at hb
        have : h = Aj := List.mem_singleton.mp hm
        simp [beginsWith, this] at hb
    · have hhAj : h = Aj := by
        rw [e] at hb
        simpa [beginsWith] using hb
      have hAjO : Aj ∈ O := by
        rw [← hhAj]
        exact h1 (by rw [hhAj]; exact hAjn)
      obtain ⟨h', t', e', hne', h1', h2'⟩ := hinv.orig Aj hAjO delta hd
      have etail : rhs.tail = t := by rw [e]; rfl
      rw [etail, e', expandAlt_cons t h' t' (by rw [← e']; exact hne')] at er
      rw [er]
      refine ⟨h', t' ++ t, rfl, cons_ne_eps h' t' t (by rw [← e']; exact hne'), h1', ?_, ?_⟩
      · intro hm
        have hmT : h' ∈ nts.take i := by
          rw [eT]
          rcases List.mem_append.mp hm with hm | hm
          · exact List.mem_append_left _ hm
          · rw [List.mem_singleton.mp hm]
            exact List.mem_append_right _ (List.mem_cons_self _ _)
        have hlt := h2' hAjT (List.mem_of_mem_take hmT)
        rcases List.mem_append.mp hm with hm | hm
        · have := hpw.2.2 h' hm Aj (List.mem_cons_self _ _)
          rw [strLt_asymm this] at hlt
          simp at hlt
        · rw [List.mem_singleton.mp hm, strLt_irrefl] at hlt
          simp at hlt
      · intro s hs
        rcases List.mem_cons.mp hs with hs | hs
        · rw [hs]
          exact hinv.fresh Aj hAjn delta hd h' (by rw [e']; exact List.mem_cons_self _ _)
        · rcases List.mem_append.mp hs with hs | hs
          · exact hinv.fresh Aj hAjn delta hd s (by rw [e']; exact List.mem_cons_of_mem _ hs)
          · exact h3 s (by rw [e]; exact List.mem_cons_of_mem _ hs)

/-! ## The substitutions at an added nonterminal -/

/-- After the substitutions at an added nonterminal `Ai`, every alternative of `Ai`
satisfies `RunOK`. -/
theorem fold_added (O : List String) (g : Grammar) (nts : List String) (i : Nat) (Ai : String)
    (hinv : ElrInv O g nts i) (hget : nts.get? i = some Ai) (hAi : Ai ∉ O) :
    ∀ rhs ∈ mapGetD Ai
        ((nts.take i).foldl (fun acc Aj => substituteAjIntoAi acc Ai Aj) g).prod [],
      RunOK O nts Ai rhs ∧ ∀ s ∈ rhs, Unmade O (nts.take i) s := by
  have hnot : Ai ∉ nts.take i := not_mem_take nts hinv.ok i Ai hget
  have hAin : Ai ∈ nts := List.get?_mem hget
  rw [substitute_fold_alts g Ai _ hnot]
  apply fold_induct (nts.take i) (fun Aj => mapGetD Aj g.prod [])
    (fun _ alts => ∀ rhs ∈ alts, RunOK O nts Ai rhs ∧ ∀ s ∈ rhs, Unmade O (nts.take i) s)
  · intro rhs hrhs
    exact ⟨hinv.added Ai hAin hAi rhs hrhs, hinv.fresh Ai hAin rhs hrhs⟩
  · intro done Aj rest alts eT hP r hr
    have hAjT : Aj ∈ nts.take i := by
      rw [eT]
      exact List.mem_append_right _ (List.mem_cons_self _ _)
    have hAjn : Aj ∈ nts := List.mem_of_mem_take hAjT
    have hAjA : Aj ≠ Ai := fun e => hnot (by rw [← e]; exact hAjT)
    obtain ⟨rhs, hrhs, hcase⟩ := (mem_substituteSpec Aj _ alts r).1 hr
    obtain ⟨hrun, hsym⟩ := hP rhs hrhs
    rcases hcase with ⟨_, er⟩ | ⟨hb, delta, hd, er⟩
    · rw [er]
      exact ⟨hrun, hsym⟩
    · obtain ⟨gamma, eg⟩ := (beginsWith_iff Aj rhs).1 hb
      have etail : rhs.tail = gamma := by rw [eg]; rfl
      rw [etail] at er
      refine ⟨?_, ?_⟩
      · by_cases hAjO : Aj ∈ O
        · obtain ⟨h', t', e', hne', h1', _⟩ := hinv.orig Aj hAjO delta hd
          rw [er, e', expandAlt_cons gamma h' t' (by rw [← e']; exact hne')]
          exact runOK_solid O nts Ai h' _ h1'
        · have hnew : IsNew O nts Aj := ⟨hAjn, hAjO⟩
          have hlt : strLt (parentOf Aj) (parentOf Ai) = true := by
            rcases hrun [] Aj gamma eg (fun _ hy => absurd hy (List.not_mem_nil _)) hnew
              with h | ⟨h, _⟩
            · exact h
            · exact absurd h hAjA
          have hdrun := hinv.added Aj hAjn hAjO delta hd
          have heps : RunOK O nts Ai [EPS] :=
            runOK_single O nts Ai EPS (Or.inl (not_isNew_eps O g nts i hinv))
          rw [er]
          by_cases hde : delta = [EPS]
          · rw [hde, expandAlt_eps]
            by_cases hg : gamma = []
            · rw [if_pos hg]
              exact heps
            · rw [if_neg hg]
              exact runOK_tail O nts Ai Aj gamma hnew (by rw [← eg]; exact hrun)
          · rw [expandAlt_other gamma delta hde]
            by_cases hg : delta ++ gamma = []
            · rw [if_pos hg]
              exact heps
            · rw [if_neg hg]
              exact runOK_append O nts Ai Aj delta gamma hnew hlt hdrun
                (by rw [← eg]; exact hrun)
      · intro s hs
        rw [er] at hs
        rcases mem_expandAlt gamma delta s hs with h | h | h
        · rw [h]
          exact unmade_eps O _
        · exact hinv.fresh Aj hAjn delta hd s h
        · exact hsym s (by rw [eg]; exact List.mem_cons_of_mem _ h)

/-! ## One iteration keeps the invariant -/

theorem unmade_fresh (O T : List String) (Ai : String) : Unmade O (T ++ [Ai]) (Ai ++ "'") := by
  intro A _ hn e
  apply hn
  rw [append_quote_inj Ai A e]
  exact List.mem_append_right _ (List.mem_singleton.mpr rfl)

theorem mem_alphaTail (rhs : List String) (s : String) (h : s ∈ alphaTail rhs) :
    s = EPS ∨ s ∈ rhs := by
  unfold alphaTail at h
  by_cases ht : rhs.tail = []
  · rw [if_pos ht] at h
    exact Or.inl (List.mem_singleton.mp h)
  · rw [if_neg ht] at h
    exact Or.inr (List.mem_of_mem_tail h)

/-- An iteration of the loop from a state with the invariant leads to a state with the
invariant, unless the nonterminal of the position has, after the substitutions, the
alternative of itself alone. -/
theorem inv_step (O : List String) (g : Grammar) (nts : List String) (i : Nat) (Ai : String)
    (hinv : ElrInv O g nts i) (hget : nts.get? i = some Ai) (g1 g2 : Grammar)
    (hg1 : g1 = (nts.take i).foldl (fun acc Aj => substituteAjIntoAi acc Ai Aj) g)
    (hg2 : g2 = eliminateImmediateLeftRecursion g1 Ai) :
    ElrInv O g2 g2.nonterminals (i + 1) ∨ [Ai] ∈ mapGetD Ai g1.prod [] := by
  have hQ := inv_freshAt O g nts i hinv
  obtain ⟨-, hnt1, hu, hfresh, -, hok2, htake, -⟩ :=
    elr_step 0 g nts i Ai hinv.hn hinv.ok hQ hget g1 g2 hg1 hg2
  have hnot : Ai ∉ nts.take i := not_mem_take nts hinv.ok i Ai hget
  have hAin : Ai ∈ nts := List.get?_mem hget
  have hg1other : ∀ B, B ≠ Ai → mapGetD B g1.prod [] = mapGetD B g.prod [] := by
    intro B hB
    rw [hg1, substitute_fold_other g Ai _ B hB]
  have hmono : ∀ s, Unmade O (nts.take i) s → Unmade O (nts.take i ++ [Ai]) s :=
    fun s => unmade_mono O _ _ (fun A hA => List.mem_append_left _ hA) s
  by_cases hb : ∀ rhs ∈ mapGetD Ai g1.prod [], beginsWith Ai rhs = false
  · -- nothing is rewritten
    obtain ⟨e1, e2⟩ := elim_keep g1 Ai hb
    rw [← hg2] at e1 e2
    rw [hnt1] at e1
    left
    by_cases hAiO : Ai ∈ O
    · have hf := fold_orig O g nts i Ai hinv hget hAiO
      rw [← hg1] at hf
      apply inv_next O g nts i Ai g2 g2.nonterminals hinv rfl hok2 htake
        (fun B hB => by rw [e1]; exact hB) (fun B hB => Or.inl (by rw [← e1]; exact hB)) hnot
        (fun B _ hBA => by rw [e2, hg1other B hBA])
      · intro B hB hc rhs hrhs s hs
        rcases hc with hc | hc
        · rw [hc, e2] at hrhs
          obtain ⟨_, _, _, _, _, _, h3⟩ := hf rhs hrhs
          exact hmono s (h3 s hs)
        · rw [e1] at hB
          exact absurd hB hc
      · intro _ rhs hrhs
        rw [e2] at hrhs
        obtain ⟨h, t, e, hne, h1, h2, _⟩ := hf rhs hrhs
        rw [e1]
        refine ⟨h, t, e, hne, h1, fun hm => ?_⟩
        apply lt_of_not_take nts hinv.ok i Ai hget h hm h2
        intro ehA
        have := hb rhs hrhs
        rw [e, ehA] at this
        simp [beginsWith] at this
      · intro B hB hBO hc
        rcases hc with hc | hc
        · rw [hc] at hBO
          exact absurd hAiO hBO
        · rw [e1] at hB
          exact absurd hB hc
    · have hf := fold_added O g nts i Ai hinv hget hAiO
      rw [← hg1] at hf
      apply inv_next O g nts i Ai g2 g2.nonterminals hinv rfl hok2 htake
        (fun B hB => by rw [e1]; exact hB) (fun B hB => Or.inl (by rw [← e1]; exact hB)) hnot
        (fun B _ hBA => by rw [e2, hg1other B hBA])
      · intro B hB hc rhs hrhs s hs
        rcases hc with hc | hc
        · rw [hc, e2] at hrhs
          exact hmono s ((hf rhs hrhs).2 s hs)
        · rw [e1] at hB
          exact absurd hB hc
      · intro h
        exact absurd h hAiO
      · intro B hB _ hc rhs hrhs
        rcases hc with hc | hc
        · rw [hc, e2] at hrhs
          rw [hc, e1]
          exact (hf rhs hrhs).1
        · rw [e1] at hB
          exact absurd hB hc
  · -- some alternative begins with `Ai`
    have hb' : ∃ rhs0 ∈ mapGetD Ai g1.prod [], beginsWith Ai rhs0 = true := by
      by_contra hc
      apply hb
      intro rhs hrhs
      by_contra hc2
      exact hc ⟨rhs, hrhs, by simpa using hc2⟩
    obtain ⟨rhs0, h0, hb0⟩ := hb'
    by_cases hAiO : Ai ∈ O
    · left
      have hf := fold_orig O g nts i Ai hinv hget hAiO
      rw [← hg1] at hf
      have hX : makeUniqueNonTerminal g1 Ai ≠ Ai := by
        rw [hu]
        exact string_append_ne_self Ai "'" (by decide)
      obtain ⟨e1, e2, e3⟩ := elim_rewrite g1 Ai rhs0 h0 hb0 hX
      rw [← hg2, hu] at e1 e2 e3
      rw [hnt1] at e1
      have hnew : ∀ B ∈ g2.nonterminals, B ∈ nts ∨ (B = Ai ++ "'" ∧ Ai ∈ O) := by
        intro B hB
        rw [e1] at hB
        rcases (mem_setInsert _ _ _).1 hB with h | h
        · exact Or.inr ⟨h, hAiO⟩
        · exact Or.inl h
      have hsymAi : ∀ rhs ∈ mapGetD Ai g1.prod [], ∀ s ∈ rhs,
          Unmade O (nts.take i ++ [Ai]) s ∧ s ≠ Ai ++ "'" := by
        intro rhs hrhs s hs
        obtain ⟨_, _, _, _, _, _, h3⟩ := hf rhs hrhs
        exact ⟨hmono s (h3 s hs), h3 s hs Ai hAiO hnot⟩
      apply inv_next O g nts i Ai g2 g2.nonterminals hinv rfl hok2 htake
        (fun B hB => by rw [e1]; exact mem_setInsert_of_mem hB) hnew hnot
      · intro B hB hBA
        have hBX : B ≠ makeUniqueNonTerminal g1 Ai := by
          rw [hu]
          intro e
          exact hfresh (by rw [← e]; exact hB)
        rw [hg2, elim_other g1 Ai B hBA hBX, hg1other B hBA]
      · intro B hB hc rhs hrhs s hs
        have hBcase : B = Ai ∨ B = Ai ++ "'" := by
          rcases hc with hc | hc
          · exact Or.inl hc
          · rcases hnew B hB with h | h
            · exact absurd h hc
            · exact Or.inr h.1
        rcases hBcase with hB1 | hB1
        · rw [hB1, e2] at hrhs
          obtain ⟨b, hbm, eb⟩ := List.mem_map.mp hrhs
          have hbm' := (List.mem_filter.mp hbm).1
          rw [← eb] at hs
          by_cases hbe : b = [EPS]
          · rw [if_pos hbe] at hs
            rw [List.mem_singleton.mp hs]
            exact unmade_fresh O _ Ai
          · rw [if_neg hbe] at hs
            rcases List.mem_append.mp hs with hs | hs
            · exact (hsymAi b hbm' s hs).1
            · rw [List.mem_singleton.mp hs]
              exact unmade_fresh O _ Ai
        · rw [hB1, e3] at hrhs
          rcases List.mem_append.mp hrhs with hrhs | hrhs
          · obtain ⟨a, ham, ea⟩ := List.mem_map.mp hrhs
            obtain ⟨r0, hr0, er0⟩ := List.mem_map.mp ham
            have hr0' := (List.mem_filter.mp hr0).1
            rw [← ea] at hs
            have hsa : ∀ s ∈ a, Unmade O (nts.take i ++ [Ai]) s := by
              intro s hs
              rw [← er0] at hs
              rcases mem_alphaTail r0 s hs with h | h
              · rw [h]
                exact unmade_eps O _
              · exact (hsymAi r0 hr0' s h).1
            by_cases hae : a = [EPS]
            · rw [if_pos hae] at hs
              rw [List.mem_singleton.mp hs]
              exact unmade_fresh O _ Ai
            · rw [if_neg hae] at hs
              rcases List.mem_append.mp hs with hs | hs
              · exact hsa s hs
              · rw [List.mem_singleton.mp hs]
                exact unmade_fresh O _ Ai
          · rw [List.mem_singleton.mp hrhs] at hs
            rw [List.mem_singleton.mp hs]
            exact unmade_eps O _
      · intro _ rhs hrhs
        rw [e2] at hrhs
        obtain ⟨b, hbm, eb⟩ := List.mem_map.mp hrhs
        obtain ⟨hbm', hbb⟩ := List.mem_filter.mp hbm
        obtain ⟨h, t, e, hne, h1, h2, _⟩ := hf b hbm'
        rw [if_neg hne] at eb
        have hhX : h ≠ Ai ++ "'" := (hsymAi b hbm' h (by rw [e]; exact List.mem_cons_self _ _)).2
        have hhn : h ∈ g2.nonterminals → h ∈ nts := by
          intro hm
          rw [e1] at hm
          rcases (mem_setInsert _ _ _).1 hm with hm | hm
          · exact absurd hm hhX
          · exact hm
        refine ⟨h, t ++ [Ai ++ "'"], by rw [← eb, e]; rfl, ?_, fun hm => h1 (hhn hm),
          fun hm => ?_⟩
        · rw [← eb, e]
          intro ec
          simp at ec
        · apply lt_of_not_take nts hinv.ok i Ai hget h (hhn hm) h2
          intro ehA
          rw [e, ehA] at hbb
          simp [beginsWith] at hbb
      · intro B hB hBO hc rhs hrhs
        have hB1 : B = Ai ++ "'" := by
          rcases hc with hc | hc
          · rw [hc] at hBO
            exact absurd hAiO hBO
          · rcases hnew B hB with h | h
            · exact absurd h hc
            · exact h.1
        have hepsNew : ¬ IsNew O g2.nonterminals EPS := by
          rintro ⟨hm, hmO⟩
          rcases hnew EPS hm with h | h
          · exact not_isNew_eps O g nts i hinv ⟨h, hmO⟩
          · exact eps_ne_quote Ai h.1.symm
        rw [hB1, e3] at hrhs
        rw [hB1]
        rcases List.mem_append.mp hrhs with hrhs | hrhs
        · obtain ⟨a, ham, ea⟩ := List.mem_map.mp hrhs
          obtain ⟨r0, hr0, er0⟩ := List.mem_map.mp ham
          have hr0' := (List.mem_filter.mp hr0).1
          rw [← ea]
          by_cases hae : a = [EPS]
          · rw [if_pos hae]
            exact runOK_single O _ _ _ (Or.inr rfl)
          · rw [if_neg hae]
            intro pre s post e hpre hs
            rcases split_concat pre post a s (Ai ++ "'") e with hsa | hr
            · left
              have hsr : s ∈ r0 := by
                rw [← er0] at hsa
                rcases mem_alphaTail r0 s hsa with h | h
                · rw [h] at hs
                  exact absurd hs hepsNew
                · exact h
              have hsX : s ≠ Ai ++ "'" := (hsymAi r0 hr0' s hsr).2
              have hsn : s ∈ nts := by
                rcases hnew s hs.1 with h | h
                · exact h
                · exact absurd h.1 hsX
              obtain ⟨P, _, hPT, eP⟩ := hinv.child s hsn hs.2
              rw [eP, parentOf_quote, parentOf_quote]
              exact take_lt nts hinv.ok i Ai hget P hPT
            · exact Or.inr hr
        · rw [List.mem_singleton.mp hrhs]
          exact runOK_single O _ _ _ (Or.inl hepsNew)
    · right
      have hf := fold_added O g nts i Ai hinv hget hAiO
      rw [← hg1] at hf
      obtain ⟨t, et⟩ := (beginsWith_iff Ai rhs0).1 hb0
      rcases (hf rhs0 h0).1 [] Ai t et (fun _ hy => absurd hy (List.not_mem_nil _))
        ⟨hAin, hAiO⟩ with h | ⟨_, h⟩
      · rw [strLt_irrefl] at h
        simp at h
      · rw [et, h] at h0
        exact h0

/-- The loop of `eliminateLeftRecursion`, from a state with the invariant, returns only
a grammar with the invariant at the end of its nonterminals. -/
theorem elrLoop_inv (O : List String) (fuel : Nat) (g : Grammar) (nts : List String) (i : Nat)
    (g' : Grammar) (hinv : ElrInv O g nts i) (h : elrLoop fuel g nts i = some g') :
    ∃ gF, g' = gF.recomputeSymbols ∧ ElrInv O gF gF.nonterminals gF.nonterminals.length := by
  induction fuel generalizing g nts i with
  | zero => simp [elrLoop] at h
  | succ n ih =>
    cases hget : nts.get? i with
    | none =>
      unfold elrLoop at h
      rw [hget] at h
      simp only [Option.some.injEq] at h
      refine ⟨g, h.symm, ?_⟩
      have e := hinv.hn
      rw [← e]
      apply inv_take_congr O g nts i nts.length _ hinv
      rw [take_all nts i hget, List.take_length]
    | some Ai =>
      obtain ⟨g1, hg1⟩ : ∃ g1, g1 = (nts.take i).foldl
          (fun acc Aj => substituteAjIntoAi acc Ai Aj) g := ⟨_, rfl⟩
      obtain ⟨g2, hg2⟩ : ∃ g2, g2 = eliminateImmediateLeftRecursion g1 Ai := ⟨_, rfl⟩
      have hQ := inv_freshAt O g nts i hinv
      rcases inv_step O g nts i Ai hinv hget g1 g2 hg1 hg2 with h2 | h2
      · obtain ⟨hloop, -⟩ := elr_step n g nts i Ai hinv.hn hinv.ok hQ hget g1 g2 hg1 hg2
        rw [hloop] at h
        exact ih g2 g2.nonterminals (i + 1) h2 h
      · rw [hg1] at h2
        obtain ⟨g3, nts3, e, hs⟩ := stuck_of_unit n g nts i Ai hinv.hn hinv.ok hQ hget h2
        rw [e, stuck_none n g3 nts3 (i + 1) hs] at h
        simp at h

/-! ## No cycle of first symbols at the end of the loop -/

theorem leftRecursive_congr (g g' : Grammar) (h1 : g'.nonterminals = g.nonterminals)
    (h2 : g'.prod = g.prod) (h : LeftRecursive g') : LeftRecursive g := by
  have hfs : firstStep g' = firstStep g := by
    funext Y Z
    unfold firstStep
    rw [h1, h2]
  unfold LeftRecursive at h ⊢
  rw [h1, h2, hfs] at h
  exact h

theorem source_mem (g : Grammar) (X A : String)
    (h : Relation.ReflTransGen (firstStep g) X A) (hA : A ∈ g.nonterminals) :
    X ∈ g.nonterminals := by
  rcases Relation.ReflTransGen.cases_head h with e | ⟨c, hc, _⟩
  · rw [e]
    exact hA
  · exact hc.1

/-- In a grammar with the invariant at the end of its nonterminals and without an
alternative that begins with its own nonterminal, no nonterminal is reached again from
the first symbol of one of its alternatives. -/
theorem inv_acyclic (O : List String) (g : Grammar)
    (hinv : ElrInv O g g.nonterminals g.nonterminals.length)
    (hnd : ∀ A ∈ g.nonterminals, NoDirectLR g A) : ¬ LeftRecursive g := by
  -- the first symbols of a nonterminal of the input
  have F1 : ∀ A ∈ O, ∀ Z, firstStep g A Z → Z ∈ g.nonterminals → Z ∈ O ∧ strLt A Z = true := by
    rintro A hA Z ⟨hAn, rhs, hrhs, hh⟩ hZ
    obtain ⟨h, t, e, _, h1, h2⟩ := hinv.orig A hA rhs hrhs
    rw [e] at hh
    simp only [List.head?_cons, Option.some.injEq] at hh
    rw [← hh]
    rw [← hh] at hZ
    exact ⟨h1 hZ, h2 (by rw [List.take_length]; exact hAn) hZ⟩
  -- the first symbols of an added nonterminal
  have F2 : ∀ X, X ∉ O → ∀ Z, firstStep g X Z → Z ∈ g.nonterminals → Z ∉ O →
      strLt (parentOf Z) (parentOf X) = true := by
    rintro X hXO Z ⟨hXn, rhs, hrhs, hh⟩ hZ hZO
    cases rhs with
    | nil => simp at hh
    | cons s t =>
      simp only [List.head?_cons, Option.some.injEq] at hh
      rw [hh] at hrhs
      rcases hinv.added X hXn hXO (Z :: t) hrhs [] Z t rfl
        (fun _ hy => absurd hy (List.not_mem_nil _)) ⟨hZ, hZO⟩ with h | ⟨h, _⟩
      · exact h
      · have := hnd X hXn (Z :: t) hrhs
        rw [h] at this
        simp [beginsWith] at this
  have L1 : ∀ Y Z, Relation.ReflTransGen (firstStep g) Y Z → Y ∈ O → Z ∈ g.nonterminals →
      Z ∈ O ∧ (Y = Z ∨ strLt Y Z = true) := by
    intro Y Z h
    induction h with
    | refl => exact fun hY _ => ⟨hY, Or.inl rfl⟩
    | tail _ hbc ih =>
      intro hY hc
      obtain ⟨hb, hYb⟩ := ih hY hbc.1
      obtain ⟨hcO, hlt⟩ := F1 _ hb _ hbc hc
      refine ⟨hcO, Or.inr ?_⟩
      rcases hYb with e | h
      · rw [e]
        exact hlt
      · exact strLt_trans h hlt
  have L3 : ∀ Y Z, Relation.ReflTransGen (firstStep g) Y Z → Z ∈ g.nonterminals → Z ∉ O →
      Y ∉ O ∧ (Y = Z ∨ strLt (parentOf Z) (parentOf Y) = true) := by
    intro Y Z h
    induction h with
    | refl => exact fun _ hZO => ⟨hZO, Or.inl rfl⟩
    | tail _ hbc ih =>
      intro hc hcO
      have hbO : _ ∉ O := fun hb => hcO (F1 _ hb _ hbc hc).1
      obtain ⟨hYO, hYb⟩ := ih hbc.1 hbO
      have hlt := F2 _ hbO _ hbc hc hcO
      refine ⟨hYO, Or.inr ?_⟩
      rcases hYb with e | h
      · rw [e]
        exact hlt
      · exact strLt_trans hlt h
  rintro ⟨A, hA, rhs, hrhs, X, hh, hreach⟩
  have hX : X ∈ g.nonterminals := source_mem g X A hreach hA
  have hstep : firstStep g A X := ⟨hA, rhs, hrhs, hh⟩
  by_cases hAO : A ∈ O
  · obtain ⟨hXO, hlt⟩ := F1 A hAO X hstep hX
    rcases (L1 X A hreach hXO hA).2 with e | h
    · rw [e, strLt_irrefl] at hlt
      simp at hlt
    · rw [strLt_asymm h] at hlt
      simp at hlt
  · have hXO : X ∉ O := fun hXO => hAO (L1 X A hreach hXO hA).1
    have hlt := F2 A hAO X hstep hX hXO
    rcases (L3 X A hreach hA hAO).2 with e | h
    · rw [e, strLt_irrefl] at hlt
      simp at hlt
    · rw [strLt_asymm h] at hlt
      simp at hlt

/-- The invariant holds before the first iteration. -/
theorem inv_init (g : Grammar) (hok : SetOK g.nonterminals)
    (hne : ∀ A ∈ g.nonterminals, ∀ rhs ∈ mapGetD A g.prod [], rhs ≠ [] ∧ rhs ≠ [EPS])
    (hq : ∀ A ∈ g.nonterminals, endsWithQuote A = false)
    (hfresh : ∀ A ∈ g.nonterminals, ∀ B ∈ g.nonterminals, ∀ rhs ∈ mapGetD B g.prod [],
      A ++ "'" ∉ rhs) :
    ElrInv g.nonterminals g g.nonterminals 0 where
  hn := rfl
  ok := hok
  sub := fun _ h => h
  oq := hq
  child := fun X hX hXO => absurd hX hXO
  fresh := fun B hB rhs hrhs s hs A hA _ e => hfresh A hA B hB rhs hrhs (by rw [← e]; exact hs)
  orig := by
    intro A hA rhs hrhs
    obtain ⟨h1, h2⟩ := hne A hA rhs hrhs
    cases rhs with
    | nil => exact absurd rfl h1
    | cons h t =>
      refine ⟨h, t, rfl, h2, fun hm => hm, fun hm => ?_⟩
      simp at hm
  added := fun X hX hXO => absurd hX hXO

/-- C2 (amended): after `eliminateLeftRecursion` returns, for a grammar whose nonterminals
are held as a set, no nonterminal has an alternative that begins with that nonterminal
itself; and when, in the grammar given, no alternative of a nonterminal is empty or is
`[EPS]`, no nonterminal name ends with an apostrophe and no name `A'` of a nonterminal `A`
occurs in an alternative of a nonterminal, there is no residual left recursion at all: no
alternative of a nonterminal `A` begins with a symbol `X` from which `A` is reached by
following, zero or more times, the relation "`Y` has an alternative whose first symbol is
`Z`". -/
theorem eliminateLeftRecursion_no_left_recursion (fuel : Nat) (g g' : Grammar)
    (hok : SetOK g.nonterminals) (h : eliminateLeftRecursion fuel g = some g') :
    (∀ A ∈ g'.nonterminals, ∀ rhs ∈ mapGetD A g'.prod [], beginsWith A rhs = false) ∧
    ((∀ A ∈ g.nonterminals, ∀ rhs ∈ mapGetD A g.prod [], rhs ≠ [] ∧ rhs ≠ [EPS]) →
      (∀ A ∈ g.nonterminals, endsWithQuote A = false) →
      (∀ A ∈ g.nonterminals, ∀ B ∈ g.nonterminals, ∀ rhs ∈ mapGetD B g.prod [],
        A ++ "'" ∉ rhs) →
      ¬ LeftRecursive g') := by
  have hnd := elrLoop_noDirect fuel g g.nonterminals 0 g' rfl hok (fun _ _ hk => by omega) h
  refine ⟨hnd, fun hne hq hfresh hlr => ?_⟩
  obtain ⟨gF, e, hinv⟩ := elrLoop_inv g.nonterminals fuel g g.nonterminals 0 g'
    (inv_init g hok hne hq hfresh) h
  have hnd' : ∀ A ∈ gF.nonterminals, NoDirectLR gF A := by
    intro A hA
    have := hnd A (by rw [e]; exact hA)
    rw [e] at this
    exact this
  exact inv_acyclic g.nonterminals gF hinv hnd'
    (leftRecursive_congr gF g' (by rw [e]; rfl) (by rw [e]; rfl) hlr)

/-- Witness for C2 (amended): the rule lines `A -> B a | c`, `B -> A b | d`, in which `A`
is reached again from the first symbol `B` of `B a`. The function returns
`A -> B a | c`, `B -> c b B' | d B'`, `B' -> a b B' | eps`, where no left recursion is
left. -/
theorem eliminateLeftRecursion_no_left_recursion_witness :
    SetOK indirectGrammar.nonterminals ∧ LeftRecursive indirectGrammar ∧
    eliminateLeftRecursion 4 indirectGrammar = some indirectResult ∧
    beginsWith "B" ["c", "b", "B'"] = false ∧
    ¬ LeftRecursive indirectResult :=
  ⟨by decide!,
    ⟨"A", by decide!, ["B", "a"], by decide!, "B", rfl,
      Relation.ReflTransGen.single ⟨by decide!, ["A", "b"], by decide!, rfl⟩⟩,
    by decide!,
    (eliminateLeftRecursion_no_left_recursion 4 indirectGrammar indirectResult
      (by decide!) (by decide!)).1 "B" (by decide!) ["c", "b", "B'"] (by decide!),
    (eliminateLeftRecursion_no_left_recursion 4 indirectGrammar indirectResult
      (by decide!) (by decide!)).2 (by decide!) (by decide!) (by decide!)⟩

/-- C2 as stated fails: for the rule lines `A -> C x | a`, `B -> eps`, `C -> B A y` the
function `eliminateLeftRecursion` returns a grammar in which `A` has the alternative `C x`
and `C` has the alternative `A y`: `A` is reached again from the first symbol `C`. The
same happens when the alternative of `B` is the empty list. For the rule lines
`A -> A y | B x`, `B -> A' A`, without any `eps`, the name `A'` made for `A` is the symbol
`A'` of the input, and the function returns a grammar in which `A` has the alternative
`B x A'` and `B` has the alternative `A`. For the rule lines `A -> A y | B x`, `A' -> z`,
`B -> A1 A`, in which no name `X'` of a nonterminal `X` is a symbol but the nonterminal
`A'` ends with an apostrophe, the name made for `A` is the symbol `A1`, with the same
outcome. -/
theorem eliminateLeftRecursion_residual_counterexample :
    eliminateLeftRecursion 4 cycleGrammar
        = some ⟨"A", ["A", "B", "C"], ["a", "x", "y"],
            [("A", [["C", "x"], ["a"]]), ("B", [["eps"]]), ("C", [["A", "y"]])]⟩ ∧
      LeftRecursive ⟨"A", ["A", "B", "C"], ["a", "x", "y"],
            [("A", [["C", "x"], ["a"]]), ("B", [["eps"]]), ("C", [["A", "y"]])]⟩ ∧
      eliminateLeftRecursion 4 emptyAltGrammar
        = some ⟨"A", ["A", "B", "C"], ["a", "x", "y"],
            [("A", [["C", "x"], ["a"]]), ("B", [[]]), ("C", [["A", "y"]])]⟩ ∧
      LeftRecursive ⟨"A", ["A", "B", "C"], ["a", "x", "y"],
            [("A", [["C", "x"], ["a"]]), ("B", [[]]), ("C", [["A", "y"]])]⟩ ∧
      (∀ A ∈ takenNameGrammar.nonterminals, ∀ rhs ∈ mapGetD A takenNameGrammar.prod [],
        rhs ≠ [] ∧ rhs ≠ [EPS]) ∧
      (∀ A ∈ takenNameGrammar.nonterminals, endsWithQuote A = false) ∧
      eliminateLeftRecursion 4 takenNameGrammar
        = some ⟨"A", ["A", "A'", "B"], ["x", "y"],
            [("A", [["B", "x", "A'"]]), ("A'", [["y", "A'"], ["eps"]]),
              ("B", [["y", "A'", "A"], ["A"]])]⟩ ∧
      LeftRecursive ⟨"A", ["A", "A'", "B"], ["x", "y"],
            [("A", [["B", "x", "A'"]]), ("A'", [["y", "A'"], ["eps"]]),
              ("B", [["y", "A'", "A"], ["A"]])]⟩ ∧
      (∀ A ∈ quotedNameGrammar.nonterminals, ∀ rhs ∈ mapGetD A quotedNameGrammar.prod [],
        rhs ≠ [] ∧ rhs ≠ [EPS]) ∧
      (∀ A ∈ quotedNameGrammar.nonterminals, ∀ B ∈ quotedNameGrammar.nonterminals,
        ∀ rhs ∈ mapGetD B quotedNameGrammar.prod [], A ++ "'" ∉ rhs) ∧
      eliminateLeftRecursion 5 quotedNameGrammar
        = some ⟨"A", ["A", "A'", "A1", "B"], ["x", "y", "z"],
            [("A", [["B", "x", "A1"]]), ("A'", [["z"]]), ("A1", [["y", "A1"], ["eps"]]),
              ("B", [["y", "A1", "A"], ["A"]])]⟩ ∧
      LeftRecursive ⟨"A", ["A", "A'", "A1", "B"], ["x", "y", "z"],
            [("A", [["B", "x", "A1"]]), ("A'", [["z"]]), ("A1", [["y", "A1"], ["eps"]]),
              ("B", [["y", "A1", "A"], ["A"]])]⟩ := by
  refine ⟨by decide!, ?_, by decide!, ?_, by decide!, by decide!, by decide!, ?_,
    by decide!, by decide!, by decide!, ?_⟩
  · refine ⟨"A", by decide, ["C", "x"], by decide, "C", rfl, ?_⟩
    apply Relation.ReflTransGen.single
    exact ⟨by decide, ["A", "y"], by decide, rfl⟩
  · refine ⟨"A", by decide, ["C", "x"], by decide, "C", rfl, ?_⟩
    apply Relation.ReflTransGen.single
    exact ⟨by decide, ["A", "y"], by decide, rfl⟩
  · refine ⟨"A", by decide, ["B", "x", "A'"], by decide, "B", rfl, ?_⟩
    apply Relation.ReflTransGen.single
    exact ⟨by decide, ["A"], by decide, rfl⟩
  · refine ⟨"A", by decide, ["B", "x", "A1"], by decide, "B", rfl, ?_⟩
    apply Relation.ReflTransGen.single
    exact ⟨by decide, ["A"], by decide, rfl⟩

end MiniCompiler
